import Mathlib

/-!
# kirby_hashmap: a shallow embedding of `hashmap.h`

The four open-addressing maps of `hashmap.h` (`lin_hashmap`, `quad_hashmap`,
`rh_hashmap`, `cc_hashmap`) share `base_hashmap`.  The embedding follows the
source function by function:

* `size_type` is `uint32_t`: a `Nat` reduced with `u32` wherever the source
  does arithmetic on it;
* a `bucket*` is the index of the bucket in `_table` (`_start` is index 0);
  reading or writing outside the vector is undefined behaviour and makes the
  embedded function return `none`;
* `Key = int32_t` and `T = int` (as in `hashmap.cpp`), so `std::move` of a
  bucket copies it;
* loops carry a fuel argument; `none` also stands for a loop that does not
  return;
* the CRTP dispatch (`Derived`) is a `Policy` argument, the hash functors are a
  `Hashers` argument.
-/

namespace kirby

/-! ## Scalars -/

/-- Keys of the maps instantiated in `hashmap.cpp` (`int32_t`). -/
abbrev Key := Int

/-- Mapped values of the maps instantiated in `hashmap.cpp` (`int`). -/
abbrev T := Int

/-- Reduction of a natural number to `size_type` (`uint32_t`). -/
def u32 (x : Nat) : Nat := x % 4294967296

/-- Subtraction of `size_type` values, wrapping as `uint32_t` does. -/
def usub (a b : Nat) : Nat := (a + 4294967296 - b % 4294967296) % 4294967296

/-- Bitwise complement of a `size_type` value. -/
def unot (a : Nat) : Nat := 4294967295 - a % 4294967296

/-- Conversion `uint32_t h = k` of an `int32_t`. -/
def to_u32 (k : Key) : Nat := (k % 4294967296).toNat

/-- The functor `hash_function<int32_t>` (MurmurHash3 finaliser). -/
def hash_function (k : Key) : Nat :=
  let h1 := to_u32 k
  let h1 := h1 ^^^ (h1 >>> 16)
  let h1 := u32 (h1 * 0x85ebca6b)
  let h1 := h1 ^^^ (h1 >>> 13)
  let h1 := u32 (h1 * 0xc2b2ae35)
  let h1 := h1 ^^^ (h1 >>> 16)
  h1

/-- The functor `alt_hash_function<int32_t>` (Thomas Wang). -/
def alt_hash_function (k : Key) : Nat :=
  let h2 := to_u32 k
  let h2 := u32 (h2 + unot (h2 <<< 15))
  let h2 := h2 ^^^ (h2 >>> 10)
  let h2 := u32 (h2 + u32 (h2 <<< 3))
  let h2 := h2 ^^^ (h2 >>> 6)
  let h2 := u32 (h2 + unot (h2 <<< 11))
  let h2 := h2 ^^^ (h2 >>> 16)
  h2

/-- The template arguments `Hash` and `AltHash`: the primary functor `_m_hash`
and the alternate functor `m_alt_hash` (both return `std::size_t`). -/
structure Hashers where
  hash : Key → Nat
  alt : Key → Nat

/-- The default template arguments. -/
def default_hashers : Hashers := ⟨hash_function, alt_hash_function⟩

/-! ## Constants of `base_hashmap` -/

def _initial_default_size : Nat := 8
def _slow_growth_at : Nat := 256 * 1024
def _slow_growth_factor : Nat := 1
def _fast_growth_factor : Nat := 3
def _size_type_max : Nat := 4294967295
def _bit_shift : Nat := 31
def _empty : Nat := _size_type_max
def _tombstone : Nat := _size_type_max - 1
def _last : Nat := _size_type_max - 2
def _code : Nat := _size_type_max - 3
def _absolute_max_capacity : Nat := u32 (1 <<< _bit_shift)
def _max_hash : Nat := _absolute_max_capacity - 1

/-- The constant `rh_hashmap::overflow_area_size`. -/
def rh_overflow_area_size : Nat := 128

/-- The constant `cc_hashmap::max_search`. -/
def max_search : Nat := 128

/-! ## Buckets and the map state -/

/-- The struct `bucket`: tag `h` and the pair `kv`. -/
structure bucket where
  h : Nat
  kv : Key × T
deriving DecidableEq, Repr

/-- The value `{ _empty, internal_type() }`. -/
def empty_bucket : bucket := ⟨_empty, (0, 0)⟩

/-- The data members of `base_hashmap`.  `_start` is index 0 of `_table`;
`_end` and `_half_start` are indices; `_end_it` is `iterator(_end)`. -/
structure base_hashmap where
  _table : List bucket
  _end : Nat
  _half_start : Nat
  _mask : Nat
  _half_mask : Nat
  _size : Nat
  _true_size : Nat
  _max_size : Nat
  _max_true_size : Nat
  _overflow_area_size : Nat
  _neighborhood : Nat
deriving DecidableEq, Repr

/-- The four derived classes. -/
inductive Policy where
  | lin
  | quad
  | rh
  | cc
deriving DecidableEq, Repr

/-- Assignment through a `bucket*`: undefined outside the vector. -/
def write (t : List bucket) (ptr : Nat) (b : bucket) : Option (List bucket) :=
  if ptr < t.length then some (t.set ptr b) else none

/-! ## Load factor: `size_type(float(_max_size) * _max_load_factor)` -/

/-- Number of significant bits of a numerator below `2^64`. -/
def bit_length : Nat → Nat → Nat
  | 0, _ => 0
  | fuel + 1, a => if a = 0 then 0 else bit_length fuel (a / 2) + 1

/-- Rounding of an integer numerator to 24 significant bits, ties to even (the
precision of `float`). -/
def round24 (a : Nat) : Nat :=
  let b := bit_length 64 a
  if b ≤ 24 then a
  else
    let s := b - 24
    let q := a >>> s
    let r := a % 2 ^ s
    let half := 2 ^ (s - 1)
    let q := if half < r ∨ (r = half ∧ q % 2 = 1) then q + 1 else q
    q <<< s

/-- The numerator of `0.51f`: the `float` nearest to 0.51 is `8556380 / 2^24`. -/
def _max_load_factor_num : Nat := 8556380

/-- The expression `size_type(float(n) * _max_load_factor)`: `n` is rounded to
`float`, the product is rounded to `float`, and the conversion truncates. -/
def load_limit (n : Nat) : Nat :=
  u32 (round24 (round24 n * _max_load_factor_num) / 16777216)

/-! ## Growth law -/

/-- The loop `while (ans < n) ans <<= growth_factor` of `_next_size_up`. -/
def _next_size_up_loop (growth_factor n : Nat) : Nat → Nat → Option Nat
  | 0, _ => none
  | fuel + 1, ans =>
    if ans < n then _next_size_up_loop growth_factor n fuel (u32 (ans <<< growth_factor))
    else some ans

/-- The function `_next_size_up`. -/
def _next_size_up (n : Nat) : Option Nat :=
  let ans := _absolute_max_capacity
  let growth_factor := if n ≥ _slow_growth_at then _slow_growth_factor else _fast_growth_factor
  if n ≤ u32 (1 <<< _bit_shift) then
    _next_size_up_loop growth_factor n 64 _initial_default_size
  else some ans

/-! ## Initialisation -/

/-- The function `_init`. -/
def _init (m : base_hashmap) : Option base_hashmap :=
  let is_not_overloaded := decide (m._true_size < m._max_true_size)
  let max_size := u32 (m._table.length + 4294967296 * 4294967296
    - m._overflow_area_size - 1)
  match m._table[u32 (max_size + m._overflow_area_size)]? with
  | none => none
  | some b =>
    let t := m._table.set (u32 (max_size + m._overflow_area_size)) { b with h := _last }
    let mask := usub max_size 1
    let half_mask := (mask >>> 1) &&& unot (usub (u32 (1 <<< m._neighborhood)) 1)
    let new_max_true_size := load_limit max_size
    some { m with
      _table := t
      _size := 0
      _true_size := 0
      _max_size := max_size
      _end := max_size + m._overflow_area_size
      _mask := mask
      _half_mask := half_mask
      _half_start := max_size >>> 1
      _max_true_size :=
        if is_not_overloaded ∨ new_max_true_size > m._max_true_size then new_max_true_size
        else u32 (m._max_true_size + u32 ((usub max_size m._max_true_size >>> 4) <<< 3)) }

/-- The function `_resize_and_init`. -/
def _resize_and_init (m : base_hashmap) (n : Nat) : Option base_hashmap :=
  _init { m with
    _table := List.replicate (u32 (u32 (n + m._overflow_area_size) + 1)) empty_bucket }

/-- The constructor `base_hashmap(n, hf, overflow, neighborhood)`. -/
def base_hashmap.mk_base (n overflow neighborhood : Nat) : Option base_hashmap :=
  match _next_size_up n with
  | none => none
  | some cap =>
    _init {
      _table := List.replicate (u32 (u32 (cap + overflow) + 1)) empty_bucket
      _end := 0, _half_start := 0, _mask := 0, _half_mask := 0
      _size := 0, _true_size := 0, _max_size := 0, _max_true_size := 0
      _overflow_area_size := overflow, _neighborhood := neighborhood }

/-- The constructors of the derived classes with a capacity hint `n`:
`rh_hashmap` passes its overflow area, the others none. -/
def construct (p : Policy) (n : Nat) : Option base_hashmap :=
  match p with
  | .rh => base_hashmap.mk_base n rh_overflow_area_size 0
  | _ => base_hashmap.mk_base n 0 0

/-- The default constructors (`_initial_default_size`). -/
def construct_default (p : Policy) : Option base_hashmap :=
  construct p _initial_default_size

/-- The function `_calc_hash`. -/
def _calc_hash (H : Hashers) (k : Key) : Nat := u32 (H.hash k &&& _max_hash)

/-- The function `cc_hashmap::calc_alt_hash`. -/
def calc_alt_hash (H : Hashers) (k : Key) : Nat := u32 (H.alt k &&& _max_hash)

/-! ## Lookup without insertion -/

/-- The functions `lin_hashmap::probe` and `quad_hashmap::probe`. -/
def probe (p : Policy) (iteration _hash : Nat) : Nat :=
  match p with
  | .quad => iteration
  | _ => 1

/-- The `do … while (ptr->h != empty)` loop of
`probing_hashmap::d_find_without_inserting`. -/
def probing_find_loop (p : Policy) (m : base_hashmap) (k : Key) (h : Nat) :
    Nat → Nat → Nat → Option Nat
  | 0, _, _ => none
  | fuel + 1, iteration, index =>
    let index := index &&& m._mask
    match m._table[index]? with
    | none => none
    | some b =>
      if b.h = h ∧ b.kv.1 = k then some index
      else
        let iteration := u32 (iteration + 1)
        let index := u32 (index + probe p iteration h)
        if b.h ≠ _empty then probing_find_loop p m k h fuel iteration index
        else some m._end

/-- The function `probing_hashmap::d_find_without_inserting`.  The probe
sequence of a table of `2^j` slots visits every slot within `2^j` probes, so
the number of buckets bounds a loop that returns. -/
def probing_find_without_inserting (p : Policy) (H : Hashers) (m : base_hashmap) (k : Key) :
    Option Nat :=
  let h := _calc_hash H k
  probing_find_loop p m k h m._table.length 0 h

/-- The `while (ptr->h < code)` loop of `rh_hashmap::d_find_without_inserting`. -/
def rh_find_loop (m : base_hashmap) (k : Key) (h : Nat) : Nat → Nat → Option Nat
  | 0, _ => none
  | fuel + 1, ptr =>
    match m._table[ptr]? with
    | none => none
    | some b =>
      if b.h < _code then
        if b.h = h ∧ b.kv.1 = k then some ptr
        else rh_find_loop m k h fuel (ptr + 1)
      else some m._end

/-- The function `rh_hashmap::d_find_without_inserting`. -/
def rh_find_without_inserting (H : Hashers) (m : base_hashmap) (k : Key) : Option Nat :=
  let h := _calc_hash H k
  rh_find_loop m k h (m._table.length + 1) (h &&& m._mask)

/-- The function `cc_hashmap::d_find_without_inserting`. -/
def cc_find_without_inserting (H : Hashers) (m : base_hashmap) (k : Key) : Option Nat :=
  let half_mask := m._half_mask
  let h := _calc_hash H k
  let ptr := h &&& half_mask
  match m._table[ptr]? with
  | none => none
  | some b =>
    if b.h = h ∧ b.kv.1 = k then some ptr
    else
      let ah := calc_alt_hash H k
      let aptr := m._half_start + (ah &&& half_mask)
      match m._table[aptr]? with
      | none => none
      | some ab =>
        if ab.h = ah ∧ ab.kv.1 = k then some aptr
        else some m._end

/-- The function `find_without_inserting` (static dispatch on `Derived`). -/
def find_without_inserting (p : Policy) (H : Hashers) (m : base_hashmap) (k : Key) :
    Option Nat :=
  match p with
  | .lin => probing_find_without_inserting .lin H m k
  | .quad => probing_find_without_inserting .quad H m k
  | .rh => rh_find_without_inserting H m k
  | .cc => cc_find_without_inserting H m k

/-! ## Lookup with insertion

`find_while_trying`, `_insert`, `_insert_while_full` and `_rehash` call each
other.  The recursion is tied in `find_while_trying` below; the other functions
take the recursive call as their first argument `fwt`. -/

/-- The result of `find_while_trying`: the map after the call, the returned
`bucket*`, and whether the call assigned `is_not_found = false`. -/
abbrev Located := base_hashmap × Nat × Bool

/-- The loop `for (auto&& old : temp_table)` of `_rehash`. -/
def _rehash_loop (fwt : base_hashmap → Key → Nat → Option Located) :
    List bucket → base_hashmap → Option base_hashmap
  | [], m => some m
  | old :: rest, m =>
    if old.h < _code then
      match fwt m old.kv.1 old.h with
      | none => none
      | some (m, ptr, _) =>
        match m._table[ptr]? with
        | none => none
        | some b =>
          _rehash_loop fwt rest
            { m with _table := m._table.set ptr { b with kv := (b.kv.1, old.kv.2) } }
    else _rehash_loop fwt rest m

/-- The function `_rehash`. -/
def _rehash (fwt : base_hashmap → Key → Nat → Option Located) (m : base_hashmap) :
    Option base_hashmap :=
  match _next_size_up (u32 (m._max_size + 1)) with
  | none => none
  | some cap =>
    let new_total_size := u32 (u32 (cap + m._overflow_area_size) + 1)
    let temp_table := List.replicate new_total_size empty_bucket
    match _init { m with _table := temp_table } with
    | none => none
    | some m1 => _rehash_loop fwt m._table m1

/-- The function `_insert_while_full`.  The flag of the inner
`find_while_trying` is a local variable. -/
def _insert_while_full (fwt : base_hashmap → Key → Nat → Option Located)
    (m : base_hashmap) (ptr : Nat) (k : Key) (h : Nat) : Option Located :=
  match write m._table ptr empty_bucket with
  | none => none
  | some t =>
    match _rehash fwt { m with _table := t } with
    | none => none
    | some m =>
      match fwt m k h with
      | none => none
      | some (m, ptr, _) => some (m, ptr, false)

/-- The function `_insert`. -/
def _insert (fwt : base_hashmap → Key → Nat → Option Located)
    (m : base_hashmap) (ptr : Nat) (k : Key) (h : Nat) : Option Located :=
  let m := { m with _true_size := u32 (m._true_size + 1) }
  if m._true_size ≤ m._max_true_size then
    match m._table[ptr]? with
    | none => none
    | some b =>
      some ({ m with
        _size := u32 (m._size + 1)
        _table := m._table.set ptr { h := h, kv := (k, b.kv.2) } }, ptr, false)
  else _insert_while_full fwt m ptr k h

/-- The `do … while (ptr->h != h || ptr->kv.first != k)` loop of
`probing_hashmap::d_find_while_trying`. -/
def probing_try_loop (p : Policy) (fwt : base_hashmap → Key → Nat → Option Located)
    (m : base_hashmap) (k : Key) (h : Nat) : Nat → Nat → Nat → Option Located
  | 0, _, _ => none
  | fuel + 1, iteration, index =>
    let index := index &&& m._mask
    match m._table[index]? with
    | none => none
    | some b =>
      if b.h = _empty then _insert fwt m index k h
      else
        let iteration := u32 (iteration + 1)
        let next := u32 (index + probe p iteration h)
        if b.h ≠ h ∨ b.kv.1 ≠ k then probing_try_loop p fwt m k h fuel iteration next
        else some (m, index, true)

/-- The function `probing_hashmap::d_find_while_trying`. -/
def probing_find_while_trying (p : Policy) (fwt : base_hashmap → Key → Nat → Option Located)
    (m : base_hashmap) (k : Key) (h : Nat) : Option Located :=
  probing_try_loop p fwt m k h m._table.length 0 h

/-- The search for `freespace` in `rh_hashmap::shift_buckets_forward`: the
outer `do … while (freespace != end)`. -/
def rh_find_free (t : List bucket) (empty end_ : Nat) : Nat → Nat → Option (Option Nat)
  | 0, _ => none
  | fuel + 1, freespace =>
    let freespace := freespace + 1
    match t[freespace]? with
    | none => none
    | some b =>
      if b.h = empty then some (some freespace)
      else if freespace ≠ end_ then rh_find_free t empty end_ fuel freespace
      else some none

/-- The inner loop `do { *(freespace--) = std::move(*(leader--)); } while
(freespace != ptr)` of `rh_hashmap::shift_buckets_forward`. -/
def rh_move_forward (ptr : Nat) : Nat → List bucket → Nat → Nat → Option (List bucket)
  | 0, _, _, _ => none
  | fuel + 1, t, freespace, leader =>
    match t[leader]? with
    | none => none
    | some b =>
      match write t freespace b with
      | none => none
      | some t =>
        if freespace - 1 ≠ ptr then rh_move_forward ptr fuel t (freespace - 1) (leader - 1)
        else some t

/-- The function `rh_hashmap::shift_buckets_forward`: the table after the call
and the returned flag. -/
def shift_buckets_forward (t : List bucket) (ptr empty end_ : Nat) :
    Option (List bucket × Bool) :=
  match rh_find_free t empty end_ (t.length + 1) ptr with
  | none => none
  | some none => some (t, false)
  | some (some freespace) =>
    match rh_move_forward ptr (t.length + 1) t freespace (freespace - 1) with
    | none => none
    | some t => some (t, true)

/-- The `for (ptr = start + starting_index; ptr != end; ++ptr)` loop of
`rh_hashmap::d_find_while_trying`, with the return after the loop. -/
def rh_try_loop (fwt : base_hashmap → Key → Nat → Option Located)
    (m : base_hashmap) (k : Key) (h starting_index : Nat) : Nat → Nat → Option Located
  | 0, _ => none
  | fuel + 1, ptr =>
    if ptr ≠ m._end then
      match m._table[ptr]? with
      | none => none
      | some b =>
        if b.h = h ∧ b.kv.1 = k then some (m, ptr, true)
        else if b.h = _empty then _insert fwt m ptr k h
        else if (b.h &&& m._mask) > starting_index then
          match shift_buckets_forward m._table ptr _empty m._end with
          | none => none
          | some (t, true) => _insert fwt { m with _table := t } ptr k h
          | some (t, false) => _insert_while_full fwt { m with _table := t } ptr k h
        else rh_try_loop fwt m k h starting_index fuel (ptr + 1)
    else _insert_while_full fwt m m._end k h

/-- The function `rh_hashmap::d_find_while_trying`. -/
def rh_find_while_trying (fwt : base_hashmap → Key → Nat → Option Located)
    (m : base_hashmap) (k : Key) (h : Nat) : Option Located :=
  let starting_index := h &&& m._mask
  rh_try_loop fwt m k h starting_index (m._table.length + 1) starting_index

/-- The `do … while (true)` loop of `cc_hashmap::cuckoo_insert`.  The result is
the table with the overwritten tags and either `none` (the bound was reached,
the function returns through `_insert_while_full`) or the values of `ptr`, `h`
and `kick_list` at the `break`; `depth` is the length of `kick_list`. -/
def cuckoo_walk (H : Hashers) (m : base_hashmap) :
    Nat → List bucket → Nat → List Nat → Option (List bucket × Option (Nat × Nat × List Nat))
  | 0, _, _, _ => none
  | fuel + 1, t, ptr, kick_list =>
    match t[ptr]? with
    | none => none
    | some b =>
      let h := calc_alt_hash H b.kv.1
      let ptr := m._half_start + (h &&& m._half_mask)
      let kick_list := kick_list ++ [ptr]
      match t[ptr]? with
      | none => none
      | some b =>
        if b.h = _empty then some (t, some (ptr, h, kick_list))
        else
          let t := t.set ptr { b with h := h }
          let h := _calc_hash H b.kv.1
          let ptr := h &&& m._half_mask
          let kick_list := kick_list ++ [ptr]
          match t[ptr]? with
          | none => none
          | some b =>
            if b.h = _empty then some (t, some (ptr, h, kick_list))
            else
              let t := t.set ptr { b with h := h }
              if kick_list.length ≥ max_search - 1 then some (t, none)
              else cuckoo_walk H m fuel t ptr kick_list

/-- The loop `for (int i = depth - 1; i; --i) kick_list[i]->kv =
std::move(kick_list[i - 1]->kv)` of `cc_hashmap::cuckoo_insert`; the argument
is `i`. -/
def cuckoo_shift (kick_list : List Nat) : Nat → List bucket → Option (List bucket)
  | 0, t => some t
  | i + 1, t =>
    match kick_list[i + 1]?, kick_list[i]? with
    | some dst, some src =>
      match t[dst]?, t[src]? with
      | some d, some s => cuckoo_shift kick_list i (t.set dst { d with kv := s.kv })
      | _, _ => none
    | _, _ => none

/-- The function `cc_hashmap::cuckoo_insert`. -/
def cuckoo_insert (fwt : base_hashmap → Key → Nat → Option Located) (H : Hashers)
    (m : base_hashmap) (first_ptr : Nat) (k : Key) (first_h : Nat) : Option Located :=
  match cuckoo_walk H m max_search m._table first_ptr [first_ptr] with
  | none => none
  | some (t, none) => _insert_while_full fwt { m with _table := t } m._end k first_h
  | some (t, some (ptr, h, kick_list)) =>
    match t[ptr]? with
    | none => none
    | some b =>
      match cuckoo_shift kick_list (kick_list.length - 1) (t.set ptr { b with h := h }) with
      | none => none
      | some t => _insert fwt { m with _table := t } first_ptr k first_h

/-- The function `cc_hashmap::d_find_while_trying`; its third argument is
`unused_h`. -/
def cc_find_while_trying (fwt : base_hashmap → Key → Nat → Option Located) (H : Hashers)
    (m : base_hashmap) (k : Key) (_unused_h : Nat) : Option Located :=
  let half_mask := m._half_mask
  let h := _calc_hash H k
  let ptr := h &&& half_mask
  match m._table[ptr]? with
  | none => none
  | some b =>
    if b.h = _empty then _insert fwt m ptr k h
    else if b.h = h ∧ b.kv.1 = k then some (m, ptr, true)
    else
      let ah := calc_alt_hash H k
      let aptr := m._half_start + (ah &&& half_mask)
      match m._table[aptr]? with
      | none => none
      | some ab =>
        if ab.h = _empty then _insert fwt m aptr k ah
        else if ab.h = ah ∧ ab.kv.1 = k then some (m, aptr, true)
        else cuckoo_insert fwt H m ptr k h

/-- The function `find_while_trying(k, is_not_found, h)`: static dispatch on
`Derived`.  The fuel bounds the depth of the calls of `find_while_trying` made
from `_rehash` and `_insert_while_full`. -/
def find_while_trying (p : Policy) (H : Hashers) :
    Nat → base_hashmap → Key → Nat → Option Located
  | 0 => fun _ _ _ => none
  | fuel + 1 =>
    match p with
    | .lin => probing_find_while_trying .lin (find_while_trying p H fuel)
    | .quad => probing_find_while_trying .quad (find_while_trying p H fuel)
    | .rh => rh_find_while_trying (find_while_trying p H fuel)
    | .cc => cc_find_while_trying (find_while_trying p H fuel) H

/-- The function `find_while_trying(k, is_not_found)`. -/
def find_while_trying_key (p : Policy) (H : Hashers) (fuel : Nat) (m : base_hashmap)
    (k : Key) : Option Located :=
  let h := _calc_hash H k
  find_while_trying p H fuel m k h

/-! ## Removal -/

/-- The function `_remove_for_tombstone`. -/
def _remove_for_tombstone (m : base_hashmap) (ptr : Nat) : Option base_hashmap :=
  match write m._table ptr { h := _tombstone, kv := (0, 0) } with
  | none => none
  | some t => some { m with _size := usub m._size 1, _table := t }

/-- The function `_remove_for_empty`. -/
def _remove_for_empty (m : base_hashmap) (ptr : Nat) : Option base_hashmap :=
  match write m._table ptr { h := _empty, kv := (0, 0) } with
  | none => none
  | some t =>
    some { m with _size := usub m._size 1, _true_size := usub m._true_size 1, _table := t }

/-- The `do … while (true)` loop of `lin_hashmap::dd_remove`: the table and
`ptr` at the `break`. -/
def lin_remove_loop (mask : Nat) :
    Nat → List bucket → Nat → Nat → Nat → Option (List bucket × Nat)
  | 0, _, _, _, _ => none
  | fuel + 1, t, ptr, i, j =>
    let j := u32 (j + 1) &&& mask
    match t[j]? with
    | none => none
    | some j_b =>
      if j_b.h = _empty then some (t, ptr)
      else
        let r := j_b.h &&& mask
        if (if i < j then (r ≤ i ∨ r > j) else (r ≤ i ∧ r > j)) then
          match write t ptr j_b with
          | none => none
          | some t => lin_remove_loop mask fuel t j j j
        else lin_remove_loop mask fuel t ptr i j

/-- The function `lin_hashmap::dd_remove`. -/
def lin_dd_remove (m : base_hashmap) (ptr : Nat) : Option base_hashmap :=
  match lin_remove_loop m._mask m._table.length m._table ptr ptr ptr with
  | none => none
  | some (t, ptr) => _remove_for_empty { m with _table := t } ptr

/-- The function `quad_hashmap::dd_remove`. -/
def quad_dd_remove (m : base_hashmap) (ptr : Nat) : Option base_hashmap :=
  _remove_for_tombstone m ptr

/-- The function `rh_hashmap::shift_buckets_back`: the table and the returned
`ptr`.  `iPtr` stays `ptr + 1`. -/
def shift_buckets_back (mask code : Nat) :
    Nat → List bucket → Nat → Nat → Option (List bucket × Nat)
  | 0, _, _, _ => none
  | fuel + 1, t, ptr, i =>
    match t[ptr + 1]? with
    | none => none
    | some i_b =>
      if i_b.h < code ∧ (i_b.h &&& mask) < i then
        match write t ptr i_b with
        | none => none
        | some t => shift_buckets_back mask code fuel t (ptr + 1) (u32 (i + 1))
      else some (t, ptr)

/-- The function `rh_hashmap::d_remove`; the loop of `shift_buckets_back` is
entered after its `++i`. -/
def rh_d_remove (m : base_hashmap) (ptr : Nat) : Option base_hashmap :=
  match shift_buckets_back m._mask _code (m._table.length + 1) m._table ptr (u32 (ptr + 1)) with
  | none => none
  | some (t, ptr) => _remove_for_empty { m with _table := t } ptr

/-- The function `cc_hashmap::d_remove`. -/
def cc_d_remove (m : base_hashmap) (ptr : Nat) : Option base_hashmap :=
  _remove_for_empty m ptr

/-- The function `remove` (static dispatch on `Derived`). -/
def remove (p : Policy) (m : base_hashmap) (ptr : Nat) : Option base_hashmap :=
  match p with
  | .lin => lin_dd_remove m ptr
  | .quad => quad_dd_remove m ptr
  | .rh => rh_d_remove m ptr
  | .cc => cc_d_remove m ptr

/-! ## Iterators -/

/-- The loop `while (_ptr->h > _last) ++_ptr` of `iterator::_increment`. -/
def iterator_skip (t : List bucket) : Nat → Nat → Option Nat
  | 0, _ => none
  | fuel + 1, ptr =>
    match t[ptr]? with
    | none => none
    | some b => if b.h > _last then iterator_skip t fuel (ptr + 1) else some ptr

/-- The function `iterator::_increment`. -/
def iterator_increment (t : List bucket) (ptr : Nat) : Option Nat :=
  match t[ptr]? with
  | none => none
  | some b => iterator_skip t (t.length + 1) (if b.h ≠ _last then ptr + 1 else ptr)

/-- The function `_begin_it`. -/
def _begin_it (m : base_hashmap) : Option Nat :=
  match m._table[0]? with
  | none => none
  | some b => if b.h ≥ _tombstone then iterator_increment m._table 0 else some 0

/-- The loop `for (it = begin(); it != end(); ++it)` collecting `*it`; the
argument is `it`. -/
def iterate_from (m : base_hashmap) : Nat → Nat → Option (List (Key × T))
  | 0, _ => none
  | fuel + 1, it =>
    if it ≠ m._end then
      match m._table[it]?, iterator_increment m._table it with
      | some b, some next => (iterate_from m fuel next).map (fun l => b.kv :: l)
      | _, _ => none
    else some []

/-- The loop `for (const auto& kv : basic)` collecting the slots `it` visited. -/
def visit_from (m : base_hashmap) : Nat → Nat → Option (List Nat)
  | 0, _ => none
  | fuel + 1, it =>
    if it ≠ m._end then
      match iterator_increment m._table it with
      | some next => (visit_from m fuel next).map (fun l => it :: l)
      | none => none
    else some []

/-! ## Public member functions -/

/-- The exception `std::out_of_range`. -/
inductive Thrown where
  | out_of_range
deriving DecidableEq, Repr

/-- The member `empty()`. -/
def base_hashmap.empty (m : base_hashmap) : Bool := decide (m._size = 0)

/-- The member `size()`. -/
def base_hashmap.size (m : base_hashmap) : Nat := m._size

/-- The member `max_size()`. -/
def base_hashmap.max_size (_m : base_hashmap) : Nat := _absolute_max_capacity

/-- The member `begin()`. -/
def base_hashmap.begin_ (m : base_hashmap) : Option Nat := _begin_it m

/-- The member `end()`. -/
def base_hashmap.end_ (m : base_hashmap) : Nat := m._end

/-- The member `clear()`. -/
def base_hashmap.clear (m : base_hashmap) : Option base_hashmap :=
  _resize_and_init m m._max_size

/-- The member `find(k)`: the iterator is the `bucket*`. -/
def base_hashmap.find (p : Policy) (H : Hashers) (m : base_hashmap) (k : Key) : Option Nat :=
  find_without_inserting p H m k

/-- The member `count(k)`. -/
def base_hashmap.count (p : Policy) (H : Hashers) (m : base_hashmap) (k : Key) : Option Nat :=
  match find_without_inserting p H m k with
  | none => none
  | some ptr => some (if ptr ≠ m._end then 1 else 0)

/-- The member `operator[]`: the map after the call and the bucket whose
`kv.second` the returned reference designates. -/
def base_hashmap.subscript (p : Policy) (H : Hashers) (fuel : Nat) (m : base_hashmap)
    (k : Key) : Option (base_hashmap × Nat) :=
  match find_while_trying_key p H fuel m k with
  | none => none
  | some (m, ptr, _) => some (m, ptr)

/-- The member `at(k)`: the value read through the returned reference, or the
exception. -/
def base_hashmap.at_ (p : Policy) (H : Hashers) (m : base_hashmap) (k : Key) :
    Option (Except Thrown T) :=
  match find_without_inserting p H m k with
  | none => none
  | some ptr =>
    if ptr ≠ m._end then
      match m._table[ptr]? with
      | none => none
      | some b => some (.ok b.kv.2)
    else some (.error .out_of_range)

/-- The member `insert(obj)`: the map after the call and the returned pair
(iterator, flag). -/
def base_hashmap.insert (p : Policy) (H : Hashers) (fuel : Nat) (m : base_hashmap)
    (obj : Key × T) : Option (base_hashmap × Nat × Bool) :=
  match find_while_trying_key p H fuel m obj.1 with
  | none => none
  | some (m, ptr, found) =>
    let is_not_found := !found
    if is_not_found then
      match m._table[ptr]? with
      | none => none
      | some b =>
        some ({ m with _table := m._table.set ptr { b with kv := (b.kv.1, obj.2) } },
          ptr, is_not_found)
    else some (m, ptr, is_not_found)

/-- The member `erase(k)`: the map after the call and the returned count. -/
def base_hashmap.erase (p : Policy) (H : Hashers) (m : base_hashmap) (k : Key) :
    Option (base_hashmap × Nat) :=
  match find_without_inserting p H m k with
  | none => none
  | some ptr =>
    if ptr ≠ m._end then
      match remove p m ptr with
      | none => none
      | some m => some (m, 1)
    else some (m, 0)

/-- The statement `m[k] = v`. -/
def base_hashmap.assign (p : Policy) (H : Hashers) (fuel : Nat) (m : base_hashmap)
    (k : Key) (v : T) : Option base_hashmap :=
  match base_hashmap.subscript p H fuel m k with
  | none => none
  | some (m, ptr) =>
    match m._table[ptr]? with
    | none => none
    | some b => some { m with _table := m._table.set ptr { b with kv := (b.kv.1, v) } }

/-- The expression `m[k]` read as a value: the map after the call and the value. -/
def base_hashmap.subscript_read (p : Policy) (H : Hashers) (fuel : Nat) (m : base_hashmap)
    (k : Key) : Option (base_hashmap × T) :=
  match base_hashmap.subscript p H fuel m k with
  | none => none
  | some (m, ptr) =>
    match m._table[ptr]? with
    | none => none
    | some b => some (m, b.kv.2)

/-- The range-based loop over the whole map: the pairs yielded. -/
def base_hashmap.iterate (m : base_hashmap) : Option (List (Key × T)) :=
  match m.begin_ with
  | none => none
  | some it => iterate_from m (m._table.length + 1) it

/-- The range-based loop over the whole map: the slots visited. -/
def base_hashmap.visited (m : base_hashmap) : Option (List Nat) :=
  match m.begin_ with
  | none => none
  | some it => visit_from m (m._table.length + 1) it

/-! ## Sequences of public calls -/

/-- The mutating public calls. -/
inductive Op where
  | insert (k : Key) (v : T)
  | assign (k : Key) (v : T)
  | erase (k : Key)
  | clear
deriving DecidableEq, Repr

/-- One mutating call. -/
def step (p : Policy) (H : Hashers) (fuel : Nat) (m : base_hashmap) : Op → Option base_hashmap
  | .insert k v => (base_hashmap.insert p H fuel m (k, v)).map (fun r => r.1)
  | .assign k v => base_hashmap.assign p H fuel m k v
  | .erase k => (base_hashmap.erase p H m k).map (fun r => r.1)
  | .clear => m.clear

/-- A sequence of mutating calls, first call first. -/
def run (p : Policy) (H : Hashers) (fuel : Nat) : List Op → base_hashmap → Option base_hashmap
  | [], m => some m
  | op :: ops, m =>
    match step p H fuel m op with
    | none => none
    | some m => run p H fuel ops m

/-- The value `find(k)` designates, `none` when `find(k) == end()`; the outer
`Option` is the one of `find`. -/
def lookup (p : Policy) (H : Hashers) (m : base_hashmap) (k : Key) : Option (Option T) :=
  match base_hashmap.find p H m k with
  | none => none
  | some ptr =>
    if ptr ≠ m._end then
      match m._table[ptr]? with
      | none => none
      | some b => some (some b.kv.2)
    else some none

end kirby

namespace kirby

/-! ## Reachable states and observations -/

/-- The states a map of policy `p` can be in: a constructed map (capacity hint
`n`), then any mutating public calls that return. -/
inductive Reachable (p : Policy) (H : Hashers) : base_hashmap → Prop where
  | init (n : Nat) (m : base_hashmap) : construct p n = some m → Reachable p H m
  | step (fuel : Nat) (op : Op) (m m' : base_hashmap) :
      Reachable p H m → step p H fuel m op = some m' → Reachable p H m'

/-- A public call. -/
inductive Call where
  | find (k : Key)
  | count (k : Key)
  | at_ (k : Key)
  | insert (k : Key) (v : T)
  | subscript (k : Key)
  | erase (k : Key)
  | clear
deriving DecidableEq, Repr

/-- The outcome of a public call: the map after it, or the exception that
leaves it. -/
def call (p : Policy) (H : Hashers) (fuel : Nat) (m : base_hashmap) :
    Call → Option (Except Thrown base_hashmap)
  | .find k => (base_hashmap.find p H m k).map fun _ => .ok m
  | .count k => (base_hashmap.count p H m k).map fun _ => .ok m
  | .at_ k => (base_hashmap.at_ p H m k).map fun r => r.map fun _ => m
  | .insert k v => (base_hashmap.insert p H fuel m (k, v)).map fun r => .ok r.1
  | .subscript k => (base_hashmap.subscript p H fuel m k).map fun r => .ok r.1
  | .erase k => (base_hashmap.erase p H m k).map fun r => .ok r.1
  | .clear => m.clear.map fun m => .ok m

/-- A tag below `_code`: the test `old.h < _code` of `_rehash`. -/
def bucket.live (b : bucket) : Prop := b.h < _code

instance (b : bucket) : Decidable b.live := by unfold bucket.live; infer_instance

/-- The overflow area the constructor of policy `p` passes to `base_hashmap`. -/
def ovf (p : Policy) : Nat :=
  match p with
  | .rh => rh_overflow_area_size
  | _ => 0

/-- The geometry `_init` establishes: a capacity `2^j`, one bucket per slot of
the capacity and of the overflow area plus the terminator slot, and the masks
and pointers derived from the capacity. -/
structure Geometry (p : Policy) (m : base_hashmap) : Prop where
  overflow : m._overflow_area_size = ovf p
  neighborhood : m._neighborhood = 0
  pow2 : ∃ j, 3 ≤ j ∧ j ≤ 31 ∧ m._max_size = 2 ^ j
  length : m._table.length = m._max_size + ovf p + 1
  end_eq : m._end = m._max_size + ovf p
  mask : m._mask = m._max_size - 1
  half_mask : m._half_mask = m._max_size / 2 - 1
  half_start : m._half_start = m._max_size / 2

/-- Every slot before `_end` is the EMPTY bucket with default key and value,
and the slot `_end` holds the terminator. -/
structure Fresh (m : base_hashmap) : Prop where
  slots : ∀ i, i < m._end → m._table[i]? = some empty_bucket
  last : m._table[m._end]? = some ⟨_last, (0, 0)⟩
  size : m._size = 0
  true_size : m._true_size = 0

/-! ## The invariant of the probing maps -/

/-- The distance of the `i`-th probed slot from the first one: the sum of
`probe p 1 _`, …, `probe p i _`. -/
def probe_offset (p : Policy) (i : Nat) : Nat :=
  match p with
  | .quad => i * (i + 1) / 2
  | _ => i

/-- The slot the loops of `probing_hashmap` visit in their `i`-th iteration
(counted from 0) for the tag `h` in a table of capacity `c`. -/
def probe_slot (p : Policy) (c h i : Nat) : Nat := (h + probe_offset p i) % c

/-- The slot `s` holds a bucket whose tag is not EMPTY. -/
def slot_nonempty (t : List bucket) (s : Nat) : Prop :=
  ∃ b, t[s]? = some b ∧ b.h ≠ _empty

/-- The map holds the key `k` with the value `v` in a live bucket. -/
def Holds (m : base_hashmap) (k : Key) (v : T) : Prop :=
  ∃ s b, s < m._max_size ∧ m._table[s]? = some b ∧ b.live ∧ b.kv = (k, v)

/-- The invariant of `lin_hashmap` and `quad_hashmap`: every tag is EMPTY,
TOMBSTONE (quadratic only) or the hash of the key next to it; no key has two
live buckets; every live bucket is reached by the probe sequence of its tag
before any EMPTY slot; the counters count the live and the non-EMPTY slots;
the threshold lies between the load limit and the capacity; and the slot after
the capacity holds the terminator. -/
structure ProbingInv (p : Policy) (H : Hashers) (m : base_hashmap) : Prop where
  geo : Geometry p m
  tags : ∀ s b, s < m._max_size → m._table[s]? = some b →
    b.h = _empty ∨ (p = .quad ∧ b.h = _tombstone) ∨ b.h = _calc_hash H b.kv.1
  nodup : ∀ s s' b b', s < m._max_size → s' < m._max_size → m._table[s]? = some b →
    m._table[s']? = some b' → b.live → b'.live → b.kv.1 = b'.kv.1 → s = s'
  path : ∀ s b, s < m._max_size → m._table[s]? = some b → b.live →
    ∃ n, n < m._max_size ∧ probe_slot p m._max_size b.h n = s ∧
      ∀ i, i < n → slot_nonempty m._table (probe_slot p m._max_size b.h i)
  size : m._size = (m._table.take m._max_size).countP (fun b => decide b.live)
  true_size : m._true_size
    = (m._table.take m._max_size).countP (fun b => decide (b.h ≠ _empty))
  threshold : m._true_size ≤ m._max_true_size ∧ m._max_true_size < m._max_size
    ∧ m._max_size * 8556380 / 16777216 ≤ m._max_true_size
  last : ∃ b, m._table[m._max_size]? = some b ∧ b.h = _last

/-- No live bucket of the map holds the key `k`. -/
def Absent (m : base_hashmap) (k : Key) : Prop :=
  ∀ s b, s < m._max_size → m._table[s]? = some b → b.live → b.kv.1 ≠ k

/-- The map `m` after the key `k` with value `v` has occupied the slot `s`. -/
def occupied (H : Hashers) (m : base_hashmap) (s : Nat) (k : Key) (v : T) : base_hashmap :=
  { m with
    _true_size := m._true_size + 1
    _size := m._size + 1
    _table := m._table.set s { h := _calc_hash H k, kv := (k, v) } }

/-- The call `fwt` of `find_while_trying` places an absent key into the first
EMPTY slot of its probe sequence when the threshold leaves room. -/
def InsertsFresh (p : Policy) (H : Hashers)
    (fwt : base_hashmap → Key → Nat → Option Located) : Prop :=
  ∀ m k, ProbingInv p H m → Absent m k → m._true_size + 1 ≤ m._max_true_size →
    ∃ n a, n < m._max_size ∧
      m._table[probe_slot p m._max_size (_calc_hash H k) n]? = some a ∧ a.h = _empty ∧
      (∀ x, x < n → slot_nonempty m._table (probe_slot p m._max_size (_calc_hash H k) x)) ∧
      fwt m k (_calc_hash H k)
        = some (occupied H m (probe_slot p m._max_size (_calc_hash H k) n) k a.kv.2,
            probe_slot p m._max_size (_calc_hash H k) n, false)

/-- The slot at distance `a` after the base slot `B` in a table of capacity
`c`, going round the table. -/
def lin_slot (c B a : Nat) : Nat := (B + a) % c

/-- The state of the loop of `lin_hashmap::dd_remove` while it erases the key
`k0` from the map `m`.  Slots are numbered by their distance `a` from the slot
after an EMPTY slot, so that no probe path goes round the table: the hole
(`ptr`, `i`) is at distance `ai`, the scan (`j`) at distance `aj`.  The table
`t` still has a stale bucket in the hole; every other live bucket is reached
from its home slot through non-EMPTY slots, and the buckets scanned since the
hole moved have their home slot after the hole. -/
structure LinLoopInv (H : Hashers) (m : base_hashmap) (k0 : Key) (B : Nat)
    (t : List bucket) (ai aj : Nat) : Prop where
  len : t.length = m._max_size + 1
  last : ∃ b, t[m._max_size]? = some b ∧ b.h = _last
  bounds : ai ≤ aj ∧ aj + 1 < m._max_size
  base : B < m._max_size
  exit_empty : ∃ b, t[lin_slot m._max_size B (m._max_size - 1)]? = some b ∧ b.h = _empty
  tags : ∀ x b, x < m._max_size → t[x]? = some b →
    b.h = _empty ∨ b.h = _calc_hash H b.kv.1
  hole : slot_nonempty t (lin_slot m._max_size B ai)
  nodup : ∀ x y b b', x < m._max_size → y < m._max_size →
    x ≠ lin_slot m._max_size B ai → y ≠ lin_slot m._max_size B ai →
    t[x]? = some b → t[y]? = some b' → b.live → b'.live → b.kv.1 = b'.kv.1 → x = y
  path : ∀ a b, a < m._max_size → a ≠ ai → t[lin_slot m._max_size B a]? = some b → b.live →
    ∃ n, n ≤ a ∧ (b.h + n) % m._max_size = lin_slot m._max_size B a ∧
      (∀ u, u < n → slot_nonempty t (lin_slot m._max_size B (a - n + u))) ∧
      (ai < a → a ≤ aj → n < a - ai)
  content : ∀ k v, (∃ x b, x < m._max_size ∧ x ≠ lin_slot m._max_size B ai ∧
      t[x]? = some b ∧ b.live ∧ b.kv = (k, v)) ↔ (Holds m k v ∧ k ≠ k0)
  cnt_live : (t.take m._max_size).countP (fun b => decide b.live) = m._size
  cnt_nonempty : (t.take m._max_size).countP (fun b => decide (b.h ≠ _empty)) = m._true_size

/-- The map `m` holds exactly the associations of `f`. -/
def Represents (m : base_hashmap) (f : Key → Option T) : Prop :=
  ∀ k v, Holds m k v ↔ f k = some v

/-- The effect of a mutating call on the associations: `insert` writes only
when the key is absent, `m[k] = v` always writes, `erase` removes the key and
`clear` removes all keys. -/
def spec_step (f : Key → Option T) : Op → Key → Option T
  | .insert k v => fun k' => if k' = k then (match f k with | some v0 => some v0 | none => some v)
      else f k'
  | .assign k v => fun k' => if k' = k then some v else f k'
  | .erase k => fun k' => if k' = k then none else f k'
  | .clear => fun _ => none

/-- The associations after a sequence of mutating calls, first call first. -/
def spec_run : List Op → (Key → Option T) → Key → Option T
  | [], f => f
  | op :: ops, f => spec_run ops (spec_step f op)

/-- The policies built on `probing_hashmap`. -/
def Policy.probing (p : Policy) : Prop := p = .lin ∨ p = .quad

/-! ## Concrete states -/

/-- The state of a default-constructed `lin_hashmap` or `quad_hashmap`. -/
def probing_fresh : base_hashmap :=
  { _table := List.replicate 8 empty_bucket ++ [⟨_last, (0, 0)⟩]
    _end := 8, _half_start := 4, _mask := 7, _half_mask := 3
    _size := 0, _true_size := 0, _max_size := 8, _max_true_size := 4
    _overflow_area_size := 0, _neighborhood := 0 }

/-- The default `cc_hashmap` after `insert(0,10)`, `insert(6,20)`, `erase(0)`:
keys 0 and 6 share the primary slot 0, so 6 sits in its alternate slot and the
primary slot is EMPTY again. -/
def cc_shadowed : Option base_hashmap :=
  (construct_default .cc).bind
    (run .cc default_hashers 2 [.insert 0 10, .insert 6 20, .erase 0])

/-- The state `cc_shadowed` after a further `insert(6,30)`. -/
def cc_doubled : Option base_hashmap :=
  cc_shadowed.bind fun m => step .cc default_hashers 2 m (.insert 6 30)

/-- The default `rh_hashmap` after `insert(8,5)`, `insert(7,7)`: key 8 is at
its home slot 3 and key 7 at its home slot 4; key 9 has home slot 3. -/
def rh_pair : Option base_hashmap :=
  (construct_default .rh).bind (run .rh default_hashers 2 [.insert 8 5, .insert 7 7])

/-- The default `cc_hashmap` after `insert(0,11)`, `insert(6,22)`: key 0 is in
primary slot 0, key 6 in its alternate slot; key 16 has the same two slots as
key 6. -/
def cc_pair : Option base_hashmap :=
  (construct_default .cc).bind (run .cc default_hashers 2 [.insert 0 11, .insert 6 22])

end kirby

namespace kirby

/-- The default `lin_hashmap` after `insert(0,10)`, `insert(6,20)`,
`insert(10,30)`: the three keys share the home slot 0 and sit in slots 0, 1, 2. -/
def lin_chain : base_hashmap :=
  { _table := [⟨0, (0, 10)⟩, ⟨1558924552, (6, 20)⟩, ⟨1764033680, (10, 30)⟩] ++
      List.replicate 5 empty_bucket ++ [⟨_last, (0, 0)⟩]
    _end := 8, _half_start := 4, _mask := 7, _half_mask := 3
    _size := 3, _true_size := 3, _max_size := 8, _max_true_size := 4
    _overflow_area_size := 0, _neighborhood := 0 }

/-- The default `quad_hashmap` after `insert(0,10)`, `insert(1,20)`,
`insert(2,30)`, `insert(3,40)`, `erase(1)`: three live keys, a TOMBSTONE in slot
7, and `_true_size` at the threshold 4. -/
def quad_tombstoned : base_hashmap :=
  { _table := [⟨0, (0, 10)⟩, empty_bucket, ⟨99660839, (3, 40)⟩, empty_bucket, empty_bucket,
      empty_bucket, ⟨821347078, (2, 30)⟩, ⟨_tombstone, (0, 0)⟩, ⟨_last, (0, 0)⟩]
    _end := 8, _half_start := 4, _mask := 7, _half_mask := 3
    _size := 3, _true_size := 4, _max_size := 8, _max_true_size := 4
    _overflow_area_size := 0, _neighborhood := 0 }

end kirby

namespace kirby

/-! ## Robin Hood: keys of live buckets, and a crowded overflow area -/

/-- Every live bucket of the table holds a key in `S`. -/
def KeysWithin (S : Key → Prop) (t : List bucket) : Prop :=
  ∀ b ∈ t, b.live → S b.kv.1

/-- The call `fwt` of `find_while_trying` stores no key outside `S` when asked
to look for a key in `S`. -/
def FwtWithin (S : Key → Prop) (fwt : base_hashmap → Key → Nat → Option Located) : Prop :=
  ∀ m k h r, KeysWithin S m._table → S k → fwt m k h = some r → KeysWithin S r.1._table

/-- The first 129 non-negative keys whose home slot in a table of 512 slots is
the last one, 511 (default hash functor). -/
def rh_tail_keys : List Key :=
  [
    792, 903, 931, 1038, 1063, 1759, 1862, 2145, 2802, 2882, 3040, 3326, 4212, 6264, 6412,
    7267, 7309, 7358, 7493, 7920, 8021, 8337, 8424, 8666, 8843, 9893, 10077, 10658, 10785,
    11526, 11769, 12670, 14264, 14525, 14716, 14927, 15600, 17332, 17962, 20855, 21125, 21531,
    22247, 22617, 22887, 24257, 24770, 26612, 27270, 27947, 28677, 29459, 29983, 30902, 31213,
    31796, 32126, 32188, 33430, 33704, 33898, 34236, 34343, 36157, 36366, 36556, 37665, 38645,
    39285, 39375, 40288, 40907, 42250, 43356, 43946, 44156, 44972, 45803, 47043, 47451, 47681,
    48089, 48151, 48195, 48639, 50218, 50494, 51693, 51849, 52101, 52203, 53748, 54230, 54386,
    54498, 54850, 55727, 56064, 56302, 56913, 57755, 58132, 59400, 59487, 59522, 59536, 59715,
    60185, 60929, 62395, 64090, 64327, 64332, 64339, 64376, 64399, 64716, 64963, 65825, 65921,
    66316, 67150, 67677, 67723, 67806, 67963, 68354, 69088, 69485]

/-- The bucket of key `k` with value 1 under the default hash functor. -/
def rh_bucket (k : Key) : bucket := ⟨_calc_hash default_hashers k, (k, 1)⟩

/-- Slot `i` of `rh_hashmap<int,int> m(512)` after `insert(293,1)` and the
insertion of the first `n` keys of `rh_tail_keys` with value 1: key 293 sits
in its home slot 510 and the other keys fill the slots from 511 on. -/
def rh_slot (n i : Nat) : bucket :=
  if i = 510 then rh_bucket 293
  else if 511 ≤ i ∧ i < 511 + n then rh_bucket (rh_tail_keys.getD (i - 511) 0)
  else if i = 640 then ⟨_last, (0, 0)⟩
  else empty_bucket

/-- The state of `rh_hashmap<int,int> m(512)` after `insert(293,1)` and the
insertion of the first `n` keys of `rh_tail_keys` with value 1. -/
def rh_packed (n : Nat) : base_hashmap :=
  { _table := (List.range 641).map (rh_slot n)
    _end := 640, _half_start := 256, _mask := 511, _half_mask := 255
    _size := n + 1, _true_size := n + 1, _max_size := 512, _max_true_size := 261
    _overflow_area_size := 128, _neighborhood := 0 }

end kirby

namespace kirby

/-! ## Growth law and probe sequence as the specification words them -/

/-- The loop of `_next_size_up` computed in unbounded integers: the same loop
without the reduction of `ans <<= growth_factor` to `size_type`. -/
def next_size_up_loop_unbounded (growth_factor n : Nat) : Nat → Nat → Option Nat
  | 0, _ => none
  | fuel + 1, ans =>
    if ans < n then next_size_up_loop_unbounded growth_factor n fuel (ans <<< growth_factor)
    else some ans

/-- The growth factor `_next_size_up` chooses for the request `n`. -/
def growth_factor_of (n : Nat) : Nat :=
  if n ≥ _slow_growth_at then _slow_growth_factor else _fast_growth_factor

/-- The probe sequence of quadratic probing in a table of `c` slots:
`p_0 = h mod c` and `p_i = (p_(i-1) + i) mod c`, the stride being the retry
count `quad_hashmap::probe` returns. -/
def quad_seq (c h : Nat) : Nat → Nat
  | 0 => h % c
  | i + 1 => (quad_seq c h i + probe .quad (i + 1) h) % c

end kirby

namespace kirby

/-- The calls `insert(0,1)`, …, `insert(31,1)`. -/
def fill_ops : List Op := (List.range 32).map (fun i => Op.insert (i : Int) 1)

/-- The state of `lin_hashmap<int,int> m(64)` after `insert(i,1)` for `i` from 0
to 31: 32 keys, `_true_size` at the threshold 32. -/
def lin_filled : Option base_hashmap :=
  (construct .lin 64).bind (run .lin default_hashers 1 fill_ops)

end kirby

namespace kirby

/-- The default `quad_hashmap` after `insert(0,10)`, `insert(6,20)`: the keys
share the home slot 0 and sit in slots 0 and 1. -/
def quad_pair : base_hashmap :=
  { _table := [⟨0, (0, 10)⟩, ⟨1558924552, (6, 20)⟩] ++
      List.replicate 6 empty_bucket ++ [⟨_last, (0, 0)⟩]
    _end := 8, _half_start := 4, _mask := 7, _half_mask := 3
    _size := 2, _true_size := 2, _max_size := 8, _max_true_size := 4
    _overflow_area_size := 0, _neighborhood := 0 }

end kirby

namespace kirby

/-- The state `cc_doubled` after `insert(1,11)`, `insert(3,33)`: key 6 is stored
twice (values 30 and 20), key 1 in its primary slot 3 and key 3 in its alternate
slot 7; `_true_size` is 4, the threshold of the capacity 8. -/
def cc_crowded : Option base_hashmap :=
  cc_doubled.bind (run .cc default_hashers 2 [.insert 1 11, .insert 3 33])

end kirby

namespace kirby

/-! ## Robin Hood: the invariant of the table -/

/-- The invariant of a Robin Hood map: the geometry, the terminator, genuine
tags, live buckets at or after their home slot with every slot from the home on
live and holding a bucket whose home is not after theirs, distinct keys, the
counters and the threshold. -/
structure RhInv (H : Hashers) (m : base_hashmap) : Prop where
  geo : Geometry .rh m
  last : ∃ b, m._table[m._end]? = some b ∧ b.h = _last
  tags : ∀ s b, s < m._end → m._table[s]? = some b →
    b.h = _empty ∨ b.h = _calc_hash H b.kv.1
  home_le : ∀ s b, s < m._end → m._table[s]? = some b → b.live → (b.h &&& m._mask) ≤ s
  run : ∀ s b, s < m._end → m._table[s]? = some b → b.live →
    ∀ x, (b.h &&& m._mask) ≤ x → x < s →
      ∃ bx, m._table[x]? = some bx ∧ bx.live ∧ (bx.h &&& m._mask) ≤ (b.h &&& m._mask)
  nodup : ∀ s s' b b', s < m._end → s' < m._end → m._table[s]? = some b →
    m._table[s']? = some b' → b.live → b'.live → b.kv.1 = b'.kv.1 → s = s'
  size : m._size = (m._table.take m._end).countP (fun b => decide b.live)
  true_size : m._true_size = m._size
  threshold : m._true_size ≤ m._max_true_size ∧ m._max_true_size < m._max_size

/-- The Robin Hood map holds the key `k` with the value `v`. -/
def RhHolds (m : base_hashmap) (k : Key) (v : T) : Prop :=
  ∃ s b, s < m._end ∧ m._table[s]? = some b ∧ b.live ∧ b.kv = (k, v)

/-- No live bucket of the Robin Hood map holds the key `k`. -/
def RhAbsent (m : base_hashmap) (k : Key) : Prop :=
  ∀ s b, s < m._end → m._table[s]? = some b → b.live → b.kv.1 ≠ k

/-- The call `fwt` of `find_while_trying` keeps the invariant of the Robin Hood
map when it is given a key with its tag. -/
def FwtKeepsRh (H : Hashers) (fwt : base_hashmap → Key → Nat → Option Located) : Prop :=
  ∀ m k r, RhInv H m → fwt m k (_calc_hash H k) = some r → RhInv H r.1

/-- Every live bucket of the list carries the tag of its key. -/
def TagsOfKeys (H : Hashers) (t : List bucket) : Prop :=
  ∀ b ∈ t, b.live → b.h = _calc_hash H b.kv.1

/-- The lookup of the Robin Hood map as the specification words it: the scan
of `rh_find_loop` that also stops, reporting `end()`, at the first bucket whose
home slot is after the starting index `start`. -/
def rh_find_stop_loop (m : base_hashmap) (k : Key) (h start : Nat) : Nat → Nat → Option Nat
  | 0, _ => none
  | fuel + 1, ptr =>
    match m._table[ptr]? with
    | none => none
    | some b =>
      if b.h < _code then
        if b.h = h ∧ b.kv.1 = k then some ptr
        else if (b.h &&& m._mask) > start then some m._end
        else rh_find_stop_loop m k h start fuel (ptr + 1)
      else some m._end

/-- The specified lookup of the Robin Hood map. -/
def rh_find_with_early_stop (H : Hashers) (m : base_hashmap) (k : Key) : Option Nat :=
  let h := _calc_hash H k
  rh_find_stop_loop m k h (h &&& m._mask) (m._table.length + 1) (h &&& m._mask)

end kirby

namespace kirby

/-! ## Robin Hood: the ordering invariant of the specification -/

/-- The ordering invariant of the Robin Hood map: along consecutive live slots
the home indices `h & _mask` do not decrease, every live bucket sits at or after
its home slot, and every slot from the home of a live bucket up to its slot is
live. -/
structure RhOrdered (m : base_hashmap) : Prop where
  sorted : ∀ (s : Nat) (b b' : bucket), s + 1 < m._end → m._table[s]? = some b →
    m._table[s + 1]? = some b' → b.live → b'.live → (b.h &&& m._mask) ≤ (b'.h &&& m._mask)
  home_le : ∀ (s : Nat) (b : bucket), s < m._end → m._table[s]? = some b → b.live →
    (b.h &&& m._mask) ≤ s
  filled : ∀ (s : Nat) (b : bucket), s < m._end → m._table[s]? = some b → b.live →
    ∀ x, (b.h &&& m._mask) ≤ x → x < s → ∃ bx, m._table[x]? = some bx ∧ bx.live

/-- The state of a default-constructed `rh_hashmap`. -/
def rh_fresh : base_hashmap :=
  { _table := List.replicate 136 empty_bucket ++ [⟨_last, (0, 0)⟩]
    _end := 136, _half_start := 4, _mask := 7, _half_mask := 3
    _size := 0, _true_size := 0, _max_size := 8, _max_true_size := 4
    _overflow_area_size := 128, _neighborhood := 0 }

/-- The default `rh_hashmap` after `insert(8,5)`, `insert(9,6)`, `insert(7,7)`:
the keys 8 and 9 have the home slot 3 and sit in slots 3 and 4; the key 7 has
the home slot 4 and sits in slot 5. -/
def rh_chain : base_hashmap :=
  { _table := List.replicate 3 empty_bucket ++
      [⟨1228498187, (8, 5)⟩, ⟨1115433235, (9, 6)⟩, ⟨415870660, (7, 7)⟩] ++
      List.replicate 130 empty_bucket ++ [⟨_last, (0, 0)⟩]
    _end := 136, _half_start := 4, _mask := 7, _half_mask := 3
    _size := 3, _true_size := 3, _max_size := 8, _max_true_size := 4
    _overflow_area_size := 128, _neighborhood := 0 }

/-! ## Cuckoo: the counters -/

/-- Every tag before slot `E` is EMPTY or a hash value. -/
def CcTags (E : Nat) (t : List bucket) : Prop :=
  ∀ (s : Nat) (b : bucket), s < E → t[s]? = some b → b.h = _empty ∨ b.h < 2147483648

/-- The table `t2` has a bucket wherever `t` has one, with the same tag or, in
a slot before `E` whose tag in `t` is not EMPTY, with a hash value as its tag. -/
def TagsAlike (E : Nat) (t t2 : List bucket) : Prop :=
  t2.length = t.length ∧ ∀ (x : Nat) (b : bucket), t[x]? = some b →
    ∃ b2, t2[x]? = some b2 ∧ (b2.h = b.h ∨ (x < E ∧ b.h ≠ _empty ∧ b2.h < 2147483648))

/-- The part of the invariant of `cc_hashmap` that concerns the counters: every
tag before `_end` is EMPTY or a hash value, the slot `_end` holds the
terminator, `_size` and `_true_size` are the number of live slots, and the
threshold lies between `_true_size` and the capacity. -/
structure CcInv (m : base_hashmap) : Prop where
  geo : Geometry .cc m
  last : ∃ b, m._table[m._end]? = some b ∧ b.h = _last
  tags : CcTags m._end m._table
  size : m._size = (m._table.take m._end).countP (fun b => decide b.live)
  true_size : m._true_size = m._size
  threshold : m._true_size ≤ m._max_true_size ∧ m._max_true_size < m._max_size

/-- The call `fwt` of `find_while_trying` keeps the counters invariant of the
cuckoo map, whatever it returns. -/
def FwtKeepsCc (fwt : base_hashmap → Key → Nat → Option Located) : Prop :=
  ∀ m k h r, CcInv m → fwt m k h = some r → CcInv r.1

/-! ## Every policy: the counters and the tags -/

/-- The counters agree with the table: `_size` is the number of live slots,
`_true_size` the number of slots before `_end` that are not EMPTY, and
`_size ≤ _true_size ≤ _max_true_size < _max_size`. -/
def CountersMatch (m : base_hashmap) : Prop :=
  m._size = m._table.countP (fun b => decide b.live)
  ∧ m._true_size = (m._table.take m._end).countP (fun b => decide (b.h ≠ _empty))
  ∧ m._size ≤ m._true_size ∧ m._true_size ≤ m._max_true_size
  ∧ m._max_true_size < m._max_size

/-- The tags of the table of a map of policy `p`: the table ends with the slot
`_end`; every tag is a hash value below `2^31`, EMPTY, TOMBSTONE or LAST; LAST
is the tag of the slot `_end` and of no other slot; TOMBSTONE occurs only in
the quadratic map. -/
def TagsWellFormed (p : Policy) (m : base_hashmap) : Prop :=
  m._table.length = m._end + 1 ∧
  ∀ (s : Nat) (b : bucket), m._table[s]? = some b →
    (b.h < 2147483648 ∨ b.h = _empty ∨ b.h = _tombstone ∨ b.h = _last)
    ∧ (b.h = _last ↔ s = m._end)
    ∧ (b.h = _tombstone → p = .quad)

/-! ## Rehash: the tags kept with the keys -/

/-- The state of a default-constructed `cc_hashmap`. -/
def cc_fresh : base_hashmap :=
  { _table := List.replicate 8 empty_bucket ++ [⟨_last, (0, 0)⟩]
    _end := 8, _half_start := 4, _mask := 7, _half_mask := 3
    _size := 0, _true_size := 0, _max_size := 8, _max_true_size := 4
    _overflow_area_size := 0, _neighborhood := 0 }

/-- The default `cc_hashmap` after `insert(0,11)`, `insert(6,22)`: the key 0 is
in its primary slot 0 and the key 6 in its alternate slot 6. -/
def cc_two : base_hashmap :=
  { _table := [⟨0, (0, 11)⟩, empty_bucket, empty_bucket, empty_bucket, empty_bucket,
      empty_bucket, ⟨295289630, (6, 22)⟩, empty_bucket, ⟨_last, (0, 0)⟩]
    _end := 8, _half_start := 4, _mask := 7, _half_mask := 3
    _size := 2, _true_size := 2, _max_size := 8, _max_true_size := 4
    _overflow_area_size := 0, _neighborhood := 0 }

end kirby

namespace kirby

/-! ## Cuckoo: the two slots a key designates -/

/-- The slot `s` and the tag `h` are those the key `k` designates: the slot
`hash(k) & _half_mask` of the first half with the primary hash as the tag, or
the slot `_half_start + (alt_hash(k) & _half_mask)` of the second half with the
alternate hash as the tag. -/
def Designates (H : Hashers) (m : base_hashmap) (s h : Nat) (k : Key) : Prop :=
  (s = (_calc_hash H k &&& m._half_mask) ∧ h = _calc_hash H k) ∨
  (s = m._half_start + (calc_alt_hash H k &&& m._half_mask) ∧ h = calc_alt_hash H k)

/-- Every live bucket of the table `t` before `_end`, the slot `skip` apart,
lies in a slot its key designates, under the matching tag. -/
def PlacedBut (H : Hashers) (m : base_hashmap) (t : List bucket) (skip : Option Nat) : Prop :=
  ∀ (s : Nat) (b : bucket), s < m._end → skip ≠ some s → t[s]? = some b → b.live →
    Designates H m s b.h b.kv.1

/-- Every live bucket of the map lies in a slot its key designates, under the
matching tag. -/
def CcPlaced (H : Hashers) (m : base_hashmap) : Prop :=
  PlacedBut H m m._table none

/-- The call `fwt` of `find_while_trying` keeps the placement of the live
buckets of the cuckoo map, whatever it returns. -/
def FwtKeepsPlaced (H : Hashers) (fwt : base_hashmap → Key → Nat → Option Located) : Prop :=
  ∀ m k h r, CcInv m → CcPlaced H m → fwt m k h = some r → CcPlaced H r.1

/-- The slot the eviction walk visits after the slot `s`: the other slot of the
key stored in `s`. -/
def cc_next (H : Hashers) (m : base_hashmap) (t : List bucket) (s : Nat) : Nat :=
  match t[s]? with
  | none => 0
  | some b =>
    if s < m._half_start then m._half_start + (calc_alt_hash H b.kv.1 &&& m._half_mask)
    else (_calc_hash H b.kv.1 &&& m._half_mask)

/-- The slots `l` are those a walk visits after the slot `a` when it follows
`f` through the slots that satisfy `occ` and stops at the first slot, `p`, that
does not. -/
inductive WalkPath (f : Nat → Nat) (occ : Nat → Prop) : Nat → List Nat → Nat → Prop where
  | last (a p : Nat) : p = f a → ¬ occ p → WalkPath f occ a [p] p
  | cons (a c : Nat) (rest : List Nat) (p : Nat) :
      c = f a → occ c → WalkPath f occ c rest p → WalkPath f occ a (c :: rest) p

/-- The bucket in the slot `dst` of the table `T` carries a tag under which the
key stored in the slot `src` may lie in `dst`. -/
def Pend (H : Hashers) (m : base_hashmap) (T : List bucket) (src dst : Nat) : Prop :=
  ∃ d s, T[dst]? = some d ∧ T[src]? = some s ∧ Designates H m dst d.h s.kv.1

end kirby

namespace kirby

/-! ## Arithmetic of `size_type` -/

theorem u32_of_lt {x : Nat} (h : x < 4294967296) : u32 x = x := by
  unfold u32; exact Nat.mod_eq_of_lt h

theorem u32_lt (x : Nat) : u32 x < 4294967296 := by
  unfold u32; exact Nat.mod_lt _ (by norm_num)

theorem usub_of_le {a b : Nat} (hb : b ≤ a) (ha : a < 4294967296) : usub a b = a - b := by
  unfold usub
  have hb' : b % 4294967296 = b := Nat.mod_eq_of_lt (by omega)
  rw [hb']
  omega

theorem and_mask_eq_mod (x j : Nat) : x &&& (2 ^ j - 1) = x % 2 ^ j :=
  Nat.and_pow_two_sub_one_eq_mod x j

theorem abs_max_val : _absolute_max_capacity = 2147483648 := by decide

theorem max_hash_val : _max_hash = 2147483647 := by decide

theorem shift31_val : u32 (1 <<< _bit_shift) = 2147483648 := by decide

theorem calc_hash_lt (H : Hashers) (k : Key) : _calc_hash H k < 2147483648 := by
  unfold _calc_hash u32
  rw [max_hash_val]
  have h1 : H.hash k &&& 2147483647 ≤ 2147483647 := Nat.and_le_right
  omega

theorem calc_alt_hash_lt (H : Hashers) (k : Key) : calc_alt_hash H k < 2147483648 := by
  unfold calc_alt_hash u32
  rw [max_hash_val]
  have h1 : H.alt k &&& 2147483647 ≤ 2147483647 := Nat.and_le_right
  omega

theorem empty_val : _empty = 4294967295 := rfl
theorem tombstone_val : _tombstone = 4294967294 := rfl
theorem last_val : _last = 4294967293 := rfl
theorem code_val : _code = 4294967292 := rfl

theorem pow_le_pow31 {j : Nat} (h : j ≤ 31) : 2 ^ j ≤ 2147483648 := by
  have := Nat.pow_le_pow_right (show 0 < 2 by norm_num) h
  norm_num at this
  exact this

theorem pow_ge_8 {j : Nat} (h : 3 ≤ j) : 8 ≤ 2 ^ j := by
  have := Nat.pow_le_pow_right (show 0 < 2 by norm_num) h
  norm_num at this
  exact this

/-! ## The growth law returns a power of two -/

theorem next_size_up_loop_spec (g n : Nat) (hg : g = 1 ∨ (g = 3 ∧ n ≤ 262144))
    (hn : n ≤ 2147483648) :
    ∀ fuel a, a ≤ 31 → (g = 3 → a % 3 = 0) → 32 ≤ fuel + a → 3 ≤ a →
      ∃ j, a ≤ j ∧ j ≤ 31 ∧ _next_size_up_loop g n fuel (2 ^ a) = some (2 ^ j) ∧ n ≤ 2 ^ j
        ∧ (∀ i, a ≤ i → i < j → (g = 3 → i % 3 = 0) → 2 ^ i < n) := by
  intro fuel
  induction fuel with
  | zero => intro a h1 _ h3 _; omega
  | succ fuel ih =>
    intro a ha hmod hfuel h3
    unfold _next_size_up_loop
    by_cases hlt : 2 ^ a < n
    · rw [if_pos hlt]
      have hshift : u32 (2 ^ a <<< g) = 2 ^ (a + g) := by
        rw [Nat.shiftLeft_eq, ← pow_add]
        apply u32_of_lt
        have hag : a + g ≤ 31 := by
          rcases hg with hg | ⟨hg, hn3⟩
          · have : a ≠ 31 := by
              rintro rfl
              norm_num at hlt
              omega
            omega
          · have hm := hmod hg
            have : a < 18 := by
              by_contra hcon
              have : 2 ^ 18 ≤ 2 ^ a := Nat.pow_le_pow_right (by norm_num) (by omega)
              norm_num at this
              omega
            omega
        have := pow_le_pow31 hag
        omega
      rw [hshift]
      have hag : a + g ≤ 31 := by
        by_contra hcon
        have h1 : u32 (2 ^ a <<< g) < 4294967296 := u32_lt _
        rw [hshift] at h1
        have : 2 ^ 32 ≤ 2 ^ (a + g) := Nat.pow_le_pow_right (by norm_num) (by omega)
        norm_num at this
        omega
      obtain ⟨j, hj1, hj2, hj3, hj4, hj5⟩ := ih (a + g) hag (by intro h; have := hmod h; omega)
        (by rcases hg with hg | ⟨hg, _⟩ <;> omega) (by omega)
      refine ⟨j, by omega, hj2, hj3, hj4, ?_⟩
      intro i hi1 hi2 hi3
      by_cases hia : i = a
      · rw [hia]; exact hlt
      · apply hj5 i _ hi2 hi3
        rcases hg with hg | ⟨hg, _⟩
        · omega
        · have := hi3 hg
          have := hmod hg
          omega
    · rw [if_neg hlt]
      exact ⟨a, le_refl _, ha, rfl, by omega, by intro i h1 h2; omega⟩

theorem next_size_up_spec (n : Nat) :
    ∃ j, 3 ≤ j ∧ j ≤ 31 ∧ _next_size_up n = some (2 ^ j) ∧ (n ≤ 2147483648 → n ≤ 2 ^ j) := by
  unfold _next_size_up
  simp only [shift31_val, abs_max_val]
  by_cases hn : n ≤ 2147483648
  · rw [if_pos hn]
    by_cases hs : n ≥ _slow_growth_at
    · rw [if_pos hs]
      obtain ⟨j, h1, h2, h3, h4, _⟩ := next_size_up_loop_spec _slow_growth_factor n
        (Or.inl rfl) hn 64 3 (by norm_num) (by intro h; simp [_slow_growth_factor] at h)
        (by norm_num) (le_refl _)
      exact ⟨j, h1, h2, h3, fun _ => h4⟩
    · rw [if_neg hs]
      obtain ⟨j, h1, h2, h3, h4, _⟩ := next_size_up_loop_spec _fast_growth_factor n
        (Or.inr ⟨rfl, by simp [_slow_growth_at] at hs; omega⟩) hn 64 3 (by norm_num)
        (by intro _; rfl) (by norm_num) (le_refl _)
      exact ⟨j, h1, h2, h3, fun _ => h4⟩
  · rw [if_neg hn]
    exact ⟨31, by norm_num, le_refl _, by norm_num, fun h => absurd h hn⟩

end kirby

namespace kirby

/-! ## Initialisation -/

theorem ovf_le (p : Policy) : ovf p ≤ 128 := by
  cases p <;> simp [ovf, rh_overflow_area_size]

theorem load_limit_pow2 (j : Nat) (h3 : 3 ≤ j) (h31 : j ≤ 31) :
    load_limit (2 ^ j) = 2 ^ j * 8556380 / 16777216 := by
  interval_cases j <;> decide

theorem half_mask_pow2 (j : Nat) (h3 : 3 ≤ j) (h31 : j ≤ 31) :
    ((2 ^ j - 1) >>> 1) &&& unot (usub (u32 (1 <<< 0)) 1) = 2 ^ j / 2 - 1 := by
  interval_cases j <;> decide

/-- What `_init` computes on a table of `2^j + overflow + 1` buckets. -/
theorem init_spec (m : base_hashmap) (j : Nat) (h3 : 3 ≤ j) (h31 : j ≤ 31)
    (ho : m._overflow_area_size ≤ 128) (hn : m._neighborhood = 0)
    (hlen : m._table.length = 2 ^ j + m._overflow_area_size + 1) :
    ∃ b, m._table[2 ^ j + m._overflow_area_size]? = some b ∧
    _init m = some { m with
      _table := m._table.set (2 ^ j + m._overflow_area_size) { b with h := _last }
      _size := 0
      _true_size := 0
      _max_size := 2 ^ j
      _end := 2 ^ j + m._overflow_area_size
      _mask := 2 ^ j - 1
      _half_mask := 2 ^ j / 2 - 1
      _half_start := 2 ^ j / 2
      _max_true_size :=
        if m._true_size < m._max_true_size ∨ 2 ^ j * 8556380 / 16777216 > m._max_true_size
        then 2 ^ j * 8556380 / 16777216
        else u32 (m._max_true_size + u32 ((usub (2 ^ j) m._max_true_size >>> 4) <<< 3)) } := by
  have hp := pow_le_pow31 h31
  have hp8 := pow_ge_8 h3
  have hms : u32 (m._table.length + 4294967296 * 4294967296 - m._overflow_area_size - 1)
      = 2 ^ j := by
    rw [hlen]; unfold u32; omega
  have hidx : u32 (2 ^ j + m._overflow_area_size) = 2 ^ j + m._overflow_area_size :=
    u32_of_lt (by omega)
  have hlt : 2 ^ j + m._overflow_area_size < m._table.length := by omega
  have hget : m._table[2 ^ j + m._overflow_area_size]?
      = some (m._table[2 ^ j + m._overflow_area_size]) := List.getElem?_eq_getElem hlt
  have hs : (2 : Nat) ^ j >>> 1 = 2 ^ j / 2 := by
    rw [Nat.shiftRight_eq_div_pow, pow_one]
  refine ⟨_, hget, ?_⟩
  unfold _init
  simp only [hms, hidx, hget, hn, hs, load_limit_pow2 j h3 h31,
    usub_of_le (show 1 ≤ 2 ^ j by omega) (show 2 ^ j < 4294967296 by omega),
    half_mask_pow2 j h3 h31, decide_eq_true_eq]

end kirby

namespace kirby

/-! ## What a lookup returns -/

theorem probing_find_loop_sound (p : Policy) (m : base_hashmap) (k : Key) (h : Nat) :
    ∀ fuel iteration index ptr, probing_find_loop p m k h fuel iteration index = some ptr →
      ptr = m._end ∨ ∃ b, m._table[ptr]? = some b ∧ b.h = h ∧ b.kv.1 = k := by
  intro fuel
  induction fuel with
  | zero => intro _ _ _ h0; simp [probing_find_loop] at h0
  | succ fuel ih =>
    intro iteration index ptr hres
    unfold probing_find_loop at hres
    simp only at hres
    cases hb : m._table[index &&& m._mask]? with
    | none => rw [hb] at hres; simp at hres
    | some b =>
      rw [hb] at hres
      simp only at hres
      by_cases hm : b.h = h ∧ b.kv.1 = k
      · rw [if_pos hm] at hres
        cases hres
        exact Or.inr ⟨b, hb, hm⟩
      · rw [if_neg hm] at hres
        by_cases he : b.h ≠ _empty
        · rw [if_pos he] at hres
          exact ih _ _ _ hres
        · rw [if_neg he] at hres
          cases hres
          exact Or.inl rfl

theorem rh_find_loop_sound (m : base_hashmap) (k : Key) (h : Nat) :
    ∀ fuel start ptr, rh_find_loop m k h fuel start = some ptr →
      ptr = m._end ∨ ∃ b, m._table[ptr]? = some b ∧ b.h = h ∧ b.kv.1 = k := by
  intro fuel
  induction fuel with
  | zero => intro _ _ h0; simp [rh_find_loop] at h0
  | succ fuel ih =>
    intro start ptr hres
    unfold rh_find_loop at hres
    cases hb : m._table[start]? with
    | none => rw [hb] at hres; simp at hres
    | some b =>
      rw [hb] at hres
      simp only at hres
      by_cases hc : b.h < _code
      · rw [if_pos hc] at hres
        by_cases hm : b.h = h ∧ b.kv.1 = k
        · rw [if_pos hm] at hres
          cases hres
          exact Or.inr ⟨b, hb, hm⟩
        · rw [if_neg hm] at hres
          exact ih _ _ hres
      · rw [if_neg hc] at hres
        cases hres
        exact Or.inl rfl

theorem cc_find_sound (H : Hashers) (m : base_hashmap) (k : Key) (ptr : Nat)
    (hres : cc_find_without_inserting H m k = some ptr) :
    ptr = m._end ∨ ∃ b, m._table[ptr]? = some b ∧ b.h < 2147483648 ∧ b.kv.1 = k := by
  unfold cc_find_without_inserting at hres
  simp only at hres
  cases hb : m._table[_calc_hash H k &&& m._half_mask]? with
  | none => rw [hb] at hres; simp at hres
  | some b =>
    rw [hb] at hres
    simp only at hres
    by_cases hm : b.h = _calc_hash H k ∧ b.kv.1 = k
    · rw [if_pos hm] at hres
      cases hres
      exact Or.inr ⟨b, hb, hm.1 ▸ calc_hash_lt H k, hm.2⟩
    · rw [if_neg hm] at hres
      cases hab : m._table[m._half_start + (calc_alt_hash H k &&& m._half_mask)]? with
      | none => rw [hab] at hres; simp at hres
      | some ab =>
        rw [hab] at hres
        simp only at hres
        by_cases hma : ab.h = calc_alt_hash H k ∧ ab.kv.1 = k
        · rw [if_pos hma] at hres
          cases hres
          exact Or.inr ⟨ab, hab, hma.1 ▸ calc_alt_hash_lt H k, hma.2⟩
        · rw [if_neg hma] at hres
          cases hres
          exact Or.inl rfl

/-- A lookup returns `_end` or a bucket that holds the key under a genuine tag. -/
theorem find_sound (p : Policy) (H : Hashers) (m : base_hashmap) (k : Key) (ptr : Nat)
    (hres : find_without_inserting p H m k = some ptr) :
    ptr = m._end ∨ ∃ b, m._table[ptr]? = some b ∧ b.h < 2147483648 ∧ b.kv.1 = k := by
  cases p with
  | lin =>
    rcases probing_find_loop_sound _ _ _ _ _ _ _ _ hres with h | ⟨b, h1, h2, h3⟩
    · exact Or.inl h
    · exact Or.inr ⟨b, h1, h2 ▸ calc_hash_lt H k, h3⟩
  | quad =>
    rcases probing_find_loop_sound _ _ _ _ _ _ _ _ hres with h | ⟨b, h1, h2, h3⟩
    · exact Or.inl h
    · exact Or.inr ⟨b, h1, h2 ▸ calc_hash_lt H k, h3⟩
  | rh =>
    rcases rh_find_loop_sound _ _ _ _ _ _ hres with h | ⟨b, h1, h2, h3⟩
    · exact Or.inl h
    · exact Or.inr ⟨b, h1, h2 ▸ calc_hash_lt H k, h3⟩
  | cc => exact cc_find_sound H m k ptr hres

end kirby

namespace kirby

/-! ## The geometry is kept by every call -/

theorem write_some {t t' : List bucket} {i : Nat} {b : bucket} (h : write t i b = some t') :
    i < t.length ∧ t' = t.set i b := by
  unfold write at h
  by_cases hi : i < t.length
  · rw [if_pos hi] at h; exact ⟨hi, (Option.some.inj h).symm⟩
  · rw [if_neg hi] at h; cases h

theorem write_length {t t' : List bucket} {i : Nat} {b : bucket} (h : write t i b = some t') :
    t'.length = t.length := by
  rw [(write_some h).2, List.length_set]

theorem write_of_lt {t : List bucket} {i : Nat} (b : bucket) (h : i < t.length) :
    write t i b = some (t.set i b) := by
  unfold write; rw [if_pos h]

theorem geometry_update {p : Policy} {m : base_hashmap} (hg : Geometry p m) (t : List bucket)
    (hlen : t.length = m._table.length) (s ts : Nat) :
    Geometry p { m with _table := t, _size := s, _true_size := ts } :=
  { overflow := hg.overflow
    neighborhood := hg.neighborhood
    pow2 := hg.pow2
    length := by rw [hlen]; exact hg.length
    end_eq := hg.end_eq
    mask := hg.mask
    half_mask := hg.half_mask
    half_start := hg.half_start }

/-- The geometry `_init` establishes on a fresh table. -/
theorem init_fresh_geometry (p : Policy) (m : base_hashmap) (j : Nat) (h3 : 3 ≤ j)
    (h31 : j ≤ 31) (ho : m._overflow_area_size = ovf p) (hn : m._neighborhood = 0)
    (t : List bucket) (hlen : t.length = u32 (u32 (2 ^ j + ovf p) + 1)) :
    ∃ m', _init { m with _table := t } = some m' ∧ Geometry p m' ∧ m'._max_size = 2 ^ j
      ∧ m'._size = 0 ∧ m'._true_size = 0
      ∧ m'._table = t.set (2 ^ j + ovf p) { (t.getD (2 ^ j + ovf p) empty_bucket) with h := _last }
      ∧ m'._max_true_size =
        (if m._true_size < m._max_true_size ∨ 2 ^ j * 8556380 / 16777216 > m._max_true_size
        then 2 ^ j * 8556380 / 16777216
        else u32 (m._max_true_size + u32 ((usub (2 ^ j) m._max_true_size >>> 4) <<< 3))) := by
  have hp := pow_le_pow31 h31
  have ho' := ovf_le p
  have hlen' : t.length = 2 ^ j + ovf p + 1 := by
    rw [hlen, u32_of_lt (show 2 ^ j + ovf p < 4294967296 by omega), u32_of_lt (by omega)]
  obtain ⟨b, hb, hinit⟩ := init_spec { m with _table := t } j h3 h31 (by simp [ho, ho'])
    hn (by simp [ho, hlen'])
  refine ⟨_, hinit, ?_, rfl, rfl, rfl, ?_, rfl⟩
  · exact
    { overflow := ho
      neighborhood := hn
      pow2 := ⟨j, h3, h31, rfl⟩
      length := by simp [hlen', ho]
      end_eq := by simp [ho]
      mask := rfl
      half_mask := rfl
      half_start := rfl }
  · simp only [ho] at hb ⊢
    rw [List.getD_eq_getElem?_getD, hb]
    rfl

end kirby

namespace kirby

end kirby

namespace kirby

/-! ## Table lengths through the bucket-moving loops -/

theorem rh_move_forward_length (ptr : Nat) :
    ∀ fuel (t : List bucket) freespace leader t',
      rh_move_forward ptr fuel t freespace leader = some t' → t'.length = t.length := by
  intro fuel
  induction fuel with
  | zero => intro _ _ _ _ h; simp [rh_move_forward] at h
  | succ fuel ih =>
    intro t freespace leader t' h
    unfold rh_move_forward at h
    cases hb : t[leader]? with
    | none => rw [hb] at h; simp at h
    | some b =>
      rw [hb] at h
      simp only at h
      cases hw : write t freespace b with
      | none => rw [hw] at h; simp at h
      | some t1 =>
        rw [hw] at h
        simp only at h
        by_cases hc : freespace - 1 ≠ ptr
        · rw [if_pos hc] at h
          rw [ih _ _ _ _ h, write_length hw]
        · rw [if_neg hc] at h
          cases h
          exact write_length hw

theorem shift_buckets_forward_length (t : List bucket) (ptr e end_ : Nat) (t' : List bucket)
    (fl : Bool) (h : shift_buckets_forward t ptr e end_ = some (t', fl)) :
    t'.length = t.length := by
  unfold shift_buckets_forward at h
  cases hf : rh_find_free t e end_ (t.length + 1) ptr with
  | none => rw [hf] at h; simp at h
  | some o =>
    rw [hf] at h
    cases o with
    | none => simp at h; rw [h.1]
    | some freespace =>
      simp only at h
      cases hm : rh_move_forward ptr (t.length + 1) t freespace (freespace - 1) with
      | none => rw [hm] at h; simp at h
      | some t1 =>
        rw [hm] at h
        simp at h
        rw [← h.1]
        exact rh_move_forward_length _ _ _ _ _ _ hm

theorem cuckoo_walk_length (H : Hashers) (m : base_hashmap) :
    ∀ fuel (t : List bucket) ptr kick_list t' res,
      cuckoo_walk H m fuel t ptr kick_list = some (t', res) → t'.length = t.length := by
  intro fuel
  induction fuel with
  | zero => intro _ _ _ _ _ h; simp [cuckoo_walk] at h
  | succ fuel ih =>
    intro t ptr kick_list t' res h
    unfold cuckoo_walk at h
    cases hb : t[ptr]? with
    | none => rw [hb] at h; simp at h
    | some b =>
      rw [hb] at h
      simp only at h
      cases hb2 : t[m._half_start + (calc_alt_hash H b.kv.1 &&& m._half_mask)]? with
      | none => rw [hb2] at h; simp at h
      | some b2 =>
        rw [hb2] at h
        simp only at h
        by_cases he : b2.h = _empty
        · rw [if_pos he] at h
          simp at h
          rw [h.1]
        · rw [if_neg he] at h
          cases hb3 : (t.set (m._half_start + (calc_alt_hash H b.kv.1 &&& m._half_mask))
              { b2 with h := calc_alt_hash H b.kv.1 })[_calc_hash H b2.kv.1 &&& m._half_mask]? with
          | none => rw [hb3] at h; simp at h
          | some b3 =>
            rw [hb3] at h
            simp only at h
            by_cases he3 : b3.h = _empty
            · rw [if_pos he3] at h
              simp at h
              rw [← h.1, List.length_set]
            · rw [if_neg he3] at h
              split at h
              · simp at h
                rw [← h.1, List.length_set, List.length_set]
              · rw [ih _ _ _ _ _ h, List.length_set, List.length_set]

theorem cuckoo_shift_length (kick_list : List Nat) :
    ∀ i (t t' : List bucket), cuckoo_shift kick_list i t = some t' → t'.length = t.length := by
  intro i
  induction i with
  | zero => intro t t' h; simp [cuckoo_shift] at h; rw [h]
  | succ i ih =>
    intro t t' h
    unfold cuckoo_shift at h
    split at h
    · split at h
      · rw [ih _ _ h, List.length_set]
      · cases h
    · cases h

end kirby

namespace kirby

/-! ## Geometry of reachable states -/

end kirby

namespace kirby

/-! ## Fresh tables: construction and `clear` -/

theorem construct_eq (p : Policy) (n : Nat) :
    construct p n = base_hashmap.mk_base n (ovf p) 0 := by
  cases p <;> rfl

/-- The table `_init` leaves after `assign`: EMPTY buckets and the terminator. -/
theorem fresh_table_get (c o : Nat) :
    let t := (List.replicate (c + o + 1) empty_bucket).set (c + o)
      { (List.replicate (c + o + 1) empty_bucket).getD (c + o) empty_bucket with h := _last }
    t.length = c + o + 1 ∧ (∀ i, i < c + o → t[i]? = some empty_bucket)
      ∧ t[c + o]? = some ⟨_last, (0, 0)⟩ := by
  intro t
  refine ⟨by simp [t], ?_, ?_⟩
  · intro i hi
    simp only [t, List.getElem?_set, List.getElem?_replicate]
    rw [if_neg (by omega), if_pos (by omega)]
  · simp only [t, List.getElem?_set, List.length_replicate, List.getD_eq_getElem?_getD,
      List.getElem?_replicate]
    simp [empty_bucket]

theorem construct_spec (p : Policy) (n : Nat) :
    ∃ m j, construct p n = some m ∧ Geometry p m ∧ Fresh m ∧ 3 ≤ j ∧ j ≤ 31
      ∧ _next_size_up n = some (2 ^ j) ∧ m._max_size = 2 ^ j
      ∧ m._max_true_size = 2 ^ j * 8556380 / 16777216 := by
  obtain ⟨j, h3, h31, hnsu, _⟩ := next_size_up_spec n
  rw [construct_eq]
  unfold base_hashmap.mk_base
  rw [hnsu]
  simp only
  have hp := pow_le_pow31 h31
  have hp8 := pow_ge_8 h3
  have ho := ovf_le p
  obtain ⟨m', hinit, hg, hms, hs, hts, htab, hmts⟩ := init_fresh_geometry p
    { _table := [], _end := 0, _half_start := 0, _mask := 0, _half_mask := 0, _size := 0,
      _true_size := 0, _max_size := 0, _max_true_size := 0, _overflow_area_size := ovf p,
      _neighborhood := 0 } j h3 h31 rfl rfl
    (List.replicate (u32 (u32 (2 ^ j + ovf p) + 1)) empty_bucket) (List.length_replicate _ _)
  refine ⟨m', j, hinit, hg, ?_, h3, h31, rfl, hms, ?_⟩
  · have hlen : u32 (u32 (2 ^ j + ovf p) + 1) = 2 ^ j + ovf p + 1 := by
      rw [u32_of_lt (show 2 ^ j + ovf p < 4294967296 by omega), u32_of_lt (by omega)]
    rw [hlen] at htab
    obtain ⟨_, hsl, hl⟩ := fresh_table_get (2 ^ j) (ovf p)
    have hend : m'._end = 2 ^ j + ovf p := by rw [hg.end_eq, hms]
    exact ⟨by rw [hend, htab]; exact hsl, by rw [hend, htab]; exact hl, hs, hts⟩
  · rw [hmts]
    simp only [Nat.lt_irrefl, false_or]
    rw [if_pos]
    have : 8 * 8556380 / 16777216 ≤ 2 ^ j * 8556380 / 16777216 :=
      Nat.div_le_div_right (Nat.mul_le_mul_right _ hp8)
    omega

theorem clear_spec (p : Policy) (m : base_hashmap) (hg : Geometry p m) :
    ∃ m', m.clear = some m' ∧ Geometry p m' ∧ Fresh m' ∧ m'._max_size = m._max_size
      ∧ m'._max_true_size =
        (if m._true_size < m._max_true_size
            ∨ m._max_size * 8556380 / 16777216 > m._max_true_size
        then m._max_size * 8556380 / 16777216
        else u32 (m._max_true_size + u32 ((usub m._max_size m._max_true_size >>> 4) <<< 3))) := by
  obtain ⟨j, h3, h31, hj⟩ := hg.pow2
  have hp := pow_le_pow31 h31
  have ho := ovf_le p
  unfold base_hashmap.clear _resize_and_init
  obtain ⟨m', hinit, hg', hms, hs, hts, htab, hmts⟩ := init_fresh_geometry p m j h3 h31
    hg.overflow hg.neighborhood
    (List.replicate (u32 (u32 (m._max_size + m._overflow_area_size) + 1)) empty_bucket)
    (by rw [List.length_replicate, hj, hg.overflow])
  refine ⟨m', hinit, hg', ?_, by rw [hms, hj], by rw [hmts, hj]⟩
  have hlen : u32 (u32 (m._max_size + m._overflow_area_size) + 1) = 2 ^ j + ovf p + 1 := by
    rw [hj, hg.overflow, u32_of_lt (show 2 ^ j + ovf p < 4294967296 by omega),
      u32_of_lt (by omega)]
  rw [hlen] at htab
  obtain ⟨_, hsl, hl⟩ := fresh_table_get (2 ^ j) (ovf p)
  have hend : m'._end = 2 ^ j + ovf p := by rw [hg'.end_eq, hms]
  exact ⟨by rw [hend, htab]; exact hsl, by rw [hend, htab]; exact hl, hs, hts⟩

end kirby

namespace kirby

theorem empty_bucket_h : empty_bucket.h = 4294967295 := rfl

theorem half_index_lt {c : Nat} (x : Nat) (hc : 2 ≤ c) :
    x &&& (c / 2 - 1) < c / 2 := by
  have h1 : x &&& (c / 2 - 1) ≤ c / 2 - 1 := Nat.and_le_right
  omega

end kirby

namespace kirby

/-! ## The probe sequence -/

theorem probing_ovf {p : Policy} (hp : p.probing) : ovf p = 0 := by
  rcases hp with rfl | rfl <;> rfl

theorem probe_offset_succ (p : Policy) (i h : Nat) :
    probe_offset p (i + 1) = probe_offset p i + probe p (i + 1) h := by
  cases p with
  | quad =>
    simp only [probe_offset, probe]
    have h2 : (i + 1) * (i + 1 + 1) = i * (i + 1) + (i + 1) * 2 := by ring
    rw [h2, Nat.add_mul_div_right _ _ (by norm_num : 0 < 2)]
  | lin => simp [probe_offset, probe]
  | rh => simp [probe_offset, probe]
  | cc => simp [probe_offset, probe]

theorem probe_offset_zero (p : Policy) : probe_offset p 0 = 0 := by
  cases p <;> simp [probe_offset]

theorem probe_slot_lt (p : Policy) {c : Nat} (hc : 0 < c) (h i : Nat) :
    probe_slot p c h i < c := Nat.mod_lt _ hc

theorem probe_le (p : Policy) (i h : Nat) : probe p i h ≤ max i 1 := by
  cases p <;> simp [probe]

/-- The index arithmetic of one iteration: masking, then adding the stride in
`size_type`, then masking again gives the next slot of the probe sequence. -/
theorem probe_next (p : Policy) (j : Nat) (hj : j ≤ 31) (h i idx : Nat)
    (hi : i + 1 < 4294967296)
    (hidx : idx &&& (2 ^ j - 1) = probe_slot p (2 ^ j) h i) :
    u32 ((idx &&& (2 ^ j - 1)) + probe p (u32 (i + 1)) h) &&& (2 ^ j - 1)
      = probe_slot p (2 ^ j) h (i + 1) := by
  rw [hidx, u32_of_lt hi, and_mask_eq_mod]
  unfold u32 probe_slot
  have hdvd : 2 ^ j ∣ 4294967296 := by
    have : (4294967296 : Nat) = 2 ^ 32 := by norm_num
    rw [this]
    exact pow_dvd_pow 2 (by omega)
  rw [Nat.mod_mod_of_dvd _ hdvd, probe_offset_succ p i h, ← Nat.add_assoc]
  exact Nat.mod_add_mod _ _ _

/-! ## Triangular numbers cover a table whose size is a power of two -/

theorem tri_double (i : Nat) : 2 * (i * (i + 1) / 2) = i * (i + 1) := by
  have h : 2 ∣ i * (i + 1) := (Nat.even_mul_succ_self i).two_dvd
  exact Nat.mul_div_cancel' h

theorem tri_injective (j a b : Nat) (ha : a < 2 ^ j) (hb : b < 2 ^ j) (hab : a < b)
    (h : a * (a + 1) / 2 % 2 ^ j = b * (b + 1) / 2 % 2 ^ j) : False := by
  have hle : a * (a + 1) / 2 ≤ b * (b + 1) / 2 :=
    Nat.div_le_div_right (Nat.mul_le_mul (le_of_lt hab) (by omega))
  have hdvd : 2 ^ j ∣ b * (b + 1) / 2 - a * (a + 1) / 2 :=
    (Nat.modEq_iff_dvd' hle).mp h
  have hprod : 2 * (b * (b + 1) / 2 - a * (a + 1) / 2) = (b - a) * (a + b + 1) := by
    rw [Nat.mul_sub, tri_double, tri_double]
    obtain ⟨d, rfl⟩ : ∃ d, b = a + d := ⟨b - a, by omega⟩
    have : a + d - a = d := by omega
    rw [this]
    have h1 : a * (a + 1) ≤ (a + d) * (a + d + 1) := Nat.mul_le_mul (by omega) (by omega)
    zify [h1]
    ring
  have hdvd2 : 2 ^ (j + 1) ∣ (b - a) * (a + b + 1) := by
    rw [← hprod, pow_succ, mul_comm]
    exact Nat.mul_dvd_mul_left 2 hdvd
  have hpos1 : 0 < b - a := by omega
  have hlt1 : b - a < 2 ^ (j + 1) := by rw [pow_succ]; omega
  have hlt2 : a + b + 1 < 2 ^ (j + 1) := by rw [pow_succ]; omega
  rcases Nat.even_or_odd (b - a) with he | ho
  · have hodd : Odd (a + b + 1) := by
      rcases he with ⟨r, hr⟩
      exact ⟨a + r, by omega⟩
    have hcop : Nat.Coprime (2 ^ (j + 1)) (a + b + 1) :=
      Nat.Coprime.pow_left _ (Nat.coprime_two_left.mpr hodd)
    have := hcop.dvd_of_dvd_mul_right hdvd2
    have := Nat.le_of_dvd hpos1 this
    omega
  · have hcop : Nat.Coprime (2 ^ (j + 1)) (b - a) :=
      Nat.Coprime.pow_left _ (Nat.coprime_two_left.mpr ho)
    have := hcop.dvd_of_dvd_mul_left hdvd2
    have := Nat.le_of_dvd (by omega) this
    omega

end kirby

namespace kirby

theorem tri_surjective (j s : Nat) (hs : s < 2 ^ j) :
    ∃ n, n < 2 ^ j ∧ n * (n + 1) / 2 % 2 ^ j = s := by
  have hpos : 0 < 2 ^ j := by positivity
  let f : Fin (2 ^ j) → Fin (2 ^ j) := fun n => ⟨n.1 * (n.1 + 1) / 2 % 2 ^ j, Nat.mod_lt _ hpos⟩
  have hinj : Function.Injective f := by
    intro a b hab
    have h : a.1 * (a.1 + 1) / 2 % 2 ^ j = b.1 * (b.1 + 1) / 2 % 2 ^ j :=
      congrArg Fin.val hab
    rcases Nat.lt_trichotomy a.1 b.1 with hlt | heq | hgt
    · exact (tri_injective j a.1 b.1 a.2 b.2 hlt h).elim
    · exact Fin.ext heq
    · exact (tri_injective j b.1 a.1 b.2 a.2 hgt h.symm).elim
  obtain ⟨n, hn⟩ := (Finite.injective_iff_surjective.mp hinj) ⟨s, hs⟩
  exact ⟨n.1, n.2, congrArg Fin.val hn⟩

theorem offset_surjective (p : Policy) (j s : Nat) (hs : s < 2 ^ j) :
    ∃ n, n < 2 ^ j ∧ probe_offset p n % 2 ^ j = s := by
  cases p with
  | quad => exact tri_surjective j s hs
  | lin => exact ⟨s, hs, Nat.mod_eq_of_lt hs⟩
  | rh => exact ⟨s, hs, Nat.mod_eq_of_lt hs⟩
  | cc => exact ⟨s, hs, Nat.mod_eq_of_lt hs⟩

/-- Within `2^j` probes the probe sequence of any tag visits every slot of a
table of capacity `2^j`. -/
theorem probe_slot_surjective (p : Policy) (j h s : Nat) (hs : s < 2 ^ j) :
    ∃ n, n < 2 ^ j ∧ probe_slot p (2 ^ j) h n = s := by
  have hpos : 0 < 2 ^ j := by positivity
  have hr : h % 2 ^ j < 2 ^ j := Nat.mod_lt _ hpos
  obtain ⟨n, hn, hoff⟩ := offset_surjective p j ((s + 2 ^ j - h % 2 ^ j) % 2 ^ j)
    (Nat.mod_lt _ hpos)
  refine ⟨n, hn, ?_⟩
  unfold probe_slot
  rw [Nat.add_mod, hoff, Nat.add_mod_mod]
  by_cases hle : h % 2 ^ j ≤ s
  · have : h % 2 ^ j + (s + 2 ^ j - h % 2 ^ j) = s + 2 ^ j := by omega
    rw [this, Nat.add_mod_right, Nat.mod_eq_of_lt hs]
  · have : h % 2 ^ j + (s + 2 ^ j - h % 2 ^ j) = s + 2 ^ j := by omega
    rw [this, Nat.add_mod_right, Nat.mod_eq_of_lt hs]

end kirby

namespace kirby

/-! ## The probing loops stop at the first EMPTY or matching slot -/

theorem probing_find_loop_spec (p : Policy) (m : base_hashmap) (j : Nat) (hj : j ≤ 31)
    (hmask : m._mask = 2 ^ j - 1) (k : Key) (h : Nat) :
    ∀ fuel i idx n, idx &&& m._mask = probe_slot p (2 ^ j) h i → i ≤ n → n < i + fuel →
      n + 1 < 4294967296 →
      (∀ x, i ≤ x → x < n → ∃ b, m._table[probe_slot p (2 ^ j) h x]? = some b ∧
        b.h ≠ _empty ∧ ¬(b.h = h ∧ b.kv.1 = k)) →
      ∀ b, m._table[probe_slot p (2 ^ j) h n]? = some b →
        (b.h = _empty ∨ (b.h = h ∧ b.kv.1 = k)) →
        probing_find_loop p m k h fuel i idx
          = some (if b.h = h ∧ b.kv.1 = k then probe_slot p (2 ^ j) h n else m._end) := by
  intro fuel
  induction fuel with
  | zero => intro i idx n _ h1 h2; omega
  | succ fuel ih =>
    intro i idx n hidx hin hn hn32 hbefore b hb hstop
    unfold probing_find_loop
    simp only [hidx]
    by_cases hi : i = n
    · subst hi
      rw [hb]
      simp only
      by_cases hm : b.h = h ∧ b.kv.1 = k
      · rw [if_pos hm, if_pos hm]
      · rw [if_neg hm, if_neg hm]
        have he : b.h = _empty := hstop.resolve_right hm
        rw [if_neg (by simp [he])]
    · obtain ⟨b', hb', hne, hnm⟩ := hbefore i (le_refl _) (by omega)
      rw [hb']
      simp only
      rw [if_neg hnm, if_pos hne]
      have hnext := probe_next p j hj h i idx (by omega) (hmask ▸ hidx)
      rw [← hmask, hidx] at hnext
      rw [u32_of_lt (show i + 1 < 4294967296 by omega)] at hnext ⊢
      exact ih (i + 1) _ n hnext (by omega) (by omega) hn32
        (fun x hx1 hx2 => hbefore x (by omega) hx2) b hb hstop

theorem probing_try_loop_spec (p : Policy) (fwt : base_hashmap → Key → Nat → Option Located)
    (m : base_hashmap) (j : Nat) (hj : j ≤ 31)
    (hmask : m._mask = 2 ^ j - 1) (k : Key) (h : Nat) :
    ∀ fuel i idx n, idx &&& m._mask = probe_slot p (2 ^ j) h i → i ≤ n → n < i + fuel →
      n + 1 < 4294967296 →
      (∀ x, i ≤ x → x < n → ∃ b, m._table[probe_slot p (2 ^ j) h x]? = some b ∧
        b.h ≠ _empty ∧ ¬(b.h = h ∧ b.kv.1 = k)) →
      ∀ b, m._table[probe_slot p (2 ^ j) h n]? = some b →
        (b.h = _empty ∨ (b.h = h ∧ b.kv.1 = k)) →
        probing_try_loop p fwt m k h fuel i idx
          = (if b.h = _empty then _insert fwt m (probe_slot p (2 ^ j) h n) k h
             else some (m, probe_slot p (2 ^ j) h n, true)) := by
  intro fuel
  induction fuel with
  | zero => intro i idx n _ h1 h2; omega
  | succ fuel ih =>
    intro i idx n hidx hin hn hn32 hbefore b hb hstop
    unfold probing_try_loop
    simp only [hidx]
    by_cases hi : i = n
    · subst hi
      rw [hb]
      simp only
      by_cases he : b.h = _empty
      · rw [if_pos he, if_pos he]
      · rw [if_neg he, if_neg he]
        have hm : b.h = h ∧ b.kv.1 = k := hstop.resolve_left he
        rw [if_neg (by simp [hm.1, hm.2])]
    · obtain ⟨b', hb', hne, hnm⟩ := hbefore i (le_refl _) (by omega)
      rw [hb']
      simp only
      rw [if_neg hne, if_pos (by tauto)]
      have hnext := probe_next p j hj h i idx (by omega) (hmask ▸ hidx)
      rw [← hmask, hidx] at hnext
      rw [u32_of_lt (show i + 1 < 4294967296 by omega)] at hnext ⊢
      exact ih (i + 1) _ n hnext (by omega) (by omega) hn32
        (fun x hx1 hx2 => hbefore x (by omega) hx2) b hb hstop

end kirby

namespace kirby

/-! ## Lookup in a table that satisfies the invariant -/

theorem live_of_tag_lt {b : bucket} (h : b.h < 2147483648) : b.live := by
  unfold bucket.live; rw [code_val]; omega

theorem live_not_empty {b : bucket} (h : b.live) : b.h ≠ _empty := by
  unfold bucket.live at h; rw [code_val] at h; rw [empty_val]; omega

theorem ProbingInv.tag_of_live {p : Policy} {H : Hashers} {m : base_hashmap}
    (hinv : ProbingInv p H m) {s : Nat} {b : bucket} (hs : s < m._max_size)
    (hb : m._table[s]? = some b) (hl : b.live) : b.h = _calc_hash H b.kv.1 := by
  unfold bucket.live at hl
  rw [code_val] at hl
  rcases hinv.tags s b hs hb with h | ⟨_, h⟩ | h
  · rw [empty_val] at h; omega
  · rw [tombstone_val] at h; omega
  · exact h

theorem slot_get {p : Policy} {m : base_hashmap} (hg : Geometry p m) {s : Nat}
    (hs : s < m._max_size) : ∃ b, m._table[s]? = some b := by
  have : s < m._table.length := by rw [hg.length]; omega
  exact ⟨_, List.getElem?_eq_getElem this⟩

theorem exists_empty_slot {p : Policy} {H : Hashers} {m : base_hashmap}
    (hinv : ProbingInv p H m) :
    ∃ s b, s < m._max_size ∧ m._table[s]? = some b ∧ b.h = _empty := by
  have hlen : (m._table.take m._max_size).length = m._max_size := by
    rw [List.length_take, hinv.geo.length]; omega
  have hlt : (m._table.take m._max_size).countP (fun b => decide (b.h ≠ _empty))
      < (m._table.take m._max_size).length := by
    rw [← hinv.true_size, hlen]
    have := hinv.threshold
    omega
  have hex : ∃ b ∈ m._table.take m._max_size, ¬ (decide (b.h ≠ _empty) = true) := by
    by_contra hcon
    push_neg at hcon
    have := List.countP_eq_length.mpr hcon
    omega
  obtain ⟨b, hmem, hb⟩ := hex
  obtain ⟨s, hs⟩ := List.mem_iff_getElem?.mp hmem
  have hslt : s < m._max_size := by
    have := (List.getElem?_eq_some.mp hs).1
    omega
  rw [List.getElem?_take, if_pos hslt] at hs
  exact ⟨s, b, hslt, hs, by simpa using hb⟩

/-- The first slot of the probe sequence of `h` that is EMPTY or holds `k`. -/
theorem first_stop {p : Policy} {H : Hashers} {m : base_hashmap}
    (hinv : ProbingInv p H m) (k : Key) (h : Nat) :
    ∃ n b, n < m._max_size ∧ m._table[probe_slot p m._max_size h n]? = some b ∧
      (b.h = _empty ∨ (b.h = h ∧ b.kv.1 = k)) ∧
      ∀ x, x < n → ∃ b', m._table[probe_slot p m._max_size h x]? = some b' ∧
        b'.h ≠ _empty ∧ ¬(b'.h = h ∧ b'.kv.1 = k) := by
  classical
  obtain ⟨j, h3, h31, hj⟩ := hinv.geo.pow2
  have hpos : 0 < m._max_size := by rw [hj]; positivity
  obtain ⟨s, be, hs, hbe, hee⟩ := exists_empty_slot hinv
  obtain ⟨n0, hn0, hslot⟩ := probe_slot_surjective p j h s (hj ▸ hs)
  let P : Nat → Prop := fun n => ∃ b, m._table[probe_slot p m._max_size h n]? = some b ∧
      (b.h = _empty ∨ (b.h = h ∧ b.kv.1 = k))
  have hP : ∃ n, P n := ⟨n0, be, by rw [hj, hslot]; exact hbe, Or.inl hee⟩
  obtain ⟨b, hb, hstop⟩ := Nat.find_spec hP
  refine ⟨Nat.find hP, b, ?_, hb, hstop, ?_⟩
  · have : Nat.find hP ≤ n0 := Nat.find_min' hP ⟨be, by rw [hj, hslot]; exact hbe, Or.inl hee⟩
    omega
  · intro x hx
    obtain ⟨b', hb'⟩ := slot_get hinv.geo (probe_slot_lt p hpos h x)
    refine ⟨b', hb', ?_, ?_⟩
    · intro he
      exact Nat.find_min hP hx ⟨b', hb', Or.inl he⟩
    · intro hm
      exact Nat.find_min hP hx ⟨b', hb', Or.inr hm⟩

theorem probing_find_eq {p : Policy} (hp : p.probing) (H : Hashers) (m : base_hashmap)
    (k : Key) : find_without_inserting p H m k
      = probing_find_loop p m k (_calc_hash H k) m._table.length 0 (_calc_hash H k) := by
  rcases hp with rfl | rfl <;> rfl

/-- The lookup of a key held in a live bucket returns that bucket. -/
theorem probing_find_present {p : Policy} (hp : p.probing) {H : Hashers} {m : base_hashmap}
    (hinv : ProbingInv p H m) {s : Nat} {b : bucket} (hs : s < m._max_size)
    (hb : m._table[s]? = some b) (hl : b.live) :
    find_without_inserting p H m b.kv.1 = some s := by
  obtain ⟨j, h3, h31, hj⟩ := hinv.geo.pow2
  have hc := pow_le_pow31 h31
  have htag := hinv.tag_of_live hs hb hl
  obtain ⟨n, bn, hn, hbn, hstop, hbefore⟩ := first_stop hinv b.kv.1 (_calc_hash H b.kv.1)
  have hmask : m._mask = 2 ^ j - 1 := by rw [hinv.geo.mask, hj]
  rw [probing_find_eq hp]
  have h0 : _calc_hash H b.kv.1 &&& m._mask
      = probe_slot p (2 ^ j) (_calc_hash H b.kv.1) 0 := by
    rw [hmask, and_mask_eq_mod]; simp [probe_slot, probe_offset_zero]
  rw [hj] at hbn hbefore hn
  rw [probing_find_loop_spec p m j h31 hmask b.kv.1 _ _ 0 _ n h0 (Nat.zero_le _)
    (by rw [hinv.geo.length, hj]; omega) (by omega)
    (fun x _ hx => hbefore x hx) bn hbn hstop]
  have hpos : 0 < 2 ^ j := by positivity
  have hslt : probe_slot p (2 ^ j) (_calc_hash H b.kv.1) n < m._max_size := by
    rw [hj]; exact probe_slot_lt p hpos _ _
  by_cases hm : bn.h = _calc_hash H b.kv.1 ∧ bn.kv.1 = b.kv.1
  · rw [if_pos hm]
    have hln : bn.live := live_of_tag_lt (hm.1 ▸ calc_hash_lt H _)
    rw [hinv.nodup _ _ _ _ hslt hs hbn hb hln hl hm.2]
  · exfalso
    have he : bn.h = _empty := hstop.resolve_right hm
    obtain ⟨n', hn', hslot', hpath⟩ := hinv.path s b hs hb hl
    rw [hj, htag] at hslot' hpath
    rw [hj] at hn'
    rcases Nat.lt_trichotomy n n' with hlt | heq | hgt
    · obtain ⟨b2, hb2, hne2⟩ := hpath n hlt
      rw [hbn] at hb2
      cases hb2
      exact hne2 he
    · rw [heq, hslot', hb] at hbn
      cases hbn
      exact live_not_empty hl he
    · obtain ⟨b3, hb3, _, hnm⟩ := hbefore n' hgt
      rw [hslot', hb] at hb3
      cases hb3
      exact hnm ⟨htag, rfl⟩

/-- The lookup of a key that no live bucket holds returns `_end`. -/
theorem probing_find_absent {p : Policy} (hp : p.probing) {H : Hashers} {m : base_hashmap}
    (hinv : ProbingInv p H m) (k : Key)
    (habs : ∀ s b, s < m._max_size → m._table[s]? = some b → b.live → b.kv.1 ≠ k) :
    find_without_inserting p H m k = some m._end := by
  obtain ⟨j, h3, h31, hj⟩ := hinv.geo.pow2
  have hc := pow_le_pow31 h31
  obtain ⟨n, bn, hn, hbn, hstop, hbefore⟩ := first_stop hinv k (_calc_hash H k)
  have hmask : m._mask = 2 ^ j - 1 := by rw [hinv.geo.mask, hj]
  rw [probing_find_eq hp]
  have h0 : _calc_hash H k &&& m._mask = probe_slot p (2 ^ j) (_calc_hash H k) 0 := by
    rw [hmask, and_mask_eq_mod]; simp [probe_slot, probe_offset_zero]
  rw [hj] at hbn hbefore hn
  rw [probing_find_loop_spec p m j h31 hmask k _ _ 0 _ n h0 (Nat.zero_le _)
    (by rw [hinv.geo.length, hj]; omega) (by omega)
    (fun x _ hx => hbefore x hx) bn hbn hstop]
  have hpos : 0 < 2 ^ j := by positivity
  have hslt : probe_slot p (2 ^ j) (_calc_hash H k) n < m._max_size := by
    rw [hj]; exact probe_slot_lt p hpos _ _
  rw [if_neg]
  intro hm
  exact habs _ bn hslt hbn (live_of_tag_lt (hm.1 ▸ calc_hash_lt H _)) hm.2

end kirby

namespace kirby

/-! ## Counting buckets after an assignment -/

theorem countP_set_take (P : bucket → Bool) (t : List bucket) (c s : Nat) (a b : bucket)
    (hs : s < c) (hc : c ≤ t.length) (ha : t[s]? = some a) :
    ((t.set s b).take c).countP P + (if P a then 1 else 0)
      = (t.take c).countP P + (if P b then 1 else 0) := by
  have hlen : s < (t.take c).length := by rw [List.length_take]; omega
  have hget : (t.take c)[s] = a := by
    have h1 : (t.take c)[s]? = some a := by rw [List.getElem?_take, if_pos hs]; exact ha
    have h2 := List.getElem?_eq_getElem hlen
    rw [h1] at h2
    exact (Option.some.inj h2).symm
  rw [List.set_take, List.countP_set P _ s b hlen, hget]
  have := List.boole_getElem_le_countP P (t.take c) s hlen
  rw [hget] at this
  omega

theorem live_le_nonempty (l : List bucket) :
    l.countP (fun b => decide b.live) ≤ l.countP (fun b => decide (b.h ≠ _empty)) := by
  apply List.countP_mono_left
  intro b _ hb
  simp only [decide_eq_true_eq] at hb ⊢
  exact live_not_empty hb

theorem ProbingInv.size_le {p : Policy} {H : Hashers} {m : base_hashmap}
    (hinv : ProbingInv p H m) : m._size ≤ m._true_size := by
  rw [hinv.size, hinv.true_size]
  exact live_le_nonempty _

theorem slot_nonempty_set {t : List bucket} {s x : Nat} {b : bucket} (hb : b.h ≠ _empty)
    (hx : slot_nonempty t x) : slot_nonempty (t.set s b) x := by
  obtain ⟨bx, hbx, hne⟩ := hx
  by_cases hsx : s = x
  · subst hsx
    have hlt : s < t.length := (List.getElem?_eq_some.mp hbx).1
    exact ⟨b, by rw [List.getElem?_set_self hlt], hb⟩
  · exact ⟨bx, by rw [List.getElem?_set_ne hsx]; exact hbx, hne⟩

theorem get_set_cases {t : List bucket} {s x : Nat} {b bx : bucket}
    (h : (t.set s b)[x]? = some bx) : (x = s ∧ bx = b) ∨ (x ≠ s ∧ t[x]? = some bx) := by
  by_cases hsx : s = x
  · subst hsx
    have hlt : s < t.length := by
      have := (List.getElem?_eq_some.mp h).1
      rwa [List.length_set] at this
    rw [List.getElem?_set_self hlt] at h
    exact Or.inl ⟨rfl, (Option.some.inj h).symm⟩
  · rw [List.getElem?_set_ne hsx] at h
    exact Or.inr ⟨fun h' => hsx h'.symm, h⟩

end kirby

namespace kirby

/-! ## The invariant after occupying an EMPTY slot and after writing a value -/

/-- Writing a value into a live bucket keeps the invariant. -/
theorem ProbingInv.set_value {p : Policy} {H : Hashers} {m : base_hashmap}
    (hinv : ProbingInv p H m) {s : Nat} {a : bucket} (hs : s < m._max_size)
    (ha : m._table[s]? = some a) (v : T) :
    ProbingInv p H { m with _table := m._table.set s { a with kv := (a.kv.1, v) } } := by
  have hlen : s < m._table.length := (List.getElem?_eq_some.mp ha).1
  have hcl : m._max_size ≤ m._table.length := by rw [hinv.geo.length]; omega
  have hne : ∀ x, slot_nonempty m._table x →
      slot_nonempty (m._table.set s { a with kv := (a.kv.1, v) }) x := by
    intro x ⟨bx, hbx, hnx⟩
    by_cases hsx : s = x
    · subst hsx
      rw [ha] at hbx; cases hbx
      exact ⟨_, List.getElem?_set_self hlen, hnx⟩
    · exact ⟨bx, by rw [List.getElem?_set_ne hsx]; exact hbx, hnx⟩
  have hback : ∀ (x : Nat) (bx : bucket), (m._table.set s { a with kv := (a.kv.1, v) })[x]? = some bx →
      ∃ bo, m._table[x]? = some bo ∧ bo.h = bx.h ∧ bo.kv.1 = bx.kv.1 := by
    intro x bx hx
    rcases get_set_cases hx with ⟨rfl, rfl⟩ | ⟨_, h⟩
    · exact ⟨a, ha, rfl, rfl⟩
    · exact ⟨bx, h, rfl, rfl⟩
  refine
    { geo := geometry_update hinv.geo _ (List.length_set _ _ _) _ _
      tags := ?_, nodup := ?_, path := ?_, size := ?_, true_size := ?_
      threshold := hinv.threshold
      last := by
        obtain ⟨bl, hbl, hl⟩ := hinv.last
        exact ⟨bl, by
          show (m._table.set s _)[m._max_size]? = _
          rw [List.getElem?_set_ne (by omega)]; exact hbl, hl⟩ }
  · intro x bx hx hbx
    obtain ⟨bo, hbo, hh, hk⟩ := hback x bx hbx
    have := hinv.tags x bo hx hbo
    rw [hh, hk] at this
    exact this
  · intro x x' bx bx' hx hx' hbx hbx' hl hl' hkk
    obtain ⟨bo, hbo, hh, hk⟩ := hback x bx hbx
    obtain ⟨bo', hbo', hh', hk'⟩ := hback x' bx' hbx'
    exact hinv.nodup x x' bo bo' hx hx' hbo hbo' (by unfold bucket.live; rw [hh]; exact hl)
      (by unfold bucket.live; rw [hh']; exact hl') (by rw [hk, hk']; exact hkk)
  · intro x bx hx hbx hl
    obtain ⟨bo, hbo, hh, hk⟩ := hback x bx hbx
    obtain ⟨n, hn, hslot, hp⟩ := hinv.path x bo hx hbo (by unfold bucket.live; rw [hh]; exact hl)
    rw [hh] at hslot hp
    exact ⟨n, hn, hslot, fun i hi => hne _ (hp i hi)⟩
  · have h1 : ((m._table.set s { a with kv := (a.kv.1, v) }).take m._max_size).countP
          (fun b => decide b.live) + (if decide a.live then 1 else 0)
        = (m._table.take m._max_size).countP (fun b => decide b.live)
          + (if decide a.live then 1 else 0) :=
      countP_set_take (fun b => decide b.live) m._table m._max_size s a
        { a with kv := (a.kv.1, v) } hs hcl ha
    show m._size = ((m._table.set s { a with kv := (a.kv.1, v) }).take m._max_size).countP
      (fun b => decide b.live)
    rw [hinv.size]
    omega
  · have h1 : ((m._table.set s { a with kv := (a.kv.1, v) }).take m._max_size).countP
          (fun b => decide (b.h ≠ _empty)) + (if decide (a.h ≠ _empty) then 1 else 0)
        = (m._table.take m._max_size).countP (fun b => decide (b.h ≠ _empty))
          + (if decide (a.h ≠ _empty) then 1 else 0) :=
      countP_set_take (fun b => decide (b.h ≠ _empty)) m._table m._max_size s a
        { a with kv := (a.kv.1, v) } hs hcl ha
    show m._true_size
      = ((m._table.set s { a with kv := (a.kv.1, v) }).take m._max_size).countP
        (fun b => decide (b.h ≠ _empty))
    rw [hinv.true_size]
    omega

/-- Occupying the first EMPTY slot of the probe sequence of an absent key keeps
the invariant. -/
theorem ProbingInv.occupy {p : Policy} {H : Hashers} {m : base_hashmap}
    (hinv : ProbingInv p H m) (k : Key) {n : Nat} {a : bucket} (hn : n < m._max_size)
    (ha : m._table[probe_slot p m._max_size (_calc_hash H k) n]? = some a)
    (he : a.h = _empty)
    (hbefore : ∀ x, x < n →
      slot_nonempty m._table (probe_slot p m._max_size (_calc_hash H k) x))
    (habs : ∀ s b, s < m._max_size → m._table[s]? = some b → b.live → b.kv.1 ≠ k)
    (hroom : m._true_size + 1 ≤ m._max_true_size) (v : T) :
    ProbingInv p H { m with
      _true_size := m._true_size + 1
      _size := m._size + 1
      _table := m._table.set (probe_slot p m._max_size (_calc_hash H k) n)
        { h := _calc_hash H k, kv := (k, v) } } := by
  obtain ⟨j, h3, h31, hj⟩ := hinv.geo.pow2
  have hpos : 0 < m._max_size := by rw [hj]; positivity
  set s := probe_slot p m._max_size (_calc_hash H k) n with hsdef
  have hs : s < m._max_size := probe_slot_lt p hpos _ _
  have hlen : s < m._table.length := (List.getElem?_eq_some.mp ha).1
  have hcl : m._max_size ≤ m._table.length := by rw [hinv.geo.length]; omega
  have hnew_ne : (bucket.mk (_calc_hash H k) (k, v)).h ≠ _empty := by
    have := calc_hash_lt H k
    rw [empty_val]; simp only; omega
  have hnew_live : (bucket.mk (_calc_hash H k) (k, v)).live :=
    live_of_tag_lt (calc_hash_lt H k)
  refine
    { geo := geometry_update hinv.geo _ (List.length_set _ _ _) _ _
      tags := ?_, nodup := ?_, path := ?_, size := ?_, true_size := ?_
      threshold := ⟨hroom, hinv.threshold.2⟩
      last := by
        obtain ⟨bl, hbl, hl⟩ := hinv.last
        exact ⟨bl, by
          show (m._table.set s _)[m._max_size]? = _
          rw [List.getElem?_set_ne (by omega)]; exact hbl, hl⟩ }
  · intro x bx hx hbx
    rcases get_set_cases hbx with ⟨_, rfl⟩ | ⟨_, h⟩
    · exact Or.inr (Or.inr rfl)
    · exact hinv.tags x bx hx h
  · intro x x' bx bx' hx hx' hbx hbx' hl hl' hkk
    rcases get_set_cases hbx with ⟨rfl, rfl⟩ | ⟨hxs, h⟩
    · rcases get_set_cases hbx' with ⟨rfl, _⟩ | ⟨_, h'⟩
      · rfl
      · exact absurd hkk.symm (habs x' bx' hx' h' hl')
    · rcases get_set_cases hbx' with ⟨rfl, rfl⟩ | ⟨_, h'⟩
      · exact absurd hkk (habs x bx hx h hl)
      · exact hinv.nodup x x' bx bx' hx hx' h h' hl hl' hkk
  · intro x bx hx hbx hl
    rcases get_set_cases hbx with ⟨rfl, rfl⟩ | ⟨_, h⟩
    · exact ⟨n, hn, rfl, fun i hi => slot_nonempty_set hnew_ne (hbefore i hi)⟩
    · obtain ⟨n', hn', hslot, hp⟩ := hinv.path x bx hx h hl
      exact ⟨n', hn', hslot, fun i hi => slot_nonempty_set hnew_ne (hp i hi)⟩
  · have := countP_set_take (fun b => decide b.live) m._table m._max_size s a
      { h := _calc_hash H k, kv := (k, v) } hs hcl ha
    have h1 : decide a.live = false := by
      simp only [decide_eq_false_iff_not]
      intro hl; exact live_not_empty hl he
    have h2 : decide (bucket.live { h := _calc_hash H k, kv := (k, v) }) = true := by
      simp only [decide_eq_true_eq]; exact hnew_live
    simp only [h1, h2, Bool.false_eq_true, if_false, if_true, Nat.add_zero] at this
    show m._size + 1 = ((m._table.set s { h := _calc_hash H k, kv := (k, v) }).take
      m._max_size).countP (fun b => decide b.live)
    rw [hinv.size]
    exact this.symm
  · have := countP_set_take (fun b => decide (b.h ≠ _empty)) m._table m._max_size s a
      { h := _calc_hash H k, kv := (k, v) } hs hcl ha
    have h1 : decide (a.h ≠ _empty) = false := by simp [he]
    have h2 : decide ((bucket.mk (_calc_hash H k) (k, v)).h ≠ _empty) = true := by
      simp only [decide_eq_true_eq]; exact hnew_ne
    simp only [h1, h2, Bool.false_eq_true, if_false, if_true, Nat.add_zero] at this
    show m._true_size + 1 = ((m._table.set s { h := _calc_hash H k, kv := (k, v) }).take
      m._max_size).countP (fun b => decide (b.h ≠ _empty))
    rw [hinv.true_size]
    exact this.symm

end kirby

namespace kirby

/-! ## `find_while_trying` on a table that satisfies the invariant -/

theorem absent_iff_not_holds (m : base_hashmap) (k : Key) :
    Absent m k ↔ ∀ v, ¬ Holds m k v := by
  constructor
  · intro ha v ⟨s, b, hs, hb, hl, hkv⟩
    exact ha s b hs hb hl (by rw [hkv])
  · intro hn s b hs hb hl hk
    exact hn b.kv.2 ⟨s, b, hs, hb, hl, by rw [← hk]⟩

theorem probing_fwt_eq {p : Policy} (hp : p.probing) (H : Hashers) (fuel : Nat)
    (m : base_hashmap) (k : Key) (h : Nat) :
    find_while_trying p H (fuel + 1) m k h
      = probing_try_loop p (find_while_trying p H fuel) m k h m._table.length 0 h := by
  rcases hp with rfl | rfl <;> rfl

/-- A present key is found where it is, and nothing changes. -/
theorem probing_try_present {p : Policy} {H : Hashers} {m : base_hashmap}
    (fwt : base_hashmap → Key → Nat → Option Located)
    (hinv : ProbingInv p H m) {s : Nat} {b : bucket} (hs : s < m._max_size)
    (hb : m._table[s]? = some b) (hl : b.live) :
    probing_try_loop p fwt m b.kv.1 (_calc_hash H b.kv.1) m._table.length 0
      (_calc_hash H b.kv.1) = some (m, s, true) := by
  obtain ⟨j, h3, h31, hj⟩ := hinv.geo.pow2
  have hc := pow_le_pow31 h31
  have htag := hinv.tag_of_live hs hb hl
  obtain ⟨n, bn, hn, hbn, hstop, hbefore⟩ := first_stop hinv b.kv.1 (_calc_hash H b.kv.1)
  have hmask : m._mask = 2 ^ j - 1 := by rw [hinv.geo.mask, hj]
  have h0 : _calc_hash H b.kv.1 &&& m._mask
      = probe_slot p (2 ^ j) (_calc_hash H b.kv.1) 0 := by
    rw [hmask, and_mask_eq_mod]; simp [probe_slot, probe_offset_zero]
  rw [hj] at hbn hbefore hn
  rw [probing_try_loop_spec p fwt m j h31 hmask b.kv.1 _ _ 0 _ n h0 (Nat.zero_le _)
    (by rw [hinv.geo.length, hj]; omega) (by omega)
    (fun x _ hx => hbefore x hx) bn hbn hstop]
  have hpos : 0 < 2 ^ j := by positivity
  have hslt : probe_slot p (2 ^ j) (_calc_hash H b.kv.1) n < m._max_size := by
    rw [hj]; exact probe_slot_lt p hpos _ _
  obtain ⟨n', hn', hslot', hpath⟩ := hinv.path s b hs hb hl
  rw [hj, htag] at hslot' hpath
  rw [hj] at hn'
  have hne : bn.h ≠ _empty := by
    intro he
    rcases Nat.lt_trichotomy n n' with hlt | heq | hgt
    · obtain ⟨b2, hb2, hne2⟩ := hpath n hlt
      rw [hbn] at hb2
      cases hb2
      exact hne2 he
    · rw [heq, hslot', hb] at hbn
      cases hbn
      exact live_not_empty hl he
    · obtain ⟨b3, hb3, _, hnm⟩ := hbefore n' hgt
      rw [hslot', hb] at hb3
      cases hb3
      exact hnm ⟨htag, rfl⟩
  rw [if_neg hne]
  have hm := hstop.resolve_left hne
  have hln : bn.live := live_of_tag_lt (hm.1 ▸ calc_hash_lt H _)
  rw [hinv.nodup _ _ _ _ hslt hs hbn hb hln hl hm.2]

/-- An absent key reaches `_insert` at the first EMPTY slot of its probe
sequence. -/
theorem probing_try_absent {p : Policy} {H : Hashers} {m : base_hashmap}
    (fwt : base_hashmap → Key → Nat → Option Located)
    (hinv : ProbingInv p H m) (k : Key) (habs : Absent m k) :
    ∃ n a, n < m._max_size ∧
      m._table[probe_slot p m._max_size (_calc_hash H k) n]? = some a ∧ a.h = _empty ∧
      (∀ x, x < n → slot_nonempty m._table (probe_slot p m._max_size (_calc_hash H k) x)) ∧
      probing_try_loop p fwt m k (_calc_hash H k) m._table.length 0 (_calc_hash H k)
        = _insert fwt m (probe_slot p m._max_size (_calc_hash H k) n) k (_calc_hash H k) := by
  obtain ⟨j, h3, h31, hj⟩ := hinv.geo.pow2
  have hc := pow_le_pow31 h31
  obtain ⟨n, bn, hn, hbn, hstop, hbefore⟩ := first_stop hinv k (_calc_hash H k)
  have hmask : m._mask = 2 ^ j - 1 := by rw [hinv.geo.mask, hj]
  have h0 : _calc_hash H k &&& m._mask = probe_slot p (2 ^ j) (_calc_hash H k) 0 := by
    rw [hmask, and_mask_eq_mod]; simp [probe_slot, probe_offset_zero]
  have hpos : 0 < 2 ^ j := by positivity
  have hslt : probe_slot p (2 ^ j) (_calc_hash H k) n < m._max_size := by
    rw [hj]; exact probe_slot_lt p hpos _ _
  have he : bn.h = _empty := by
    rcases hstop with he | hm
    · exact he
    · rw [hj] at hbn
      exact absurd hm.2 (habs _ bn hslt hbn (live_of_tag_lt (hm.1 ▸ calc_hash_lt H _)))
  refine ⟨n, bn, hn, hbn, he, fun x hx => ?_, ?_⟩
  · obtain ⟨b', hb', hne, _⟩ := hbefore x hx
    exact ⟨b', hb', hne⟩
  · rw [hj] at hbn hbefore hn ⊢
    rw [probing_try_loop_spec p fwt m j h31 hmask k _ _ 0 _ n h0 (Nat.zero_le _)
      (by rw [hinv.geo.length, hj]; omega) (by omega)
      (fun x _ hx => hbefore x hx) bn hbn hstop, if_pos he]

/-- The function `_insert` below the threshold. -/
theorem insert_room {p : Policy} {H : Hashers} {m : base_hashmap}
    (fwt : base_hashmap → Key → Nat → Option Located) (hinv : ProbingInv p H m)
    {s : Nat} {a : bucket} (ha : m._table[s]? = some a) (k : Key)
    (hroom : m._true_size + 1 ≤ m._max_true_size) :
    _insert fwt m s k (_calc_hash H k) = some (occupied H m s k a.kv.2, s, false) := by
  obtain ⟨j, h3, h31, hj⟩ := hinv.geo.pow2
  have hc := pow_le_pow31 h31
  have hthr := hinv.threshold
  have hsz := hinv.size_le
  unfold _insert
  simp only
  rw [u32_of_lt (show m._true_size + 1 < 4294967296 by omega), if_pos hroom, ha]
  simp only
  rw [u32_of_lt (show m._size + 1 < 4294967296 by omega)]
  rfl

/-- The function `_insert` at the threshold. -/
theorem insert_full {p : Policy} {H : Hashers} {m : base_hashmap}
    (fwt : base_hashmap → Key → Nat → Option Located) (hinv : ProbingInv p H m)
    (s : Nat) (k : Key) (h : Nat) (hfull : m._true_size = m._max_true_size) :
    _insert fwt m s k h
      = _insert_while_full fwt { m with _true_size := m._true_size + 1 } s k h := by
  obtain ⟨j, h3, h31, hj⟩ := hinv.geo.pow2
  have hc := pow_le_pow31 h31
  have hthr := hinv.threshold
  unfold _insert
  simp only
  rw [u32_of_lt (show m._true_size + 1 < 4294967296 by omega), if_neg (by omega)]

/-- What the map holds after a key has occupied an EMPTY slot. -/
theorem holds_occupied {H : Hashers} {m : base_hashmap} {s : Nat} {a : bucket}
    (hs : s < m._max_size) (ha : m._table[s]? = some a) (he : a.h = _empty)
    (k : Key) (v : T) (k' : Key) (v' : T) :
    Holds (occupied H m s k v) k' v' ↔ Holds m k' v' ∨ (k' = k ∧ v' = v) := by
  have hlen : s < m._table.length := (List.getElem?_eq_some.mp ha).1
  constructor
  · rintro ⟨x, bx, hx, hbx, hl, hkv⟩
    rcases get_set_cases hbx with ⟨_, rfl⟩ | ⟨_, h⟩
    · right
      simp only [Prod.mk.injEq] at hkv
      exact ⟨hkv.1.symm, hkv.2.symm⟩
    · exact Or.inl ⟨x, bx, hx, h, hl, hkv⟩
  · rintro (⟨x, bx, hx, hbx, hl, hkv⟩ | ⟨rfl, rfl⟩)
    · have hxs : s ≠ x := by
        rintro rfl
        rw [ha] at hbx; cases hbx
        exact live_not_empty hl he
      exact ⟨x, bx, hx, by show (m._table.set s _)[x]? = _; rw [List.getElem?_set_ne hxs]; exact hbx,
        hl, hkv⟩
    · exact ⟨s, _, hs, by show (m._table.set s _)[s]? = _; exact List.getElem?_set_self hlen,
        live_of_tag_lt (calc_hash_lt H k'), rfl⟩

theorem probing_inserts_fresh {p : Policy} (hp : p.probing) (H : Hashers) (fuel : Nat) :
    InsertsFresh p H (find_while_trying p H (fuel + 1)) := by
  intro m k hinv habs hroom
  obtain ⟨n, a, hn, ha, he, hbefore, heq⟩ :=
    probing_try_absent (find_while_trying p H fuel) hinv k habs
  refine ⟨n, a, hn, ha, he, hbefore, ?_⟩
  rw [probing_fwt_eq hp, heq, insert_room _ hinv ha k hroom]

end kirby

namespace kirby

/-! ## Rehash of a probing map -/

theorem occupied_set_value (H : Hashers) (m : base_hashmap) (s : Nat) (k : Key) (v0 v : T) :
    { occupied H m s k v0 with
      _table := (occupied H m s k v0)._table.set s
        { (bucket.mk (_calc_hash H k) (k, v0)) with kv := (k, v) } }
      = occupied H m s k v := by
  unfold occupied
  simp only [List.set_set]

theorem rehash_loop_spec {p : Policy} {H : Hashers}
    {fwt : base_hashmap → Key → Nat → Option Located} (hfw : InsertsFresh p H fwt) :
    ∀ (l : List bucket) (m : base_hashmap), ProbingInv p H m →
      (∀ b ∈ l, b.live → b.h = _calc_hash H b.kv.1) →
      l.Pairwise (fun a b => a.live → b.live → a.kv.1 ≠ b.kv.1) →
      (∀ b ∈ l, b.live → Absent m b.kv.1) →
      m._true_size + l.countP (fun b => decide b.live) ≤ m._max_true_size →
      ∃ m', _rehash_loop fwt l m = some m' ∧ ProbingInv p H m' ∧
        (∀ k v, Holds m' k v ↔ Holds m k v ∨ ∃ b ∈ l, b.live ∧ b.kv = (k, v)) ∧
        m'._max_size = m._max_size ∧ m'._max_true_size = m._max_true_size ∧
        m'._true_size = m._true_size + l.countP (fun b => decide b.live) ∧
        m'._size = m._size + l.countP (fun b => decide b.live) := by
  intro l
  induction l with
  | nil =>
    intro m hinv _ _ _ _
    exact ⟨m, rfl, hinv, by simp, rfl, rfl, by simp, by simp⟩
  | cons old rest ih =>
    intro m hinv htags hpair habs hroom
    rw [List.pairwise_cons] at hpair
    unfold _rehash_loop
    by_cases hl : old.live
    · have hc : old.h < _code := hl
      rw [if_pos hc]
      have hcnt : (old :: rest).countP (fun b => decide b.live)
          = rest.countP (fun b => decide b.live) + 1 := by
        rw [List.countP_cons]; simp [hl]
      rw [hcnt] at hroom
      have htag := htags old (List.mem_cons_self _ _) hl
      have hab := habs old (List.mem_cons_self _ _) hl
      obtain ⟨n, a, hn, ha, he, hbefore, hres⟩ := hfw m old.kv.1 hinv hab (by omega)
      rw [htag, hres]
      simp only
      set s := probe_slot p m._max_size (_calc_hash H old.kv.1) n with hsdef
      have hlen : s < m._table.length := (List.getElem?_eq_some.mp ha).1
      have hget : (occupied H m s old.kv.1 a.kv.2)._table[s]?
          = some (bucket.mk (_calc_hash H old.kv.1) (old.kv.1, a.kv.2)) := by
        unfold occupied
        exact List.getElem?_set_self hlen
      rw [hget]
      simp only
      rw [occupied_set_value]
      have hinv2 : ProbingInv p H (occupied H m s old.kv.1 old.kv.2) :=
        hinv.occupy old.kv.1 hn ha he hbefore hab (by omega) old.kv.2
      obtain ⟨j, h3, h31, hj⟩ := hinv.geo.pow2
      have hpos : 0 < m._max_size := by rw [hj]; positivity
      have hs : s < m._max_size := probe_slot_lt p hpos _ _
      have hholds := holds_occupied (H := H) hs ha he old.kv.1 old.kv.2
      obtain ⟨m', hm', hinv', hh', hms, hmts, hts, hsz⟩ := ih (occupied H m s old.kv.1 old.kv.2)
        hinv2 (fun b hb => htags b (List.mem_cons_of_mem _ hb)) hpair.2
        (by
          intro b hb hbl
          rw [absent_iff_not_holds]
          intro v hv
          rcases (hholds b.kv.1 v).mp hv with h1 | ⟨h1, _⟩
          · exact (absent_iff_not_holds _ _).mp (habs b (List.mem_cons_of_mem _ hb) hbl) v h1
          · exact hpair.1 b hb hl hbl h1.symm)
        (by show m._true_size + 1 + _ ≤ m._max_true_size; omega)
      refine ⟨m', hm', hinv', ?_, hms, hmts, ?_, ?_⟩
      · intro k v
        rw [hh', hholds]
        constructor
        · rintro ((h1 | ⟨rfl, rfl⟩) | ⟨b, hb, hbl, hkv⟩)
          · exact Or.inl h1
          · exact Or.inr ⟨old, List.mem_cons_self _ _, hl, rfl⟩
          · exact Or.inr ⟨b, List.mem_cons_of_mem _ hb, hbl, hkv⟩
        · rintro (h1 | ⟨b, hb, hbl, hkv⟩)
          · exact Or.inl (Or.inl h1)
          · rcases List.mem_cons.mp hb with rfl | hb'
            · left; right
              simp only [Prod.ext_iff] at hkv
              exact ⟨hkv.1.symm, hkv.2.symm⟩
            · exact Or.inr ⟨b, hb', hbl, hkv⟩
      · rw [hts, hcnt]; show m._true_size + 1 + _ = _; omega
      · rw [hsz, hcnt]; show m._size + 1 + _ = _; omega
    · have hc : ¬ old.h < _code := hl
      rw [if_neg hc]
      have hcnt : (old :: rest).countP (fun b => decide b.live)
          = rest.countP (fun b => decide b.live) := by
        rw [List.countP_cons]; simp [hl]
      rw [hcnt] at hroom
      obtain ⟨m', hm', hinv', hh', hms, hmts, hts, hsz⟩ := ih m hinv
        (fun b hb => htags b (List.mem_cons_of_mem _ hb)) hpair.2
        (fun b hb => habs b (List.mem_cons_of_mem _ hb)) hroom
      refine ⟨m', hm', hinv', ?_, hms, hmts, by rw [hts, hcnt], by rw [hsz, hcnt]⟩
      intro k v
      rw [hh']
      constructor
      · rintro (h1 | ⟨b, hb, hbl, hkv⟩)
        · exact Or.inl h1
        · exact Or.inr ⟨b, List.mem_cons_of_mem _ hb, hbl, hkv⟩
      · rintro (h1 | ⟨b, hb, hbl, hkv⟩)
        · exact Or.inl h1
        · rcases List.mem_cons.mp hb with rfl | hb'
          · exact absurd hbl hl
          · exact Or.inr ⟨b, hb', hbl, hkv⟩

end kirby

namespace kirby

/-- The capacity `_rehash` asks for is a larger power of two, at most 8 times
the old one. -/
theorem next_size_up_grow (j : Nat) (h3 : 3 ≤ j) (h30 : j ≤ 30) :
    ∃ j', j < j' ∧ j' ≤ j + 3 ∧ j' ≤ 31 ∧ _next_size_up (u32 (2 ^ j + 1)) = some (2 ^ j') := by
  have hp : 2 ^ j ≤ 2 ^ 30 := Nat.pow_le_pow_right (by norm_num) h30
  have hp' : (2 : Nat) ^ 30 = 1073741824 := by norm_num
  rw [u32_of_lt (by omega)]
  have hn : 2 ^ j + 1 ≤ 2147483648 := by omega
  unfold _next_size_up
  simp only [shift31_val, abs_max_val]
  rw [if_pos hn]
  have key : ∀ g, (g = 1 ∨ (g = 3 ∧ 2 ^ j + 1 ≤ 262144)) →
      ∃ j', j < j' ∧ j' ≤ j + 3 ∧ j' ≤ 31 ∧
        _next_size_up_loop g (2 ^ j + 1) 64 _initial_default_size = some (2 ^ j') := by
    intro g hg
    obtain ⟨j', _, h2, h3', h4, h5⟩ := next_size_up_loop_spec g (2 ^ j + 1) hg hn 64 3
      (by norm_num) (by intro _; rfl) (by norm_num) (le_refl _)
    have hlt : j < j' := by
      by_contra hcon
      have : 2 ^ j' ≤ 2 ^ j := Nat.pow_le_pow_right (by norm_num) (by omega)
      omega
    refine ⟨j', hlt, ?_, h2, h3'⟩
    by_contra hcon
    have hbig : ∀ i, j < i → ¬ (2 ^ i < 2 ^ j + 1) := by
      intro i hi hcon2
      have : 2 ^ (j + 1) ≤ 2 ^ i := Nat.pow_le_pow_right (by norm_num) hi
      rw [pow_succ] at this
      have hpos : 0 < 2 ^ j := by positivity
      omega
    rcases hg with hg | ⟨hg, _⟩
    · exact hbig (j + 1) (by omega) (h5 (j + 1) (by omega) (by omega) (by omega))
    · have h31 : j + 1 + (3 - (j + 1) % 3) % 3 < j' := by omega
      exact hbig (j + 1 + (3 - (j + 1) % 3) % 3) (by omega)
        (h5 _ (by omega) h31 (by intro _; omega))
  by_cases hs : 2 ^ j + 1 ≥ _slow_growth_at
  · rw [if_pos hs]
    exact key _ (Or.inl rfl)
  · rw [if_neg hs]
    exact key _ (Or.inr ⟨rfl, by simp [_slow_growth_at] at hs; omega⟩)

/-- A fresh table of a probing map satisfies the invariant and holds no key. -/
theorem fresh_probing_inv {p : Policy} (hp : p.probing) (H : Hashers) {m : base_hashmap}
    (hg : Geometry p m) (hf : Fresh m)
    (hthr : m._max_true_size < m._max_size
      ∧ m._max_size * 8556380 / 16777216 ≤ m._max_true_size) :
    ProbingInv p H m ∧ ∀ k, Absent m k := by
  have hend : m._end = m._max_size := by rw [hg.end_eq, probing_ovf hp]; rfl
  have hslot : ∀ s b, s < m._max_size → m._table[s]? = some b → b = empty_bucket := by
    intro s b hs hb
    rw [hf.slots s (by omega)] at hb
    exact (Option.some.inj hb).symm
  have hnl : ¬ empty_bucket.live := by
    unfold bucket.live; rw [empty_bucket_h, code_val]; omega
  have hall : ∀ b ∈ m._table.take m._max_size, b = empty_bucket := by
    intro b hb
    obtain ⟨s, hs⟩ := List.mem_iff_getElem?.mp hb
    have hslt : s < m._max_size := by
      have := (List.getElem?_eq_some.mp hs).1
      rw [List.length_take] at this
      omega
    rw [List.getElem?_take, if_pos hslt] at hs
    exact hslot s b hslt hs
  refine ⟨
    { geo := hg
      tags := fun s b hs hb => Or.inl (by rw [hslot s b hs hb]; rfl)
      nodup := fun s s' b b' hs _ hb _ hl _ _ => absurd (hslot s b hs hb ▸ hl) hnl
      path := fun s b hs hb hl => absurd (hslot s b hs hb ▸ hl) hnl
      size := by
        rw [hf.size]
        symm
        rw [List.countP_eq_zero]
        intro b hb
        rw [hall b hb]
        simpa using hnl
      true_size := by
        rw [hf.true_size]
        symm
        rw [List.countP_eq_zero]
        intro b hb
        rw [hall b hb]
        simp [empty_bucket]
      threshold := ⟨by rw [hf.true_size]; omega, hthr⟩
      last := ⟨_, hend ▸ hf.last, rfl⟩ }, ?_⟩
  intro k s b hs hb hl
  exact absurd (hslot s b hs hb ▸ hl) hnl

end kirby

namespace kirby

/-- The function `_init` on a table of EMPTY buckets for the capacity `2^j`. -/
theorem init_replicate_spec (p : Policy) (m : base_hashmap) (j : Nat) (h3 : 3 ≤ j)
    (h31 : j ≤ 31) (ho : m._overflow_area_size = ovf p) (hn : m._neighborhood = 0) :
    ∃ m', _init { m with
        _table := List.replicate (u32 (u32 (2 ^ j + m._overflow_area_size) + 1)) empty_bucket }
        = some m' ∧ Geometry p m' ∧ Fresh m' ∧ m'._max_size = 2 ^ j
      ∧ m'._max_true_size =
        (if m._true_size < m._max_true_size ∨ 2 ^ j * 8556380 / 16777216 > m._max_true_size
        then 2 ^ j * 8556380 / 16777216
        else u32 (m._max_true_size + u32 ((usub (2 ^ j) m._max_true_size >>> 4) <<< 3))) := by
  have hp := pow_le_pow31 h31
  have hov := ovf_le p
  obtain ⟨m', hinit, hg', hms, hs, hts, htab, hmts⟩ := init_fresh_geometry p m j h3 h31 ho hn
    (List.replicate (u32 (u32 (2 ^ j + m._overflow_area_size) + 1)) empty_bucket)
    (by rw [List.length_replicate, ho])
  refine ⟨m', hinit, hg', ?_, hms, hmts⟩
  have hlen : u32 (u32 (2 ^ j + m._overflow_area_size) + 1) = 2 ^ j + ovf p + 1 := by
    rw [ho, u32_of_lt (show 2 ^ j + ovf p < 4294967296 by omega), u32_of_lt (by omega)]
  rw [hlen] at htab
  obtain ⟨_, hsl, hl⟩ := fresh_table_get (2 ^ j) (ovf p)
  have hend : m'._end = 2 ^ j + ovf p := by rw [hg'.end_eq, hms]
  exact ⟨by rw [hend, htab]; exact hsl, by rw [hend, htab]; exact hl, hs, hts⟩

/-- The function `_rehash` of a probing map: the new table satisfies the
invariant, has a larger capacity, and holds the live buckets of the old one. -/
theorem rehash_spec {p : Policy} (hp : p.probing) {H : Hashers}
    {fwt : base_hashmap → Key → Nat → Option Located} (hfw : InsertsFresh p H fwt)
    (m0 : base_hashmap) (j : Nat) (h3 : 3 ≤ j) (h30 : j ≤ 30) (hms : m0._max_size = 2 ^ j)
    (ho : m0._overflow_area_size = ovf p) (hn : m0._neighborhood = 0)
    (hthr : m0._max_true_size < 2 ^ j)
    (htags : ∀ b ∈ m0._table, b.live → b.h = _calc_hash H b.kv.1)
    (hpair : m0._table.Pairwise (fun a b => a.live → b.live → a.kv.1 ≠ b.kv.1))
    (hcnt : m0._table.countP (fun b => decide b.live) ≤ m0._max_true_size) :
    ∃ m' j', _rehash fwt m0 = some m' ∧ ProbingInv p H m' ∧
      (∀ k v, Holds m' k v ↔ ∃ b ∈ m0._table, b.live ∧ b.kv = (k, v)) ∧
      j < j' ∧ j' ≤ j + 3 ∧ j' ≤ 31 ∧ m'._max_size = 2 ^ j' ∧
      _next_size_up (u32 (2 ^ j + 1)) = some (2 ^ j') ∧
      m'._max_true_size = 2 ^ j' * 8556380 / 16777216 ∧
      m'._true_size = m0._table.countP (fun b => decide b.live) ∧
      m'._size = m0._table.countP (fun b => decide b.live) := by
  obtain ⟨j', hlt, hle3, h31, hnsu⟩ := next_size_up_grow j h3 h30
  have hnsu' : _next_size_up (u32 (m0._max_size + 1)) = some (2 ^ j') := by rw [hms, hnsu]
  unfold _rehash
  rw [hnsu']
  simp only
  obtain ⟨m1, hinit, hg1, hf1, hms1, hmts1⟩ := init_replicate_spec p m0 j' (by omega) h31 ho hn
  rw [hinit]
  simp only
  have hpow : 2 * 2 ^ j ≤ 2 ^ j' := by
    have : 2 ^ (j + 1) ≤ 2 ^ j' := Nat.pow_le_pow_right (by norm_num) hlt
    rw [pow_succ] at this
    omega
  have hmts1' : m1._max_true_size = 2 ^ j' * 8556380 / 16777216 := by
    rw [hmts1, if_pos]
    right
    omega
  have hp31 := pow_le_pow31 h31
  obtain ⟨hinv1, habs1⟩ := fresh_probing_inv hp H hg1 hf1
    (by rw [hmts1', hms1]; exact ⟨by omega, le_refl _⟩)
  obtain ⟨m', hm', hinv', hh', hms', hmts', hts', hsz'⟩ := rehash_loop_spec hfw m0._table m1
    hinv1 htags hpair (fun b _ _ => habs1 _)
    (by rw [hf1.true_size, hmts1']; omega)
  refine ⟨m', j', hm', hinv', ?_, hlt, hle3, h31, by rw [hms', hms1], hnsu,
    by rw [hmts', hmts1'], by rw [hts', hf1.true_size]; omega,
    by rw [hsz', hf1.size]; omega⟩
  intro k v
  rw [hh']
  constructor
  · rintro (h1 | h2)
    · exact absurd h1 ((absent_iff_not_holds _ _).mp (habs1 k) v)
    · exact h2
  · exact Or.inr

end kirby

namespace kirby

/-! ## The whole table as a list: what `_rehash` iterates over -/

theorem last_not_live {b : bucket} (h : b.h = _last) : ¬ b.live := by
  unfold bucket.live; rw [h, last_val, code_val]; omega

theorem empty_bucket_not_live : ¬ empty_bucket.live := by
  unfold bucket.live; rw [empty_bucket_h, code_val]; omega

/-- The live buckets of a table of `c + 1` buckets whose last one is the
terminator are counted in its first `c` slots. -/
theorem countP_live_whole (t : List bucket) (c : Nat) (hlen : t.length = c + 1)
    (hlast : ∃ b, t[c]? = some b ∧ b.h = _last) :
    t.countP (fun b => decide b.live) = (t.take c).countP (fun b => decide b.live) := by
  obtain ⟨bl, hbl, hl⟩ := hlast
  have hc : c < t.length := by omega
  have hdrop : t.drop c = [bl] := by
    rw [List.drop_eq_getElem_cons hc, List.drop_eq_nil_of_le (by omega)]
    have := List.getElem?_eq_getElem hc
    rw [hbl] at this
    rw [← Option.some.inj this]
  conv_lhs => rw [← List.take_append_drop c t]
  rw [List.countP_append, hdrop]
  simp [last_not_live hl]

/-- A bucket of the table with the slot `s` cleared is the EMPTY bucket, the
terminator, or a bucket of a slot below the capacity. -/
theorem mem_cleared_table {p : Policy} {H : Hashers} {m : base_hashmap}
    (hinv : ProbingInv p H m) (hp : p.probing) (s : Nat) {b : bucket} {x : Nat}
    (hb : (m._table.set s empty_bucket)[x]? = some b) (hl : b.live) :
    x ≠ s ∧ x < m._max_size ∧ m._table[x]? = some b := by
  rcases get_set_cases hb with ⟨_, rfl⟩ | ⟨hxs, h⟩
  · exact absurd hl empty_bucket_not_live
  · have hx : x < m._table.length := (List.getElem?_eq_some.mp h).1
    rw [hinv.geo.length, probing_ovf hp] at hx
    obtain ⟨bl, hbl, hll⟩ := hinv.last
    by_cases hxc : x = m._max_size
    · rw [hxc, hbl] at h
      cases h
      exact absurd hl (last_not_live hll)
    · exact ⟨hxs, by omega, h⟩

end kirby

namespace kirby

/-- The function `_insert_while_full` of a probing map, entered from `_insert`
with an EMPTY slot `s` and an absent key: the capacity grows, the invariant
holds again, the old keys keep their values and the new key is stored. -/
theorem insert_while_full_spec {p : Policy} (hp : p.probing) {H : Hashers}
    {fwt : base_hashmap → Key → Nat → Option Located} (hfw : InsertsFresh p H fwt)
    {m : base_hashmap} (hinv : ProbingInv p H m) (k : Key) (habs : Absent m k)
    {s : Nat} {a : bucket} (hs : s < m._max_size) (ha : m._table[s]? = some a)
    (he : a.h = _empty) (hcap : m._max_size < 2147483648) :
    ∃ m' ptr v0, _insert_while_full fwt { m with _true_size := m._true_size + 1 } s k
        (_calc_hash H k) = some (m', ptr, false) ∧
      ProbingInv p H m' ∧ ptr < m'._max_size ∧
      m'._table[ptr]? = some ⟨_calc_hash H k, (k, v0)⟩ ∧
      (∀ k' v', Holds m' k' v' ↔ Holds m k' v' ∨ (k' = k ∧ v' = v0)) ∧
      m'._size = m._size + 1 ∧ m'._true_size = m'._size ∧
      _next_size_up (u32 (m._max_size + 1)) = some m'._max_size ∧
      m._max_size < m'._max_size ∧ m'._max_size ≤ 8 * m._max_size ∧
      m'._max_true_size = m'._max_size * 8556380 / 16777216 := by
  obtain ⟨j, h3, h31, hj⟩ := hinv.geo.pow2
  have h30 : j ≤ 30 := by
    by_contra hcon
    have : j = 31 := by omega
    rw [hj, this] at hcap
    norm_num at hcap
  have hlen : s < m._table.length := (List.getElem?_eq_some.mp ha).1
  have hthr := hinv.threshold
  unfold _insert_while_full
  simp only
  rw [write_of_lt _ hlen]
  simp only
  have hlive_iff : ∀ b, (b ∈ m._table.set s empty_bucket ∧ b.live) ↔
      ∃ x, x < m._max_size ∧ m._table[x]? = some b ∧ b.live := by
    intro b
    constructor
    · rintro ⟨hb, hl⟩
      obtain ⟨x, hx⟩ := List.mem_iff_getElem?.mp hb
      obtain ⟨_, h1, h2⟩ := mem_cleared_table hinv hp s hx hl
      exact ⟨x, h1, h2, hl⟩
    · rintro ⟨x, hx, hbx, hl⟩
      have hxs : s ≠ x := by
        rintro rfl
        rw [ha] at hbx; cases hbx
        exact live_not_empty hl he
      exact ⟨List.mem_iff_getElem?.mpr ⟨x, by rw [List.getElem?_set_ne hxs]; exact hbx⟩, hl⟩
  have hcount : (m._table.set s empty_bucket).countP (fun b => decide b.live) = m._size := by
    rw [countP_live_whole _ m._max_size (by rw [List.length_set, hinv.geo.length, probing_ovf hp])
      (by
        obtain ⟨bl, hbl, hl⟩ := hinv.last
        exact ⟨bl, by rw [List.getElem?_set_ne (by omega)]; exact hbl, hl⟩)]
    have h1 := countP_set_take (fun b => decide b.live) m._table m._max_size s a empty_bucket
      hs (by rw [hinv.geo.length]; omega) ha
    have h2 : decide a.live = false := by
      simp only [decide_eq_false_iff_not]
      intro hl; exact live_not_empty hl he
    have h3 : decide empty_bucket.live = false := by
      simp only [decide_eq_false_iff_not]; exact empty_bucket_not_live
    simp only [h2, h3, Bool.false_eq_true, if_false, Nat.add_zero] at h1
    rw [h1, hinv.size]
  obtain ⟨m1, j', hre, hinv1, hh1, hlt, hle3, h31', hms1, hnsu, hmts1, hts1, hsz1⟩ :=
    rehash_spec hp hfw
      { m with _true_size := m._true_size + 1, _table := m._table.set s empty_bucket }
      j h3 h30 hj hinv.geo.overflow
      hinv.geo.neighborhood (by show m._max_true_size < 2 ^ j; rw [← hj]; exact hthr.2.1)
      (by
        intro b hb hl
        obtain ⟨x, hx, hbx, _⟩ := (hlive_iff b).mp ⟨hb, hl⟩
        exact hinv.tag_of_live hx hbx hl)
      (by
        rw [List.pairwise_iff_getElem]
        intro x y hx hy hxy hlx hly hkk
        have h1 := mem_cleared_table hinv hp s (List.getElem?_eq_getElem hx) hlx
        have h2 := mem_cleared_table hinv hp s (List.getElem?_eq_getElem hy) hly
        have := hinv.nodup x y _ _ h1.2.1 h2.2.1 h1.2.2 h2.2.2 hlx hly hkk
        omega)
      (by
        show (m._table.set s empty_bucket).countP _ ≤ m._max_true_size
        rw [hcount]
        have := hinv.size_le
        omega)
  rw [hre]
  simp only
  rw [hcount] at hts1 hsz1
  have hholds1 : ∀ k' v', Holds m1 k' v' ↔ Holds m k' v' := by
    intro k' v'
    rw [hh1]
    constructor
    · rintro ⟨b, hb, hl, hkv⟩
      obtain ⟨x, hx, hbx, _⟩ := (hlive_iff b).mp ⟨hb, hl⟩
      exact ⟨x, b, hx, hbx, hl, hkv⟩
    · rintro ⟨x, b, hx, hbx, hl, hkv⟩
      exact ⟨b, ((hlive_iff b).mpr ⟨x, hx, hbx, hl⟩).1, hl, hkv⟩
  have habs1 : Absent m1 k := by
    rw [absent_iff_not_holds]
    intro v hv
    exact (absent_iff_not_holds _ _).mp habs v ((hholds1 k v).mp hv)
  have hpow : 2 * 2 ^ j ≤ 2 ^ j' := by
    have : 2 ^ (j + 1) ≤ 2 ^ j' := Nat.pow_le_pow_right (by norm_num) hlt
    rw [pow_succ] at this
    omega
  have hpow8 : 2 ^ j' ≤ 8 * 2 ^ j := by
    have : 2 ^ j' ≤ 2 ^ (j + 3) := Nat.pow_le_pow_right (by norm_num) hle3
    rw [pow_add] at this
    omega
  have hsl := hinv.size_le
  have hthr' := hthr
  rw [hj] at hthr'
  have hroom1 : m1._true_size + 1 ≤ m1._max_true_size := by
    rw [hts1, hmts1]; omega
  obtain ⟨n, a1, hn, ha1, he1, hbef1, hres⟩ := hfw m1 k hinv1 habs1 hroom1
  rw [hres]
  simp only
  have hpos : 0 < m1._max_size := by rw [hms1]; positivity
  have hs1 : probe_slot p m1._max_size (_calc_hash H k) n < m1._max_size :=
    probe_slot_lt p hpos _ _
  refine ⟨_, _, a1.kv.2, rfl,
    hinv1.occupy k hn ha1 he1 hbef1 habs1 hroom1 a1.kv.2,
    hs1, ?_, ?_, ?_, ?_, ?_, ?_, ?_, ?_⟩
  · exact List.getElem?_set_self (List.getElem?_eq_some.mp ha1).1
  · intro k' v'
    rw [holds_occupied hs1 ha1 he1, hholds1]
  · show m1._size + 1 = m._size + 1
    rw [hsz1]
  · show m1._true_size + 1 = m1._size + 1
    rw [hts1, hsz1]
  · show _ = some m1._max_size
    rw [hms1, hj]; exact hnsu
  · show m._max_size < m1._max_size
    rw [hms1, hj]; omega
  · show m1._max_size ≤ 8 * m._max_size
    rw [hms1, hj]; omega
  · show m1._max_true_size = m1._max_size * 8556380 / 16777216
    rw [hmts1, hms1]

end kirby

namespace kirby

/-! ## `find_while_trying` of a probing map -/

/-- On a present key `find_while_trying` returns its bucket and changes
nothing. -/
theorem probing_fwt_present {p : Policy} (hp : p.probing) {H : Hashers} (fuel : Nat)
    {m : base_hashmap} (hinv : ProbingInv p H m) {s : Nat} {b : bucket}
    (hs : s < m._max_size) (hb : m._table[s]? = some b) (hl : b.live) :
    find_while_trying p H (fuel + 1) m b.kv.1 (_calc_hash H b.kv.1) = some (m, s, true) := by
  rw [probing_fwt_eq hp]
  exact probing_try_present _ hinv hs hb hl

/-- On an absent key `find_while_trying` stores the key: below the threshold
in the same table, at the threshold after a rehash into a larger one. -/
theorem probing_fwt_absent {p : Policy} (hp : p.probing) {H : Hashers} (fuel : Nat)
    {m : base_hashmap} (hinv : ProbingInv p H m) (k : Key) (habs : Absent m k)
    (hcap : m._max_size < 2147483648) :
    ∃ m' ptr v0, find_while_trying p H (fuel + 2) m k (_calc_hash H k) = some (m', ptr, false) ∧
      ProbingInv p H m' ∧ ptr < m'._max_size ∧
      m'._table[ptr]? = some ⟨_calc_hash H k, (k, v0)⟩ ∧
      (∀ k' v', Holds m' k' v' ↔ Holds m k' v' ∨ (k' = k ∧ v' = v0)) ∧
      m'._size = m._size + 1 ∧
      ((m._true_size < m._max_true_size ∧ m'._max_size = m._max_size ∧
          m'._true_size = m._true_size + 1 ∧ m'._max_true_size = m._max_true_size) ∨
        (m._true_size = m._max_true_size ∧ m'._true_size = m'._size ∧
          _next_size_up (u32 (m._max_size + 1)) = some m'._max_size ∧
          m._max_size < m'._max_size ∧ m'._max_size ≤ 8 * m._max_size ∧
          m'._max_true_size = m'._max_size * 8556380 / 16777216)) := by
  obtain ⟨n, a, hn, ha, he, hbefore, heq⟩ :=
    probing_try_absent (find_while_trying p H (fuel + 1)) hinv k habs
  obtain ⟨j, h3, h31, hj⟩ := hinv.geo.pow2
  have hpos : 0 < m._max_size := by rw [hj]; positivity
  have hs : probe_slot p m._max_size (_calc_hash H k) n < m._max_size :=
    probe_slot_lt p hpos _ _
  rw [probing_fwt_eq hp, heq]
  by_cases hroom : m._true_size + 1 ≤ m._max_true_size
  · rw [insert_room _ hinv ha k hroom]
    refine ⟨_, _, a.kv.2, rfl, hinv.occupy k hn ha he hbefore habs hroom a.kv.2, hs, ?_,
      holds_occupied hs ha he k a.kv.2, rfl, Or.inl ⟨by omega, rfl, rfl, rfl⟩⟩
    exact List.getElem?_set_self (List.getElem?_eq_some.mp ha).1
  · have hfull : m._true_size = m._max_true_size := by
      have := hinv.threshold
      omega
    rw [insert_full _ hinv _ k _ hfull]
    obtain ⟨m', ptr, v0, hres, hinv', hptr, hget, hh, hsz, hts, hnsu, hlt, hle, hmts⟩ :=
      insert_while_full_spec hp (probing_inserts_fresh hp H fuel) hinv k habs hs ha he hcap
    exact ⟨m', ptr, v0, hres, hinv', hptr, hget, hh, hsz,
      Or.inr ⟨hfull, hts, hnsu, hlt, hle, hmts⟩⟩

/-- What the map holds after a value has been written into a live bucket. -/
theorem holds_set_value {p : Policy} {H : Hashers} {m : base_hashmap}
    (hinv : ProbingInv p H m) {s : Nat} {a : bucket} (hs : s < m._max_size)
    (ha : m._table[s]? = some a) (hl : a.live) (v : T) (k' : Key) (v' : T) :
    Holds { m with _table := m._table.set s { a with kv := (a.kv.1, v) } } k' v'
      ↔ (k' ≠ a.kv.1 ∧ Holds m k' v') ∨ (k' = a.kv.1 ∧ v' = v) := by
  have hlen : s < m._table.length := (List.getElem?_eq_some.mp ha).1
  constructor
  · rintro ⟨x, bx, hx, hbx, hlx, hkv⟩
    rcases get_set_cases hbx with ⟨_, rfl⟩ | ⟨hxs, h⟩
    · right
      simp only [Prod.mk.injEq] at hkv
      exact ⟨hkv.1.symm, hkv.2.symm⟩
    · left
      refine ⟨?_, x, bx, hx, h, hlx, hkv⟩
      intro hk
      exact hxs (hinv.nodup x s bx a hx hs h ha hlx hl (by rw [hkv]; exact hk))
  · rintro (⟨hne, x, bx, hx, hbx, hlx, hkv⟩ | ⟨rfl, rfl⟩)
    · have hxs : s ≠ x := by
        rintro rfl
        rw [ha] at hbx; cases hbx
        rw [hkv] at hne
        exact hne rfl
      exact ⟨x, bx, hx, by show (m._table.set s _)[x]? = _; rw [List.getElem?_set_ne hxs]; exact hbx,
        hlx, hkv⟩
    · exact ⟨s, { a with kv := (a.kv.1, v') }, hs, List.getElem?_set_self hlen, hl, rfl⟩

/-- The values `find` designates are the values the map holds. -/
theorem probing_lookup {p : Policy} (hp : p.probing) {H : Hashers} {m : base_hashmap}
    (hinv : ProbingInv p H m) (k : Key) :
    (∀ v, Holds m k v → lookup p H m k = some (some v)) ∧
    (Absent m k → lookup p H m k = some none) := by
  have hend : m._end = m._max_size := by rw [hinv.geo.end_eq, probing_ovf hp]; rfl
  constructor
  · rintro v ⟨s, b, hs, hb, hl, hkv⟩
    have hk : b.kv.1 = k := by rw [hkv]
    have hf := probing_find_present hp hinv hs hb hl
    rw [hk] at hf
    unfold lookup base_hashmap.find
    rw [hf]
    simp only
    rw [if_pos (by rw [hend]; omega), hb]
    simp [hkv]
  · intro habs
    have hf := probing_find_absent hp hinv k habs
    unfold lookup base_hashmap.find
    rw [hf]
    simp

end kirby

namespace kirby

/-! ## Slots numbered from the slot after an EMPTY slot -/

theorem add_mod_cases {c B a : Nat} (hB : B < c) (ha : a < c) :
    ((B + a) % c = B + a ∧ B + a < c) ∨ ((B + a) % c = B + a - c ∧ c ≤ B + a) := by
  by_cases h : B + a < c
  · exact Or.inl ⟨Nat.mod_eq_of_lt h, h⟩
  · right
    refine ⟨?_, by omega⟩
    rw [Nat.mod_eq_sub_mod (by omega), Nat.mod_eq_of_lt (by omega)]

theorem lin_slot_lt {c : Nat} (hc : 0 < c) (B a : Nat) : lin_slot c B a < c :=
  Nat.mod_lt _ hc

theorem lin_slot_inj {c B a a' : Nat} (hB : B < c) (ha : a < c) (ha' : a' < c)
    (h : lin_slot c B a = lin_slot c B a') : a = a' := by
  unfold lin_slot at h
  rcases add_mod_cases hB ha with ⟨h1, _⟩ | ⟨h1, _⟩ <;>
  rcases add_mod_cases hB ha' with ⟨h2, _⟩ | ⟨h2, _⟩ <;>
  rw [h1, h2] at h <;> omega

theorem lin_slot_surj {c B : Nat} (hB : B < c) {x : Nat} (hx : x < c) :
    ∃ a, a < c ∧ lin_slot c B a = x := by
  by_cases h : B ≤ x
  · exact ⟨x - B, by omega, by unfold lin_slot; rw [Nat.mod_eq_of_lt (by omega)]; omega⟩
  · refine ⟨x + c - B, by omega, ?_⟩
    unfold lin_slot
    rcases add_mod_cases hB (show x + c - B < c by omega) with ⟨h1, h2⟩ | ⟨h1, _⟩
    · omega
    · rw [h1]; omega

/-- The increment `++j; j &= mask` moves the scan to the next distance. -/
theorem lin_slot_succ (j : Nat) (hj : j ≤ 31) (B a : Nat) :
    u32 (lin_slot (2 ^ j) B a + 1) &&& (2 ^ j - 1) = lin_slot (2 ^ j) B (a + 1) := by
  have hpos : 0 < 2 ^ j := by positivity
  have hp := pow_le_pow31 hj
  have hlt := lin_slot_lt hpos B a
  rw [u32_of_lt (by omega), and_mask_eq_mod]
  unfold lin_slot
  rw [Nat.mod_add_mod, Nat.add_assoc]

/-- The slots of a probe path that ends at distance `a` after `n ≤ a` steps. -/
theorem lin_path_slot {c B a n h : Nat} (hn : n ≤ a) (hend : (h + n) % c = lin_slot c B a)
    (u : Nat) (hu : u ≤ n) : (h + u) % c = lin_slot c B (a - n + u) := by
  unfold lin_slot at hend ⊢
  have h1 : (h + u + (n - u)) % c = (B + (a - n + u) + (n - u)) % c := by
    have e1 : h + u + (n - u) = h + n := by omega
    have e2 : B + (a - n + u) + (n - u) = B + a := by omega
    rw [e1, e2]; exact hend
  exact Nat.ModEq.add_right_cancel' (n - u) h1

/-- A probe path of `n > a` steps that ends at distance `a` passes the slot at
distance `c - 1`. -/
theorem lin_path_wraps {c B a n h : Nat} (hc : 0 < c) (hn : a < n)
    (hend : (h + n) % c = lin_slot c B a) :
    (h + (n - a - 1)) % c = lin_slot c B (c - 1) := by
  unfold lin_slot at hend ⊢
  have h1 : (h + (n - a - 1) + (a + 1)) % c = (B + (c - 1) + (a + 1)) % c := by
    have e1 : h + (n - a - 1) + (a + 1) = h + n := by omega
    have e2 : B + (c - 1) + (a + 1) = B + a + c := by omega
    rw [e1, e2, Nat.add_mod_right]; exact hend
  exact Nat.ModEq.add_right_cancel' (a + 1) h1

/-- The test of `lin_hashmap::dd_remove` ("skip the swap if `r` lies cyclically
between `i` and `j`") in distances: the bucket moves exactly when its home is
not after the hole. -/
theorem lin_cond_iff {c B ai aj ar : Nat} (hB : B < c) (hij : ai < aj) (hj : aj < c)
    (hr : ar ≤ aj) :
    (if lin_slot c B ai < lin_slot c B aj
      then (lin_slot c B ar ≤ lin_slot c B ai ∨ lin_slot c B ar > lin_slot c B aj)
      else (lin_slot c B ar ≤ lin_slot c B ai ∧ lin_slot c B ar > lin_slot c B aj))
      ↔ ar ≤ ai := by
  unfold lin_slot
  rcases add_mod_cases hB (show ai < c by omega) with ⟨h1, _⟩ | ⟨h1, _⟩ <;>
  rcases add_mod_cases hB hj with ⟨h2, _⟩ | ⟨h2, _⟩ <;>
  rcases add_mod_cases hB (show ar < c by omega) with ⟨h3, _⟩ | ⟨h3, _⟩ <;>
  rw [h1, h2, h3] <;> split_ifs <;> omega

end kirby

namespace kirby

/-! ## The loop of `lin_hashmap::dd_remove` -/

theorem probe_slot_lin (c h n : Nat) : probe_slot .lin c h n = (h + n) % c := rfl

/-- The state in which `dd_remove` enters its loop. -/
theorem lin_loop_init {H : Hashers} {m : base_hashmap} (hinv : ProbingInv .lin H m)
    {s0 : Nat} {b0 : bucket} (hs0 : s0 < m._max_size) (hb0 : m._table[s0]? = some b0)
    (hl0 : b0.live) :
    ∃ B a0, LinLoopInv H m b0.kv.1 B m._table a0 a0 ∧ lin_slot m._max_size B a0 = s0 := by
  obtain ⟨j, h3, h31, hj⟩ := hinv.geo.pow2
  have hpos : 0 < m._max_size := by rw [hj]; positivity
  obtain ⟨e, be, he, hbe, hee⟩ := exists_empty_slot hinv
  have hes : e ≠ s0 := by
    rintro rfl
    rw [hb0] at hbe; cases hbe
    exact live_not_empty hl0 hee
  have hB : (e + 1) % m._max_size < m._max_size := Nat.mod_lt _ hpos
  have hexit : lin_slot m._max_size ((e + 1) % m._max_size) (m._max_size - 1) = e := by
    unfold lin_slot
    rw [Nat.mod_add_mod]
    have : e + 1 + (m._max_size - 1) = e + m._max_size := by omega
    rw [this, Nat.add_mod_right, Nat.mod_eq_of_lt he]
  obtain ⟨a0, ha0, hslot0⟩ := lin_slot_surj hB hs0
  have ha0' : a0 + 1 < m._max_size := by
    by_contra hcon
    have : a0 = m._max_size - 1 := by omega
    rw [this, hexit] at hslot0
    exact hes hslot0
  refine ⟨(e + 1) % m._max_size, a0,
    { len := by rw [hinv.geo.length]; rfl
      last := hinv.last
      bounds := ⟨le_refl _, ha0'⟩
      base := hB
      exit_empty := ⟨be, by rw [hexit]; exact hbe, hee⟩
      tags := ?_, hole := ?_, nodup := ?_, path := ?_, content := ?_
      cnt_live := hinv.size.symm
      cnt_nonempty := hinv.true_size.symm }, hslot0⟩
  · intro x b hx hb
    rcases hinv.tags x b hx hb with h | ⟨h, _⟩ | h
    · exact Or.inl h
    · cases h
    · exact Or.inr h
  · rw [hslot0]
    exact ⟨b0, hb0, live_not_empty hl0⟩
  · intro x y b b' hx hy _ _ hb hb' hl hl' hk
    exact hinv.nodup x y b b' hx hy hb hb' hl hl' hk
  · intro a b ha hne hb hl
    have hx := lin_slot_lt hpos ((e + 1) % m._max_size) a
    obtain ⟨n, hn, hslot, hpath⟩ := hinv.path _ b hx hb hl
    rw [probe_slot_lin] at hslot
    have hna : n ≤ a := by
      by_contra hcon
      have hw := lin_path_wraps hpos (show a < n by omega) hslot
      obtain ⟨b2, hb2, hne2⟩ := hpath (n - a - 1) (by omega)
      rw [probe_slot_lin, hw, hexit, hbe] at hb2
      cases hb2
      exact hne2 hee
    refine ⟨n, hna, hslot, ?_, by intro h1 h2; omega⟩
    intro u hu
    have := hpath u hu
    rw [probe_slot_lin, lin_path_slot hna hslot u (by omega)] at this
    exact this
  · intro k v
    rw [hslot0]
    constructor
    · rintro ⟨x, b, hx, hxs, hb, hl, hkv⟩
      refine ⟨⟨x, b, hx, hb, hl, hkv⟩, ?_⟩
      intro hk
      exact hxs (hinv.nodup x s0 b b0 hx hs0 hb hb0 hl hl0 (by rw [hkv]; exact hk))
    · rintro ⟨⟨x, b, hx, hb, hl, hkv⟩, hk⟩
      refine ⟨x, b, hx, ?_, hb, hl, hkv⟩
      rintro rfl
      rw [hb0] at hb; cases hb
      rw [hkv] at hk
      exact hk rfl

end kirby

namespace kirby

/-- One iteration of the loop of `dd_remove` on a non-EMPTY bucket: the bucket
moves into the hole exactly when the test of the source holds, and either way
the loop state is kept. -/
theorem lin_loop_step {H : Hashers} {m : base_hashmap} {k0 : Key} {B : Nat}
    {t : List bucket} {ai aj : Nat} (hinv : LinLoopInv H m k0 B t ai aj) {b' : bucket}
    (hb' : t[lin_slot m._max_size B (aj + 1)]? = some b') (hne : b'.h ≠ _empty) :
    (if lin_slot m._max_size B ai < lin_slot m._max_size B (aj + 1)
      then (b'.h % m._max_size ≤ lin_slot m._max_size B ai
        ∨ b'.h % m._max_size > lin_slot m._max_size B (aj + 1))
      else (b'.h % m._max_size ≤ lin_slot m._max_size B ai
        ∧ b'.h % m._max_size > lin_slot m._max_size B (aj + 1))) ∧
      LinLoopInv H m k0 B (t.set (lin_slot m._max_size B ai) b') (aj + 1) (aj + 1)
    ∨ ¬ (if lin_slot m._max_size B ai < lin_slot m._max_size B (aj + 1)
      then (b'.h % m._max_size ≤ lin_slot m._max_size B ai
        ∨ b'.h % m._max_size > lin_slot m._max_size B (aj + 1))
      else (b'.h % m._max_size ≤ lin_slot m._max_size B ai
        ∧ b'.h % m._max_size > lin_slot m._max_size B (aj + 1))) ∧
      LinLoopInv H m k0 B t ai (aj + 1) := by
  have hB := hinv.base
  have hbd := hinv.bounds
  have hpos : 0 < m._max_size := by omega
  obtain ⟨be, hbe, hee⟩ := hinv.exit_empty
  have haj2 : aj + 1 + 1 < m._max_size := by
    by_contra hcon
    have : aj + 1 = m._max_size - 1 := by omega
    rw [this, hbe] at hb'
    cases hb'
    exact hne hee
  have hlive' : b'.live := by
    rcases hinv.tags _ b' (lin_slot_lt hpos B (aj + 1)) hb' with h | h
    · exact absurd h hne
    · exact live_of_tag_lt (h ▸ calc_hash_lt H _)
  obtain ⟨n, hn, hend, hpath, _⟩ := hinv.path (aj + 1) b' (by omega) (by omega) hb' hlive'
  have hhome : b'.h % m._max_size = lin_slot m._max_size B (aj + 1 - n) := by
    have := lin_path_slot hn hend 0 (Nat.zero_le _)
    simpa using this
  have hcond := @lin_cond_iff m._max_size B ai (aj + 1) (aj + 1 - n) hB (by omega) (by omega)
    (by omega)
  rw [hhome]
  have hsne : lin_slot m._max_size B ai ≠ lin_slot m._max_size B (aj + 1) := by
    intro h
    have := lin_slot_inj hB (by omega) (by omega) h
    omega
  have hilen : lin_slot m._max_size B ai < t.length := by
    rw [hinv.len]; have := lin_slot_lt hpos B ai; omega
  by_cases hc : aj + 1 - n ≤ ai
  · left
    refine ⟨hcond.mpr hc, ?_⟩
    have hset_ne : ∀ x, slot_nonempty t x →
        slot_nonempty (t.set (lin_slot m._max_size B ai) b') x :=
      fun x hx => slot_nonempty_set hne hx
    refine
      { len := by rw [List.length_set]; exact hinv.len
        last := by
          obtain ⟨bl, hbl, hl⟩ := hinv.last
          have := lin_slot_lt hpos B ai
          exact ⟨bl, by rw [List.getElem?_set_ne (by omega)]; exact hbl, hl⟩
        bounds := ⟨le_refl _, haj2⟩
        base := hB
        exit_empty := ?_, tags := ?_, hole := ?_, nodup := ?_, path := ?_, content := ?_
        cnt_live := ?_, cnt_nonempty := ?_ }
    · refine ⟨be, ?_, hee⟩
      rw [List.getElem?_set_ne]
      · exact hbe
      · intro h
        have := lin_slot_inj hB (by omega) (by omega) h
        omega
    · intro x b hx hb
      rcases get_set_cases hb with ⟨_, rfl⟩ | ⟨_, h⟩
      · exact hinv.tags _ b (lin_slot_lt hpos B (aj + 1)) hb'
      · exact hinv.tags x b hx h
    · exact ⟨b', by rw [List.getElem?_set_ne hsne]; exact hb', hne⟩
    · intro x y b1 b2 hx hy hxh hyh hb1 hb2 hl1 hl2 hk
      rcases get_set_cases hb1 with ⟨rfl, rfl⟩ | ⟨hx1, h1⟩
      · rcases get_set_cases hb2 with ⟨rfl, _⟩ | ⟨hy1, h2⟩
        · rfl
        · exact absurd (hinv.nodup _ y b1 b2 (lin_slot_lt hpos B (aj + 1)) hy
            (fun h => hsne h.symm) hy1 hb' h2 hl1 hl2 hk) (fun h => hyh h.symm)
      · rcases get_set_cases hb2 with ⟨rfl, rfl⟩ | ⟨hy1, h2⟩
        · exact absurd (hinv.nodup x _ b1 b2 hx (lin_slot_lt hpos B (aj + 1))
            hx1 (fun h => hsne h.symm) h1 hb' hl1 hl2 hk) hxh
        · exact hinv.nodup x y b1 b2 hx hy hx1 hy1 h1 h2 hl1 hl2 hk
    · intro a b ha hane hb hl
      by_cases hai : a = ai
      · subst hai
        rw [List.getElem?_set_self hilen] at hb
        cases hb
        refine ⟨n - (aj + 1 - a), by omega, ?_, ?_, by intro h1 h2; omega⟩
        · have := lin_path_slot hn hend (n - (aj + 1 - a)) (by omega)
          rw [this]
          congr 1
          omega
        · intro u hu
          have := hpath u (by omega)
          have e : a - (n - (aj + 1 - a)) + u = aj + 1 - n + u := by omega
          rw [e]
          exact hset_ne _ this
      · have hsa : lin_slot m._max_size B ai ≠ lin_slot m._max_size B a := by
          intro h
          exact hai (lin_slot_inj hB ha (by omega) h.symm)
        rw [List.getElem?_set_ne hsa] at hb
        obtain ⟨n2, hn2, hend2, hpath2, _⟩ := hinv.path a b ha hai hb hl
        exact ⟨n2, hn2, hend2, fun u hu => hset_ne _ (hpath2 u hu), by intro h1 h2; omega⟩
    · intro k v
      rw [← hinv.content]
      constructor
      · rintro ⟨x, b, hx, hxh, hb, hl, hkv⟩
        rcases get_set_cases hb with ⟨rfl, rfl⟩ | ⟨hx1, h1⟩
        · exact ⟨_, b, lin_slot_lt hpos B (aj + 1), fun h => hsne h.symm, hb', hl, hkv⟩
        · exact ⟨x, b, hx, hx1, h1, hl, hkv⟩
      · rintro ⟨x, b, hx, hxh, hb, hl, hkv⟩
        by_cases hxj : x = lin_slot m._max_size B (aj + 1)
        · subst hxj
          rw [hb'] at hb; cases hb
          exact ⟨_, b', lin_slot_lt hpos B ai, hsne, List.getElem?_set_self hilen, hl, hkv⟩
        · exact ⟨x, b, hx, hxj, by rw [List.getElem?_set_ne (fun h => hxh h.symm)]; exact hb,
            hl, hkv⟩
    · obtain ⟨a, ha, hane⟩ := hinv.hole
      have hal : a.live := by
        rcases hinv.tags _ a (lin_slot_lt hpos B ai) ha with h | h
        · exact absurd h hane
        · exact live_of_tag_lt (h ▸ calc_hash_lt H _)
      have := countP_set_take (fun b => decide b.live) t m._max_size _ a b'
        (lin_slot_lt hpos B ai) (by rw [hinv.len]; omega) ha
      simp only [hal, hlive', decide_True, if_true] at this
      rw [← hinv.cnt_live]
      omega
    · obtain ⟨a, ha, hane⟩ := hinv.hole
      have := countP_set_take (fun b => decide (b.h ≠ _empty)) t m._max_size _ a b'
        (lin_slot_lt hpos B ai) (by rw [hinv.len]; omega) ha
      have h1 : decide (a.h ≠ _empty) = true := decide_eq_true hane
      have h2 : decide (b'.h ≠ _empty) = true := decide_eq_true hne
      simp only [h1, h2, if_true] at this
      rw [← hinv.cnt_nonempty]
      omega
  · right
    refine ⟨fun h => hc (hcond.mp h), ?_⟩
    exact
      { len := hinv.len
        last := hinv.last
        bounds := ⟨by omega, haj2⟩
        base := hB
        exit_empty := hinv.exit_empty
        tags := hinv.tags
        hole := hinv.hole
        nodup := hinv.nodup
        path := by
          intro a b ha hane hb hl
          by_cases haj : a = aj + 1
          · subst haj
            rw [hb'] at hb; cases hb
            exact ⟨n, hn, hend, hpath, by intro h1 h2; omega⟩
          · obtain ⟨n2, hn2, hend2, hpath2, hsc⟩ := hinv.path a b ha hane hb hl
            exact ⟨n2, hn2, hend2, hpath2, by intro h1 h2; exact hsc h1 (by omega)⟩
        content := hinv.content
        cnt_live := hinv.cnt_live
        cnt_nonempty := hinv.cnt_nonempty }

end kirby

namespace kirby

/-- The loop of `dd_remove` returns: it stops at an EMPTY slot with the loop
state kept. -/
theorem lin_remove_loop_spec {H : Hashers} {m : base_hashmap} {k0 : Key} {B : Nat}
    (j : Nat) (h31 : j ≤ 31) (hj : m._max_size = 2 ^ j) :
    ∀ fuel (t : List bucket) (ai aj : Nat), LinLoopInv H m k0 B t ai aj →
      m._max_size ≤ fuel + aj + 1 →
      ∃ t' ai' aj', lin_remove_loop (2 ^ j - 1) fuel t (lin_slot m._max_size B ai)
          (lin_slot m._max_size B ai) (lin_slot m._max_size B aj)
          = some (t', lin_slot m._max_size B ai') ∧
        LinLoopInv H m k0 B t' ai' aj' ∧
        ∃ b, t'[lin_slot m._max_size B (aj' + 1)]? = some b ∧ b.h = _empty := by
  intro fuel
  induction fuel with
  | zero =>
    intro t ai aj hinv hf
    have := hinv.bounds
    omega
  | succ fuel ih =>
    intro t ai aj hinv hf
    have hpos : 0 < m._max_size := by have := hinv.bounds; omega
    unfold lin_remove_loop
    simp only
    have hnext : u32 (lin_slot m._max_size B aj + 1) &&& (2 ^ j - 1)
        = lin_slot m._max_size B (aj + 1) := by
      rw [hj]; exact lin_slot_succ j h31 B aj
    rw [hnext]
    have hlt : lin_slot m._max_size B (aj + 1) < t.length := by
      rw [hinv.len]; have := lin_slot_lt hpos B (aj + 1); omega
    rw [List.getElem?_eq_getElem hlt]
    simp only
    by_cases he : (t[lin_slot m._max_size B (aj + 1)]).h = _empty
    · rw [if_pos he]
      exact ⟨t, ai, aj, rfl, hinv, _, List.getElem?_eq_getElem hlt, he⟩
    · rw [if_neg he]
      have hand : (t[lin_slot m._max_size B (aj + 1)]).h &&& (2 ^ j - 1)
          = (t[lin_slot m._max_size B (aj + 1)]).h % m._max_size := by
        rw [and_mask_eq_mod, ← hj]
      rw [hand]
      rcases lin_loop_step hinv (List.getElem?_eq_getElem hlt) he with ⟨hc, hinv'⟩ | ⟨hc, hinv'⟩
      · rw [if_pos hc]
        have hilen : lin_slot m._max_size B ai < t.length := by
          rw [hinv.len]; have := lin_slot_lt hpos B ai; omega
        rw [write_of_lt _ hilen]
        simp only
        exact ih _ (aj + 1) (aj + 1) hinv' (by omega)
      · rw [if_neg hc]
        exact ih t ai (aj + 1) hinv' (by omega)

/-- The table after the loop of `dd_remove`, with the hole set to EMPTY,
satisfies the invariant of the map and holds every key but the erased one. -/
theorem lin_loop_exit {H : Hashers} {m : base_hashmap} (hm : ProbingInv .lin H m) {k0 : Key}
    {B : Nat} {t : List bucket} {ai aj : Nat} (hinv : LinLoopInv H m k0 B t ai aj)
    {be : bucket} (hbe : t[lin_slot m._max_size B (aj + 1)]? = some be) (hee : be.h = _empty) :
    1 ≤ m._size ∧ 1 ≤ m._true_size ∧
    ProbingInv .lin H { m with
      _size := m._size - 1
      _true_size := m._true_size - 1
      _table := t.set (lin_slot m._max_size B ai) { h := _empty, kv := (0, 0) } } ∧
    ∀ k v, Holds { m with
      _size := m._size - 1
      _true_size := m._true_size - 1
      _table := t.set (lin_slot m._max_size B ai) { h := _empty, kv := (0, 0) } } k v
      ↔ (Holds m k v ∧ k ≠ k0) := by
  have hB := hinv.base
  have hbd := hinv.bounds
  have hpos : 0 < m._max_size := by omega
  have hsi := lin_slot_lt hpos B ai
  have hilen : lin_slot m._max_size B ai < t.length := by rw [hinv.len]; omega
  obtain ⟨a, ha, hane⟩ := hinv.hole
  have hal : a.live := by
    rcases hinv.tags _ a hsi ha with h | h
    · exact absurd h hane
    · exact live_of_tag_lt (h ▸ calc_hash_lt H _)
  have hnl : ¬ (bucket.mk _empty (0, 0)).live := empty_bucket_not_live
  have hc1 := countP_set_take (fun b => decide b.live) t m._max_size _ a
    { h := _empty, kv := (0, 0) } hsi (by rw [hinv.len]; omega) ha
  have hd1 : decide (bucket.live { h := _empty, kv := (0, 0) }) = false :=
    decide_eq_false hnl
  simp only [hal, decide_True, if_true, hd1, Bool.false_eq_true, if_false] at hc1
  have hc2 := countP_set_take (fun b => decide (b.h ≠ _empty)) t m._max_size _ a
    { h := _empty, kv := (0, 0) } hsi (by rw [hinv.len]; omega) ha
  have hd2 : decide (a.h ≠ _empty) = true := decide_eq_true hane
  have hd3 : decide ((bucket.mk _empty (0, 0)).h ≠ _empty) = false := by simp
  simp only [hd2, hd3, Bool.false_eq_true, if_true, if_false] at hc2
  rw [hinv.cnt_live] at hc1
  rw [hinv.cnt_nonempty] at hc2
  have hback : ∀ (x : Nat) (b : bucket),
      (t.set (lin_slot m._max_size B ai) { h := _empty, kv := (0, 0) })[x]? = some b →
      b.live → x ≠ lin_slot m._max_size B ai ∧ t[x]? = some b := by
    intro x b hb hl
    rcases get_set_cases hb with ⟨_, rfl⟩ | ⟨h1, h2⟩
    · exact absurd hl hnl
    · exact ⟨h1, h2⟩
  refine ⟨by omega, by omega,
    { geo := geometry_update hm.geo _ (by rw [List.length_set, hinv.len, hm.geo.length]; rfl) _ _
      tags := ?_, nodup := ?_, path := ?_
      size := by
        show m._size - 1 = ((t.set _ _).take m._max_size).countP _
        omega
      true_size := by
        show m._true_size - 1 = ((t.set _ _).take m._max_size).countP _
        omega
      threshold := by
        have := hm.threshold
        exact ⟨by show m._true_size - 1 ≤ m._max_true_size; omega, this.2⟩
      last := by
        obtain ⟨bl, hbl, hl⟩ := hinv.last
        exact ⟨bl, by
          show (t.set _ _)[m._max_size]? = _
          rw [List.getElem?_set_ne (by omega)]; exact hbl, hl⟩ }, ?_⟩
  · intro x b hx hb
    rcases get_set_cases hb with ⟨_, rfl⟩ | ⟨_, h⟩
    · exact Or.inl rfl
    · rcases hinv.tags x b hx h with h1 | h1
      · exact Or.inl h1
      · exact Or.inr (Or.inr h1)
  · intro x y b b' hx hy hb hb' hl hl' hk
    obtain ⟨hx1, hx2⟩ := hback x b hb hl
    obtain ⟨hy1, hy2⟩ := hback y b' hb' hl'
    exact hinv.nodup x y b b' hx hy hx1 hy1 hx2 hy2 hl hl' hk
  · intro x b hx hb hl
    obtain ⟨hx1, hx2⟩ := hback x b hb hl
    obtain ⟨c, hc, hcx⟩ := lin_slot_surj hB hx
    have hcai : c ≠ ai := by rintro rfl; exact hx1 hcx.symm
    rw [← hcx] at hx2
    obtain ⟨n, hn, hend, hpath, hsc⟩ := hinv.path c b hc hcai hx2 hl
    refine ⟨n, by show n < m._max_size; omega,
      by show probe_slot .lin m._max_size b.h n = x; rw [probe_slot_lin, hend, hcx], ?_⟩
    intro u hu
    show slot_nonempty (t.set _ _) (probe_slot .lin m._max_size b.h u)
    rw [probe_slot_lin, lin_path_slot hn hend u (by omega)]
    obtain ⟨bu, hbu, hbune⟩ := hpath u hu
    refine ⟨bu, ?_, hbune⟩
    show (t.set _ _)[_]? = _
    rw [List.getElem?_set_ne]
    · exact hbu
    · intro h
      have hinj := lin_slot_inj hB (by omega) (by omega) h
      have hcj : c ≠ aj + 1 := by
        rintro rfl
        rw [hbe] at hx2; cases hx2
        exact live_not_empty hl hee
      rcases Nat.lt_trichotomy c ai with h1 | h1 | h1
      · omega
      · exact hcai h1
      · by_cases h2 : c ≤ aj
        · have := hsc h1 h2
          omega
        · obtain ⟨bq, hbq, hbqne⟩ := hpath (aj + 1 - (c - n)) (by omega)
          have e : c - n + (aj + 1 - (c - n)) = aj + 1 := by omega
          rw [e, hbe] at hbq
          cases hbq
          exact hbqne hee
  · intro k v
    rw [← hinv.content]
    constructor
    · rintro ⟨x, b, hx, hb, hl, hkv⟩
      obtain ⟨hx1, hx2⟩ := hback x b hb hl
      exact ⟨x, b, hx, hx1, hx2, hl, hkv⟩
    · rintro ⟨x, b, hx, hx1, hb, hl, hkv⟩
      exact ⟨x, b, hx, by
        show (t.set _ _)[x]? = _
        rw [List.getElem?_set_ne (fun h => hx1 h.symm)]; exact hb, hl, hkv⟩

end kirby

namespace kirby

/-! ## Removal from a probing map -/

/-- The function `lin_hashmap::dd_remove` on a live bucket: a backward shift
that leaves no tombstone. -/
theorem lin_remove_spec {H : Hashers} {m : base_hashmap} (hinv : ProbingInv .lin H m)
    {s0 : Nat} {b0 : bucket} (hs0 : s0 < m._max_size) (hb0 : m._table[s0]? = some b0)
    (hl0 : b0.live) :
    ∃ m', remove .lin m s0 = some m' ∧ ProbingInv .lin H m' ∧
      (∀ k v, Holds m' k v ↔ (Holds m k v ∧ k ≠ b0.kv.1)) ∧
      m'._size + 1 = m._size ∧ m'._true_size + 1 = m._true_size ∧
      m'._max_size = m._max_size ∧ m'._max_true_size = m._max_true_size := by
  obtain ⟨j, h3, h31, hj⟩ := hinv.geo.pow2
  have hp := pow_le_pow31 h31
  have hpos : 0 < m._max_size := by rw [hj]; positivity
  obtain ⟨B, a0, hloop0, hslot0⟩ := lin_loop_init hinv hs0 hb0 hl0
  obtain ⟨t', ai', aj', hres, hloop', be, hbe, hee⟩ :=
    lin_remove_loop_spec j h31 hj m._table.length m._table a0 a0 hloop0
      (by rw [hinv.geo.length]; omega)
  obtain ⟨hsz, hts, hinv', hholds⟩ := lin_loop_exit hinv hloop' hbe hee
  have hmask : m._mask = 2 ^ j - 1 := by rw [hinv.geo.mask, hj]
  have hthr := hinv.threshold
  have hsl := hinv.size_le
  simp only [remove, lin_dd_remove]
  rw [← hmask] at hres
  rw [← hslot0, hres]
  simp only [_remove_for_empty]
  have hilen : lin_slot m._max_size B ai' < t'.length := by
    rw [hloop'.len]; have := lin_slot_lt hpos B ai'; omega
  rw [write_of_lt _ hilen]
  simp only
  rw [usub_of_le hsz (by omega), usub_of_le hts (by omega)]
  exact ⟨_, rfl, hinv', hholds, by show m._size - 1 + 1 = m._size; omega,
    by show m._true_size - 1 + 1 = m._true_size; omega, rfl, rfl⟩

/-- The function `quad_hashmap::dd_remove` on a live bucket: the bucket becomes
a tombstone with default key and value. -/
theorem quad_remove_spec {H : Hashers} {m : base_hashmap} (hinv : ProbingInv .quad H m)
    {s0 : Nat} {b0 : bucket} (hs0 : s0 < m._max_size) (hb0 : m._table[s0]? = some b0)
    (hl0 : b0.live) :
    ∃ m', remove .quad m s0 = some m' ∧ ProbingInv .quad H m' ∧
      (∀ k v, Holds m' k v ↔ (Holds m k v ∧ k ≠ b0.kv.1)) ∧
      m'._size + 1 = m._size ∧ m'._true_size = m._true_size ∧
      m'._max_size = m._max_size ∧ m'._max_true_size = m._max_true_size ∧
      m'._table = m._table.set s0 { h := _tombstone, kv := (0, 0) } := by
  obtain ⟨j, h3, h31, hj⟩ := hinv.geo.pow2
  have hp := pow_le_pow31 h31
  have hlen : s0 < m._table.length := (List.getElem?_eq_some.mp hb0).1
  have hcl : m._max_size ≤ m._table.length := by rw [hinv.geo.length]; omega
  have hthr := hinv.threshold
  have hsl := hinv.size_le
  have hnl : ¬ (bucket.mk _tombstone (0, 0)).live := by
    unfold bucket.live; rw [tombstone_val, code_val]; simp
  have hc1 := countP_set_take (fun b => decide b.live) m._table m._max_size s0 b0
    { h := _tombstone, kv := (0, 0) } hs0 hcl hb0
  have hd1 : decide (bucket.live { h := _tombstone, kv := (0, 0) }) = false :=
    decide_eq_false hnl
  simp only [hl0, decide_True, if_true, hd1, Bool.false_eq_true, if_false] at hc1
  have hc2 := countP_set_take (fun b => decide (b.h ≠ _empty)) m._table m._max_size s0 b0
    { h := _tombstone, kv := (0, 0) } hs0 hcl hb0
  have hd2 : decide (b0.h ≠ _empty) = true := decide_eq_true (live_not_empty hl0)
  have hd3 : decide ((bucket.mk _tombstone (0, 0)).h ≠ _empty) = true := by
    rw [tombstone_val, empty_val]; simp
  simp only [hd2, hd3, if_true] at hc2
  rw [← hinv.size] at hc1
  rw [← hinv.true_size] at hc2
  have hback : ∀ (x : Nat) (b : bucket),
      (m._table.set s0 { h := _tombstone, kv := (0, 0) })[x]? = some b →
      b.live → x ≠ s0 ∧ m._table[x]? = some b := by
    intro x b hb hl
    rcases get_set_cases hb with ⟨_, rfl⟩ | ⟨h1, h2⟩
    · exact absurd hl hnl
    · exact ⟨h1, h2⟩
  have hne : (bucket.mk _tombstone (0, 0)).h ≠ _empty := by
    rw [tombstone_val, empty_val]; simp
  simp only [remove, quad_dd_remove, _remove_for_tombstone]
  rw [write_of_lt _ hlen]
  simp only
  rw [usub_of_le (show 1 ≤ m._size by omega) (by omega)]
  refine ⟨_, rfl,
    { geo := geometry_update hinv.geo _ (List.length_set _ _ _) _ _
      tags := ?_, nodup := ?_, path := ?_
      size := by
        show m._size - 1 = ((m._table.set _ _).take m._max_size).countP _
        omega
      true_size := by
        show m._true_size = ((m._table.set _ _).take m._max_size).countP _
        omega
      threshold := hthr
      last := by
        obtain ⟨bl, hbl, hl⟩ := hinv.last
        exact ⟨bl, by
          show (m._table.set _ _)[m._max_size]? = _
          rw [List.getElem?_set_ne (by omega)]; exact hbl, hl⟩ }, ?_,
    by show m._size - 1 + 1 = m._size; omega, rfl, rfl, rfl, rfl⟩
  · intro x b hx hb
    rcases get_set_cases hb with ⟨_, rfl⟩ | ⟨_, h⟩
    · exact Or.inr (Or.inl ⟨rfl, rfl⟩)
    · exact hinv.tags x b hx h
  · intro x y b b' hx hy hb hb' hl hl' hk
    obtain ⟨_, hx2⟩ := hback x b hb hl
    obtain ⟨_, hy2⟩ := hback y b' hb' hl'
    exact hinv.nodup x y b b' hx hy hx2 hy2 hl hl' hk
  · intro x b hx hb hl
    obtain ⟨_, hx2⟩ := hback x b hb hl
    obtain ⟨n, hn, hslot, hpath⟩ := hinv.path x b hx hx2 hl
    exact ⟨n, hn, hslot, fun i hi => slot_nonempty_set hne (hpath i hi)⟩
  · intro k v
    constructor
    · rintro ⟨x, b, hx, hb, hl, hkv⟩
      obtain ⟨hx1, hx2⟩ := hback x b hb hl
      refine ⟨⟨x, b, hx, hx2, hl, hkv⟩, ?_⟩
      intro hk
      exact hx1 (hinv.nodup x s0 b b0 hx hs0 hx2 hb0 hl hl0 (by rw [hkv]; exact hk))
    · rintro ⟨⟨x, b, hx, hb, hl, hkv⟩, hk⟩
      have hxs : s0 ≠ x := by
        rintro rfl
        rw [hb0] at hb; cases hb
        rw [hkv] at hk
        exact hk rfl
      exact ⟨x, b, hx, by
        show (m._table.set _ _)[x]? = _
        rw [List.getElem?_set_ne hxs]; exact hb, hl, hkv⟩

end kirby

namespace kirby

/-! ## The mutating calls on a probing map -/

theorem represents_functional {p : Policy} {H : Hashers} {m : base_hashmap}
    (hinv : ProbingInv p H m) {k : Key} {v v' : T} (h : Holds m k v) (h' : Holds m k v') :
    v = v' := by
  obtain ⟨s, b, hs, hb, hl, hkv⟩ := h
  obtain ⟨s', b', hs', hb', hl', hkv'⟩ := h'
  have := hinv.nodup s s' b b' hs hs' hb hb' hl hl' (by rw [hkv, hkv'])
  subst this
  rw [hb] at hb'
  cases hb'
  rw [hkv] at hkv'
  exact (Prod.mk.inj hkv').2

theorem absent_of_represents {m : base_hashmap} {f : Key → Option T} (hrep : Represents m f)
    {k : Key} (hk : f k = none) : Absent m k := by
  rw [absent_iff_not_holds]
  intro v hv
  rw [(hrep k v).mp hv] at hk
  cases hk

/-- The threshold `clear()` leaves stays between the load limit and the
capacity. -/
theorem clear_threshold (c thr ts : Nat) (hc : c ≤ 2147483648) (h1 : thr < c)
    (h2 : c * 8556380 / 16777216 ≤ thr) :
    (if ts < thr ∨ c * 8556380 / 16777216 > thr then c * 8556380 / 16777216
      else u32 (thr + u32 ((usub c thr >>> 4) <<< 3))) < c ∧
    c * 8556380 / 16777216 ≤
      (if ts < thr ∨ c * 8556380 / 16777216 > thr then c * 8556380 / 16777216
      else u32 (thr + u32 ((usub c thr >>> 4) <<< 3))) := by
  by_cases h : ts < thr ∨ c * 8556380 / 16777216 > thr
  · rw [if_pos h]
    exact ⟨by omega, le_refl _⟩
  · rw [if_neg h, usub_of_le (le_of_lt h1) (by omega), Nat.shiftRight_eq_div_pow,
      Nat.shiftLeft_eq]
    have e1 : (2 : Nat) ^ 4 = 16 := by norm_num
    have e2 : (2 : Nat) ^ 3 = 8 := by norm_num
    rw [e1, e2, u32_of_lt (show (c - thr) / 16 * 8 < 4294967296 by omega),
      u32_of_lt (show thr + (c - thr) / 16 * 8 < 4294967296 by omega)]
    omega

/-- The call `clear()` on a probing map. -/
theorem probing_clear_spec {p : Policy} (hp : p.probing) {H : Hashers} {m : base_hashmap}
    (hinv : ProbingInv p H m) :
    ∃ m', m.clear = some m' ∧ ProbingInv p H m' ∧ (∀ k, Absent m' k) ∧
      m'._max_size = m._max_size ∧ m'._true_size = 0 ∧ m'._size = 0 := by
  obtain ⟨j, h3, h31, hj⟩ := hinv.geo.pow2
  have hp31 := pow_le_pow31 h31
  obtain ⟨m', hc, hg', hf, hms, hmts⟩ := clear_spec p m hinv.geo
  have hthr := hinv.threshold
  have hct := clear_threshold m._max_size m._max_true_size m._true_size (by omega)
    hthr.2.1 hthr.2.2
  rw [← hmts, ← hms] at hct
  obtain ⟨hinv', habs⟩ := fresh_probing_inv hp H hg' hf hct
  exact ⟨m', hc, hinv', habs, hms, hf.true_size, hf.size⟩

end kirby

namespace kirby

/-- The call `insert` on a present key: the flag is `false` and the map is the
same. -/
theorem probing_insert_present {p : Policy} (hp : p.probing) {H : Hashers} (fuel : Nat)
    {m : base_hashmap} (hinv : ProbingInv p H m) {s : Nat} {b : bucket}
    (hs : s < m._max_size) (hb : m._table[s]? = some b) (hl : b.live) (v : T) :
    base_hashmap.insert p H (fuel + 1) m (b.kv.1, v) = some (m, s, false) := by
  unfold base_hashmap.insert find_while_trying_key
  simp only
  rw [probing_fwt_present hp fuel hinv hs hb hl]
  simp

/-- The bucket `find_while_trying` returns for an absent key, with a value
written through the returned pointer. -/
theorem probing_store_absent {p : Policy} (hp : p.probing) {H : Hashers} (fuel : Nat)
    {m : base_hashmap} (hinv : ProbingInv p H m) (k : Key) (habs : Absent m k)
    (hcap : m._max_size < 2147483648) (v : T) :
    ∃ m1 ptr b, find_while_trying_key p H (fuel + 2) m k = some (m1, ptr, false) ∧
      m1._table[ptr]? = some b ∧
      ProbingInv p H { m1 with _table := m1._table.set ptr { b with kv := (b.kv.1, v) } } ∧
      (∀ k' v', Holds { m1 with _table := m1._table.set ptr { b with kv := (b.kv.1, v) } } k' v'
        ↔ Holds m k' v' ∨ (k' = k ∧ v' = v)) ∧
      ptr < m1._max_size ∧ b.kv.1 = k ∧ b.h = _calc_hash H k ∧
      m1._size = m._size + 1 ∧
      ((m._true_size < m._max_true_size ∧ m1._max_size = m._max_size ∧
          m1._true_size = m._true_size + 1 ∧ m1._max_true_size = m._max_true_size) ∨
        (m._true_size = m._max_true_size ∧ m1._true_size = m1._size ∧
          _next_size_up (u32 (m._max_size + 1)) = some m1._max_size ∧
          m._max_size < m1._max_size ∧ m1._max_size ≤ 8 * m._max_size ∧
          m1._max_true_size = m1._max_size * 8556380 / 16777216)) := by
  obtain ⟨m1, ptr, v0, hres, hinv1, hptr, hget, hh, hsz, hcase⟩ :=
    probing_fwt_absent hp fuel hinv k habs hcap
  have hl1 : (bucket.mk (_calc_hash H k) (k, v0)).live := live_of_tag_lt (calc_hash_lt H k)
  refine ⟨m1, ptr, _, hres, hget, hinv1.set_value hptr hget v, ?_, hptr, rfl, rfl, hsz, hcase⟩
  intro k' v'
  rw [holds_set_value hinv1 hptr hget hl1 v k' v', hh]
  simp only
  constructor
  · rintro (⟨hne, h1 | ⟨h2, _⟩⟩ | h3)
    · exact Or.inl h1
    · exact absurd h2 hne
    · exact Or.inr h3
  · rintro (h1 | h3)
    · left
      refine ⟨?_, Or.inl h1⟩
      rintro rfl
      exact (absent_iff_not_holds _ _).mp habs v' h1
    · exact Or.inr h3

/-- The call `erase` on a probing map. -/
theorem probing_erase_spec {p : Policy} (hp : p.probing) {H : Hashers}
    {m : base_hashmap} (hinv : ProbingInv p H m) (k : Key) :
    (Absent m k → base_hashmap.erase p H m k = some (m, 0)) ∧
    (∀ v, Holds m k v → ∃ m', base_hashmap.erase p H m k = some (m', 1) ∧
      ProbingInv p H m' ∧ (∀ k' v', Holds m' k' v' ↔ (Holds m k' v' ∧ k' ≠ k)) ∧
      m'._size + 1 = m._size ∧ m'._true_size ≤ m._true_size ∧
      (p = .lin → m'._true_size + 1 = m._true_size) ∧
      m'._max_size = m._max_size ∧ m'._max_true_size = m._max_true_size) := by
  have hend : m._end = m._max_size := by rw [hinv.geo.end_eq, probing_ovf hp]; rfl
  constructor
  · intro habs
    unfold base_hashmap.erase
    rw [probing_find_absent hp hinv k habs]
    simp
  · rintro v ⟨s, b, hs, hb, hl, hkv⟩
    have hk : b.kv.1 = k := by rw [hkv]
    have hf := probing_find_present hp hinv hs hb hl
    rw [hk] at hf
    unfold base_hashmap.erase
    rw [hf]
    simp only
    rw [if_pos (by rw [hend]; omega)]
    rcases hp with rfl | rfl
    · obtain ⟨m', hr, hinv', hh, hsz, hts, hms, hmts⟩ := lin_remove_spec hinv hs hb hl
      rw [hr]
      rw [hk] at hh
      exact ⟨m', rfl, hinv', hh, hsz, by omega, fun _ => hts, hms, hmts⟩
    · obtain ⟨m', hr, hinv', hh, hsz, hts, hms, hmts, _⟩ := quad_remove_spec hinv hs hb hl
      rw [hr]
      rw [hk] at hh
      exact ⟨m', rfl, hinv', hh, hsz, by omega, fun h => Policy.noConfusion h, hms, hmts⟩

end kirby

namespace kirby

/-! ## One mutating call against the associations -/

theorem half_le_load (c : Nat) : c / 2 ≤ c * 8556380 / 16777216 := by omega

/-- Every mutating call on a probing map whose capacity is below `2^31` returns
with the invariant kept and changes the associations as `spec_step` says. -/
theorem probing_step_spec {p : Policy} (hp : p.probing) (H : Hashers) (fuel : Nat)
    {m : base_hashmap} {f : Key → Option T} (hinv : ProbingInv p H m) (hrep : Represents m f)
    (hcap : m._max_size < 2147483648) (op : Op) :
    ∃ m', step p H (fuel + 2) m op = some m' ∧ ProbingInv p H m' ∧
      Represents m' (spec_step f op) ∧ m'._true_size ≤ m._true_size + 1 ∧
      (m'._max_size = m._max_size ∨
        (m._max_size ≤ 2 * m._true_size + 1 ∧ m'._max_size ≤ 8 * m._max_size)) := by
  have hthr := hinv.threshold
  have hgrow : ∀ m1 : base_hashmap,
      ((m._true_size < m._max_true_size ∧ m1._max_size = m._max_size ∧
          m1._true_size = m._true_size + 1 ∧ m1._max_true_size = m._max_true_size) ∨
        (m._true_size = m._max_true_size ∧ m1._true_size = m1._size ∧
          _next_size_up (u32 (m._max_size + 1)) = some m1._max_size ∧
          m._max_size < m1._max_size ∧ m1._max_size ≤ 8 * m._max_size ∧
          m1._max_true_size = m1._max_size * 8556380 / 16777216)) →
      m1._size = m._size + 1 →
      m1._true_size ≤ m._true_size + 1 ∧
      (m1._max_size = m._max_size ∨
        (m._max_size ≤ 2 * m._true_size + 1 ∧ m1._max_size ≤ 8 * m._max_size)) := by
    intro m1 hcase hsz
    have hsl := hinv.size_le
    rcases hcase with ⟨_, h2, h3, _⟩ | ⟨h1, h2, _, _, h5, _⟩
    · exact ⟨by omega, Or.inl h2⟩
    · refine ⟨by omega, Or.inr ⟨?_, h5⟩⟩
      have := half_le_load m._max_size
      omega
  cases op with
  | insert k v =>
    cases hfk : f k with
    | some v0 =>
      obtain ⟨s, b, hs, hb, hl, hkv⟩ := (hrep k v0).mpr hfk
      have hk : b.kv.1 = k := by rw [hkv]
      have hins := probing_insert_present hp (fuel + 1) hinv hs hb hl v
      rw [hk] at hins
      refine ⟨m, by simp only [step]; rw [hins]; rfl, hinv, ?_, by omega, Or.inl rfl⟩
      intro k' v'
      rw [hrep]
      simp only [spec_step, hfk]
      by_cases hkk : k' = k
      · rw [if_pos hkk, hkk, hfk]
      · rw [if_neg hkk]
    | none =>
      have habs := absent_of_represents hrep hfk
      obtain ⟨m1, ptr, b, hres, hget, hinv', hh, _, _, _, hsz, hcase⟩ :=
        probing_store_absent hp fuel hinv k habs hcap v
      refine ⟨_, by
        simp only [step, base_hashmap.insert]
        rw [hres]
        simp only [Bool.not_false, if_true]
        rw [hget]
        rfl, hinv', ?_, (hgrow m1 hcase hsz).1, (hgrow m1 hcase hsz).2⟩
      intro k' v'
      rw [hh, hrep]
      simp only [spec_step, hfk]
      by_cases hkk : k' = k
      · rw [if_pos hkk, hkk, hfk]
        simp
        exact eq_comm
      · rw [if_neg hkk]
        simp [hkk]
  | assign k v =>
    cases hfk : f k with
    | some v0 =>
      obtain ⟨s, b, hs, hb, hl, hkv⟩ := (hrep k v0).mpr hfk
      have hk : b.kv.1 = k := by rw [hkv]
      have hfw := probing_fwt_present hp (fuel + 1) hinv hs hb hl
      rw [hk] at hfw
      refine ⟨_, by
        simp only [step, base_hashmap.assign, base_hashmap.subscript, find_while_trying_key]
        rw [hfw]
        simp only
        rw [hb], hinv.set_value hs hb v, ?_, by show m._true_size ≤ _; omega, Or.inl rfl⟩
      intro k' v'
      rw [holds_set_value hinv hs hb hl v k' v', hk, hrep]
      simp only [spec_step]
      by_cases hkk : k' = k
      · rw [if_pos hkk]
        simp [hkk]
        exact eq_comm
      · rw [if_neg hkk]
        simp [hkk]
    | none =>
      have habs := absent_of_represents hrep hfk
      obtain ⟨m1, ptr, b, hres, hget, hinv', hh, _, _, _, hsz, hcase⟩ :=
        probing_store_absent hp fuel hinv k habs hcap v
      refine ⟨_, by
        simp only [step, base_hashmap.assign, base_hashmap.subscript]
        rw [hres]
        simp only
        rw [hget], hinv', ?_, (hgrow m1 hcase hsz).1, (hgrow m1 hcase hsz).2⟩
      intro k' v'
      rw [hh, hrep]
      simp only [spec_step]
      by_cases hkk : k' = k
      · rw [if_pos hkk, hkk, hfk]
        simp
        exact eq_comm
      · rw [if_neg hkk]
        simp [hkk]
  | erase k =>
    obtain ⟨hea, hep⟩ := probing_erase_spec hp hinv k
    cases hfk : f k with
    | some v0 =>
      obtain ⟨m', hr, hinv', hh, _, hts, _, hms, _⟩ := hep v0 ((hrep k v0).mpr hfk)
      refine ⟨m', by simp only [step]; rw [hr]; rfl, hinv', ?_, by omega, Or.inl hms⟩
      intro k' v'
      rw [hh, hrep]
      simp only [spec_step]
      by_cases hkk : k' = k
      · rw [if_pos hkk]
        simp [hkk]
      · rw [if_neg hkk]
        simp [hkk]
    | none =>
      have hr := hea (absent_of_represents hrep hfk)
      refine ⟨m, by simp only [step]; rw [hr]; rfl, hinv, ?_, by omega, Or.inl rfl⟩
      intro k' v'
      rw [hrep]
      simp only [spec_step]
      by_cases hkk : k' = k
      · rw [if_pos hkk, hkk, hfk]
      · rw [if_neg hkk]
  | clear =>
    obtain ⟨m', hc, hinv', habs, hms, hts, _⟩ := probing_clear_spec hp hinv
    refine ⟨m', by simp only [step]; exact hc, hinv', ?_, by omega, Or.inl hms⟩
    intro k' v'
    simp only [spec_step]
    constructor
    · intro h
      exact absurd h ((absent_iff_not_holds _ _).mp (habs k') v')
    · intro h
      cases h

end kirby

namespace kirby

/-! ## Sequences of calls -/

/-- A capacity hint of at most `2^30` gives a capacity of at most `2^30`. -/
theorem next_size_up_le30 (n : Nat) (hn : n ≤ 1073741824) :
    ∃ j, 3 ≤ j ∧ j ≤ 30 ∧ _next_size_up n = some (2 ^ j) := by
  have hn31 : n ≤ 2147483648 := by omega
  unfold _next_size_up
  simp only [shift31_val, abs_max_val]
  rw [if_pos hn31]
  have key : ∀ g, (g = 1 ∨ (g = 3 ∧ n ≤ 262144)) →
      ∃ j, 3 ≤ j ∧ j ≤ 30 ∧ _next_size_up_loop g n 64 _initial_default_size = some (2 ^ j) := by
    intro g hg
    obtain ⟨j, h1, h2, h3, _, h5⟩ := next_size_up_loop_spec g n hg hn31 64 3
      (by norm_num) (by intro _; rfl) (by norm_num) (le_refl _)
    refine ⟨j, h1, ?_, h3⟩
    by_contra hcon
    have hj : j = 31 := by omega
    rcases hg with hg | ⟨hg, hn2⟩
    · have := h5 30 (by omega) (by omega) (by omega)
      norm_num at this
      omega
    · have := h5 18 (by omega) (by omega) (by intro _; rfl)
      norm_num at this
      omega
  by_cases hs : n ≥ _slow_growth_at
  · rw [if_pos hs]
    exact key _ (Or.inl rfl)
  · rw [if_neg hs]
    exact key _ (Or.inr ⟨rfl, by simp [_slow_growth_at] at hs; omega⟩)

/-- A constructed probing map satisfies the invariant and holds no key. -/
theorem probing_construct_spec {p : Policy} (hp : p.probing) (H : Hashers) (n : Nat) :
    ∃ m, construct p n = some m ∧ ProbingInv p H m ∧ Represents m (fun _ => none) ∧
      m._true_size = 0 ∧ _next_size_up n = some m._max_size := by
  obtain ⟨m, j, hc, hg, hf, h3, h31, hnsu, hms, hmts⟩ := construct_spec p n
  have hp31 := pow_le_pow31 h31
  have hp8 := pow_ge_8 h3
  obtain ⟨hinv, habs⟩ := fresh_probing_inv hp H hg hf
    (by rw [hmts, hms]; exact ⟨by omega, le_refl _⟩)
  refine ⟨m, hc, hinv, ?_, hf.true_size, by rw [hms]; exact hnsu⟩
  intro k v
  constructor
  · intro h
    exact absurd h ((absent_iff_not_holds _ _).mp (habs k) v)
  · intro h
    cases h

/-- A sequence of calls on a probing map returns, keeps the invariant and
changes the associations as `spec_run` says, as long as the sequence is too
short to fill a table of `2^31` slots. -/
theorem probing_run_spec {p : Policy} (hp : p.probing) (H : Hashers) (fuel C0 : Nat)
    (hC0 : C0 < 2147483648) :
    ∀ (ops : List Op) (m : base_hashmap) (f : Key → Option T) (N : Nat),
      ProbingInv p H m → Represents m f → m._true_size ≤ N →
      (m._max_size ≤ C0 ∨ m._max_size ≤ 16 * N) → 16 * (N + ops.length) < 2147483648 →
      ∃ m', run p H (fuel + 2) ops m = some m' ∧ ProbingInv p H m' ∧
        Represents m' (spec_run ops f) := by
  intro ops
  induction ops with
  | nil =>
    intro m f N hinv hrep _ _ _
    exact ⟨m, rfl, hinv, hrep⟩
  | cons op ops ih =>
    intro m f N hinv hrep hts hcap hlen
    simp only [List.length_cons] at hlen
    obtain ⟨m1, hstep, hinv1, hrep1, hts1, hcap1⟩ :=
      probing_step_spec hp H fuel hinv hrep (by omega) op
    obtain ⟨m', hrun, hinv', hrep'⟩ := ih m1 (spec_step f op) (N + 1) hinv1 hrep1 (by omega)
      (by rcases hcap1 with h | ⟨h1, h2⟩ <;> omega) (by omega)
    exact ⟨m', by simp only [run]; rw [hstep]; exact hrun, hinv', hrep'⟩

/-- The value `find` designates in a probing map that represents `f`. -/
theorem probing_lookup_represents {p : Policy} (hp : p.probing) {H : Hashers}
    {m : base_hashmap} {f : Key → Option T} (hinv : ProbingInv p H m) (hrep : Represents m f)
    (k : Key) : lookup p H m k = some (f k) := by
  obtain ⟨h1, h2⟩ := probing_lookup hp hinv k
  cases hfk : f k with
  | some v => exact h1 v ((hrep k v).mpr hfk)
  | none => exact h2 (absent_of_represents hrep hfk)

end kirby

namespace kirby

/-! ## Every reachable state of a probing map satisfies the invariant -/

/-- The table `_insert_while_full` hands to `_rehash`: its live buckets are the
live buckets of the map. -/
theorem cleared_table_facts {p : Policy} (hp : p.probing) {H : Hashers} {m : base_hashmap}
    (hinv : ProbingInv p H m) {s : Nat} {a : bucket} (hs : s < m._max_size)
    (ha : m._table[s]? = some a) (he : a.h = _empty) :
    (∀ b ∈ m._table.set s empty_bucket, b.live → b.h = _calc_hash H b.kv.1) ∧
    (m._table.set s empty_bucket).Pairwise (fun a b => a.live → b.live → a.kv.1 ≠ b.kv.1) ∧
    (m._table.set s empty_bucket).countP (fun b => decide b.live) = m._size ∧
    (∀ k v, (∃ b ∈ m._table.set s empty_bucket, b.live ∧ b.kv = (k, v)) ↔ Holds m k v) := by
  have hlive_iff : ∀ b, (b ∈ m._table.set s empty_bucket ∧ b.live) ↔
      ∃ x, x < m._max_size ∧ m._table[x]? = some b ∧ b.live := by
    intro b
    constructor
    · rintro ⟨hb, hl⟩
      obtain ⟨x, hx⟩ := List.mem_iff_getElem?.mp hb
      obtain ⟨_, h1, h2⟩ := mem_cleared_table hinv hp s hx hl
      exact ⟨x, h1, h2, hl⟩
    · rintro ⟨x, hx, hbx, hl⟩
      have hxs : s ≠ x := by
        rintro rfl
        rw [ha] at hbx; cases hbx
        exact live_not_empty hl he
      exact ⟨List.mem_iff_getElem?.mpr ⟨x, by rw [List.getElem?_set_ne hxs]; exact hbx⟩, hl⟩
  refine ⟨?_, ?_, ?_, ?_⟩
  · intro b hb hl
    obtain ⟨x, hx, hbx, _⟩ := (hlive_iff b).mp ⟨hb, hl⟩
    exact hinv.tag_of_live hx hbx hl
  · rw [List.pairwise_iff_getElem]
    intro x y hx hy hxy hlx hly hkk
    have h1 := mem_cleared_table hinv hp s (List.getElem?_eq_getElem hx) hlx
    have h2 := mem_cleared_table hinv hp s (List.getElem?_eq_getElem hy) hly
    have := hinv.nodup x y _ _ h1.2.1 h2.2.1 h1.2.2 h2.2.2 hlx hly hkk
    omega
  · rw [countP_live_whole _ m._max_size (by rw [List.length_set, hinv.geo.length, probing_ovf hp])
      (by
        obtain ⟨bl, hbl, hl⟩ := hinv.last
        exact ⟨bl, by rw [List.getElem?_set_ne (by omega)]; exact hbl, hl⟩)]
    have h1 := countP_set_take (fun b => decide b.live) m._table m._max_size s a empty_bucket
      hs (by rw [hinv.geo.length]; omega) ha
    have h2 : decide a.live = false := by
      simp only [decide_eq_false_iff_not]
      intro hl; exact live_not_empty hl he
    have h3 : decide empty_bucket.live = false := by
      simp only [decide_eq_false_iff_not]; exact empty_bucket_not_live
    simp only [h2, h3, Bool.false_eq_true, if_false, Nat.add_zero] at h1
    rw [h1, hinv.size]
  · intro k v
    constructor
    · rintro ⟨b, hb, hl, hkv⟩
      obtain ⟨x, hx, hbx, _⟩ := (hlive_iff b).mp ⟨hb, hl⟩
      exact ⟨x, b, hx, hbx, hl, hkv⟩
    · rintro ⟨x, b, hx, hbx, hl, hkv⟩
      exact ⟨b, ((hlive_iff b).mpr ⟨x, hx, hbx, hl⟩).1, hl, hkv⟩

/-- The threshold `_init` computes when the capacity cannot grow is not lower
than before. -/
theorem bumped_threshold (c thr ts : Nat) (hc : c ≤ 2147483648) (h1 : thr < c)
    (h2 : c * 8556380 / 16777216 ≤ thr) (hts : ¬ ts < thr) :
    thr ≤ (if ts < thr ∨ c * 8556380 / 16777216 > thr then c * 8556380 / 16777216
      else u32 (thr + u32 ((usub c thr >>> 4) <<< 3))) := by
  rw [if_neg (by omega), usub_of_le (le_of_lt h1) (by omega), Nat.shiftRight_eq_div_pow,
    Nat.shiftLeft_eq]
  have e1 : (2 : Nat) ^ 4 = 16 := by norm_num
  have e2 : (2 : Nat) ^ 3 = 8 := by norm_num
  rw [e1, e2, u32_of_lt (show (c - thr) / 16 * 8 < 4294967296 by omega),
    u32_of_lt (show thr + (c - thr) / 16 * 8 < 4294967296 by omega)]
  omega

/-- The function `_rehash` of a probing map at the capacity `2^31`: the
capacity stays, the threshold does not fall, and the new table holds the live
buckets of the old one. -/
theorem rehash_spec_full {p : Policy} (hp : p.probing) {H : Hashers}
    {fwt : base_hashmap → Key → Nat → Option Located} (hfw : InsertsFresh p H fwt)
    (m0 : base_hashmap) (hms : m0._max_size = 2 ^ 31)
    (ho : m0._overflow_area_size = ovf p) (hn : m0._neighborhood = 0)
    (hthr : m0._max_true_size < 2 ^ 31)
    (hload : 2 ^ 31 * 8556380 / 16777216 ≤ m0._max_true_size)
    (hover : ¬ m0._true_size < m0._max_true_size)
    (htags : ∀ b ∈ m0._table, b.live → b.h = _calc_hash H b.kv.1)
    (hpair : m0._table.Pairwise (fun a b => a.live → b.live → a.kv.1 ≠ b.kv.1))
    (hcnt : m0._table.countP (fun b => decide b.live) ≤ m0._max_true_size) :
    ∃ m', _rehash fwt m0 = some m' ∧ ProbingInv p H m' ∧
      (∀ k v, Holds m' k v ↔ ∃ b ∈ m0._table, b.live ∧ b.kv = (k, v)) := by
  have hnsu : _next_size_up (u32 (m0._max_size + 1)) = some (2 ^ 31) := by
    rw [hms]; decide
  unfold _rehash
  rw [hnsu]
  simp only
  obtain ⟨m1, hinit, hg1, hf1, hms1, hmts1⟩ := init_replicate_spec p m0 31 (by norm_num)
    (le_refl _) ho hn
  rw [hinit]
  simp only
  have hct := clear_threshold (2 ^ 31) m0._max_true_size m0._true_size (by norm_num) hthr hload
  have hbt := bumped_threshold (2 ^ 31) m0._max_true_size m0._true_size (by norm_num) hthr
    hload hover
  rw [← hmts1] at hct hbt
  obtain ⟨hinv1, habs1⟩ := fresh_probing_inv hp H hg1 hf1 (by rw [hms1]; exact hct)
  obtain ⟨m', hm', hinv', hh', _⟩ := rehash_loop_spec hfw m0._table m1
    hinv1 htags hpair (fun b _ _ => habs1 _) (by rw [hf1.true_size]; omega)
  refine ⟨m', hm', hinv', ?_⟩
  intro k v
  rw [hh']
  constructor
  · rintro (h1 | h2)
    · exact absurd h1 ((absent_iff_not_holds _ _).mp (habs1 k) v)
    · exact h2
  · exact Or.inr

end kirby

namespace kirby

/-- Whatever `find_while_trying` returns for an absent key of a probing map, with
any fuel and at any capacity, is a map that satisfies the invariant and holds
the old associations and the new key. -/
theorem probing_fwt_absent_sound {p : Policy} (hp : p.probing) (H : Hashers) :
    ∀ (fuel : Nat) (m : base_hashmap) (k : Key) (r : Located), ProbingInv p H m → Absent m k →
      find_while_trying p H fuel m k (_calc_hash H k) = some r →
      ∃ v0, r.2.2 = false ∧ ProbingInv p H r.1 ∧ r.2.1 < r.1._max_size ∧
        r.1._table[r.2.1]? = some ⟨_calc_hash H k, (k, v0)⟩ ∧
        (∀ k' v', Holds r.1 k' v' ↔ Holds m k' v' ∨ (k' = k ∧ v' = v0)) := by
  intro fuel
  induction fuel using Nat.strong_induction_on with
  | _ fuel ih =>
    intro m k r hinv habs hres
    cases fuel with
    | zero => simp [find_while_trying] at hres
    | succ f =>
      obtain ⟨n, a, hn, ha, he, hbefore, heq⟩ :=
        probing_try_absent (find_while_trying p H f) hinv k habs
      obtain ⟨j, h3, h31, hj⟩ := hinv.geo.pow2
      have hpos : 0 < m._max_size := by rw [hj]; positivity
      have hs : probe_slot p m._max_size (_calc_hash H k) n < m._max_size :=
        probe_slot_lt p hpos _ _
      rw [probing_fwt_eq hp, heq] at hres
      by_cases hroom : m._true_size + 1 ≤ m._max_true_size
      · rw [insert_room _ hinv ha k hroom] at hres
        cases hres
        exact ⟨a.kv.2, rfl, hinv.occupy k hn ha he hbefore habs hroom a.kv.2, hs,
          List.getElem?_set_self (List.getElem?_eq_some.mp ha).1,
          holds_occupied hs ha he k a.kv.2⟩
      · have hthr := hinv.threshold
        have hfull : m._true_size = m._max_true_size := by omega
        rw [insert_full _ hinv _ k _ hfull] at hres
        have hlen : probe_slot p m._max_size (_calc_hash H k) n < m._table.length :=
          (List.getElem?_eq_some.mp ha).1
        unfold _insert_while_full at hres
        simp only at hres
        rw [write_of_lt _ hlen] at hres
        simp only at hres
        cases f with
        | zero =>
          cases hre : _rehash (find_while_trying p H 0) { m with _true_size := m._true_size + 1, _table := m._table.set (probe_slot p m._max_size (_calc_hash H k) n) empty_bucket } with
          | none => rw [hre] at hres; simp at hres
          | some m1 => rw [hre] at hres; simp [find_while_trying] at hres
        | succ f' =>
          obtain ⟨htags, hpair, hcount, hholds⟩ := cleared_table_facts hp hinv hs ha he
          have hsl := hinv.size_le
          have hfw := probing_inserts_fresh hp H f'
          have hre : ∃ m1, _rehash (find_while_trying p H (f' + 1)) { m with _true_size := m._true_size + 1, _table := m._table.set (probe_slot p m._max_size (_calc_hash H k) n) empty_bucket } = some m1 ∧ ProbingInv p H m1 ∧ (∀ k' v', Holds m1 k' v' ↔ Holds m k' v') := by
            by_cases h30 : j ≤ 30
            · obtain ⟨m1, _, hre, hinv1, hh1, _⟩ := rehash_spec hp hfw
                { m with _true_size := m._true_size + 1, _table := m._table.set (probe_slot p m._max_size (_calc_hash H k) n) empty_bucket }
                j h3 h30 hj hinv.geo.overflow hinv.geo.neighborhood
                (by show m._max_true_size < 2 ^ j; rw [← hj]; exact hthr.2.1)
                htags hpair
                (by
                  show (m._table.set _ empty_bucket).countP _ ≤ m._max_true_size
                  rw [hcount]; omega)
              exact ⟨m1, hre, hinv1, fun k' v' => by rw [hh1]; exact hholds k' v'⟩
            · have hj31 : j = 31 := by omega
              rw [hj31] at hj
              obtain ⟨m1, hre, hinv1, hh1⟩ := rehash_spec_full hp hfw
                { m with _true_size := m._true_size + 1, _table := m._table.set (probe_slot p m._max_size (_calc_hash H k) n) empty_bucket }
                hj hinv.geo.overflow hinv.geo.neighborhood
                (by show m._max_true_size < 2 ^ 31; rw [← hj]; exact hthr.2.1)
                (by show 2 ^ 31 * 8556380 / 16777216 ≤ m._max_true_size; rw [← hj]; exact hthr.2.2)
                (by show ¬ m._true_size + 1 < m._max_true_size; omega)
                htags hpair
                (by
                  show (m._table.set _ empty_bucket).countP _ ≤ m._max_true_size
                  rw [hcount]; omega)
              exact ⟨m1, hre, hinv1, fun k' v' => by rw [hh1]; exact hholds k' v'⟩
          obtain ⟨m1, hre1, hinv1, hh1⟩ := hre
          rw [hre1] at hres
          simp only at hres
          have habs1 : Absent m1 k := by
            rw [absent_iff_not_holds]
            intro v hv
            exact (absent_iff_not_holds _ _).mp habs v ((hh1 k v).mp hv)
          cases hin : find_while_trying p H (f' + 1) m1 k (_calc_hash H k) with
          | none => rw [hin] at hres; simp at hres
          | some r1 =>
            rw [hin] at hres
            obtain ⟨m2, ptr, fl⟩ := r1
            simp only [Option.some.injEq] at hres
            obtain ⟨v0, _, hinv2, hptr, hget, hh2⟩ :=
              ih (f' + 1) (by omega) m1 k (m2, ptr, fl) hinv1 habs1 hin
            subst hres
            exact ⟨v0, rfl, hinv2, hptr, hget, fun k' v' => by rw [hh2, hh1]⟩

/-- Whatever `find_while_trying_key` returns on a probing map that satisfies the
invariant designates a bucket of a map that satisfies it. -/
theorem probing_fwt_sound {p : Policy} (hp : p.probing) (H : Hashers) (fuel : Nat)
    {m : base_hashmap} (hinv : ProbingInv p H m) (k : Key) {r : Located}
    (hres : find_while_trying_key p H fuel m k = some r) :
    ProbingInv p H r.1 ∧ r.2.1 < r.1._max_size ∧
      ∃ b, r.1._table[r.2.1]? = some b ∧ b.live := by
  unfold find_while_trying_key at hres
  simp only at hres
  by_cases habs : Absent m k
  · obtain ⟨v0, _, hinv1, hptr, hget, _⟩ := probing_fwt_absent_sound hp H fuel m k r hinv habs hres
    exact ⟨hinv1, hptr, _, hget, live_of_tag_lt (calc_hash_lt H k)⟩
  · unfold Absent at habs
    push_neg at habs
    obtain ⟨s, b, hs, hb, hl, hk⟩ := habs
    cases fuel with
    | zero => simp [find_while_trying] at hres
    | succ f =>
      have := probing_fwt_present hp f hinv hs hb hl
      rw [hk, hres] at this
      cases this
      exact ⟨hinv, hs, b, hb, hl⟩

/-- A mutating call that returns keeps the invariant of a probing map. -/
theorem probing_step_sound {p : Policy} (hp : p.probing) (H : Hashers) (fuel : Nat)
    {m m' : base_hashmap} (hinv : ProbingInv p H m) (op : Op)
    (hstep : step p H fuel m op = some m') : ProbingInv p H m' := by
  cases op with
  | insert k v =>
    simp only [step, base_hashmap.insert] at hstep
    cases hf : find_while_trying_key p H fuel m k with
    | none => rw [hf] at hstep; simp at hstep
    | some r =>
      obtain ⟨hinv1, hptr, b, hb, hl⟩ := probing_fwt_sound hp H fuel hinv k hf
      obtain ⟨m1, ptr, fl⟩ := r
      rw [hf] at hstep
      simp only at hstep
      cases fl with
      | true =>
        simp at hstep
        rw [← hstep]; exact hinv1
      | false =>
        simp only at hb
        simp [hb] at hstep
        rw [← hstep]
        exact hinv1.set_value hptr hb v
  | assign k v =>
    simp only [step, base_hashmap.assign, base_hashmap.subscript] at hstep
    cases hf : find_while_trying_key p H fuel m k with
    | none => rw [hf] at hstep; simp at hstep
    | some r =>
      obtain ⟨hinv1, hptr, b, hb, hl⟩ := probing_fwt_sound hp H fuel hinv k hf
      obtain ⟨m1, ptr, fl⟩ := r
      rw [hf] at hstep
      simp only at hb
      simp [hb] at hstep
      rw [← hstep]
      exact hinv1.set_value hptr hb v
  | erase k =>
    simp only [step] at hstep
    obtain ⟨h1, h2⟩ := probing_erase_spec hp hinv k
    by_cases habs : Absent m k
    · rw [h1 habs] at hstep
      simp at hstep
      rw [← hstep]; exact hinv
    · unfold Absent at habs
      push_neg at habs
      obtain ⟨s, b, hs, hb, hl, hk⟩ := habs
      obtain ⟨m1, he, hinv1, _⟩ := h2 b.kv.2 ⟨s, b, hs, hb, hl, by rw [← hk]⟩
      rw [he] at hstep
      simp at hstep
      rw [← hstep]; exact hinv1
  | clear =>
    simp only [step] at hstep
    obtain ⟨m1, hc, hinv1, _⟩ := probing_clear_spec hp hinv
    rw [hc] at hstep
    cases hstep
    exact hinv1

/-- Every reachable state of a probing map satisfies the invariant. -/
theorem reachable_probing_inv {p : Policy} (hp : p.probing) (H : Hashers) {m : base_hashmap}
    (hr : Reachable p H m) : ProbingInv p H m := by
  induction hr with
  | init n m hc =>
    obtain ⟨m0, hm0, hinv0, _⟩ := probing_construct_spec hp H n
    rw [hm0] at hc
    cases hc
    exact hinv0
  | step fuel op m m' _ hstep ih => exact probing_step_sound hp H fuel ih op hstep

end kirby

namespace kirby

/-! ## Reachable states of the probing maps -/

/-- A sequence of calls that returns leads from a reachable state to a
reachable state. -/
theorem reachable_run (p : Policy) (H : Hashers) (fuel : Nat) :
    ∀ (ops : List Op) (m m' : base_hashmap), Reachable p H m → run p H fuel ops m = some m' →
      Reachable p H m' := by
  intro ops
  induction ops with
  | nil =>
    intro m m' hr h
    simp only [run, Option.some.injEq] at h
    rw [← h]; exact hr
  | cons op ops ih =>
    intro m m' hr h
    simp only [run] at h
    cases hs : step p H fuel m op with
    | none => rw [hs] at h; simp at h
    | some m1 =>
      rw [hs] at h
      exact ih m1 m' (Reachable.step fuel op m m1 hr hs) h

/-- In a probing map every key is held with a value or absent. -/
theorem holds_or_absent (m : base_hashmap) (k : Key) : (∃ v, Holds m k v) ∨ Absent m k := by
  by_cases h : Absent m k
  · exact Or.inr h
  · left
    unfold Absent at h
    push_neg at h
    obtain ⟨s, b, hs, hb, hl, hk⟩ := h
    exact ⟨b.kv.2, s, b, hs, hb, hl, by rw [← hk]⟩

/-- The member `count` of a probing map. -/
theorem probing_count {p : Policy} (hp : p.probing) {H : Hashers} {m : base_hashmap}
    (hinv : ProbingInv p H m) (k : Key) :
    (base_hashmap.count p H m k = some 0 ↔ Absent m k) ∧
    (base_hashmap.count p H m k = some 1 ↔ ∃ v, Holds m k v) ∧
    (base_hashmap.count p H m k = some 0 ∨ base_hashmap.count p H m k = some 1) := by
  have hend : m._end = m._max_size := by rw [hinv.geo.end_eq, probing_ovf hp]; rfl
  have h0 : Absent m k → base_hashmap.count p H m k = some 0 := by
    intro habs
    unfold base_hashmap.count
    rw [probing_find_absent hp hinv k habs]
    simp
  have h1 : (∃ v, Holds m k v) → base_hashmap.count p H m k = some 1 := by
    rintro ⟨v, s, b, hs, hb, hl, hkv⟩
    have hk : b.kv.1 = k := by rw [hkv]
    have hf := probing_find_present hp hinv hs hb hl
    rw [hk] at hf
    unfold base_hashmap.count
    rw [hf]
    simp only
    rw [if_pos (by rw [hend]; omega)]
  refine ⟨⟨fun h => ?_, h0⟩, ⟨fun h => ?_, h1⟩, ?_⟩
  · rcases holds_or_absent m k with hv | ha
    · rw [h1 hv] at h; exact absurd h (by simp)
    · exact ha
  · rcases holds_or_absent m k with hv | ha
    · exact hv
    · rw [h0 ha] at h; exact absurd h (by simp)
  · rcases holds_or_absent m k with hv | ha
    · exact Or.inr (h1 hv)
    · exact Or.inl (h0 ha)

/-- Two probing maps that hold the same associations for a key give the same
`find` result for it. -/
theorem probing_lookup_congr {p : Policy} (hp : p.probing) {H : Hashers} {m m' : base_hashmap}
    (hinv : ProbingInv p H m) (hinv' : ProbingInv p H m') (k : Key)
    (h : ∀ v, Holds m' k v ↔ Holds m k v) :
    lookup p H m' k = lookup p H m k := by
  rcases holds_or_absent m k with ⟨v, hv⟩ | ha
  · rw [(probing_lookup hp hinv k).1 v hv, (probing_lookup hp hinv' k).1 v ((h v).mpr hv)]
  · have ha' : Absent m' k := by
      rw [absent_iff_not_holds] at ha ⊢
      intro v hv
      exact ha v ((h v).mp hv)
    rw [(probing_lookup hp hinv k).2 ha, (probing_lookup hp hinv' k).2 ha']

/-- No slot of a linear-probing map that satisfies the invariant is a
TOMBSTONE. -/
theorem lin_no_tombstone {H : Hashers} {m : base_hashmap} (hinv : ProbingInv .lin H m) :
    ∀ b ∈ m._table, b.h ≠ _tombstone := by
  intro b hb
  obtain ⟨s, hs⟩ := List.mem_iff_getElem?.mp hb
  have hlen : s < m._table.length := (List.getElem?_eq_some.mp hs).1
  rw [hinv.geo.length, probing_ovf (Or.inl rfl)] at hlen
  by_cases hlt : s < m._max_size
  · rcases hinv.tags s b hlt hs with h | ⟨h, _⟩ | h
    · rw [h]; decide
    · exact absurd h (by decide)
    · have := calc_hash_lt H b.kv.1
      rw [h, tombstone_val]
      omega
  · have hsm : s = m._max_size := by omega
    obtain ⟨bl, hbl, hl⟩ := hinv.last
    rw [hsm, hbl] at hs
    cases hs
    rw [hl]; decide

end kirby

namespace kirby

/-! ## Robin Hood: which keys a call can leave in the table -/

theorem keys_within_set {S : Key → Prop} {t : List bucket} (ht : KeysWithin S t) (i : Nat)
    (b : bucket) (hb : b.live → S b.kv.1) : KeysWithin S (t.set i b) := by
  intro b' hb' hl
  rcases List.mem_or_eq_of_mem_set hb' with h | h
  · exact ht b' h hl
  · rw [h] at hl ⊢; exact hb hl

theorem keys_within_replicate (S : Key → Prop) (n : Nat) :
    KeysWithin S (List.replicate n empty_bucket) := by
  intro b hb hl
  rw [List.eq_of_mem_replicate hb] at hl
  exact absurd hl empty_bucket_not_live

theorem keys_within_of_subset {S : Key → Prop} {t t' : List bucket} (ht : KeysWithin S t)
    (h : ∀ b ∈ t', b ∈ t) : KeysWithin S t' :=
  fun b hb hl => ht b (h b hb) hl

theorem keys_within_mono {S S' : Key → Prop} {t : List bucket} (ht : KeysWithin S t)
    (h : ∀ k, S k → S' k) : KeysWithin S' t :=
  fun b hb hl => h _ (ht b hb hl)

/-- The function `_init` leaves the keys of the live buckets within `S`. -/
theorem init_within {S : Key → Prop} {m m' : base_hashmap} (ht : KeysWithin S m._table)
    (h : _init m = some m') : KeysWithin S m'._table := by
  unfold _init at h
  simp only at h
  cases hb : m._table[u32 (u32 (m._table.length + 4294967296 * 4294967296
      - m._overflow_area_size - 1) + m._overflow_area_size)]? with
  | none => rw [hb] at h; simp at h
  | some b =>
    rw [hb] at h
    simp only [Option.some.injEq] at h
    rw [← h]
    exact keys_within_set ht _ _ (fun hl => absurd hl (last_not_live rfl))

/-- The buckets `rh_move_forward` leaves in the table were in it before. -/
theorem rh_move_forward_subset (ptr : Nat) :
    ∀ fuel (t : List bucket) freespace leader t',
      rh_move_forward ptr fuel t freespace leader = some t' → ∀ b ∈ t', b ∈ t := by
  intro fuel
  induction fuel with
  | zero => intro _ _ _ _ h; simp [rh_move_forward] at h
  | succ fuel ih =>
    intro t freespace leader t' h
    unfold rh_move_forward at h
    cases hb : t[leader]? with
    | none => rw [hb] at h; simp at h
    | some b =>
      rw [hb] at h
      simp only at h
      cases hw : write t freespace b with
      | none => rw [hw] at h; simp at h
      | some t1 =>
        rw [hw] at h
        simp only at h
        have h1 : ∀ x ∈ t1, x ∈ t := by
          intro x hx
          rw [(write_some hw).2] at hx
          rcases List.mem_or_eq_of_mem_set hx with h2 | h2
          · exact h2
          · rw [h2]; exact List.getElem?_mem hb
        by_cases hc : freespace - 1 ≠ ptr
        · rw [if_pos hc] at h
          exact fun x hx => h1 x (ih _ _ _ _ h x hx)
        · rw [if_neg hc] at h
          cases h
          exact h1

/-- The buckets `shift_buckets_forward` leaves in the table were in it before. -/
theorem shift_buckets_forward_subset (t : List bucket) (ptr e end_ : Nat) (t' : List bucket)
    (fl : Bool) (h : shift_buckets_forward t ptr e end_ = some (t', fl)) :
    ∀ b ∈ t', b ∈ t := by
  unfold shift_buckets_forward at h
  cases hf : rh_find_free t e end_ (t.length + 1) ptr with
  | none => rw [hf] at h; simp at h
  | some o =>
    rw [hf] at h
    cases o with
    | none => simp at h; rw [h.1]; exact fun _ hb => hb
    | some freespace =>
      simp only at h
      cases hm : rh_move_forward ptr (t.length + 1) t freespace (freespace - 1) with
      | none => rw [hm] at h; simp at h
      | some t1 =>
        rw [hm] at h
        simp at h
        rw [← h.1]
        exact rh_move_forward_subset _ _ _ _ _ _ hm

theorem rehash_loop_within {S : Key → Prop}
    {fwt : base_hashmap → Key → Nat → Option Located} (hf : FwtWithin S fwt) :
    ∀ (l : List bucket) (m m' : base_hashmap), KeysWithin S l → KeysWithin S m._table →
      _rehash_loop fwt l m = some m' → KeysWithin S m'._table := by
  intro l
  induction l with
  | nil => intro m m' _ hg h; simp [_rehash_loop] at h; exact h ▸ hg
  | cons old rest ih =>
    intro m m' hl hg h
    have hrest : KeysWithin S rest := fun b hb => hl b (List.mem_cons_of_mem _ hb)
    unfold _rehash_loop at h
    by_cases hc : old.h < _code
    · rw [if_pos hc] at h
      cases hr : fwt m old.kv.1 old.h with
      | none => rw [hr] at h; simp at h
      | some r =>
        obtain ⟨m1, ptr, fl⟩ := r
        rw [hr] at h
        simp only at h
        have hg1 : KeysWithin S m1._table :=
          hf _ _ _ _ hg (hl old (List.mem_cons_self _ _) hc) hr
        cases hb : m1._table[ptr]? with
        | none => rw [hb] at h; simp at h
        | some b =>
          rw [hb] at h
          simp only at h
          exact ih _ _ hrest
            (keys_within_set hg1 ptr { b with kv := (b.kv.1, old.kv.2) }
              (fun hl => hg1 b (List.getElem?_mem hb) hl)) h
    · rw [if_neg hc] at h
      exact ih _ _ hrest hg h

theorem rehash_within {S : Key → Prop} {fwt : base_hashmap → Key → Nat → Option Located}
    (hf : FwtWithin S fwt) (m m' : base_hashmap) (hg : KeysWithin S m._table)
    (h : _rehash fwt m = some m') : KeysWithin S m'._table := by
  unfold _rehash at h
  cases hn : _next_size_up (u32 (m._max_size + 1)) with
  | none => rw [hn] at h; simp at h
  | some cap =>
    rw [hn] at h
    simp only at h
    cases hi : _init { m with _table := List.replicate (u32 (u32 (cap + m._overflow_area_size) + 1)) empty_bucket } with
    | none => rw [hi] at h; simp at h
    | some m1 =>
      rw [hi] at h
      simp only at h
      exact rehash_loop_within hf _ _ _ hg
        (init_within (keys_within_replicate S _) hi) h

theorem insert_while_full_within {S : Key → Prop}
    {fwt : base_hashmap → Key → Nat → Option Located} (hf : FwtWithin S fwt)
    (m : base_hashmap) (ptr : Nat) (k : Key) (h : Nat) (r : Located)
    (hg : KeysWithin S (m._table.set ptr empty_bucket)) (hk : S k)
    (hr : _insert_while_full fwt m ptr k h = some r) : KeysWithin S r.1._table := by
  unfold _insert_while_full at hr
  cases hw : write m._table ptr empty_bucket with
  | none => rw [hw] at hr; simp at hr
  | some t =>
    rw [hw] at hr
    simp only at hr
    rw [(write_some hw).2] at hr
    cases hre : _rehash fwt { m with _table := m._table.set ptr empty_bucket } with
    | none => rw [hre] at hr; simp at hr
    | some m1 =>
      rw [hre] at hr
      simp only at hr
      have hg1 : KeysWithin S m1._table := rehash_within hf _ m1 hg hre
      cases hfw : fwt m1 k h with
      | none => rw [hfw] at hr; simp at hr
      | some r1 =>
        obtain ⟨m2, ptr2, fl⟩ := r1
        rw [hfw] at hr
        simp only [Option.some.injEq] at hr
        rw [← hr]
        exact hf m1 k h (m2, ptr2, fl) hg1 hk hfw

theorem insert_within {S : Key → Prop}
    {fwt : base_hashmap → Key → Nat → Option Located} (hf : FwtWithin S fwt)
    (m : base_hashmap) (ptr : Nat) (k : Key) (h : Nat) (r : Located)
    (hg : KeysWithin S m._table) (hk : S k)
    (hr : _insert fwt m ptr k h = some r) : KeysWithin S r.1._table := by
  unfold _insert at hr
  simp only at hr
  by_cases hle : u32 (m._true_size + 1) ≤ m._max_true_size
  · rw [if_pos hle] at hr
    cases hb : m._table[ptr]? with
    | none => rw [hb] at hr; simp at hr
    | some b =>
      rw [hb] at hr
      simp only [Option.some.injEq] at hr
      rw [← hr]
      exact keys_within_set hg _ _ (fun _ => hk)
  · rw [if_neg hle] at hr
    exact insert_while_full_within hf { m with _true_size := u32 (m._true_size + 1) } _ _ _ _
      (keys_within_set hg _ _ (fun hl => absurd hl empty_bucket_not_live)) hk hr

theorem rh_try_loop_within {S : Key → Prop}
    {fwt : base_hashmap → Key → Nat → Option Located} (hf : FwtWithin S fwt)
    (m : base_hashmap) (k : Key) (h s : Nat) (hg : KeysWithin S m._table) (hk : S k) :
    ∀ fuel ptr r, rh_try_loop fwt m k h s fuel ptr = some r → KeysWithin S r.1._table := by
  intro fuel
  induction fuel with
  | zero => intro _ _ h0; simp [rh_try_loop] at h0
  | succ fuel ih =>
    intro ptr r hr
    unfold rh_try_loop at hr
    by_cases hpe : ptr ≠ m._end
    · rw [if_pos hpe] at hr
      cases hb : m._table[ptr]? with
      | none => rw [hb] at hr; simp at hr
      | some b =>
        rw [hb] at hr
        simp only at hr
        by_cases hm : b.h = h ∧ b.kv.1 = k
        · rw [if_pos hm] at hr
          simp only [Option.some.injEq] at hr
          rw [← hr]; exact hg
        · rw [if_neg hm] at hr
          by_cases he : b.h = _empty
          · rw [if_pos he] at hr
            exact insert_within hf _ _ _ _ _ hg hk hr
          · rw [if_neg he] at hr
            by_cases hgt : (b.h &&& m._mask) > s
            · rw [if_pos hgt] at hr
              cases hs : shift_buckets_forward m._table ptr _empty m._end with
              | none => rw [hs] at hr; simp at hr
              | some res =>
                obtain ⟨t, fl⟩ := res
                rw [hs] at hr
                have hsub := shift_buckets_forward_subset _ _ _ _ _ _ hs
                have hgt : KeysWithin S t := keys_within_of_subset hg hsub
                cases fl with
                | true =>
                  simp only at hr
                  exact insert_within hf { m with _table := t } _ _ _ _ hgt hk hr
                | false =>
                  simp only at hr
                  exact insert_while_full_within hf { m with _table := t } _ _ _ _
                    (keys_within_set hgt _ _ (fun hl => absurd hl empty_bucket_not_live)) hk hr
            · rw [if_neg hgt] at hr
              exact ih _ _ hr
    · rw [if_neg hpe] at hr
      exact insert_while_full_within hf _ _ _ _ _
        (keys_within_set hg _ _ (fun hl => absurd hl empty_bucket_not_live)) hk hr

/-- With any fuel, `find_while_trying` of the Robin Hood map stores no key
outside `S` when asked to look for a key in `S`. -/
theorem rh_fwt_within (S : Key → Prop) (H : Hashers) :
    ∀ fuel, FwtWithin S (find_while_trying .rh H fuel) := by
  intro fuel
  induction fuel with
  | zero => intro m k h r _ _ hr; simp [find_while_trying] at hr
  | succ fuel ih =>
    intro m k h r hg hk hr
    exact rh_try_loop_within ih m k h _ hg hk _ _ _ hr

/-! ## Robin Hood: the scan of `d_find_while_trying` -/

/-- The scan passes over `d` buckets that neither match, nor are EMPTY, nor have
a home slot after the starting index. -/
theorem rh_try_loop_scan (fwt : base_hashmap → Key → Nat → Option Located)
    (m : base_hashmap) (k : Key) (h s : Nat) :
    ∀ d fuel ptr, d ≤ fuel →
      (∀ i, i < d → ptr + i ≠ m._end ∧ ∃ b, m._table[ptr + i]? = some b ∧
        ¬ (b.h = h ∧ b.kv.1 = k) ∧ b.h ≠ _empty ∧ (b.h &&& m._mask) ≤ s) →
      rh_try_loop fwt m k h s fuel ptr = rh_try_loop fwt m k h s (fuel - d) (ptr + d) := by
  intro d
  induction d with
  | zero => intro fuel ptr _ _; rfl
  | succ d ih =>
    intro fuel ptr hd hall
    obtain ⟨f, rfl⟩ : ∃ f, fuel = f + 1 := ⟨fuel - 1, by omega⟩
    obtain ⟨hne, b, hb, hm, he, hle⟩ := hall 0 (by omega)
    rw [Nat.add_zero] at hne hb
    rw [rh_try_loop, if_pos hne, hb]
    simp only
    rw [if_neg hm, if_neg he, if_neg (by omega)]
    rw [ih f (ptr + 1) (by omega) (fun i hi => by
      have := hall (i + 1) (by omega)
      rw [show ptr + (i + 1) = ptr + 1 + i by omega] at this
      exact this)]
    rw [show f + 1 - (d + 1) = f - d by omega, show ptr + 1 + d = ptr + (d + 1) by omega]

/-- The search of `shift_buckets_forward` fails when no slot after `ptr` up to
`end` is EMPTY. -/
theorem rh_find_free_none (t : List bucket) (e end_ : Nat) :
    ∀ d fuel fs, fs + d = end_ → 0 < d → d ≤ fuel →
      (∀ x, fs < x → x ≤ end_ → ∃ b, t[x]? = some b ∧ b.h ≠ e) →
      rh_find_free t e end_ fuel fs = some none := by
  intro d
  induction d with
  | zero => intro _ _ _ h; omega
  | succ d ih =>
    intro fuel fs hfs _ hd hall
    obtain ⟨f, rfl⟩ : ∃ f, fuel = f + 1 := ⟨fuel - 1, by omega⟩
    obtain ⟨b, hb, hne⟩ := hall (fs + 1) (by omega) (by omega)
    rw [rh_find_free, hb]
    simp only
    rw [if_neg hne]
    by_cases hend : fs + 1 ≠ end_
    · rw [if_pos hend]
      exact ih f (fs + 1) (by omega) (by omega) (by omega)
        (fun x hx hxe => hall x (by omega) hxe)
    · rw [if_neg hend]

end kirby

namespace kirby

/-! ## Robin Hood: insertion behind a run of buckets -/

/-- The function `_insert` below the threshold. -/
theorem insert_at_slot (fwt : base_hashmap → Key → Nat → Option Located) (m : base_hashmap)
    (ptr : Nat) (k : Key) (h : Nat) (b : bucket) (hb : m._table[ptr]? = some b)
    (hroom : m._true_size + 1 ≤ m._max_true_size) (hthr : m._max_true_size < 4294967296)
    (hsz : m._size < 4294967295) :
    _insert fwt m ptr k h = some ({ m with _true_size := m._true_size + 1, _size := m._size + 1, _table := m._table.set ptr { h := h, kv := (k, b.kv.2) } }, ptr, false) := by
  unfold _insert
  simp only
  rw [u32_of_lt (show m._true_size + 1 < 4294967296 by omega), if_pos hroom, hb]
  simp only
  rw [u32_of_lt (show m._size + 1 < 4294967296 by omega)]

/-- The function `rh_hashmap::d_find_while_trying` on a key whose scan passes
`n` buckets that do not match and whose home slot is not after the key's, and
then meets an EMPTY slot: the key is stored there. -/
theorem rh_insert_local (fwt : base_hashmap → Key → Nat → Option Located) (m : base_hashmap)
    (k : Key) (h n : Nat) (e : bucket) (hh : h < 2147483648)
    (hscan : ∀ i, i < n → (h &&& m._mask) + i ≠ m._end ∧
      ∃ b, m._table[(h &&& m._mask) + i]? = some b ∧ ¬ (b.h = h ∧ b.kv.1 = k) ∧
        b.h ≠ _empty ∧ (b.h &&& m._mask) ≤ (h &&& m._mask))
    (hend : (h &&& m._mask) + n ≠ m._end)
    (he : m._table[(h &&& m._mask) + n]? = some e) (hee : e.h = _empty)
    (hroom : m._true_size + 1 ≤ m._max_true_size) (hthr : m._max_true_size < 4294967296)
    (hsz : m._size < 4294967295) :
    rh_find_while_trying fwt m k h = some ({ m with _true_size := m._true_size + 1, _size := m._size + 1, _table := m._table.set ((h &&& m._mask) + n) { h := h, kv := (k, e.kv.2) } }, (h &&& m._mask) + n, false) := by
  have hlen : (h &&& m._mask) + n < m._table.length := (List.getElem?_eq_some.mp he).1
  unfold rh_find_while_trying
  simp only
  rw [rh_try_loop_scan fwt m k h _ n _ _ (by omega) hscan]
  obtain ⟨f, hf⟩ : ∃ f, m._table.length + 1 - n = f + 1 := ⟨m._table.length - n, by omega⟩
  rw [hf, rh_try_loop, if_pos hend, he]
  simp only
  have hne : ¬ (e.h = h ∧ e.kv.1 = k) := by
    rintro ⟨h1, _⟩
    rw [hee, empty_val] at h1
    omega
  rw [if_neg hne, if_pos hee]
  exact insert_at_slot fwt m _ k h e he hroom hthr hsz

/-- The member `insert` of the Robin Hood map in the situation of
`rh_insert_local`. -/
theorem rh_insert_behind_run (H : Hashers) (fuel : Nat) (m : base_hashmap)
    (k : Key) (v : T) (n : Nat) (e : bucket)
    (hscan : ∀ i, i < n → (_calc_hash H k &&& m._mask) + i ≠ m._end ∧
      ∃ b, m._table[(_calc_hash H k &&& m._mask) + i]? = some b ∧
        ¬ (b.h = _calc_hash H k ∧ b.kv.1 = k) ∧
        b.h ≠ _empty ∧ (b.h &&& m._mask) ≤ (_calc_hash H k &&& m._mask))
    (hend : (_calc_hash H k &&& m._mask) + n ≠ m._end)
    (he : m._table[(_calc_hash H k &&& m._mask) + n]? = some e) (hee : e.h = _empty)
    (hroom : m._true_size + 1 ≤ m._max_true_size) (hthr : m._max_true_size < 4294967296)
    (hsz : m._size < 4294967295) :
    base_hashmap.insert .rh H (fuel + 1) m (k, v) = some ({ m with _true_size := m._true_size + 1, _size := m._size + 1, _table := m._table.set ((_calc_hash H k &&& m._mask) + n) { h := _calc_hash H k, kv := (k, v) } }, (_calc_hash H k &&& m._mask) + n, true) := by
  have hlen : (_calc_hash H k &&& m._mask) + n < m._table.length :=
    (List.getElem?_eq_some.mp he).1
  unfold base_hashmap.insert find_while_trying_key
  simp only
  rw [show find_while_trying .rh H (fuel + 1) = rh_find_while_trying (find_while_trying .rh H fuel)
    from rfl]
  rw [rh_insert_local _ m k _ n e (calc_hash_lt H k) hscan hend he hee hroom hthr hsz]
  simp only [Bool.not_false, if_true]
  rw [List.getElem?_set_self hlen]
  simp only [List.set_set]

/-! ## Robin Hood: the crowded table -/

theorem map_range_get (f : Nat → bucket) (N i : Nat) (hi : i < N) :
    ((List.range N).map f)[i]? = some (f i) := by
  rw [List.getElem?_map, List.getElem?_range hi]
  rfl

theorem map_range_set (f : Nat → bucket) (N i : Nat) (b : bucket) :
    ((List.range N).map f).set i b = (List.range N).map (fun j => if j = i then b else f j) := by
  apply List.ext_getElem?
  intro j
  by_cases hj : j < N
  · rw [map_range_get _ _ _ hj]
    by_cases hji : j = i
    · rw [hji, List.getElem?_set_self (by rw [List.length_map, List.length_range]; omega)]
      simp
    · rw [List.getElem?_set_ne (fun h => hji h.symm), map_range_get _ _ _ hj, if_neg hji]
  · rw [List.getElem?_eq_none (by rw [List.length_set, List.length_map, List.length_range]; omega),
      List.getElem?_eq_none (by rw [List.length_map, List.length_range]; omega)]

theorem rh_packed_get (n i : Nat) (hi : i < 641) :
    (rh_packed n)._table[i]? = some (rh_slot n i) := by
  unfold rh_packed
  simp only
  exact map_range_get (rh_slot n) 641 i hi

set_option maxRecDepth 100000 in
theorem rh_keys_home :
    ∀ i, i < 129 → _calc_hash default_hashers (rh_tail_keys.getD i 0) &&& 511 = 511 := by
  decide!

set_option maxRecDepth 100000 in
theorem rh_keys_sorted : rh_tail_keys.Pairwise (fun a b => a < b) := by
  decide!

set_option maxRecDepth 100000 in
theorem rh_keys_length : rh_tail_keys.length = 129 := by decide

theorem rh_keys_getD (i : Nat) (hi : i < 129) :
    rh_tail_keys.getD i 0 = rh_tail_keys.get ⟨i, by rw [rh_keys_length]; exact hi⟩ := by
  rw [List.getD_eq_getElem?_getD, List.getElem?_eq_getElem (by rw [rh_keys_length]; exact hi)]
  rfl

theorem rh_keys_lt (i j : Nat) (hij : i < j) (hj : j < 129) :
    rh_tail_keys.getD i 0 < rh_tail_keys.getD j 0 := by
  rw [rh_keys_getD i (by omega), rh_keys_getD j hj]
  exact List.pairwise_iff_get.mp rh_keys_sorted _ _ hij

theorem rh_keys_ne (i j : Nat) (hi : i < 129) (hj : j < 129) (hij : i ≠ j) :
    rh_tail_keys.getD i 0 ≠ rh_tail_keys.getD j 0 := by
  rcases Nat.lt_or_gt_of_ne hij with h | h
  · exact ne_of_lt (rh_keys_lt i j h hj)
  · exact ne_of_gt (rh_keys_lt j i h hi)

theorem rh_keys_bounds (i : Nat) (hi : i < 129) :
    792 ≤ rh_tail_keys.getD i 0 ∧ rh_tail_keys.getD i 0 ≤ 69485 := by
  constructor
  · rcases Nat.eq_zero_or_pos i with h | h
    · rw [h]; decide
    · exact le_of_lt (lt_of_eq_of_lt (by decide) (rh_keys_lt 0 i h hi))
  · rcases Nat.lt_or_ge i 128 with h | h
    · exact le_of_lt (lt_of_lt_of_eq (rh_keys_lt i 128 h (by omega)) (by decide))
    · have : i = 128 := by omega
      rw [this]; decide

end kirby

namespace kirby

/-! ## Robin Hood: filling the overflow area -/

theorem rh_slot_front (n : Nat) : rh_slot n 510 = rh_bucket 293 := by
  unfold rh_slot
  rw [if_pos rfl]

theorem rh_slot_tail (n i : Nat) (hi : i < n) :
    rh_slot n (511 + i) = rh_bucket (rh_tail_keys.getD i 0) := by
  unfold rh_slot
  rw [if_neg (by omega), if_pos (by omega), show 511 + i - 511 = i by omega]

theorem rh_slot_empty (n i : Nat) (hi : 511 + n ≤ i) (h640 : i < 640) :
    rh_slot n i = empty_bucket := by
  unfold rh_slot
  rw [if_neg (by omega), if_neg (by omega), if_neg (by omega)]

theorem rh_slot_last (n : Nat) (hn : n ≤ 129) : rh_slot n 640 = ⟨_last, (0, 0)⟩ := by
  unfold rh_slot
  rw [if_neg (by omega), if_neg (by omega), if_pos rfl]

theorem rh_bucket_not_empty (k : Key) : (rh_bucket k).h ≠ _empty := by
  have := calc_hash_lt default_hashers k
  show _calc_hash default_hashers k ≠ _empty
  rw [empty_val]
  omega

theorem rh_bucket_live (k : Key) : (rh_bucket k).live := by
  have := calc_hash_lt default_hashers k
  show _calc_hash default_hashers k < _code
  rw [code_val]
  omega

/-- The table of `rh_packed n` with the next key stored behind the run. -/
theorem rh_packed_succ (n : Nat) (hn : n < 129) :
    (List.range 641).map (fun j => if j = 511 + n then rh_bucket (rh_tail_keys.getD n 0)
      else rh_slot n j) = (List.range 641).map (rh_slot (n + 1)) := by
  apply List.map_congr_left
  intro j hj
  rw [List.mem_range] at hj
  by_cases h1 : j = 511 + n
  · rw [if_pos h1, h1, rh_slot_tail (n + 1) n (by omega)]
  · rw [if_neg h1]
    unfold rh_slot
    by_cases h2 : j = 510
    · rw [if_pos h2, if_pos h2]
    · rw [if_neg h2, if_neg h2]
      by_cases h3 : 511 ≤ j ∧ j < 511 + n
      · rw [if_pos h3, if_pos (show 511 ≤ j ∧ j < 511 + (n + 1) by omega)]
      · rw [if_neg h3, if_neg (show ¬ (511 ≤ j ∧ j < 511 + (n + 1)) by omega)]

theorem rh_packed_fields (n : Nat) :
    (rh_packed n)._end = 640 ∧ (rh_packed n)._mask = 511 ∧ (rh_packed n)._size = n + 1 ∧
      (rh_packed n)._true_size = n + 1 ∧ (rh_packed n)._max_true_size = 261 ∧
      (rh_packed n)._max_size = 512 ∧
      (rh_packed n)._table = (List.range 641).map (rh_slot n) := by
  unfold rh_packed
  simp only [and_self]

/-- One more key of `rh_tail_keys` goes behind the run that starts in slot 511. -/
theorem rh_push (fuel n : Nat) (hn : n < 129) :
    base_hashmap.insert .rh default_hashers (fuel + 1) (rh_packed n)
      (rh_tail_keys.getD n 0, 1) = some (rh_packed (n + 1), 511 + n, true) := by
  obtain ⟨hend, hmask, hsize, htsize, hmts, _, htable⟩ := rh_packed_fields n
  have hs : _calc_hash default_hashers (rh_tail_keys.getD n 0) &&& (rh_packed n)._mask = 511 := by
    rw [hmask]; exact rh_keys_home n hn
  have hget : ∀ i, i < 641 → (rh_packed n)._table[i]? = some (rh_slot n i) := rh_packed_get n
  have hhome : ∀ i, i < 129 →
      _calc_hash default_hashers (rh_tail_keys.getD i 0) &&& (rh_packed n)._mask = 511 := by
    intro i hi
    rw [hmask]; exact rh_keys_home i hi
  have key := rh_insert_behind_run default_hashers fuel (rh_packed n) (rh_tail_keys.getD n 0) 1 n
    empty_bucket
    (by
      intro i hi
      rw [hs, hend]
      refine ⟨by omega, rh_bucket (rh_tail_keys.getD i 0), ?_, ?_, rh_bucket_not_empty _, ?_⟩
      · rw [hget _ (by omega), rh_slot_tail n i hi]
      · rintro ⟨_, h2⟩
        exact rh_keys_ne i n (by omega) hn (by omega) h2
      · exact le_of_eq (hhome i (by omega)))
    (by rw [hs, hend]; omega)
    (by rw [hs, hget _ (by omega), rh_slot_empty n _ (le_refl _) (by omega)])
    rfl
    (by rw [htsize, hmts]; omega)
    (by rw [hmts]; omega)
    (by rw [hsize]; omega)
  rw [key, hs, htable, map_range_set, htsize, hsize]
  have htab := rh_packed_succ n hn
  unfold rh_bucket at htab
  rw [htab]
  unfold rh_packed
  rfl

set_option maxRecDepth 100000 in
theorem rh_start : (construct .rh 512).bind
    (fun m => step .rh default_hashers 1 m (.insert 293 1)) = some (rh_packed 0) := by
  decide!

/-- The states `rh_packed n` are reachable. -/
theorem rh_packed_reachable : ∀ n, n ≤ 129 → Reachable .rh default_hashers (rh_packed n) := by
  intro n
  induction n with
  | zero =>
    intro _
    have h := rh_start
    cases hc : construct .rh 512 with
    | none => rw [hc] at h; simp at h
    | some m0 =>
      rw [hc] at h
      simp only [Option.some_bind] at h
      exact Reachable.step 1 (.insert 293 1) m0 _ (Reachable.init 512 m0 hc) h
  | succ n ih =>
    intro hn
    refine Reachable.step 1 (.insert (rh_tail_keys.getD n 0) 1) (rh_packed n) _ (ih (by omega)) ?_
    simp only [step]
    rw [rh_push 0 n (by omega)]
    rfl

end kirby

namespace kirby

/-! ## Robin Hood: the insertion that wipes an occupant -/

set_option maxRecDepth 100000 in
theorem rh_crowded_lookup :
    lookup .rh default_hashers (rh_packed 129) 792 = some (some 1) := by
  decide!

set_option maxRecDepth 100000 in
theorem rh_crowded_absent :
    base_hashmap.count .rh default_hashers (rh_packed 129) 981 = some 0 := by
  decide!

set_option maxRecDepth 100000 in
theorem rh_home_981 : _calc_hash default_hashers 981 &&& 511 = 510 := by decide

set_option maxRecDepth 100000 in
theorem rh_home_293 : _calc_hash default_hashers 293 &&& 511 = 510 := by decide

/-- In the crowded table the scan for key 981 passes key 293 in slot 510, meets
key 792 in slot 511, whose home slot is after 510, finds no EMPTY slot up to
the table's end, and so calls `_insert_while_full` with the slot of key 792. -/
theorem rh_wipe_path (fuel : Nat) :
    find_while_trying .rh default_hashers (fuel + 1) (rh_packed 129) 981
        (_calc_hash default_hashers 981)
      = _insert_while_full (find_while_trying .rh default_hashers fuel) (rh_packed 129) 511 981
        (_calc_hash default_hashers 981) := by
  obtain ⟨hend, hmask, hsize, htsize, hmts, _, htable⟩ := rh_packed_fields 129
  have hget : ∀ i, i < 641 → (rh_packed 129)._table[i]? = some (rh_slot 129 i) :=
    rh_packed_get 129
  have hlen : (rh_packed 129)._table.length = 641 := by
    rw [htable, List.length_map, List.length_range]
  have hs : _calc_hash default_hashers 981 &&& (rh_packed 129)._mask = 510 := by
    rw [hmask]; exact rh_home_981
  rw [show find_while_trying .rh default_hashers (fuel + 1)
    = rh_find_while_trying (find_while_trying .rh default_hashers fuel) from rfl]
  unfold rh_find_while_trying
  simp only
  rw [hs, hlen]
  rw [rh_try_loop_scan _ (rh_packed 129) 981 _ 510 1 _ 510 (by omega) (by
    intro i hi
    have hi0 : i = 0 := by omega
    rw [hi0, hend]
    refine ⟨by omega, rh_bucket 293, ?_, ?_, rh_bucket_not_empty _, ?_⟩
    · rw [hget _ (by omega), rh_slot_front]
    · rintro ⟨_, h2⟩
      exact absurd h2 (by decide)
    · rw [hmask]
      exact le_of_eq rh_home_293)]
  rw [show 641 + 1 - 1 = 640 + 1 by rfl, rh_try_loop, if_pos (by rw [hend]; omega),
    hget 511 (by omega), rh_slot_tail 129 0 (by omega)]
  simp only
  rw [if_neg (by
    rintro ⟨_, h2⟩
    exact absurd h2 (by decide)), if_neg (rh_bucket_not_empty _),
    if_pos (by
      show (_calc_hash default_hashers (rh_tail_keys.getD 0 0) &&& (rh_packed 129)._mask) > 510
      rw [hmask, rh_keys_home 0 (by omega)]
      omega)]
  have hfree : rh_find_free (rh_packed 129)._table _empty (rh_packed 129)._end
      ((rh_packed 129)._table.length + 1) 511 = some none := by
    rw [hend, hlen]
    refine rh_find_free_none _ _ 640 129 _ 511 rfl (by omega) (by omega) ?_
    intro x hx hx2
    rw [hget x (by omega)]
    rcases Nat.lt_or_ge x 640 with h | h
    · obtain ⟨i, rfl⟩ : ∃ i, x = 511 + i := ⟨x - 511, by omega⟩
      rw [rh_slot_tail 129 i (by omega)]
      exact ⟨_, rfl, rh_bucket_not_empty _⟩
    · have hx640 : x = 640 := by omega
      rw [hx640, rh_slot_last 129 (le_refl _)]
      exact ⟨_, rfl, by decide⟩
  unfold shift_buckets_forward
  rw [hfree]

end kirby

namespace kirby

/-- After the bucket in slot 511 of the crowded table has been overwritten with
the EMPTY bucket, no live bucket holds key 792. -/
theorem rh_wiped_within :
    KeysWithin (fun x => x ≠ 792) ((rh_packed 129)._table.set 511 empty_bucket) := by
  obtain ⟨_, _, _, _, _, _, htable⟩ := rh_packed_fields 129
  rw [htable, map_range_set]
  intro b hb hl
  obtain ⟨j, hj, rfl⟩ := List.mem_map.mp hb
  rw [List.mem_range] at hj
  by_cases h1 : j = 511
  · rw [if_pos h1] at hl
    exact absurd hl empty_bucket_not_live
  · rw [if_neg h1] at hl ⊢
    by_cases h2 : j = 510
    · rw [h2, rh_slot_front]
      show (293 : Int) ≠ 792
      decide
    · by_cases h3 : j < 511
      · have he : rh_slot 129 j = empty_bucket := by
          unfold rh_slot
          rw [if_neg h2, if_neg (by omega), if_neg (by omega)]
        rw [he] at hl
        exact absurd hl empty_bucket_not_live
      · by_cases h4 : j = 640
        · rw [h4, rh_slot_last 129 (le_refl _)] at hl
          exact absurd hl (last_not_live rfl)
        · obtain ⟨i, rfl⟩ : ∃ i, j = 511 + i := ⟨j - 511, by omega⟩
          rw [rh_slot_tail 129 i (by omega)]
          show rh_tail_keys.getD i 0 ≠ 792
          exact rh_keys_ne i 0 (by omega) (by omega) (by omega)

/-- When `find_while_trying` goes to `_insert_while_full` with the slot `ptr0`,
whatever `insert` returns holds only keys of `S`, provided `S` contains the
new key and the keys of the live buckets other than the one in `ptr0`. -/
theorem rh_insert_full_within (S : Key → Prop) (H : Hashers) (fuel : Nat) (m : base_hashmap)
    (k : Key) (v : T) (ptr0 : Nat)
    (hpath : find_while_trying .rh H (fuel + 1) m k (_calc_hash H k)
      = _insert_while_full (find_while_trying .rh H fuel) m ptr0 k (_calc_hash H k))
    (hw : KeysWithin S (m._table.set ptr0 empty_bucket)) (hk : S k)
    (r : base_hashmap × Nat × Bool)
    (hr : base_hashmap.insert .rh H (fuel + 1) m (k, v) = some r) :
    KeysWithin S r.1._table := by
  unfold base_hashmap.insert find_while_trying_key at hr
  simp only at hr
  rw [hpath] at hr
  cases hf : _insert_while_full (find_while_trying .rh H fuel) m ptr0 k (_calc_hash H k) with
  | none => rw [hf] at hr; simp at hr
  | some r1 =>
    have h1 := insert_while_full_within (rh_fwt_within S H fuel) m ptr0 k _ r1 hw hk hf
    obtain ⟨m1, ptr, fl⟩ := r1
    rw [hf] at hr
    simp only at hr h1
    cases fl with
    | true =>
      simp at hr
      rw [← hr]; exact h1
    | false =>
      cases hb : m1._table[ptr]? with
      | none => simp [hb] at hr
      | some b =>
        simp [hb] at hr
        rw [← hr]
        exact keys_within_set h1 ptr _ (fun hl => h1 b (List.getElem?_mem hb) hl)

/-- Whatever `insert(981, 2)` returns on the crowded table, no live bucket of
the resulting table holds key 792. -/
theorem rh_insert_loses_key (fuel : Nat) (r : base_hashmap × Nat × Bool)
    (hr : base_hashmap.insert .rh default_hashers fuel (rh_packed 129) (981, 2) = some r) :
    KeysWithin (fun x => x ≠ 792) r.1._table := by
  cases fuel with
  | zero =>
    have h0 : base_hashmap.insert .rh default_hashers 0 (rh_packed 129) (981, 2) = none := rfl
    rw [h0] at hr
    cases hr
  | succ fuel =>
    exact rh_insert_full_within _ default_hashers fuel (rh_packed 129) 981 2 511
      (rh_wipe_path fuel) rh_wiped_within (by decide) r hr

/-- A table whose live buckets do not hold the key `k` does not let `find`
designate a bucket for `k`. -/
theorem lookup_not_within (p : Policy) (H : Hashers) (m : base_hashmap) (k : Key)
    (hw : KeysWithin (fun x => x ≠ k) m._table) (v : T) :
    lookup p H m k ≠ some (some v) := by
  intro hl
  unfold lookup base_hashmap.find at hl
  cases hf : find_without_inserting p H m k with
  | none => rw [hf] at hl; simp at hl
  | some ptr =>
    rw [hf] at hl
    simp only at hl
    by_cases hne : ptr ≠ m._end
    · rcases find_sound p H m k ptr hf with h | ⟨b, hb, hlt, hk⟩
      · exact hne h
      · refine hw b (List.getElem?_mem hb) ?_ hk
        show b.h < _code
        rw [code_val]
        omega
    · rw [if_neg hne] at hl
      simp at hl

end kirby

namespace kirby

/-! ## The growth law, exactly -/

/-- The loop of `_next_size_up` started at `2^a` stops at the first of `2^a`,
`2^(a+g)`, `2^(a+2g)`, … that is not below `n`, and no shift leaves the range
of `size_type`. -/
theorem next_size_up_loop_exact (g n : Nat) (hg : g = 1 ∨ (g = 3 ∧ n ≤ 262144))
    (hn : n ≤ 2147483648) :
    ∀ fuel a, a ≤ 31 → (g = 3 → a % 3 = 0) → 32 ≤ fuel + a → 3 ≤ a →
      ∃ j, a ≤ j ∧ j ≤ 31 ∧ (j - a) % g = 0 ∧
        _next_size_up_loop g n fuel (2 ^ a) = some (2 ^ j) ∧
        next_size_up_loop_unbounded g n fuel (2 ^ a) = some (2 ^ j) ∧ n ≤ 2 ^ j ∧
        (j = a ∨ (a + g ≤ j ∧ 2 ^ (j - g) < n)) := by
  intro fuel
  induction fuel with
  | zero => intro a h1 _ h3 _; omega
  | succ fuel ih =>
    intro a ha hmod hfuel h3
    unfold _next_size_up_loop next_size_up_loop_unbounded
    by_cases hlt : 2 ^ a < n
    · rw [if_pos hlt, if_pos hlt]
      have hag : a + g ≤ 31 := by
        rcases hg with hg | ⟨hg, hn3⟩
        · have : a ≠ 31 := by
            rintro rfl
            norm_num at hlt
            omega
          omega
        · have hm := hmod hg
          have : a < 18 := by
            by_contra hcon
            have : 2 ^ 18 ≤ 2 ^ a := Nat.pow_le_pow_right (by norm_num) (by omega)
            norm_num at this
            omega
          omega
      have hs : 2 ^ a <<< g = 2 ^ (a + g) := by rw [Nat.shiftLeft_eq, ← pow_add]
      have hshift : u32 (2 ^ a <<< g) = 2 ^ (a + g) := by
        rw [hs]
        apply u32_of_lt
        have := pow_le_pow31 hag
        omega
      rw [hshift, hs]
      obtain ⟨j, hj1, hj2, hjm, hj3, hj3', hj4, hj5⟩ := ih (a + g) hag
        (by intro h; have := hmod h; omega)
        (by rcases hg with hg | ⟨hg, _⟩ <;> omega) (by omega)
      refine ⟨j, by omega, hj2, ?_, hj3, hj3', hj4, Or.inr ⟨hj1, ?_⟩⟩
      · have : j - a = j - (a + g) + g := by omega
        rw [this, Nat.add_mod_right]
        exact hjm
      · rcases hj5 with h | ⟨_, h⟩
        · rw [h, Nat.add_sub_cancel]; exact hlt
        · exact h
    · rw [if_neg hlt, if_neg hlt]
      exact ⟨a, le_refl _, ha, by simp, rfl, rfl, by omega, Or.inl rfl⟩

/-- The function `_next_size_up` on a request below the slow-growth threshold:
the least of 8, 64, 512, 4096, 32768, 262144 that is not below the request. -/
theorem next_size_up_fast (n : Nat) (hn : n < 262144) :
    ∃ j, 3 ≤ j ∧ j ≤ 18 ∧ j % 3 = 0 ∧ _next_size_up n = some (2 ^ j) ∧
      _next_size_up_loop (growth_factor_of n) n 64 _initial_default_size
        = next_size_up_loop_unbounded (growth_factor_of n) n 64 _initial_default_size ∧
      n ≤ 2 ^ j ∧ (j = 3 ∨ 2 ^ (j - 3) < n) := by
  have hgf : growth_factor_of n = 3 := by
    unfold growth_factor_of
    rw [if_neg (by simp [_slow_growth_at]; omega)]
    rfl
  obtain ⟨j, h1, h2, hm, h3, h3', h4, h5⟩ := next_size_up_loop_exact 3 n
    (Or.inr ⟨rfl, by omega⟩) (by omega) 64 3 (by norm_num) (by intro _; rfl)
    (by norm_num) (le_refl _)
  have hj18 : j ≤ 18 := by
    by_contra hcon
    rcases h5 with h | ⟨_, h⟩
    · omega
    · have : 2 ^ 18 ≤ 2 ^ (j - 3) := Nat.pow_le_pow_right (by norm_num) (by omega)
      norm_num at this
      omega
  refine ⟨j, h1, hj18, by omega, ?_, ?_, h4, ?_⟩
  · unfold _next_size_up
    simp only [shift31_val, abs_max_val]
    rw [if_pos (by omega), if_neg (by simp [_slow_growth_at]; omega)]
    exact h3
  · rw [hgf]
    show _next_size_up_loop 3 n 64 (2 ^ 3) = next_size_up_loop_unbounded 3 n 64 (2 ^ 3)
    rw [h3, h3']
  · rcases h5 with h | ⟨_, h⟩
    · exact Or.inl h
    · exact Or.inr h

/-- The function `_next_size_up` on a request from the slow-growth threshold
up to `2^31`: the least power of two that is not below the request. -/
theorem next_size_up_slow (n : Nat) (hn : 262144 ≤ n) (hn31 : n ≤ 2147483648) :
    ∃ j, 18 ≤ j ∧ j ≤ 31 ∧ _next_size_up n = some (2 ^ j) ∧
      _next_size_up_loop (growth_factor_of n) n 64 _initial_default_size
        = next_size_up_loop_unbounded (growth_factor_of n) n 64 _initial_default_size ∧
      n ≤ 2 ^ j ∧ 2 ^ (j - 1) < n := by
  have hgf : growth_factor_of n = 1 := by
    unfold growth_factor_of
    rw [if_pos (by simp [_slow_growth_at]; omega)]
    rfl
  obtain ⟨j, h1, h2, hm, h3, h3', h4, h5⟩ := next_size_up_loop_exact 1 n
    (Or.inl rfl) hn31 64 3 (by norm_num) (by intro h; omega) (by norm_num) (le_refl _)
  have hj18 : 18 ≤ j := by
    by_contra hcon
    have : 2 ^ j ≤ 2 ^ 17 := Nat.pow_le_pow_right (by norm_num) (by omega)
    norm_num at this
    omega
  refine ⟨j, hj18, h2, ?_, ?_, h4, ?_⟩
  · unfold _next_size_up
    simp only [shift31_val, abs_max_val]
    rw [if_pos hn31, if_pos (by simp [_slow_growth_at]; omega)]
    exact h3
  · rw [hgf]
    show _next_size_up_loop 1 n 64 (2 ^ 3) = next_size_up_loop_unbounded 1 n 64 (2 ^ 3)
    rw [h3, h3']
  · rcases h5 with h | ⟨_, h⟩
    · omega
    · exact h

/-- The capacity a rehash asks for after a capacity of the fast regime is 8
times that capacity. -/
theorem next_size_up_times8 (j : Nat) (h3 : 3 ≤ j) (h15 : j ≤ 15) (hm : j % 3 = 0) :
    _next_size_up (2 ^ j + 1) = some (8 * 2 ^ j) := by
  have hp : 2 ^ j ≤ 2 ^ 15 := Nat.pow_le_pow_right (by norm_num) h15
  norm_num at hp
  have hpos : 0 < 2 ^ j := by positivity
  obtain ⟨j', h1, h2, h3', h4, _, h5, h6⟩ := next_size_up_fast (2 ^ j + 1) (by omega)
  have hlt : j < j' := by
    by_contra hcon
    have : 2 ^ j' ≤ 2 ^ j := Nat.pow_le_pow_right (by norm_num) (by omega)
    omega
  have hle : j' ≤ j + 3 := by
    by_contra hcon
    rcases h6 with h | h
    · omega
    · have : 2 ^ (j + 1) ≤ 2 ^ (j' - 3) := Nat.pow_le_pow_right (by norm_num) (by omega)
      rw [pow_succ] at this
      omega
  have hj' : j' = j + 3 := by omega
  rw [h4, hj', pow_add]
  norm_num
  ring

/-- The capacity a rehash asks for after a capacity of the slow regime is twice
that capacity. -/
theorem next_size_up_times2 (j : Nat) (h18 : 18 ≤ j) (h30 : j ≤ 30) :
    _next_size_up (2 ^ j + 1) = some (2 * 2 ^ j) := by
  have hp : 2 ^ j ≤ 2 ^ 30 := Nat.pow_le_pow_right (by norm_num) h30
  have hp18 : 2 ^ 18 ≤ 2 ^ j := Nat.pow_le_pow_right (by norm_num) h18
  norm_num at hp hp18
  obtain ⟨j', h1, h2, h4, _, h5, h6⟩ := next_size_up_slow (2 ^ j + 1) (by omega) (by omega)
  have hlt : j < j' := by
    by_contra hcon
    have : 2 ^ j' ≤ 2 ^ j := Nat.pow_le_pow_right (by norm_num) (by omega)
    omega
  have hle : j' ≤ j + 1 := by
    by_contra hcon
    have : 2 ^ (j + 1) ≤ 2 ^ (j' - 1) := Nat.pow_le_pow_right (by norm_num) (by omega)
    rw [pow_succ] at this
    omega
  have hj' : j' = j + 1 := by omega
  rw [h4, hj', pow_succ]
  ring_nf

/-! ## The quadratic probe sequence -/

/-- The sequence `quad_seq` is the sequence of slots the loops of
`quad_hashmap` visit. -/
theorem quad_seq_eq (c h : Nat) : ∀ i, quad_seq c h i = probe_slot .quad c h i := by
  intro i
  induction i with
  | zero => simp [quad_seq, probe_slot, probe_offset]
  | succ i ih =>
    rw [quad_seq, ih]
    unfold probe_slot
    rw [probe_offset_succ .quad i h, ← Nat.add_assoc]
    exact Nat.mod_add_mod _ _ _

end kirby

namespace kirby

/-! ## The probe loops stop within `capacity` iterations -/

/-- In a probing map that satisfies the invariant the loops of `find` and of
`find_while_trying` leave after at most `capacity` iterations, at the first
slot of the probe sequence that is EMPTY or holds the key. -/
theorem probing_loops_bounded {p : Policy} {H : Hashers} {m : base_hashmap}
    (hinv : ProbingInv p H m) (k : Key) :
    ∃ n s b, n < m._max_size ∧ s < m._max_size ∧ m._table[s]? = some b ∧
      (b.h = _empty ∨ (b.h = _calc_hash H k ∧ b.kv.1 = k)) ∧
      (∀ fuel, n < fuel →
        probing_find_loop p m k (_calc_hash H k) fuel 0 (_calc_hash H k)
          = some (if b.h = _calc_hash H k ∧ b.kv.1 = k then s else m._end)) ∧
      (∀ fwt fuel, n < fuel →
        probing_try_loop p fwt m k (_calc_hash H k) fuel 0 (_calc_hash H k)
          = (if b.h = _empty then _insert fwt m s k (_calc_hash H k)
             else some (m, s, true))) := by
  obtain ⟨j, h3, h31, hj⟩ := hinv.geo.pow2
  have hc := pow_le_pow31 h31
  have hpos : 0 < 2 ^ j := by positivity
  obtain ⟨n, bn, hn, hbn, hstop, hbefore⟩ := first_stop hinv k (_calc_hash H k)
  have hmask : m._mask = 2 ^ j - 1 := by rw [hinv.geo.mask, hj]
  have h0 : _calc_hash H k &&& m._mask = probe_slot p (2 ^ j) (_calc_hash H k) 0 := by
    rw [hmask, and_mask_eq_mod]; simp [probe_slot, probe_offset_zero]
  rw [hj] at hn hbn hbefore ⊢
  refine ⟨n, probe_slot p (2 ^ j) (_calc_hash H k) n, bn, hn, probe_slot_lt p hpos _ _, hbn,
    hstop, ?_, ?_⟩
  · intro fuel hf
    exact probing_find_loop_spec p m j h31 hmask k _ fuel 0 _ n h0 (Nat.zero_le _) (by omega)
      (by omega) (fun x _ hx => hbefore x hx) bn hbn hstop
  · intro fwt fuel hf
    exact probing_try_loop_spec p fwt m j h31 hmask k _ fuel 0 _ n h0 (Nat.zero_le _) (by omega)
      (by omega) (fun x _ hx => hbefore x hx) bn hbn hstop

/-- The loop of `lin_hashmap::dd_remove` started at a live bucket returns
within `capacity` iterations. -/
theorem lin_remove_loop_bounded {H : Hashers} {m : base_hashmap} (hinv : ProbingInv .lin H m)
    {s0 : Nat} {b0 : bucket} (hs0 : s0 < m._max_size) (hb0 : m._table[s0]? = some b0)
    (hl0 : b0.live) (fuel : Nat) (hf : m._max_size ≤ fuel) :
    ∃ t' ptr, lin_remove_loop m._mask fuel m._table s0 s0 s0 = some (t', ptr) := by
  obtain ⟨j, h3, h31, hj⟩ := hinv.geo.pow2
  obtain ⟨B, a0, hloop0, hslot0⟩ := lin_loop_init hinv hs0 hb0 hl0
  obtain ⟨t', ai', aj', hres, _, _⟩ :=
    lin_remove_loop_spec j h31 hj fuel m._table a0 a0 hloop0 (by omega)
  have hmask : m._mask = 2 ^ j - 1 := by rw [hinv.geo.mask, hj]
  rw [← hmask, hslot0] at hres
  exact ⟨t', _, hres⟩

/-! ## Erasure from the quadratic map, exactly -/

/-- The function `quad_hashmap::dd_remove` changes `_size` and one bucket. -/
theorem quad_remove_exact {H : Hashers} {m : base_hashmap} (hinv : ProbingInv .quad H m)
    {s0 : Nat} {b0 : bucket} (hs0 : s0 < m._max_size) (hb0 : m._table[s0]? = some b0)
    (hl0 : b0.live) :
    remove .quad m s0 = some { m with _size := m._size - 1, _table := m._table.set s0 { h := _tombstone, kv := (0, 0) } } ∧ 1 ≤ m._size := by
  obtain ⟨m', hrem, _, _, hsz, _⟩ := quad_remove_spec hinv hs0 hb0 hl0
  have hlen : s0 < m._table.length := (List.getElem?_eq_some.mp hb0).1
  have hsl := hinv.size_le
  have hthr := hinv.threshold
  obtain ⟨j, h3, h31, hj⟩ := hinv.geo.pow2
  have hp := pow_le_pow31 h31
  refine ⟨?_, by omega⟩
  simp only [remove, quad_dd_remove, _remove_for_tombstone]
  rw [write_of_lt _ hlen]
  simp only
  rw [usub_of_le (by omega) (by omega)]

/-- An absent key inserted below the threshold occupies an EMPTY slot. -/
theorem probing_insert_room {p : Policy} (hp : p.probing) {H : Hashers} (fuel : Nat)
    {m : base_hashmap} (hinv : ProbingInv p H m) (k : Key) (habs : Absent m k)
    (hroom : m._true_size < m._max_true_size) (v : T) :
    ∃ s a, s < m._max_size ∧ m._table[s]? = some a ∧ a.h = _empty ∧
      base_hashmap.insert p H (fuel + 1) m (k, v) = some ({ m with _true_size := m._true_size + 1, _size := m._size + 1, _table := m._table.set s { h := _calc_hash H k, kv := (k, v) } }, s, true) := by
  obtain ⟨n, a, hn, ha, he, hbefore, heq⟩ :=
    probing_try_absent (find_while_trying p H fuel) hinv k habs
  obtain ⟨j, h3, h31, hj⟩ := hinv.geo.pow2
  have hpos : 0 < m._max_size := by rw [hj]; positivity
  have hs : probe_slot p m._max_size (_calc_hash H k) n < m._max_size :=
    probe_slot_lt p hpos _ _
  have hlen : probe_slot p m._max_size (_calc_hash H k) n < m._table.length :=
    (List.getElem?_eq_some.mp ha).1
  refine ⟨_, a, hs, ha, he, ?_⟩
  unfold base_hashmap.insert find_while_trying_key
  simp only
  rw [probing_fwt_eq hp, heq, insert_room _ hinv ha k (by omega)]
  simp only [Bool.not_false, if_true, occupied]
  rw [List.getElem?_set_self hlen]
  simp only [List.set_set]

end kirby

namespace kirby

/-! ## Robin Hood: basic facts of the invariant -/

theorem rh_ovf : ovf .rh = 128 := rfl

theorem RhInv.end_eq {H : Hashers} {m : base_hashmap} (hinv : RhInv H m) :
    m._end = m._max_size + 128 := hinv.geo.end_eq

theorem RhInv.length {H : Hashers} {m : base_hashmap} (hinv : RhInv H m) :
    m._table.length = m._end + 1 := by
  rw [hinv.geo.length, hinv.geo.end_eq]

theorem RhInv.get {H : Hashers} {m : base_hashmap} (hinv : RhInv H m) {s : Nat}
    (hs : s ≤ m._end) : ∃ b, m._table[s]? = some b :=
  ⟨_, List.getElem?_eq_getElem (by rw [hinv.length]; omega)⟩

theorem RhInv.home_lt {H : Hashers} {m : base_hashmap} (hinv : RhInv H m) (x : Nat) :
    (x &&& m._mask) < m._max_size := by
  obtain ⟨j, _, _, hj⟩ := hinv.geo.pow2
  rw [hinv.geo.mask, hj, and_mask_eq_mod]
  exact Nat.mod_lt _ (by positivity)

theorem RhInv.cap_le {H : Hashers} {m : base_hashmap} (hinv : RhInv H m) :
    8 ≤ m._max_size ∧ m._max_size ≤ 2147483648 := by
  obtain ⟨j, h3, h31, hj⟩ := hinv.geo.pow2
  rw [hj]
  exact ⟨pow_ge_8 h3, pow_le_pow31 h31⟩

/-- Below `_end` a bucket is live exactly when it is not EMPTY. -/
theorem RhInv.live_of_ne {H : Hashers} {m : base_hashmap} (hinv : RhInv H m) {s : Nat}
    {b : bucket} (hs : s < m._end) (hb : m._table[s]? = some b) (hne : b.h ≠ _empty) :
    b.live ∧ b.h = _calc_hash H b.kv.1 := by
  rcases hinv.tags s b hs hb with h | h
  · exact absurd h hne
  · exact ⟨live_of_tag_lt (h ▸ calc_hash_lt H _), h⟩

theorem RhInv.rh_tag_of_live {H : Hashers} {m : base_hashmap} (hinv : RhInv H m) {s : Nat}
    {b : bucket} (hs : s < m._end) (hb : m._table[s]? = some b) (hl : b.live) :
    b.h = _calc_hash H b.kv.1 :=
  (hinv.live_of_ne hs hb (live_not_empty hl)).2

/-- The terminator is neither live nor EMPTY. -/
theorem last_ne_empty {b : bucket} (h : b.h = _last) : b.h ≠ _empty := by
  rw [h]; decide

/-- The live buckets of the whole table are those below `_end`. -/
theorem RhInv.tags_of_keys {H : Hashers} {m : base_hashmap} (hinv : RhInv H m) :
    TagsOfKeys H m._table := by
  intro b hb hl
  obtain ⟨s, hs⟩ := List.mem_iff_getElem?.mp hb
  have hlen : s < m._table.length := (List.getElem?_eq_some.mp hs).1
  rw [hinv.length] at hlen
  by_cases hse : s < m._end
  · exact hinv.rh_tag_of_live hse hs hl
  · have : s = m._end := by omega
    obtain ⟨bl, hbl, hlast⟩ := hinv.last
    rw [this, hbl] at hs
    cases hs
    exact absurd hl (last_not_live hlast)

theorem tags_of_keys_set {H : Hashers} {t : List bucket} (ht : TagsOfKeys H t) (i : Nat)
    (b : bucket) (hb : b.live → b.h = _calc_hash H b.kv.1) : TagsOfKeys H (t.set i b) := by
  intro b' hb' hl
  rcases List.mem_or_eq_of_mem_set hb' with h | h
  · exact ht b' h hl
  · rw [h] at hl ⊢; exact hb hl

theorem tags_of_keys_subset {H : Hashers} {t t' : List bucket} (ht : TagsOfKeys H t)
    (h : ∀ b ∈ t', b ∈ t) : TagsOfKeys H t' :=
  fun b hb hl => ht b (h b hb) hl

/-- Writing a value into a bucket keeps the invariant. -/
theorem RhInv.rh_set_value {H : Hashers} {m : base_hashmap} (hinv : RhInv H m) {s : Nat}
    {a : bucket} (ha : m._table[s]? = some a) (v : T) :
    RhInv H { m with _table := m._table.set s { a with kv := (a.kv.1, v) } } := by
  have hlen : s < m._table.length := (List.getElem?_eq_some.mp ha).1
  have hget : ∀ (x : Nat) (bx : bucket),
      (m._table.set s { a with kv := (a.kv.1, v) })[x]? = some bx →
      ∃ bx' : bucket, m._table[x]? = some bx' ∧ bx'.h = bx.h ∧ bx'.kv.1 = bx.kv.1 := by
    intro x bx hbx
    rcases get_set_cases hbx with ⟨rfl, rfl⟩ | ⟨_, h⟩
    · exact ⟨a, ha, rfl, rfl⟩
    · exact ⟨bx, h, rfl, rfl⟩
  have hget' : ∀ (x : Nat) (bx : bucket), m._table[x]? = some bx →
      ∃ bx' : bucket,
        (m._table.set s { a with kv := (a.kv.1, v) })[x]? = some bx' ∧ bx'.h = bx.h := by
    intro x bx hbx
    by_cases hsx : s = x
    · subst hsx
      rw [ha] at hbx; cases hbx
      exact ⟨_, List.getElem?_set_self hlen, rfl⟩
    · exact ⟨bx, by rw [List.getElem?_set_ne hsx]; exact hbx, rfl⟩
  have hlive : ∀ {b b' : bucket}, b'.h = b.h → b.live → b'.live := by
    intro b b' h hl
    unfold bucket.live at hl ⊢
    rw [h]; exact hl
  refine
    { geo := geometry_update hinv.geo _ (List.length_set _ _ _) _ _
      last := ?_
      tags := ?_
      home_le := ?_
      run := ?_
      nodup := ?_
      size := ?_
      true_size := hinv.true_size
      threshold := hinv.threshold }
  · obtain ⟨bl, hbl, hl⟩ := hinv.last
    obtain ⟨bl', hbl', hh⟩ := hget' _ _ hbl
    exact ⟨bl', hbl', by rw [hh]; exact hl⟩
  · intro x bx hx hbx
    obtain ⟨bx', h1, h2, h3⟩ := hget x bx hbx
    rcases hinv.tags x bx' hx h1 with h | h
    · exact Or.inl (by rw [← h2]; exact h)
    · exact Or.inr (by rw [← h2, ← h3]; exact h)
  · intro x bx hx hbx hl
    obtain ⟨bx', h1, h2, _⟩ := hget x bx hbx
    have := hinv.home_le x bx' hx h1 (hlive h2 hl)
    rw [h2] at this
    exact this
  · intro x bx hx hbx hl y hy1 hy2
    obtain ⟨bx', h1, h2, _⟩ := hget x bx hbx
    obtain ⟨by', h3, h4, h5⟩ := hinv.run x bx' hx h1 (hlive h2 hl) y (by rw [h2]; exact hy1) hy2
    obtain ⟨by'', h6, h7⟩ := hget' y by' h3
    exact ⟨by'', h6, hlive h7 h4, by rw [h7, ← h2]; exact h5⟩
  · intro x x' bx bx' hx hx' hbx hbx' hl hl' hk
    obtain ⟨c, h1, h2, h3⟩ := hget x bx hbx
    obtain ⟨c', h1', h2', h3'⟩ := hget x' bx' hbx'
    exact hinv.nodup x x' c c' hx hx' h1 h1' (hlive h2 hl) (hlive h2' hl')
      (by rw [h3, h3']; exact hk)
  · show m._size = ((m._table.set s _).take m._end).countP _
    by_cases hse : s < m._end
    · have h1 := countP_set_take (fun b => decide b.live) m._table m._end s a
        { a with kv := (a.kv.1, v) } hse (by rw [hinv.length]; omega) ha
      have h2 : decide (bucket.live { a with kv := (a.kv.1, v) }) = decide a.live := rfl
      simp only [h2] at h1
      have := hinv.size
      omega
    · rw [List.set_take, List.set_eq_of_length_le (by rw [List.length_take]; omega)]
      exact hinv.size

/-- A fresh table satisfies the invariant and holds no key. -/
theorem fresh_rh_inv (H : Hashers) {m : base_hashmap} (hg : Geometry .rh m) (hf : Fresh m)
    (hthr : m._max_true_size < m._max_size) : RhInv H m ∧ ∀ k, RhAbsent m k := by
  have hslot : ∀ s b, s < m._end → m._table[s]? = some b → b = empty_bucket := by
    intro s b hs hb
    rw [hf.slots s hs] at hb
    exact (Option.some.inj hb).symm
  have hnl : ¬ empty_bucket.live := empty_bucket_not_live
  have hall : ∀ b ∈ m._table.take m._end, b = empty_bucket := by
    intro b hb
    obtain ⟨s, hs⟩ := List.mem_iff_getElem?.mp hb
    have hslt : s < m._end := by
      have := (List.getElem?_eq_some.mp hs).1
      rw [List.length_take] at this
      omega
    rw [List.getElem?_take, if_pos hslt] at hs
    exact hslot s b hslt hs
  refine ⟨
    { geo := hg
      last := ⟨_, hf.last, rfl⟩
      tags := fun s b hs hb => Or.inl (by rw [hslot s b hs hb]; rfl)
      home_le := fun s b hs hb hl => absurd (hslot s b hs hb ▸ hl) hnl
      run := fun s b hs hb hl => absurd (hslot s b hs hb ▸ hl) hnl
      nodup := fun s s' b b' hs _ hb _ hl _ _ => absurd (hslot s b hs hb ▸ hl) hnl
      size := by
        rw [hf.size]
        symm
        rw [List.countP_eq_zero]
        intro b hb
        rw [hall b hb]
        simpa using hnl
      true_size := by rw [hf.true_size, hf.size]
      threshold := ⟨by rw [hf.true_size]; omega, hthr⟩ }, ?_⟩
  intro k s b hs hb hl
  exact absurd (hslot s b hs hb ▸ hl) hnl

/-- The threshold `_init` computes is below the new capacity when the old
threshold is. -/
theorem init_threshold_lt (c thr ts : Nat) (h8 : 8 ≤ c) (hc : c ≤ 2147483648) (h1 : thr < c) :
    (if ts < thr ∨ c * 8556380 / 16777216 > thr then c * 8556380 / 16777216
      else u32 (thr + u32 ((usub c thr >>> 4) <<< 3))) < c := by
  split
  · omega
  · rw [usub_of_le (le_of_lt h1) (by omega), Nat.shiftRight_eq_div_pow, Nat.shiftLeft_eq]
    have e1 : (2 : Nat) ^ 4 = 16 := by norm_num
    have e2 : (2 : Nat) ^ 3 = 8 := by norm_num
    rw [e1, e2, u32_of_lt (show (c - thr) / 16 * 8 < 4294967296 by omega),
      u32_of_lt (show thr + (c - thr) / 16 * 8 < 4294967296 by omega)]
    omega

end kirby

namespace kirby

/-! ## Robin Hood: lookup -/

/-- The loop of `d_find_without_inserting` passes `d` live buckets that do not
match. -/
theorem rh_find_loop_scan (m : base_hashmap) (k : Key) (h : Nat) :
    ∀ d fuel ptr, d ≤ fuel →
      (∀ i, i < d → ∃ b, m._table[ptr + i]? = some b ∧ b.h < _code ∧
        ¬ (b.h = h ∧ b.kv.1 = k)) →
      rh_find_loop m k h fuel ptr = rh_find_loop m k h (fuel - d) (ptr + d) := by
  intro d
  induction d with
  | zero => intro fuel ptr _ _; rfl
  | succ d ih =>
    intro fuel ptr hd hall
    obtain ⟨f, rfl⟩ : ∃ f, fuel = f + 1 := ⟨fuel - 1, by omega⟩
    obtain ⟨b, hb, hl, hm⟩ := hall 0 (by omega)
    rw [Nat.add_zero] at hb
    rw [rh_find_loop, hb]
    simp only
    rw [if_pos hl, if_neg hm]
    rw [ih f (ptr + 1) (by omega) (fun i hi => by
      have := hall (i + 1) (by omega)
      rw [show ptr + (i + 1) = ptr + 1 + i by omega] at this
      exact this)]
    rw [show f + 1 - (d + 1) = f - d by omega, show ptr + 1 + d = ptr + (d + 1) by omega]

/-- The specified loop passes `d` live buckets that do not match and whose home
is not after the starting index. -/
theorem rh_find_stop_loop_scan (m : base_hashmap) (k : Key) (h start : Nat) :
    ∀ d fuel ptr, d ≤ fuel →
      (∀ i, i < d → ∃ b, m._table[ptr + i]? = some b ∧ b.h < _code ∧
        ¬ (b.h = h ∧ b.kv.1 = k) ∧ (b.h &&& m._mask) ≤ start) →
      rh_find_stop_loop m k h start fuel ptr
        = rh_find_stop_loop m k h start (fuel - d) (ptr + d) := by
  intro d
  induction d with
  | zero => intro fuel ptr _ _; rfl
  | succ d ih =>
    intro fuel ptr hd hall
    obtain ⟨f, rfl⟩ : ∃ f, fuel = f + 1 := ⟨fuel - 1, by omega⟩
    obtain ⟨b, hb, hl, hm, hle⟩ := hall 0 (by omega)
    rw [Nat.add_zero] at hb
    rw [rh_find_stop_loop, hb]
    simp only
    rw [if_pos hl, if_neg hm, if_neg (by omega)]
    rw [ih f (ptr + 1) (by omega) (fun i hi => by
      have := hall (i + 1) (by omega)
      rw [show ptr + (i + 1) = ptr + 1 + i by omega] at this
      exact this)]
    rw [show f + 1 - (d + 1) = f - d by omega, show ptr + 1 + d = ptr + (d + 1) by omega]

/-- The specified loop on a key that no bucket from `ptr` on holds returns
`end()`, wherever it stops. -/
theorem rh_find_stop_loop_absent (m : base_hashmap) (k : Key) (h start e : Nat)
    (hall : ∀ x, x < e → ∀ b, m._table[x]? = some b → ¬ (b.h = h ∧ b.kv.1 = k))
    (hlive : ∀ x, x < e → ∃ b, m._table[x]? = some b)
    (he : ∃ b, m._table[e]? = some b ∧ ¬ b.h < _code) :
    ∀ d fuel ptr, ptr + d = e → d < fuel →
      rh_find_stop_loop m k h start fuel ptr = some m._end := by
  intro d
  induction d with
  | zero =>
    intro fuel ptr hp hf
    obtain ⟨f, rfl⟩ : ∃ f, fuel = f + 1 := ⟨fuel - 1, by omega⟩
    obtain ⟨b, hb, hnl⟩ := he
    rw [Nat.add_zero] at hp
    rw [rh_find_stop_loop, hp, hb]
    simp only
    rw [if_neg hnl]
  | succ d ih =>
    intro fuel ptr hp hf
    obtain ⟨f, rfl⟩ : ∃ f, fuel = f + 1 := ⟨fuel - 1, by omega⟩
    obtain ⟨b, hb⟩ := hlive ptr (by omega)
    rw [rh_find_stop_loop, hb]
    simp only
    by_cases hl : b.h < _code
    · rw [if_pos hl, if_neg (hall ptr (by omega) b hb)]
      by_cases hgt : (b.h &&& m._mask) > start
      · rw [if_pos hgt]
      · rw [if_neg hgt]
        exact ih f (ptr + 1) (by omega) (by omega)
    · rw [if_neg hl]

/-- The first slot from `start` on that is not live. -/
theorem RhInv.first_not_live {H : Hashers} {m : base_hashmap} (hinv : RhInv H m) (start : Nat)
    (hs : start ≤ m._end) :
    ∃ e b, start ≤ e ∧ e ≤ m._end ∧ m._table[e]? = some b ∧ ¬ b.live ∧
      ∀ x, start ≤ x → x < e → ∃ bx, m._table[x]? = some bx ∧ bx.live := by
  classical
  let P : Nat → Prop := fun n => ∃ b, m._table[start + n]? = some b ∧ ¬ b.live
  have hP : ∃ n, P n := by
    obtain ⟨bl, hbl, hl⟩ := hinv.last
    exact ⟨m._end - start, bl, by rw [show start + (m._end - start) = m._end by omega]; exact hbl,
      last_not_live hl⟩
  obtain ⟨b, hb, hnl⟩ := Nat.find_spec hP
  have hle : start + Nat.find hP ≤ m._end := by
    have hlen := (List.getElem?_eq_some.mp hb).1
    rw [hinv.length] at hlen
    omega
  refine ⟨start + Nat.find hP, b, by omega, hle, hb, hnl, ?_⟩
  intro x hx1 hx2
  obtain ⟨bx, hbx⟩ := hinv.get (show x ≤ m._end by omega)
  refine ⟨bx, hbx, ?_⟩
  by_contra hcon
  have := Nat.find_min hP (show x - start < Nat.find hP by omega)
  exact this ⟨bx, by rw [show start + (x - start) = x by omega]; exact hbx, hcon⟩

/-- The lookup of a key held in a live bucket returns that bucket, and so does
the specified lookup. -/
theorem rh_find_present {H : Hashers} {m : base_hashmap} (hinv : RhInv H m) {s : Nat}
    {b : bucket} (hs : s < m._end) (hb : m._table[s]? = some b) (hl : b.live) :
    rh_find_without_inserting H m b.kv.1 = some s ∧
      rh_find_with_early_stop H m b.kv.1 = some s := by
  have htag := hinv.rh_tag_of_live hs hb hl
  have hhome := hinv.home_le s b hs hb hl
  have hlen := hinv.length
  rw [htag] at hhome
  have hscan : ∀ i, i < s - (_calc_hash H b.kv.1 &&& m._mask) →
      ∃ bx, m._table[(_calc_hash H b.kv.1 &&& m._mask) + i]? = some bx ∧ bx.h < _code ∧
        ¬ (bx.h = _calc_hash H b.kv.1 ∧ bx.kv.1 = b.kv.1) ∧
        (bx.h &&& m._mask) ≤ (_calc_hash H b.kv.1 &&& m._mask) := by
    intro i hi
    obtain ⟨bx, hbx, hlx, hle⟩ := hinv.run s b hs hb hl ((_calc_hash H b.kv.1 &&& m._mask) + i)
      (by rw [htag]; omega) (by omega)
    rw [htag] at hle
    refine ⟨bx, hbx, hlx, ?_, hle⟩
    rintro ⟨_, hk⟩
    have := hinv.nodup _ _ bx b (by omega) hs hbx hb hlx hl hk
    omega
  have hstep : ∀ f, rh_find_loop m b.kv.1 (_calc_hash H b.kv.1) (f + 1) s = some s := by
    intro f
    rw [rh_find_loop, hb]
    simp only
    rw [if_pos (show b.h < _code from hl), if_pos ⟨htag, trivial⟩]
  have hstep' : ∀ f, rh_find_stop_loop m b.kv.1 (_calc_hash H b.kv.1)
      (_calc_hash H b.kv.1 &&& m._mask) (f + 1) s = some s := by
    intro f
    rw [rh_find_stop_loop, hb]
    simp only
    rw [if_pos (show b.h < _code from hl), if_pos ⟨htag, trivial⟩]
  have hsum : (_calc_hash H b.kv.1 &&& m._mask) + (s - (_calc_hash H b.kv.1 &&& m._mask)) = s := by
    omega
  obtain ⟨f, hf⟩ : ∃ f, m._table.length + 1 - (s - (_calc_hash H b.kv.1 &&& m._mask)) = f + 1 :=
    ⟨m._table.length - (s - (_calc_hash H b.kv.1 &&& m._mask)), by omega⟩
  constructor
  · unfold rh_find_without_inserting
    simp only
    rw [rh_find_loop_scan m _ _ (s - (_calc_hash H b.kv.1 &&& m._mask)) _ _ (by omega)
      (fun i hi => by
        obtain ⟨bx, h1, h2, h3, _⟩ := hscan i hi
        exact ⟨bx, h1, h2, h3⟩), hsum, hf]
    exact hstep f
  · unfold rh_find_with_early_stop
    simp only
    rw [rh_find_stop_loop_scan m _ _ _ (s - (_calc_hash H b.kv.1 &&& m._mask)) _ _ (by omega)
      hscan, hsum, hf]
    exact hstep' f

/-- The lookup of a key that no live bucket holds returns `end()`, and so does
the specified lookup. -/
theorem rh_find_absent {H : Hashers} {m : base_hashmap} (hinv : RhInv H m) (k : Key)
    (habs : RhAbsent m k) :
    rh_find_without_inserting H m k = some m._end ∧
      rh_find_with_early_stop H m k = some m._end := by
  have hlen := hinv.length
  have hstart : (_calc_hash H k &&& m._mask) < m._max_size := hinv.home_lt _
  have hend := hinv.end_eq
  obtain ⟨e, be, he1, he2, hbe, hnl, hbefore⟩ :=
    hinv.first_not_live (_calc_hash H k &&& m._mask) (by omega)
  have hnomatch : ∀ x, x < e → ∀ b, m._table[x]? = some b →
      ¬ (b.h = _calc_hash H k ∧ b.kv.1 = k) := by
    intro x hx b hb
    rintro ⟨h1, h2⟩
    exact habs x b (by omega) hb (live_of_tag_lt (h1 ▸ calc_hash_lt H k)) h2
  constructor
  · unfold rh_find_without_inserting
    simp only
    rw [rh_find_loop_scan m _ _ (e - (_calc_hash H k &&& m._mask)) _ _ (by omega)
      (fun i hi => by
        obtain ⟨bx, h1, h2⟩ := hbefore ((_calc_hash H k &&& m._mask) + i) (by omega) (by omega)
        exact ⟨bx, h1, h2, hnomatch _ (by omega) bx h1⟩),
      show (_calc_hash H k &&& m._mask) + (e - (_calc_hash H k &&& m._mask)) = e by omega]
    obtain ⟨f, hf⟩ : ∃ f, m._table.length + 1 - (e - (_calc_hash H k &&& m._mask)) = f + 1 :=
      ⟨m._table.length - (e - (_calc_hash H k &&& m._mask)), by omega⟩
    rw [hf, rh_find_loop, hbe]
    simp only
    rw [if_neg (show ¬ be.h < _code from hnl)]
  · unfold rh_find_with_early_stop
    simp only
    exact rh_find_stop_loop_absent m k _ _ e hnomatch
      (fun x hx => hinv.get (by omega)) ⟨be, hbe, hnl⟩
      (e - (_calc_hash H k &&& m._mask)) _ _ (by omega) (by omega)

/-- In a Robin Hood map every key is held with a value or absent. -/
theorem rh_holds_or_absent (m : base_hashmap) (k : Key) :
    (∃ v, RhHolds m k v) ∨ RhAbsent m k := by
  by_cases h : RhAbsent m k
  · exact Or.inr h
  · left
    unfold RhAbsent at h
    push_neg at h
    obtain ⟨s, b, hs, hb, hl, hk⟩ := h
    exact ⟨b.kv.2, s, b, hs, hb, hl, by rw [← hk]⟩

end kirby

namespace kirby

/-! ## Robin Hood: the forward shift -/

/-- What `rh_find_free` returns when it finds a slot: the first EMPTY slot after
`freespace`. -/
theorem rh_find_free_some (t : List bucket) (e end_ : Nat) :
    ∀ fuel fs f, rh_find_free t e end_ fuel fs = some (some f) →
      fs < f ∧ (∃ b, t[f]? = some b ∧ b.h = e) ∧
      (∀ x, fs < x → x < f → ∃ b, t[x]? = some b ∧ b.h ≠ e) ∧ (fs < end_ → f ≤ end_) := by
  intro fuel
  induction fuel with
  | zero => intro _ _ h; simp [rh_find_free] at h
  | succ fuel ih =>
    intro fs f h
    unfold rh_find_free at h
    simp only at h
    cases hb : t[fs + 1]? with
    | none => rw [hb] at h; simp at h
    | some b =>
      rw [hb] at h
      simp only at h
      by_cases he : b.h = e
      · rw [if_pos he] at h
        simp only [Option.some.injEq] at h
        subst h
        exact ⟨by omega, ⟨b, hb, he⟩, fun x h1 h2 => by omega, fun h => by omega⟩
      · rw [if_neg he] at h
        by_cases hend : fs + 1 ≠ end_
        · rw [if_pos hend] at h
          obtain ⟨h1, h2, h3, h4⟩ := ih (fs + 1) f h
          refine ⟨by omega, h2, ?_, fun h => h4 (by omega)⟩
          intro x hx1 hx2
          by_cases hx : x = fs + 1
          · rw [hx]; exact ⟨b, hb, he⟩
          · exact h3 x (by omega) hx2
        · rw [if_neg hend] at h
          simp at h

/-- The loop of `shift_buckets_forward` that moves the buckets: every bucket
from `ptr` up to `freespace - 1` ends one slot further, and nothing else
changes. -/
theorem rh_move_forward_spec (ptr : Nat) :
    ∀ d fuel (t : List bucket) fs, fs = ptr + d + 1 → d < fuel → fs < t.length →
      ∃ t', rh_move_forward ptr fuel t fs (fs - 1) = some t' ∧ t'.length = t.length ∧
        (∀ x, t'[x]? = if ptr < x ∧ x ≤ fs then t[x - 1]? else t[x]?) ∧
        (∀ (P : bucket → Bool) (E : Nat) (a b : bucket), fs < E → E ≤ t.length →
          t[fs]? = some a → t[ptr]? = some b →
          (t'.take E).countP P + (if P a then 1 else 0)
            = (t.take E).countP P + (if P b then 1 else 0)) := by
  intro d
  induction d with
  | zero =>
    intro fuel t fs hfs hf hlen
    obtain ⟨f, rfl⟩ : ∃ f, fuel = f + 1 := ⟨fuel - 1, by omega⟩
    have hl : fs - 1 < t.length := by omega
    rw [rh_move_forward, List.getElem?_eq_getElem hl]
    simp only
    rw [write_of_lt _ hlen]
    simp only
    rw [if_neg (by omega)]
    refine ⟨_, rfl, List.length_set _ _ _, ?_, ?_⟩
    · intro x
      by_cases hx : x = fs
      · rw [hx, List.getElem?_set_self hlen, if_pos (by omega), List.getElem?_eq_getElem hl]
      · rw [List.getElem?_set_ne (fun h => hx h.symm), if_neg (by omega)]
    · intro P E a b hE hEl ha hb
      have hpb : t[fs - 1] = b := by
        have h1 : t[fs - 1]? = some b := by
          have : fs - 1 = ptr := by omega
          rw [this]; exact hb
        rw [List.getElem?_eq_getElem hl] at h1
        exact Option.some.inj h1
      rw [hpb]
      exact countP_set_take P t E fs a b hE hEl ha
  | succ d ih =>
    intro fuel t fs hfs hf hlen
    obtain ⟨f, rfl⟩ : ∃ f, fuel = f + 1 := ⟨fuel - 1, by omega⟩
    have hl : fs - 1 < t.length := by omega
    rw [rh_move_forward, List.getElem?_eq_getElem hl]
    simp only
    rw [write_of_lt _ hlen]
    simp only
    rw [if_pos (by omega)]
    obtain ⟨t', hres, hlen', hchar, hcount⟩ := ih f (t.set fs t[fs - 1]) (fs - 1) (by omega)
      (by omega) (by rw [List.length_set]; omega)
    refine ⟨t', hres, by rw [hlen', List.length_set], ?_, ?_⟩
    · intro x
      rw [hchar x]
      by_cases hx : x = fs
      · rw [hx, if_neg (by omega), if_pos (by omega), List.getElem?_set_self hlen,
          List.getElem?_eq_getElem hl]
      · by_cases hx2 : ptr < x ∧ x ≤ fs - 1
        · rw [if_pos hx2, if_pos (by omega), List.getElem?_set_ne (by omega)]
        · rw [if_neg hx2, if_neg (by omega), List.getElem?_set_ne (fun h => hx h.symm)]
    · intro P E a b hE hEl ha hb
      have h1 := countP_set_take P t E fs a t[fs - 1] hE hEl ha
      have h2 := hcount P E t[fs - 1] b (by omega) (by rw [List.length_set]; exact hEl)
        (by rw [List.getElem?_set_ne (by omega)]; exact List.getElem?_eq_getElem hl)
        (by rw [List.getElem?_set_ne (by omega)]; exact hb)
      omega

/-- What `shift_buckets_forward` returns when it succeeds: the first EMPTY slot
`f` after `ptr` has been filled by moving the buckets from `ptr` on by one. -/
theorem shift_buckets_forward_spec (t : List bucket) (ptr end_ : Nat) (t' : List bucket)
    (hp : ptr < end_) (hlen : end_ < t.length)
    (h : shift_buckets_forward t ptr _empty end_ = some (t', true)) :
    ∃ f, ptr < f ∧ f ≤ end_ ∧ (∃ b, t[f]? = some b ∧ b.h = _empty) ∧
      (∀ x, ptr < x → x < f → ∃ b, t[x]? = some b ∧ b.h ≠ _empty) ∧
      t'.length = t.length ∧
      (∀ x, t'[x]? = if ptr < x ∧ x ≤ f then t[x - 1]? else t[x]?) ∧
      (∀ (P : bucket → Bool) (E : Nat) (a b : bucket), f < E → E ≤ t.length →
        t[f]? = some a → t[ptr]? = some b →
        (t'.take E).countP P + (if P a then 1 else 0)
          = (t.take E).countP P + (if P b then 1 else 0)) := by
  unfold shift_buckets_forward at h
  cases hf : rh_find_free t _empty end_ (t.length + 1) ptr with
  | none => rw [hf] at h; simp at h
  | some o =>
    rw [hf] at h
    cases o with
    | none => simp at h
    | some f =>
      simp only at h
      obtain ⟨h1, h2, h3, h4⟩ := rh_find_free_some t _empty end_ _ ptr f hf
      have hfe := h4 hp
      obtain ⟨t1, hres, hlen1, hchar, hcount⟩ := rh_move_forward_spec ptr (f - ptr - 1)
        (t.length + 1) t f (by omega) (by omega) (by omega)
      rw [hres] at h
      simp only [Option.some.injEq, Prod.mk.injEq, and_true] at h
      subst h
      exact ⟨f, h1, hfe, h2, h3, hlen1, hchar, hcount⟩

end kirby

namespace kirby

/-! ## Robin Hood: the invariant after an insertion -/

/-- The invariant after the key `k` has been stored in the slot `pos`, the
buckets from `pos` up to the EMPTY slot `fs` having moved on by one (`fs = pos`
when the slot `pos` itself was EMPTY). -/
theorem RhInv.insert_shifted {H : Hashers} {m : base_hashmap} (hinv : RhInv H m)
    (k : Key) (v : T) (pos fs : Nat) (t' : List bucket)
    (hstart : (_calc_hash H k &&& m._mask) ≤ pos) (hpf : pos ≤ fs) (hfs : fs < m._end)
    (hbefore : ∀ x, (_calc_hash H k &&& m._mask) ≤ x → x < pos →
      ∃ b, m._table[x]? = some b ∧ b.live ∧
        (b.h &&& m._mask) ≤ (_calc_hash H k &&& m._mask))
    (hmid : ∀ x, pos ≤ x → x < fs → ∃ b, m._table[x]? = some b ∧ b.live)
    (hgt : pos < fs →
      ∃ b, m._table[pos]? = some b ∧ (b.h &&& m._mask) > (_calc_hash H k &&& m._mask))
    (hempty : ∃ a, m._table[fs]? = some a ∧ a.h = _empty)
    (habs : RhAbsent m k)
    (hroom : m._true_size + 1 ≤ m._max_true_size)
    (hlen : t'.length = m._table.length)
    (hchar : ∀ x, t'[x]? = if x = pos then some ⟨_calc_hash H k, (k, v)⟩
        else if pos < x ∧ x ≤ fs then m._table[x - 1]? else m._table[x]?)
    (hcount : (t'.take m._end).countP (fun b => decide b.live)
        = (m._table.take m._end).countP (fun b => decide b.live) + 1) :
    RhInv H { m with _true_size := m._true_size + 1, _size := m._size + 1, _table := t' } := by
  have hnbl : (bucket.mk (_calc_hash H k) (k, v)).live := live_of_tag_lt (calc_hash_lt H k)
  have hat : t'[pos]? = some ⟨_calc_hash H k, (k, v)⟩ := by rw [hchar, if_pos rfl]
  have hsh : ∀ x, pos < x → x ≤ fs → t'[x]? = m._table[x - 1]? := by
    intro x h1 h2
    rw [hchar, if_neg (by omega), if_pos ⟨h1, h2⟩]
  have hout : ∀ x, (x < pos ∨ fs < x) → t'[x]? = m._table[x]? := by
    intro x h1
    rw [hchar, if_neg (by omega), if_neg (by omega)]
  have hcase : ∀ (x : Nat) (bx : bucket), t'[x]? = some bx →
      (x = pos ∧ bx = ⟨_calc_hash H k, (k, v)⟩) ∨
      (pos < x ∧ x ≤ fs ∧ m._table[x - 1]? = some bx) ∨
      ((x < pos ∨ fs < x) ∧ m._table[x]? = some bx) := by
    intro x bx hbx
    by_cases h1 : x = pos
    · left
      rw [h1, hat] at hbx
      exact ⟨h1, (Option.some.inj hbx).symm⟩
    · by_cases h2 : pos < x ∧ x ≤ fs
      · rw [hsh x h2.1 h2.2] at hbx
        exact Or.inr (Or.inl ⟨h2.1, h2.2, hbx⟩)
      · have h3 : x < pos ∨ fs < x := by omega
        rw [hout x h3] at hbx
        exact Or.inr (Or.inr ⟨h3, hbx⟩)
  -- a live bucket after `fs` has its home after `fs`
  have hafter : ∀ (x : Nat) (bx : bucket), fs < x → x < m._end → m._table[x]? = some bx →
      bx.live → fs < (bx.h &&& m._mask) := by
    intro x bx h1 h2 hbx hl
    by_contra hcon
    obtain ⟨a, ha, hae⟩ := hempty
    obtain ⟨c, hc, hcl, _⟩ := hinv.run x bx h2 hbx hl fs (by omega) h1
    rw [ha] at hc
    cases hc
    exact live_not_empty hcl hae
  -- the home of a bucket of the shifted region is after the home of `k`
  have hmidhome : ∀ (x : Nat) (bx : bucket), pos ≤ x → x < fs → m._table[x]? = some bx →
      bx.live → (_calc_hash H k &&& m._mask) < (bx.h &&& m._mask) := by
    intro x bx h1 h2 hbx hl
    obtain ⟨b0, hb0, hgt0⟩ := hgt (by omega)
    by_cases hx : x = pos
    · rw [hx, hb0] at hbx
      cases hbx
      exact hgt0
    · by_cases hh : (bx.h &&& m._mask) ≤ pos
      · obtain ⟨c, hc, _, hcle⟩ := hinv.run x bx (by omega) hbx hl pos hh (by omega)
        rw [hb0] at hc
        cases hc
        omega
      · omega
  refine
    { geo := geometry_update hinv.geo t' hlen _ _
      last := ?_
      tags := ?_
      home_le := ?_
      run := ?_
      nodup := ?_
      size := ?_
      true_size := ?_
      threshold := ?_ }
  · obtain ⟨bl, hbl, hl⟩ := hinv.last
    exact ⟨bl, by show t'[m._end]? = some bl; rw [hout _ (Or.inr hfs)]; exact hbl, hl⟩
  · intro x bx hx hbx
    rcases hcase x bx hbx with ⟨_, rfl⟩ | ⟨h1, h2, h3⟩ | ⟨_, h3⟩
    · exact Or.inr rfl
    · exact hinv.tags (x - 1) bx (by show x - 1 < m._end; have : x < m._end := hx; omega) h3
    · exact hinv.tags x bx hx h3
  · intro x bx hx hbx hl
    have hx' : x < m._end := hx
    show (bx.h &&& m._mask) ≤ x
    rcases hcase x bx hbx with ⟨rfl, rfl⟩ | ⟨h1, h2, h3⟩ | ⟨_, h3⟩
    · exact hstart
    · have := hinv.home_le (x - 1) bx (by omega) h3 hl
      omega
    · exact hinv.home_le x bx hx' h3 hl
  · intro x bx hx hbx hl y hy1 hy2
    have hx' : x < m._end := hx
    have hy1' : (bx.h &&& m._mask) ≤ y := hy1
    show ∃ c, t'[y]? = some c ∧ c.live ∧ (c.h &&& m._mask) ≤ (bx.h &&& m._mask)
    rcases hcase x bx hbx with ⟨rfl, rfl⟩ | ⟨h1, h2, h3⟩ | ⟨h1, h3⟩
    · rw [hout y (Or.inl hy2)]
      exact hbefore y hy1' hy2
    · have hxl : x - 1 < m._end := by omega
      have hhome := hinv.home_le (x - 1) bx hxl h3 hl
      have hkb := hmidhome (x - 1) bx (by omega) (by omega) h3 hl
      by_cases hyp : y < pos
      · rw [hout y (Or.inl hyp)]
        exact hinv.run (x - 1) bx hxl h3 hl y hy1' (by omega)
      · by_cases hyp2 : y = pos
        · rw [hyp2, hat]
          exact ⟨_, rfl, hnbl, le_of_lt hkb⟩
        · rw [hsh y (by omega) (by omega)]
          obtain ⟨c, hc, hcl⟩ := hmid (y - 1) (by omega) (by omega)
          refine ⟨c, hc, hcl, ?_⟩
          by_cases hyh : (bx.h &&& m._mask) ≤ y - 1
          · obtain ⟨c', hc', _, hle⟩ := hinv.run (x - 1) bx hxl h3 hl (y - 1) hyh (by omega)
            rw [hc] at hc'
            cases hc'
            exact hle
          · have := hinv.home_le (y - 1) c (by omega) hc hcl
            omega
    · rcases h1 with h1 | h1
      · rw [hout y (Or.inl (by omega))]
        exact hinv.run x bx hx' h3 hl y hy1' hy2
      · have := hafter x bx h1 hx' h3 hl
        rw [hout y (Or.inr (by omega))]
        exact hinv.run x bx hx' h3 hl y hy1' hy2
  · intro x x' bx bx' hx hx' hbx hbx' hl hl' hk
    have hxe : x < m._end := hx
    have hxe' : x' < m._end := hx'
    have hold : ∀ (y : Nat) (c : bucket), y < m._end → t'[y]? = some c → c.live → y ≠ pos →
        ∃ z, z < m._end ∧ m._table[z]? = some c ∧
          ((pos < y ∧ y ≤ fs ∧ z = y - 1) ∨ ((y < pos ∨ fs < y) ∧ z = y)) := by
      intro y c hy hc _ hne
      rcases hcase y c hc with ⟨h, _⟩ | ⟨h1, h2, h3⟩ | ⟨h1, h3⟩
      · exact absurd h hne
      · exact ⟨y - 1, by omega, h3, Or.inl ⟨h1, h2, rfl⟩⟩
      · exact ⟨y, hy, h3, Or.inr ⟨h1, rfl⟩⟩
    by_cases hp : x = pos
    · by_cases hp' : x' = pos
      · omega
      · exfalso
        obtain ⟨z, hz, hzc, _⟩ := hold x' bx' hxe' hbx' hl' hp'
        rw [hp, hat] at hbx
        cases hbx
        exact habs z bx' hz hzc hl' hk.symm
    · by_cases hp' : x' = pos
      · exfalso
        obtain ⟨z, hz, hzc, _⟩ := hold x bx hxe hbx hl hp
        rw [hp', hat] at hbx'
        cases hbx'
        exact habs z bx hz hzc hl hk
      · obtain ⟨z, hz, hzc, hzz⟩ := hold x bx hxe hbx hl hp
        obtain ⟨z', hz', hzc', hzz'⟩ := hold x' bx' hxe' hbx' hl' hp'
        have := hinv.nodup z z' bx bx' hz hz' hzc hzc' hl hl' hk
        omega
  · show m._size + 1 = (t'.take m._end).countP _
    rw [hcount, ← hinv.size]
  · show m._true_size + 1 = m._size + 1
    rw [hinv.true_size]
  · exact ⟨hroom, hinv.threshold.2⟩

end kirby

namespace kirby

/-! ## Robin Hood: `find_while_trying` keeps the invariant -/

theorem rh_rehash_loop_keeps {H : Hashers} {fwt : base_hashmap → Key → Nat → Option Located}
    (hf : FwtKeepsRh H fwt) :
    ∀ (l : List bucket) (m m' : base_hashmap), TagsOfKeys H l → RhInv H m →
      _rehash_loop fwt l m = some m' → RhInv H m' := by
  intro l
  induction l with
  | nil => intro m m' _ hg h; simp [_rehash_loop] at h; exact h ▸ hg
  | cons old rest ih =>
    intro m m' hl hg h
    have hrest : TagsOfKeys H rest := fun b hb => hl b (List.mem_cons_of_mem _ hb)
    unfold _rehash_loop at h
    by_cases hc : old.h < _code
    · rw [if_pos hc] at h
      have htag : old.h = _calc_hash H old.kv.1 := hl old (List.mem_cons_self _ _) hc
      cases hr : fwt m old.kv.1 old.h with
      | none => rw [hr] at h; simp at h
      | some r =>
        obtain ⟨m1, ptr, fl⟩ := r
        rw [hr] at h
        simp only at h
        rw [htag] at hr
        have hg1 : RhInv H m1 := hf _ _ _ hg hr
        cases hb : m1._table[ptr]? with
        | none => rw [hb] at h; simp at h
        | some b =>
          rw [hb] at h
          simp only at h
          exact ih _ _ hrest (hg1.rh_set_value hb old.kv.2) h
    · rw [if_neg hc] at h
      exact ih _ _ hrest hg h

/-- The function `_rehash` of a Robin Hood map gives a table that satisfies the
invariant, whatever it returns. -/
theorem rh_rehash_keeps {H : Hashers} {fwt : base_hashmap → Key → Nat → Option Located}
    (hf : FwtKeepsRh H fwt) (m m' : base_hashmap) (hg : Geometry .rh m)
    (hthr : m._max_true_size < m._max_size) (htags : TagsOfKeys H m._table)
    (h : _rehash fwt m = some m') : RhInv H m' := by
  obtain ⟨j, h3, h31, hj⟩ := hg.pow2
  have hp := pow_le_pow31 h31
  have hp8 := pow_ge_8 h3
  have hnsu : ∃ j', 3 ≤ j' ∧ j' ≤ 31 ∧ _next_size_up (u32 (m._max_size + 1)) = some (2 ^ j') ∧
      m._max_size ≤ 2 ^ j' := by
    rw [u32_of_lt (by omega)]
    by_cases hlt : m._max_size < 2147483648
    · obtain ⟨j', h1, h2, h4, h5⟩ := next_size_up_spec (m._max_size + 1)
      exact ⟨j', h1, h2, h4, by have := h5 (by omega); omega⟩
    · have hm : m._max_size = 2147483648 := by omega
      refine ⟨31, by norm_num, le_refl _, ?_, by rw [hm]; norm_num⟩
      rw [hm]
      decide
  obtain ⟨j', h3', h31', hn, hle⟩ := hnsu
  have hp' := pow_le_pow31 h31'
  have hp8' := pow_ge_8 h3'
  unfold _rehash at h
  rw [hn] at h
  simp only at h
  obtain ⟨m1, hinit, hg1, hf1, hms1, hmts1⟩ := init_replicate_spec .rh m j' h3' h31'
    hg.overflow hg.neighborhood
  rw [hinit] at h
  simp only at h
  have hlt := init_threshold_lt (2 ^ j') m._max_true_size m._true_size hp8' hp' (by omega)
  rw [← hmts1, ← hms1] at hlt
  exact rh_rehash_loop_keeps hf _ _ _ htags (fresh_rh_inv H hg1 hf1 hlt).1 h

theorem rh_insert_while_full_keeps {H : Hashers}
    {fwt : base_hashmap → Key → Nat → Option Located} (hf : FwtKeepsRh H fwt)
    (m : base_hashmap) (ptr : Nat) (k : Key) (r : Located) (hg : Geometry .rh m)
    (hthr : m._max_true_size < m._max_size)
    (htags : TagsOfKeys H (m._table.set ptr empty_bucket))
    (hr : _insert_while_full fwt m ptr k (_calc_hash H k) = some r) : RhInv H r.1 := by
  unfold _insert_while_full at hr
  cases hw : write m._table ptr empty_bucket with
  | none => rw [hw] at hr; simp at hr
  | some t =>
    rw [hw] at hr
    simp only at hr
    obtain ⟨_, ht⟩ := write_some hw
    cases hre : _rehash fwt { m with _table := t } with
    | none => rw [hre] at hr; simp at hr
    | some m1 =>
      rw [hre] at hr
      simp only at hr
      have hg1 : RhInv H m1 := rh_rehash_keeps hf { m with _table := t } m1
        (geometry_update hg t (by rw [ht, List.length_set]) _ _) hthr (by rw [ht]; exact htags) hre
      cases hfw : fwt m1 k (_calc_hash H k) with
      | none => rw [hfw] at hr; simp at hr
      | some r1 =>
        obtain ⟨m2, ptr2, fl⟩ := r1
        rw [hfw] at hr
        simp only [Option.some.injEq] at hr
        rw [← hr]
        exact hf m1 k (m2, ptr2, fl) hg1 hfw

/-- The function `_insert` of a Robin Hood map: below the threshold the caller
shows that the new table satisfies the invariant; at the threshold the table is
rebuilt. -/
theorem rh_insert_keeps {H : Hashers}
    {fwt : base_hashmap → Key → Nat → Option Located} (hf : FwtKeepsRh H fwt)
    (m : base_hashmap) (ptr : Nat) (k : Key) (r : Located) (hg : Geometry .rh m)
    (hthr : m._max_true_size < m._max_size) (hts : m._true_size ≤ m._max_true_size)
    (hsz : m._size ≤ m._true_size)
    (htags : TagsOfKeys H (m._table.set ptr empty_bucket))
    (hroom : m._true_size + 1 ≤ m._max_true_size → ∀ b, m._table[ptr]? = some b →
      RhInv H { m with _true_size := m._true_size + 1, _size := m._size + 1, _table := m._table.set ptr { h := _calc_hash H k, kv := (k, b.kv.2) } })
    (hr : _insert fwt m ptr k (_calc_hash H k) = some r) : RhInv H r.1 := by
  obtain ⟨j, h3, h31, hj⟩ := hg.pow2
  have hp := pow_le_pow31 h31
  unfold _insert at hr
  simp only at hr
  rw [u32_of_lt (show m._true_size + 1 < 4294967296 by omega)] at hr
  by_cases hle : m._true_size + 1 ≤ m._max_true_size
  · rw [if_pos hle] at hr
    cases hb : m._table[ptr]? with
    | none => rw [hb] at hr; simp at hr
    | some b =>
      rw [hb] at hr
      simp only at hr
      rw [u32_of_lt (show m._size + 1 < 4294967296 by omega)] at hr
      simp only [Option.some.injEq] at hr
      rw [← hr]
      exact hroom hle b hb
  · rw [if_neg hle] at hr
    exact rh_insert_while_full_keeps hf { m with _true_size := m._true_size + 1 } ptr k r
      (geometry_update hg m._table rfl _ _) hthr htags hr

/-- A key is absent when the scan from its home slot has passed only buckets
with other keys and then meets an EMPTY slot or a bucket whose home is after
the key's. -/
theorem rh_absent_of_scan {H : Hashers} {m : base_hashmap} (hinv : RhInv H m) (k : Key)
    (ptr : Nat) (b : bucket) (hb : m._table[ptr]? = some b)
    (hsp : (_calc_hash H k &&& m._mask) ≤ ptr)
    (hbefore : ∀ x, (_calc_hash H k &&& m._mask) ≤ x → x < ptr →
      ∃ c, m._table[x]? = some c ∧ c.kv.1 ≠ k)
    (hstop : b.h = _empty ∨ (b.h &&& m._mask) > (_calc_hash H k &&& m._mask)) :
    RhAbsent m k := by
  intro s c hs hc hl hk
  have htag := hinv.rh_tag_of_live hs hc hl
  rw [hk] at htag
  have hhome := hinv.home_le s c hs hc hl
  rw [htag] at hhome
  rcases Nat.lt_trichotomy s ptr with h | h | h
  · obtain ⟨c', hc', hne⟩ := hbefore s hhome h
    rw [hc] at hc'
    cases hc'
    exact hne hk
  · rw [h, hb] at hc
    cases hc
    rcases hstop with he | hgt
    · exact live_not_empty hl he
    · rw [htag] at hgt; omega
  · obtain ⟨c', hc', hl', hle⟩ := hinv.run s c hs hc hl ptr (by rw [htag]; omega) h
    rw [hb] at hc'
    cases hc'
    rcases hstop with he | hgt
    · exact live_not_empty hl' he
    · rw [htag] at hle; omega

end kirby

namespace kirby

/-- The loop of `rh_hashmap::d_find_while_trying` keeps the invariant, whatever
it returns. -/
theorem rh_try_loop_keeps {H : Hashers} {fwt : base_hashmap → Key → Nat → Option Located}
    (hf : FwtKeepsRh H fwt) (m : base_hashmap) (k : Key) (hinv : RhInv H m) :
    ∀ fuel ptr r, (_calc_hash H k &&& m._mask) ≤ ptr → ptr ≤ m._end →
      (∀ x, (_calc_hash H k &&& m._mask) ≤ x → x < ptr →
        ∃ c, m._table[x]? = some c ∧ c.live ∧
          (c.h &&& m._mask) ≤ (_calc_hash H k &&& m._mask) ∧ c.kv.1 ≠ k) →
      rh_try_loop fwt m k (_calc_hash H k) (_calc_hash H k &&& m._mask) fuel ptr = some r →
      RhInv H r.1 := by
  have hlen := hinv.length
  have hthr := hinv.threshold
  have hsz : m._size ≤ m._true_size := by rw [hinv.true_size]
  intro fuel
  induction fuel with
  | zero => intro _ _ _ _ _ h0; simp [rh_try_loop] at h0
  | succ fuel ih =>
    intro ptr r hsp hpe hbefore hr
    unfold rh_try_loop at hr
    by_cases hne : ptr ≠ m._end
    · rw [if_pos hne] at hr
      have hp : ptr < m._end := by omega
      cases hb : m._table[ptr]? with
      | none => rw [hb] at hr; simp at hr
      | some b =>
        rw [hb] at hr
        simp only at hr
        by_cases hm : b.h = _calc_hash H k ∧ b.kv.1 = k
        · rw [if_pos hm] at hr
          simp only [Option.some.injEq] at hr
          rw [← hr]; exact hinv
        · rw [if_neg hm] at hr
          have hbefore' : ∀ x, (_calc_hash H k &&& m._mask) ≤ x → x < ptr →
              ∃ c, m._table[x]? = some c ∧ c.kv.1 ≠ k := by
            intro x h1 h2
            obtain ⟨c, hc, _, _, hck⟩ := hbefore x h1 h2
            exact ⟨c, hc, hck⟩
          have hbefore'' : ∀ x, (_calc_hash H k &&& m._mask) ≤ x → x < ptr →
              ∃ c, m._table[x]? = some c ∧ c.live ∧
                (c.h &&& m._mask) ≤ (_calc_hash H k &&& m._mask) := by
            intro x h1 h2
            obtain ⟨c, hc, hcl, hch, _⟩ := hbefore x h1 h2
            exact ⟨c, hc, hcl, hch⟩
          have hplen : ptr < m._table.length := by omega
          by_cases he : b.h = _empty
          · rw [if_pos he] at hr
            have habs := rh_absent_of_scan hinv k ptr b hb hsp hbefore' (Or.inl he)
            refine rh_insert_keeps hf m ptr k r hinv.geo hthr.2 hthr.1 hsz
              (tags_of_keys_set hinv.tags_of_keys _ _
                (fun hl => absurd hl empty_bucket_not_live)) ?_ hr
            intro hroom b' hb'
            refine hinv.insert_shifted k b'.kv.2 ptr ptr _ hsp (le_refl _) hp hbefore''
              (fun x h1 h2 => by omega) (fun h => by omega) ⟨b, hb, he⟩ habs hroom
              (List.length_set _ _ _) ?_ ?_
            · intro x
              by_cases hx : x = ptr
              · rw [if_pos hx, hx, List.getElem?_set_self hplen]
              · rw [if_neg hx, if_neg (by omega), List.getElem?_set_ne (fun h => hx h.symm)]
            · have h1 := countP_set_take (fun b => decide b.live) m._table m._end ptr b
                { h := _calc_hash H k, kv := (k, b'.kv.2) } hp (by omega) hb
              have h2 : decide b.live = false := by
                simp only [decide_eq_false_iff_not]
                intro hl; exact live_not_empty hl he
              have h3 : decide (bucket.live { h := _calc_hash H k, kv := (k, b'.kv.2) }) = true := by
                simp only [decide_eq_true_eq]
                exact live_of_tag_lt (calc_hash_lt H k)
              simp only [h2, h3, Bool.false_eq_true, if_false, if_true, Nat.add_zero] at h1
              exact h1
          · rw [if_neg he] at hr
            obtain ⟨hbl, hbtag⟩ := hinv.live_of_ne hp hb he
            by_cases hgt : (b.h &&& m._mask) > (_calc_hash H k &&& m._mask)
            · rw [if_pos hgt] at hr
              have habs := rh_absent_of_scan hinv k ptr b hb hsp hbefore' (Or.inr hgt)
              cases hs : shift_buckets_forward m._table ptr _empty m._end with
              | none => rw [hs] at hr; simp at hr
              | some res =>
                obtain ⟨t1, fl⟩ := res
                rw [hs] at hr
                have hsub := shift_buckets_forward_subset _ _ _ _ _ _ hs
                have hlen1 := shift_buckets_forward_length _ _ _ _ _ _ hs
                have htags1 : TagsOfKeys H (t1.set ptr empty_bucket) :=
                  tags_of_keys_set (tags_of_keys_subset hinv.tags_of_keys hsub) _ _
                    (fun hl => absurd hl empty_bucket_not_live)
                cases fl with
                | true =>
                  simp only at hr
                  obtain ⟨f, hf1, hf2, ⟨a, ha, hae⟩, hf4, _, hchar, hcount⟩ :=
                    shift_buckets_forward_spec m._table ptr m._end t1 hp (by omega) hs
                  have hfend : f < m._end := by
                    rcases Nat.lt_or_ge f m._end with h | h
                    · exact h
                    · exfalso
                      have hfe : f = m._end := by omega
                      obtain ⟨bl, hbl', hl⟩ := hinv.last
                      rw [hfe, hbl'] at ha
                      cases ha
                      exact last_ne_empty hl hae
                  refine rh_insert_keeps hf { m with _table := t1 } ptr k r
                    (geometry_update hinv.geo t1 hlen1 _ _) hthr.2 hthr.1 hsz htags1 ?_ hr
                  intro hroom b' hb'
                  have hp1 : ptr < t1.length := by rw [hlen1]; exact hplen
                  refine hinv.insert_shifted k b'.kv.2 ptr f _ hsp (le_of_lt hf1) hfend hbefore''
                    ?_ (fun _ => ⟨b, hb, hgt⟩) ⟨a, ha, hae⟩ habs hroom
                    (by rw [List.length_set]; exact hlen1) ?_ ?_
                  · intro x h1 h2
                    by_cases hx : x = ptr
                    · rw [hx]; exact ⟨b, hb, hbl⟩
                    · obtain ⟨c, hc, hce⟩ := hf4 x (by omega) h2
                      exact ⟨c, hc, (hinv.live_of_ne (by omega) hc hce).1⟩
                  · intro x
                    by_cases hx : x = ptr
                    · rw [if_pos hx, hx]
                      exact List.getElem?_set_self hp1
                    · rw [if_neg hx]
                      show (t1.set ptr _)[x]? = _
                      rw [List.getElem?_set_ne (fun h => hx h.symm), hchar x]
                  · show ((t1.set ptr _).take m._end).countP _ = _
                    have hb1 : t1[ptr]? = some b := by
                      rw [hchar ptr, if_neg (by omega)]; exact hb
                    have h1 := countP_set_take (fun b => decide b.live) t1 m._end ptr b
                      { h := _calc_hash H k, kv := (k, b'.kv.2) } hp (by rw [hlen1]; omega) hb1
                    have h2 := hcount (fun b => decide b.live) m._end a b hfend (by omega) ha hb
                    have h3 : decide b.live = true := by
                      simp only [decide_eq_true_eq]; exact hbl
                    have h4 : decide a.live = false := by
                      simp only [decide_eq_false_iff_not]
                      intro hl; exact live_not_empty hl hae
                    have h5 : decide (bucket.live { h := _calc_hash H k, kv := (k, b'.kv.2) })
                        = true := by
                      simp only [decide_eq_true_eq]
                      exact live_of_tag_lt (calc_hash_lt H k)
                    simp only [h3, h4, h5, Bool.false_eq_true, if_false, if_true,
                      Nat.add_zero] at h1 h2
                    omega
                | false =>
                  simp only at hr
                  exact rh_insert_while_full_keeps hf { m with _table := t1 } ptr k r
                    (geometry_update hinv.geo t1 hlen1 _ _) hthr.2 htags1 hr
            · rw [if_neg hgt] at hr
              refine ih (ptr + 1) r (by omega) (by omega) ?_ hr
              intro x h1 h2
              by_cases hx : x = ptr
              · rw [hx]
                refine ⟨b, hb, hbl, by omega, ?_⟩
                intro hk
                apply hm
                exact ⟨by rw [hbtag, hk], hk⟩
              · exact hbefore x h1 (by omega)
    · rw [if_neg hne] at hr
      exact rh_insert_while_full_keeps hf m m._end k r hinv.geo hthr.2
        (tags_of_keys_set hinv.tags_of_keys _ _ (fun hl => absurd hl empty_bucket_not_live)) hr

/-- With any fuel, `find_while_trying` of the Robin Hood map keeps the
invariant. -/
theorem rh_fwt_keeps (H : Hashers) : ∀ fuel, FwtKeepsRh H (find_while_trying .rh H fuel) := by
  intro fuel
  induction fuel with
  | zero => intro m k r _ hr; simp [find_while_trying] at hr
  | succ fuel ih =>
    intro m k r hinv hr
    have hstart := hinv.home_lt (_calc_hash H k)
    have hend := hinv.end_eq
    exact rh_try_loop_keeps ih m k hinv _ _ r (le_refl _) (by omega)
      (fun x h1 h2 => by omega) hr

end kirby

namespace kirby

/-! ## Robin Hood: the backward shift -/

/-- The loop of `shift_buckets_back` on a table that satisfies the invariant:
it returns, having moved back by one the buckets after `s0` up to the last one
that is live and not at its home slot. -/
theorem shift_buckets_back_spec {H : Hashers} {m : base_hashmap} (hinv : RhInv H m)
    (s0 : Nat) :
    ∀ d fuel ptr (tc : List bucket), ptr + d = m._end → d ≤ fuel → s0 ≤ ptr → 0 < d →
      tc.length = m._table.length →
      (∀ x, tc[x]? = if s0 ≤ x ∧ x < ptr then m._table[x + 1]? else m._table[x]?) →
      (∀ x, s0 < x → x ≤ ptr →
        ∃ b, m._table[x]? = some b ∧ b.live ∧ (b.h &&& m._mask) < x) →
      (∀ (P : bucket → Bool) (E : Nat) (a b : bucket), ptr < E → E ≤ m._table.length →
        m._table[s0]? = some a → m._table[ptr]? = some b →
        (tc.take E).countP P + (if P a then 1 else 0)
          = (m._table.take E).countP P + (if P b then 1 else 0)) →
      ∃ q t', shift_buckets_back m._mask _code fuel tc ptr (u32 (ptr + 1)) = some (t', q) ∧
        s0 ≤ q ∧ q < m._end ∧ t'.length = m._table.length ∧
        (∀ x, t'[x]? = if s0 ≤ x ∧ x < q then m._table[x + 1]? else m._table[x]?) ∧
        (∀ x, s0 < x → x ≤ q →
          ∃ b, m._table[x]? = some b ∧ b.live ∧ (b.h &&& m._mask) < x) ∧
        (∃ b, m._table[q + 1]? = some b ∧ ¬ (b.live ∧ (b.h &&& m._mask) < q + 1)) ∧
        (∀ (P : bucket → Bool) (E : Nat) (a b : bucket), q < E → E ≤ m._table.length →
          m._table[s0]? = some a → m._table[q]? = some b →
          (t'.take E).countP P + (if P a then 1 else 0)
            = (m._table.take E).countP P + (if P b then 1 else 0)) := by
  have hlen := hinv.length
  have hcap := hinv.cap_le
  have hend := hinv.end_eq
  intro d
  induction d with
  | zero => intro _ _ _ _ _ _ h; omega
  | succ d ih =>
    intro fuel ptr tc hpd hf hsp _ hlc hchar hmoved hcount
    obtain ⟨f, rfl⟩ : ∃ f, fuel = f + 1 := ⟨fuel - 1, by omega⟩
    have hu : u32 (ptr + 1) = ptr + 1 := u32_of_lt (by omega)
    obtain ⟨b, hb⟩ := hinv.get (show ptr + 1 ≤ m._end by omega)
    have hcb : tc[ptr + 1]? = some b := by
      rw [hchar, if_neg (by omega)]; exact hb
    rw [shift_buckets_back, hcb, hu]
    simp only
    by_cases hc : b.h < _code ∧ (b.h &&& m._mask) < ptr + 1
    · rw [if_pos hc]
      have hpl : ptr < tc.length := by omega
      rw [write_of_lt _ hpl]
      simp only
      have hne : ptr + 1 ≠ m._end := by
        intro h
        obtain ⟨bl, hbl, hl⟩ := hinv.last
        rw [h, hbl] at hb
        cases hb
        exact last_not_live hl hc.1
      have hd : 0 < d := by omega
      obtain ⟨q, t', hres, h1, h2, h3, h4, h5, h6, h7⟩ := ih f (ptr + 1) (tc.set ptr b)
        (by omega) (by omega) (by omega) hd (by rw [List.length_set]; exact hlc)
        (by
          intro x
          by_cases hx : x = ptr
          · rw [hx, List.getElem?_set_self hpl, if_pos (by omega)]
            exact hb.symm
          · rw [List.getElem?_set_ne (fun h => hx h.symm), hchar x]
            by_cases hx2 : s0 ≤ x ∧ x < ptr
            · rw [if_pos hx2, if_pos (by omega)]
            · rw [if_neg hx2, if_neg (by omega)])
        (by
          intro x hx1 hx2
          by_cases hx : x = ptr + 1
          · rw [hx]; exact ⟨b, hb, hc.1, hc.2⟩
          · exact hmoved x hx1 (by omega))
        (by
          intro P E a b' hE hEl ha hb'
          rw [hb] at hb'
          cases hb'
          obtain ⟨c, hcget⟩ := hinv.get (show ptr ≤ m._end by omega)
          have hcc : tc[ptr]? = some c := by
            rw [hchar, if_neg (by omega)]; exact hcget
          have e1 := countP_set_take P tc E ptr c b (by omega) (by omega) hcc
          have e2 := hcount P E a c (by omega) hEl ha hcget
          omega)
      exact ⟨q, t', hres, by omega, h2, h3, h4, h5, h6, h7⟩
    · rw [if_neg hc]
      exact ⟨ptr, tc, rfl, hsp, by omega, hlc, hchar, hmoved, ⟨b, hb, hc⟩, hcount⟩

end kirby

namespace kirby

/-! ## Robin Hood: the invariant after an erasure -/

/-- The invariant after the bucket in slot `s0` has been erased: the buckets
after `s0` up to slot `q` have moved back by one and slot `q` is EMPTY. -/
theorem RhInv.erase_shifted {H : Hashers} {m : base_hashmap} (hinv : RhInv H m)
    (s0 q : Nat) (b0 : bucket) (tf : List bucket)
    (hs0 : s0 ≤ q) (hq : q < m._end) (hb0 : m._table[s0]? = some b0) (hl0 : b0.live)
    (hmoved : ∀ x, s0 < x → x ≤ q →
      ∃ b, m._table[x]? = some b ∧ b.live ∧ (b.h &&& m._mask) < x)
    (hstop : ∃ b, m._table[q + 1]? = some b ∧ ¬ (b.live ∧ (b.h &&& m._mask) < q + 1))
    (hlen : tf.length = m._table.length)
    (hchar : ∀ x, tf[x]? = if s0 ≤ x ∧ x < q then m._table[x + 1]?
        else if x = q then some ⟨_empty, (0, 0)⟩ else m._table[x]?)
    (hcount : (tf.take m._end).countP (fun b => decide b.live) + 1
        = (m._table.take m._end).countP (fun b => decide b.live)) :
    RhInv H { m with _size := m._size - 1, _true_size := m._true_size - 1, _table := tf } ∧
    (∀ k v, RhHolds { m with _size := m._size - 1, _true_size := m._true_size - 1, _table := tf } k v
      ↔ (RhHolds m k v ∧ k ≠ b0.kv.1)) := by
  have hat : tf[q]? = some ⟨_empty, (0, 0)⟩ := by
    rw [hchar, if_neg (by omega), if_pos rfl]
  have hsh : ∀ x, s0 ≤ x → x < q → tf[x]? = m._table[x + 1]? := by
    intro x h1 h2
    rw [hchar, if_pos ⟨h1, h2⟩]
  have hout : ∀ x, (x < s0 ∨ q < x) → tf[x]? = m._table[x]? := by
    intro x h1
    rw [hchar, if_neg (by omega), if_neg (by omega)]
  have hnl : ¬ (bucket.mk _empty (0, 0)).live := empty_bucket_not_live
  have hcase : ∀ (x : Nat) (bx : bucket), tf[x]? = some bx →
      (s0 ≤ x ∧ x < q ∧ m._table[x + 1]? = some bx) ∨
      (x = q ∧ bx = ⟨_empty, (0, 0)⟩) ∨
      ((x < s0 ∨ q < x) ∧ m._table[x]? = some bx) := by
    intro x bx hbx
    by_cases h1 : s0 ≤ x ∧ x < q
    · rw [hsh x h1.1 h1.2] at hbx
      exact Or.inl ⟨h1.1, h1.2, hbx⟩
    · by_cases h2 : x = q
      · rw [h2, hat] at hbx
        exact Or.inr (Or.inl ⟨h2, (Option.some.inj hbx).symm⟩)
      · have h3 : x < s0 ∨ q < x := by omega
        rw [hout x h3] at hbx
        exact Or.inr (Or.inr ⟨h3, hbx⟩)
  -- a live bucket after `q` has its home after `q`
  have hafter : ∀ (x : Nat) (bx : bucket), q < x → x < m._end → m._table[x]? = some bx →
      bx.live → q < (bx.h &&& m._mask) := by
    intro x bx h1 h2 hbx hl
    obtain ⟨c, hc, hcn⟩ := hstop
    by_contra hcon
    by_cases hx : x = q + 1
    · rw [hx, hc] at hbx
      cases hbx
      exact hcn ⟨hl, by omega⟩
    · obtain ⟨c', hc', hcl, hle⟩ := hinv.run x bx h2 hbx hl (q + 1) (by omega) (by omega)
      rw [hc] at hc'
      cases hc'
      exact hcn ⟨hcl, by omega⟩
  -- the old slot of a live bucket of the new table
  have hold : ∀ (y : Nat) (c : bucket), y < m._end → tf[y]? = some c → c.live →
      ∃ z, z < m._end ∧ z ≠ s0 ∧ m._table[z]? = some c ∧
        ((s0 ≤ y ∧ y < q ∧ z = y + 1) ∨ ((y < s0 ∨ q < y) ∧ z = y)) := by
    intro y c hy hc hcl
    rcases hcase y c hc with ⟨h1, h2, h3⟩ | ⟨_, h⟩ | ⟨h1, h3⟩
    · exact ⟨y + 1, by omega, by omega, h3, Or.inl ⟨h1, h2, rfl⟩⟩
    · rw [h] at hcl
      exact absurd hcl hnl
    · exact ⟨y, hy, by omega, h3, Or.inr ⟨h1, rfl⟩⟩
  have hsz1 : 1 ≤ m._size := by
    have := hinv.size
    omega
  constructor
  · refine
      { geo := geometry_update hinv.geo tf hlen _ _
        last := ?_
        tags := ?_
        home_le := ?_
        run := ?_
        nodup := ?_
        size := ?_
        true_size := ?_
        threshold := ?_ }
    · obtain ⟨bl, hbl, hl⟩ := hinv.last
      exact ⟨bl, by show tf[m._end]? = some bl; rw [hout _ (Or.inr hq)]; exact hbl, hl⟩
    · intro x bx hx hbx
      have hx' : x < m._end := hx
      rcases hcase x bx hbx with ⟨h1, h2, h3⟩ | ⟨_, h⟩ | ⟨_, h3⟩
      · exact hinv.tags (x + 1) bx (by omega) h3
      · exact Or.inl (by rw [h])
      · exact hinv.tags x bx hx' h3
    · intro x bx hx hbx hl
      have hx' : x < m._end := hx
      show (bx.h &&& m._mask) ≤ x
      rcases hcase x bx hbx with ⟨h1, h2, h3⟩ | ⟨_, h⟩ | ⟨_, h3⟩
      · obtain ⟨c, hc, _, hlt⟩ := hmoved (x + 1) (by omega) (by omega)
        rw [h3] at hc
        cases hc
        omega
      · rw [h] at hl
        exact absurd hl hnl
      · exact hinv.home_le x bx hx' h3 hl
    · intro x bx hx hbx hl y hy1 hy2
      have hx' : x < m._end := hx
      have hy1' : (bx.h &&& m._mask) ≤ y := hy1
      show ∃ c, tf[y]? = some c ∧ c.live ∧ (c.h &&& m._mask) ≤ (bx.h &&& m._mask)
      rcases hcase x bx hbx with ⟨h1, h2, h3⟩ | ⟨_, h⟩ | ⟨h1, h3⟩
      · by_cases hys : y < s0
        · rw [hout y (Or.inl hys)]
          exact hinv.run (x + 1) bx (by omega) h3 hl y hy1' (by omega)
        · rw [hsh y (by omega) (by omega)]
          exact hinv.run (x + 1) bx (by omega) h3 hl (y + 1) (by omega) (by omega)
      · rw [h] at hl
        exact absurd hl hnl
      · rcases h1 with h1 | h1
        · rw [hout y (Or.inl (by omega))]
          exact hinv.run x bx hx' h3 hl y hy1' hy2
        · have := hafter x bx h1 hx' h3 hl
          rw [hout y (Or.inr (by omega))]
          exact hinv.run x bx hx' h3 hl y hy1' hy2
    · intro x x' bx bx' hx hx' hbx hbx' hl hl' hk
      obtain ⟨z, hz, _, hzc, hzz⟩ := hold x bx hx hbx hl
      obtain ⟨z', hz', _, hzc', hzz'⟩ := hold x' bx' hx' hbx' hl'
      have := hinv.nodup z z' bx bx' hz hz' hzc hzc' hl hl' hk
      omega
    · show m._size - 1 = (tf.take m._end).countP _
      have := hinv.size
      omega
    · show m._true_size - 1 = m._size - 1
      rw [hinv.true_size]
    · have := hinv.threshold
      exact ⟨by show m._true_size - 1 ≤ m._max_true_size; omega, this.2⟩
  · intro k v
    constructor
    · rintro ⟨x, bx, hx, hbx, hl, hkv⟩
      obtain ⟨z, hz, hzs, hzc, _⟩ := hold x bx hx hbx hl
      refine ⟨⟨z, bx, hz, hzc, hl, hkv⟩, ?_⟩
      intro hk
      apply hzs
      exact hinv.nodup z s0 bx b0 hz (by omega) hzc hb0 hl hl0 (by rw [hkv]; exact hk)
    · rintro ⟨⟨z, bz, hz, hbz, hl, hkv⟩, hne⟩
      have hzs : z ≠ s0 := by
        rintro rfl
        rw [hb0] at hbz
        cases hbz
        exact hne (by rw [hkv])
      by_cases h1 : s0 < z ∧ z ≤ q
      · exact ⟨z - 1, bz, by show z - 1 < m._end; omega,
          by show tf[z - 1]? = some bz; rw [hsh (z - 1) (by omega) (by omega),
            show z - 1 + 1 = z by omega]; exact hbz, hl, hkv⟩
      · exact ⟨z, bz, hz, by show tf[z]? = some bz; rw [hout z (by omega)]; exact hbz, hl, hkv⟩

/-- The function `rh_hashmap::d_remove` on a live bucket returns; the invariant
holds again, the key of the bucket is gone and the other keys keep their
values. -/
theorem rh_remove_spec {H : Hashers} {m : base_hashmap} (hinv : RhInv H m)
    {s0 : Nat} {b0 : bucket} (hs0 : s0 < m._end) (hb0 : m._table[s0]? = some b0)
    (hl0 : b0.live) :
    ∃ m', remove .rh m s0 = some m' ∧ RhInv H m' ∧
      (∀ k v, RhHolds m' k v ↔ (RhHolds m k v ∧ k ≠ b0.kv.1)) ∧
      m'._size + 1 = m._size ∧ m'._true_size + 1 = m._true_size ∧
      m'._max_size = m._max_size ∧ m'._max_true_size = m._max_true_size ∧
      m'._end = m._end := by
  have hlen := hinv.length
  have hcap := hinv.cap_le
  have hend := hinv.end_eq
  have hthr := hinv.threshold
  obtain ⟨q, t', hres, hq1, hq2, hlen', hchar, hmoved, hstop, hcount⟩ :=
    shift_buckets_back_spec hinv s0 (m._end - s0) (m._table.length + 1) s0 m._table
      (by omega) (by omega) (le_refl _) (by omega) rfl
      (fun x => by rw [if_neg (by omega)]) (fun x h1 h2 => by omega)
      (fun P E a b _ _ ha hb => by rw [ha] at hb; cases hb; rfl)
  obtain ⟨bq, hbq⟩ := hinv.get (show q ≤ m._end by omega)
  have hbql : bq.live := by
    by_cases hqs : q = s0
    · rw [hqs, hb0] at hbq
      cases hbq
      exact hl0
    · obtain ⟨c, hc, hcl, _⟩ := hmoved q (by omega) (le_refl _)
      rw [hbq] at hc
      cases hc
      exact hcl
  have hql : q < t'.length := by omega
  have hsz1 : 1 ≤ m._size := by
    have h1 := hinv.size
    have h2 := List.boole_getElem_le_countP (fun b => decide b.live) (m._table.take m._end) s0
      (by rw [List.length_take]; omega)
    have h3 : (m._table.take m._end)[s0]? = some b0 := by
      rw [List.getElem?_take, if_pos hs0]; exact hb0
    rw [List.getElem?_eq_getElem (by rw [List.length_take]; omega)] at h3
    rw [Option.some.inj h3] at h2
    simp only [decide_eq_true_eq, hl0, if_true] at h2
    omega
  have hcnt : ((t'.set q { h := _empty, kv := (0, 0) }).take m._end).countP
      (fun b => decide b.live) + 1 = (m._table.take m._end).countP (fun b => decide b.live) := by
    have hq' : t'[q]? = some bq := by
      rw [hchar q, if_neg (by omega)]; exact hbq
    have e1 := countP_set_take (fun b => decide b.live) t' m._end q bq
      { h := _empty, kv := (0, 0) } hq2 (by omega) hq'
    have e2 := hcount (fun b => decide b.live) m._end b0 bq hq2 (by omega) hb0 hbq
    have e3 : decide bq.live = true := by simp only [decide_eq_true_eq]; exact hbql
    have e4 : decide b0.live = true := by simp only [decide_eq_true_eq]; exact hl0
    have e5 : decide (bucket.live { h := _empty, kv := (0, 0) }) = false := by
      simp only [decide_eq_false_iff_not]; exact empty_bucket_not_live
    simp only [e3, e4, e5, Bool.false_eq_true, if_false, if_true, Nat.add_zero] at e1 e2
    omega
  obtain ⟨hinv', hholds⟩ := hinv.erase_shifted s0 q b0 (t'.set q { h := _empty, kv := (0, 0) })
    hq1 hq2 hb0 hl0 hmoved hstop (by rw [List.length_set]; exact hlen')
    (by
      intro x
      by_cases hx : x = q
      · rw [hx, List.getElem?_set_self hql, if_neg (by omega), if_pos rfl]
      · rw [List.getElem?_set_ne (fun h => hx h.symm), hchar x]
        by_cases hx2 : s0 ≤ x ∧ x < q
        · rw [if_pos hx2, if_pos hx2]
        · rw [if_neg hx2, if_neg hx2, if_neg hx])
    hcnt
  have hu : u32 (s0 + 1) = s0 + 1 := u32_of_lt (by omega)
  simp only [remove, rh_d_remove]
  rw [hres]
  simp only [_remove_for_empty]
  rw [write_of_lt _ hql]
  simp only
  have hts := hinv.true_size
  have hszlt : m._size < 4294967296 := by
    obtain ⟨j, _, hj2, hj⟩ := hinv.geo.pow2
    have : (2 : Nat) ^ j ≤ 2 ^ 31 := Nat.pow_le_pow_right (by norm_num) hj2
    omega
  rw [usub_of_le hsz1 hszlt, usub_of_le (by rw [hts]; exact hsz1) (by rw [hts]; exact hszlt)]
  exact ⟨_, rfl, hinv', hholds, by show m._size - 1 + 1 = m._size; omega,
    by show m._true_size - 1 + 1 = m._true_size; rw [hinv.true_size]; omega, rfl, rfl, rfl⟩

end kirby

namespace kirby

/-! ## Robin Hood: the public calls keep the invariant -/

theorem rh_holds_of_bucket {m : base_hashmap} {s : Nat} {b : bucket} (hs : s < m._end)
    (hb : m._table[s]? = some b) (hl : b.live) : RhHolds m b.kv.1 b.kv.2 :=
  ⟨s, b, hs, hb, hl, rfl⟩

theorem rh_absent_iff_not_holds (m : base_hashmap) (k : Key) :
    RhAbsent m k ↔ ∀ v, ¬ RhHolds m k v := by
  constructor
  · rintro h v ⟨s, b, hs, hb, hl, hkv⟩
    exact h s b hs hb hl (by rw [hkv])
  · intro h s b hs hb hl hk
    exact h b.kv.2 ⟨s, b, hs, hb, hl, by rw [← hk]⟩

/-- The value of a key of a Robin Hood map is unique. -/
theorem RhInv.holds_unique {H : Hashers} {m : base_hashmap} (hinv : RhInv H m) {k : Key}
    {v v' : T} (h : RhHolds m k v) (h' : RhHolds m k v') : v = v' := by
  obtain ⟨s, b, hs, hb, hl, hkv⟩ := h
  obtain ⟨s', b', hs', hb', hl', hkv'⟩ := h'
  have := hinv.nodup s s' b b' hs hs' hb hb' hl hl' (by rw [hkv, hkv'])
  subst this
  rw [hb] at hb'
  cases hb'
  rw [hkv] at hkv'
  exact (Prod.mk.inj hkv').2

/-- The result of `find` on a Robin Hood map that satisfies the invariant. -/
theorem rh_lookup {H : Hashers} {m : base_hashmap} (hinv : RhInv H m) (k : Key) :
    (∀ v, RhHolds m k v → lookup .rh H m k = some (some v)) ∧
    (RhAbsent m k → lookup .rh H m k = some none) := by
  constructor
  · rintro v ⟨s, b, hs, hb, hl, hkv⟩
    have hk : b.kv.1 = k := by rw [hkv]
    have hf := (rh_find_present hinv hs hb hl).1
    rw [hk] at hf
    simp only [lookup, base_hashmap.find, find_without_inserting]
    rw [hf]
    simp only
    rw [if_pos (by omega), hb]
    simp only [hkv]
  · intro habs
    have hf := (rh_find_absent hinv k habs).1
    simp only [lookup, base_hashmap.find, find_without_inserting]
    rw [hf]
    simp only
    rw [if_neg (by simp)]

/-- Two Robin Hood maps that hold the same associations for a key give the same
`find` result for it. -/
theorem rh_lookup_congr {H : Hashers} {m m' : base_hashmap} (hinv : RhInv H m)
    (hinv' : RhInv H m') (k : Key) (h : ∀ v, RhHolds m' k v ↔ RhHolds m k v) :
    lookup .rh H m' k = lookup .rh H m k := by
  rcases rh_holds_or_absent m k with ⟨v, hv⟩ | ha
  · rw [(rh_lookup hinv k).1 v hv, (rh_lookup hinv' k).1 v ((h v).mpr hv)]
  · have ha' : RhAbsent m' k := by
      rw [rh_absent_iff_not_holds] at ha ⊢
      intro v hv
      exact ha v ((h v).mp hv)
    rw [(rh_lookup hinv k).2 ha, (rh_lookup hinv' k).2 ha']

/-- The member `count` of a Robin Hood map that satisfies the invariant. -/
theorem rh_count {H : Hashers} {m : base_hashmap} (hinv : RhInv H m) (k : Key) :
    ((∃ v, RhHolds m k v) → base_hashmap.count .rh H m k = some 1) ∧
    (RhAbsent m k → base_hashmap.count .rh H m k = some 0) := by
  constructor
  · rintro ⟨v, s, b, hs, hb, hl, hkv⟩
    have hk : b.kv.1 = k := by rw [hkv]
    have hf := (rh_find_present hinv hs hb hl).1
    rw [hk] at hf
    simp only [base_hashmap.count, find_without_inserting]
    rw [hf]
    simp only
    rw [if_pos (by omega)]
  · intro habs
    have hf := (rh_find_absent hinv k habs).1
    simp only [base_hashmap.count, find_without_inserting]
    rw [hf]
    simp only
    rw [if_neg (by simp)]

/-- The member `erase` of a Robin Hood map that satisfies the invariant. -/
theorem rh_erase_spec {H : Hashers} {m : base_hashmap} (hinv : RhInv H m) (k : Key) :
    (RhAbsent m k → base_hashmap.erase .rh H m k = some (m, 0)) ∧
    (∀ v, RhHolds m k v →
      ∃ m', base_hashmap.erase .rh H m k = some (m', 1) ∧ RhInv H m' ∧
        (∀ k' v', RhHolds m' k' v' ↔ (RhHolds m k' v' ∧ k' ≠ k)) ∧
        m'._size + 1 = m._size ∧ m'._true_size + 1 = m._true_size ∧
        m'._max_size = m._max_size ∧ m'._max_true_size = m._max_true_size ∧
        m'._end = m._end) := by
  constructor
  · intro habs
    have hf := (rh_find_absent hinv k habs).1
    simp only [base_hashmap.erase, find_without_inserting]
    rw [hf]
    simp only
    rw [if_neg (by simp)]
  · rintro v ⟨s, b, hs, hb, hl, hkv⟩
    have hk : b.kv.1 = k := by rw [hkv]
    have hf := (rh_find_present hinv hs hb hl).1
    rw [hk] at hf
    obtain ⟨m', hrem, hinv', hh, h1, h2, h3, h4, h5⟩ := rh_remove_spec hinv hs hb hl
    rw [hk] at hh
    refine ⟨m', ?_, hinv', hh, h1, h2, h3, h4, h5⟩
    simp only [base_hashmap.erase, find_without_inserting]
    rw [hf]
    simp only
    rw [if_pos (by omega), hrem]

/-- A mutating call that returns keeps the invariant of the Robin Hood map. -/
theorem rh_step_sound (H : Hashers) (fuel : Nat) {m m' : base_hashmap} (hinv : RhInv H m)
    (op : Op) (hstep : step .rh H fuel m op = some m') : RhInv H m' := by
  cases op with
  | insert k v =>
    simp only [step, base_hashmap.insert, find_while_trying_key] at hstep
    cases hf : find_while_trying .rh H fuel m k (_calc_hash H k) with
    | none => rw [hf] at hstep; simp at hstep
    | some r =>
      have hinv1 := rh_fwt_keeps H fuel m k r hinv hf
      obtain ⟨m1, ptr, fl⟩ := r
      rw [hf] at hstep
      simp only at hstep
      cases fl with
      | true =>
        simp at hstep
        rw [← hstep]; exact hinv1
      | false =>
        cases hb : m1._table[ptr]? with
        | none => simp [hb] at hstep
        | some b =>
          simp [hb] at hstep
          rw [← hstep]
          exact hinv1.rh_set_value hb v
  | assign k v =>
    simp only [step, base_hashmap.assign, base_hashmap.subscript, find_while_trying_key] at hstep
    cases hf : find_while_trying .rh H fuel m k (_calc_hash H k) with
    | none => rw [hf] at hstep; simp at hstep
    | some r =>
      have hinv1 := rh_fwt_keeps H fuel m k r hinv hf
      obtain ⟨m1, ptr, fl⟩ := r
      rw [hf] at hstep
      simp only at hstep
      cases hb : m1._table[ptr]? with
      | none => simp [hb] at hstep
      | some b =>
        simp [hb] at hstep
        rw [← hstep]
        exact hinv1.rh_set_value hb v
  | erase k =>
    simp only [step] at hstep
    obtain ⟨h1, h2⟩ := rh_erase_spec hinv k
    rcases rh_holds_or_absent m k with ⟨v, hv⟩ | habs
    · obtain ⟨m1, he, hinv1, _⟩ := h2 v hv
      rw [he] at hstep
      simp at hstep
      rw [← hstep]; exact hinv1
    · rw [h1 habs] at hstep
      simp at hstep
      rw [← hstep]; exact hinv
  | clear =>
    simp only [step] at hstep
    obtain ⟨m1, hc, hg1, hf1, hms, hthr⟩ := clear_spec .rh m hinv.geo
    rw [hc] at hstep
    cases hstep
    obtain ⟨j, h3, h31, hj⟩ := hinv.geo.pow2
    have hp := pow_le_pow31 h31
    have hp8 := pow_ge_8 h3
    refine (fresh_rh_inv H hg1 hf1 ?_).1
    rw [hthr, hms]
    exact init_threshold_lt m._max_size m._max_true_size m._true_size (by omega) (by omega)
      hinv.threshold.2

/-- Every reachable state of a Robin Hood map satisfies the invariant. -/
theorem reachable_rh_inv (H : Hashers) {m : base_hashmap} (hr : Reachable .rh H m) :
    RhInv H m := by
  induction hr with
  | init n m hc =>
    obtain ⟨m0, j, hm0, hg, hf, h3, h31, _, hms, hthr⟩ := construct_spec .rh n
    rw [hm0] at hc
    cases hc
    have hp := pow_le_pow31 h31
    have hp8 := pow_ge_8 h3
    refine (fresh_rh_inv H hg hf ?_).1
    rw [hthr, hms]
    omega
  | step fuel op m m' _ hstep ih => exact rh_step_sound H fuel ih op hstep

/-- The invariant of the Robin Hood map gives the ordering invariant of the
specification. -/
theorem RhInv.ordered {H : Hashers} {m : base_hashmap} (hinv : RhInv H m) : RhOrdered m := by
  refine ⟨?_, hinv.home_le, ?_⟩
  · intro s b b' hs hb hb' hl hl'
    have h1 := hinv.home_le (s + 1) b' hs hb' hl'
    have h2 := hinv.home_le s b (by omega) hb hl
    by_cases h : (b'.h &&& m._mask) = s + 1
    · omega
    · obtain ⟨bx, hbx, _, hle⟩ := hinv.run (s + 1) b' hs hb' hl' s (by omega) (by omega)
      rw [hb] at hbx
      cases hbx
      exact hle
  · intro s b hs hb hl x hx1 hx2
    obtain ⟨bx, hbx, hlx, _⟩ := hinv.run s b hs hb hl x hx1 hx2
    exact ⟨bx, hbx, hlx⟩

/-- No bucket of a Robin Hood map that satisfies the invariant is a TOMBSTONE. -/
theorem rh_no_tombstone {H : Hashers} {m : base_hashmap} (hinv : RhInv H m) :
    ∀ b ∈ m._table, b.h ≠ _tombstone := by
  intro b hb
  obtain ⟨s, hs⟩ := List.mem_iff_getElem?.mp hb
  have hlen : s < m._table.length := (List.getElem?_eq_some.mp hs).1
  rw [hinv.length] at hlen
  by_cases hlt : s < m._end
  · rcases hinv.tags s b hlt hs with h | h
    · rw [h]; decide
    · have := calc_hash_lt H b.kv.1
      rw [h, tombstone_val]
      omega
  · have hsm : s = m._end := by omega
    obtain ⟨bl, hbl, hl⟩ := hinv.last
    rw [hsm, hbl] at hs
    cases hs
    rw [hl]; decide

/-- The EMPTY slots of a Robin Hood map that satisfies the invariant are the
slots before `_end` that are not live. -/
theorem rh_empty_count {H : Hashers} {m : base_hashmap} (hinv : RhInv H m) :
    m._table.countP (fun b => decide (b.h = _empty)) + m._size = m._end := by
  have hlen := hinv.length
  obtain ⟨bl, hbl, hl⟩ := hinv.last
  have hsplit : m._table = m._table.take m._end ++ [bl] := by
    have h1 : m._table = m._table.take m._end ++ m._table.drop m._end :=
      (List.take_append_drop _ _).symm
    have h2 : m._table.drop m._end = [bl] := by
      apply List.ext_getElem?
      intro i
      rw [List.getElem?_drop]
      cases i with
      | zero => simpa using hbl
      | succ i =>
        rw [List.getElem?_eq_none (by omega)]
        simp
    rw [h2] at h1
    exact h1
  have hcong : (m._table.take m._end).countP (fun b => decide (b.h = _empty))
      = (m._table.take m._end).countP (fun b => !decide b.live) := by
    apply List.countP_congr
    intro b hb
    obtain ⟨s, hs⟩ := List.mem_iff_getElem?.mp hb
    have hslt : s < m._end := by
      have := (List.getElem?_eq_some.mp hs).1
      rw [List.length_take] at this
      omega
    rw [List.getElem?_take, if_pos hslt] at hs
    simp only [decide_eq_true_eq, Bool.not_eq_true', decide_eq_false_iff_not]
    constructor
    · intro h hl
      unfold bucket.live at hl
      rw [h, empty_val, code_val] at hl
      omega
    · intro h
      rcases hinv.tags s b hslt hs with h' | h'
      · exact h'
      · exact absurd (live_of_tag_lt (h' ▸ calc_hash_lt H b.kv.1)) h
  have hlast : decide (bl.h = _empty) = false := by
    rw [hl]; decide
  have hsum := List.length_eq_countP_add_countP (fun b => decide b.live) (m._table.take m._end)
  have hlt : (m._table.take m._end).length = m._end := by
    rw [List.length_take]; omega
  have hsize := hinv.size
  rw [hsplit, List.countP_append, List.countP_cons, List.countP_nil, hlast, hcong]
  simp only [Bool.false_eq_true, if_false, Nat.add_zero, Bool.not_eq_true'] at hsum ⊢
  have hc2 : (m._table.take m._end).countP (fun a => decide ¬decide a.live = true)
      = (m._table.take m._end).countP (fun b => !decide b.live) := by
    apply List.countP_congr
    intro b _
    simp
  omega

end kirby

namespace kirby

/-! ## Cuckoo: tables with the same pattern of EMPTY slots -/

theorem countP_take_congr (P : bucket → Bool) :
    ∀ (t t2 : List bucket) (c : Nat), t2.length = t.length →
      (∀ (x : Nat) (b b2 : bucket), x < c → t[x]? = some b → t2[x]? = some b2 → P b = P b2) →
      (t2.take c).countP P = (t.take c).countP P := by
  intro t
  induction t with
  | nil =>
    intro t2 c hlen _
    have : t2 = [] := List.length_eq_zero.mp (by simpa using hlen)
    rw [this]
  | cons a l ih =>
    intro t2 c hlen h
    cases t2 with
    | nil => simp at hlen
    | cons a2 l2 =>
      cases c with
      | zero => simp
      | succ c =>
        rw [List.take_succ_cons, List.take_succ_cons, List.countP_cons, List.countP_cons]
        have h0 : P a = P a2 := h 0 a a2 (by omega) (by simp) (by simp)
        have hl : (l2.take c).countP P = (l.take c).countP P := by
          apply ih l2 c (by simpa using hlen)
          intro x b b2 hx hb hb2
          exact h (x + 1) b b2 (by omega) (by simpa using hb) (by simpa using hb2)
        rw [hl, h0]

theorem countP_take_pos (P : bucket → Bool) (t : List bucket) (c s : Nat) (a : bucket)
    (hs : s < c) (hc : c ≤ t.length) (ha : t[s]? = some a) (hp : P a = true) :
    1 ≤ (t.take c).countP P := by
  have h2 := List.boole_getElem_le_countP P (t.take c) s (by rw [List.length_take]; omega)
  have h3 : (t.take c)[s]? = some a := by
    rw [List.getElem?_take, if_pos hs]; exact ha
  rw [List.getElem?_eq_getElem (by rw [List.length_take]; omega)] at h3
  rw [Option.some.inj h3, hp] at h2
  simpa using h2

theorem tags_alike_refl (E : Nat) (t : List bucket) : TagsAlike E t t :=
  ⟨rfl, fun _ b hb => ⟨b, hb, Or.inl rfl⟩⟩

theorem tags_alike_trans {E : Nat} {t t2 t3 : List bucket} (h1 : TagsAlike E t t2)
    (h2 : TagsAlike E t2 t3) : TagsAlike E t t3 := by
  refine ⟨by rw [h2.1, h1.1], ?_⟩
  intro x b hb
  obtain ⟨b2, hb2, hc2⟩ := h1.2 x b hb
  obtain ⟨b3, hb3, hc3⟩ := h2.2 x b2 hb2
  refine ⟨b3, hb3, ?_⟩
  rcases hc2 with e2 | ⟨hx, hne, hlt⟩
  · rcases hc3 with e3 | ⟨hx, hne, hlt⟩
    · exact Or.inl (by rw [e3, e2])
    · exact Or.inr ⟨hx, by rw [← e2]; exact hne, hlt⟩
  · rcases hc3 with e3 | ⟨_, _, hlt3⟩
    · exact Or.inr ⟨hx, hne, by rw [e3]; exact hlt⟩
    · exact Or.inr ⟨hx, hne, hlt3⟩

theorem tags_alike_set {E : Nat} {t : List bucket} {s : Nat} {a : bucket} (c : bucket)
    (ha : t[s]? = some a)
    (hc : c.h = a.h ∨ (s < E ∧ a.h ≠ _empty ∧ c.h < 2147483648)) :
    TagsAlike E t (t.set s c) := by
  have hlt : s < t.length := (List.getElem?_eq_some.mp ha).1
  refine ⟨List.length_set _ _ _, ?_⟩
  intro x b hb
  by_cases hx : x = s
  · subst hx
    rw [ha] at hb
    cases hb
    exact ⟨c, List.getElem?_set_self hlt, hc⟩
  · exact ⟨b, by rw [List.getElem?_set_ne (fun h => hx h.symm)]; exact hb, Or.inl rfl⟩

theorem tags_alike_get {E : Nat} {t t2 : List bucket} (h : TagsAlike E t t2) {x : Nat}
    {b2 : bucket} (hb2 : t2[x]? = some b2) :
    ∃ b, t[x]? = some b ∧ (b2.h = b.h ∨ (x < E ∧ b.h ≠ _empty ∧ b2.h < 2147483648)) := by
  have hlt : x < t.length := by
    have := (List.getElem?_eq_some.mp hb2).1
    rw [h.1] at this
    exact this
  obtain ⟨b2', hb2', hc⟩ := h.2 x t[x] (List.getElem?_eq_getElem hlt)
  rw [hb2] at hb2'
  cases hb2'
  exact ⟨t[x], List.getElem?_eq_getElem hlt, hc⟩

theorem cc_tags_alike {E : Nat} {t t2 : List bucket} (ht : CcTags E t) (h : TagsAlike E t t2) :
    CcTags E t2 := by
  intro s b2 hs hb2
  obtain ⟨b, hb, hc⟩ := tags_alike_get h hb2
  rcases hc with e | ⟨_, _, hlt⟩
  · rw [e]; exact ht s b hs hb
  · exact Or.inr hlt

theorem cc_tags_set {E : Nat} {t : List bucket} (ht : CcTags E t) (s : Nat) (c : bucket)
    (hc : c.h = _empty ∨ c.h < 2147483648) : CcTags E (t.set s c) := by
  intro x b hx hb
  rcases get_set_cases hb with ⟨_, rfl⟩ | ⟨_, h⟩
  · exact hc
  · exact ht x b hx h

theorem cc_tags_live {E : Nat} {t : List bucket} (ht : CcTags E t) {s : Nat} {b : bucket}
    (hs : s < E) (hb : t[s]? = some b) : b.live ↔ b.h ≠ _empty := by
  constructor
  · exact live_not_empty
  · intro hne
    rcases ht s b hs hb with h | h
    · exact absurd h hne
    · exact live_of_tag_lt h

theorem tags_alike_nonempty {E : Nat} {t t2 : List bucket} (h : TagsAlike E t t2) {x : Nat}
    {b b2 : bucket} (hb : t[x]? = some b) (hb2 : t2[x]? = some b2) (hne : b.h ≠ _empty) :
    b2.h ≠ _empty := by
  obtain ⟨b2', hb2', hc⟩ := h.2 x b hb
  rw [hb2] at hb2'
  cases hb2'
  rcases hc with e | ⟨_, _, hlt⟩
  · rw [e]; exact hne
  · rw [empty_val]; omega

theorem tags_alike_last {E : Nat} {t t2 : List bucket} (h : TagsAlike E t t2)
    (hl : ∃ b, t[E]? = some b ∧ b.h = _last) : ∃ b, t2[E]? = some b ∧ b.h = _last := by
  obtain ⟨b, hb, hbl⟩ := hl
  obtain ⟨b2, hb2, hc⟩ := h.2 E b hb
  rcases hc with e | ⟨hx, _, _⟩
  · exact ⟨b2, hb2, by rw [e, hbl]⟩
  · omega

/-- Tables that are alike have the same number of live slots before `E`. -/
theorem tags_alike_count {E : Nat} {t t2 : List bucket} (ht : CcTags E t)
    (h : TagsAlike E t t2) :
    (t2.take E).countP (fun b => decide b.live) = (t.take E).countP (fun b => decide b.live) := by
  apply countP_take_congr _ t t2 E h.1
  intro x b b2 hx hb hb2
  obtain ⟨b2', hb2', hc⟩ := h.2 x b hb
  rw [hb2] at hb2'
  cases hb2'
  have ht2 := cc_tags_alike ht h
  have e1 := cc_tags_live ht hx hb
  have e2 := cc_tags_live ht2 hx hb2
  have : b.live ↔ b2.live := by
    rw [e1, e2]
    rcases hc with e | ⟨_, hne, hlt⟩
    · rw [e]
    · exact ⟨fun _ => by rw [empty_val]; omega, fun _ => hne⟩
  simp only [this]

/-! ## Cuckoo: the geometry of the two halves -/

theorem cc_end {m : base_hashmap} (hg : Geometry .cc m) : m._end = m._max_size := by
  rw [hg.end_eq]; simp [ovf]

theorem cc_length {m : base_hashmap} (hg : Geometry .cc m) :
    m._table.length = m._end + 1 := by
  rw [hg.length, hg.end_eq]

theorem cc_primary_lt {m : base_hashmap} (hg : Geometry .cc m) (x : Nat) :
    (x &&& m._half_mask) < m._end := by
  obtain ⟨j, h3, _, hj⟩ := hg.pow2
  have hp8 := pow_ge_8 h3
  rw [hg.half_mask, cc_end hg]
  have := half_index_lt x (show 2 ≤ m._max_size by omega)
  omega

theorem cc_alternate_lt {m : base_hashmap} (hg : Geometry .cc m) (x : Nat) :
    m._half_start + (x &&& m._half_mask) < m._end := by
  obtain ⟨j, h3, _, hj⟩ := hg.pow2
  have hp8 := pow_ge_8 h3
  rw [hg.half_mask, hg.half_start, cc_end hg]
  have := half_index_lt x (show 2 ≤ m._max_size by omega)
  omega

/-! ## Cuckoo: the kick-out walk and the shift of the displaced pairs -/

/-- The loop of `cuckoo_insert` overwrites only tags of slots that are not
EMPTY, with hash values; when it leaves through the `break` the slot it stops
at is EMPTY. -/
theorem cuckoo_walk_alike (H : Hashers) (m : base_hashmap) (hg : Geometry .cc m) :
    ∀ fuel (t : List bucket) ptr kick_list t2 res,
      cuckoo_walk H m fuel t ptr kick_list = some (t2, res) →
      TagsAlike m._end t t2 ∧
      ∀ p h kl, res = some (p, h, kl) →
        p < m._end ∧ h < 2147483648 ∧ ∃ b, t2[p]? = some b ∧ b.h = _empty := by
  intro fuel
  induction fuel with
  | zero => intro _ _ _ _ _ h; simp [cuckoo_walk] at h
  | succ fuel ih =>
    intro t ptr kick_list t2 res h
    unfold cuckoo_walk at h
    cases hb : t[ptr]? with
    | none => rw [hb] at h; simp at h
    | some b =>
      rw [hb] at h
      simp only at h
      cases hb2 : t[m._half_start + (calc_alt_hash H b.kv.1 &&& m._half_mask)]? with
      | none => rw [hb2] at h; simp at h
      | some b2 =>
        rw [hb2] at h
        simp only at h
        by_cases he : b2.h = _empty
        · rw [if_pos he] at h
          simp only [Option.some.injEq, Prod.mk.injEq] at h
          obtain ⟨h1, h2⟩ := h
          subst h1
          refine ⟨tags_alike_refl _ _, ?_⟩
          intro p hh kl hres
          rw [← h2] at hres
          simp only [Option.some.injEq, Prod.mk.injEq] at hres
          obtain ⟨rfl, rfl, _⟩ := hres
          exact ⟨cc_alternate_lt hg _, calc_alt_hash_lt H _, b2, hb2, he⟩
        · rw [if_neg he] at h
          have ha1 : TagsAlike m._end t
              (t.set (m._half_start + (calc_alt_hash H b.kv.1 &&& m._half_mask))
                { b2 with h := calc_alt_hash H b.kv.1 }) :=
            tags_alike_set _ hb2 (Or.inr ⟨cc_alternate_lt hg _, he, calc_alt_hash_lt H _⟩)
          cases hb3 : (t.set (m._half_start + (calc_alt_hash H b.kv.1 &&& m._half_mask))
              { b2 with h := calc_alt_hash H b.kv.1 })[_calc_hash H b2.kv.1 &&& m._half_mask]? with
          | none => rw [hb3] at h; simp at h
          | some b3 =>
            rw [hb3] at h
            simp only at h
            by_cases he3 : b3.h = _empty
            · rw [if_pos he3] at h
              simp only [Option.some.injEq, Prod.mk.injEq] at h
              obtain ⟨h1, h2⟩ := h
              subst h1
              refine ⟨ha1, ?_⟩
              intro p hh kl hres
              rw [← h2] at hres
              simp only [Option.some.injEq, Prod.mk.injEq] at hres
              obtain ⟨rfl, rfl, _⟩ := hres
              exact ⟨cc_primary_lt hg _, calc_hash_lt H _, b3, hb3, he3⟩
            · rw [if_neg he3] at h
              have ha2 := tags_alike_trans ha1
                (tags_alike_set (E := m._end) { b3 with h := _calc_hash H b2.kv.1 } hb3
                  (Or.inr ⟨cc_primary_lt hg _, he3, calc_hash_lt H _⟩))
              split at h
              · simp only [Option.some.injEq, Prod.mk.injEq] at h
                obtain ⟨h1, h2⟩ := h
                subst h1
                refine ⟨ha2, ?_⟩
                intro p hh kl hres
                rw [← h2] at hres
                cases hres
              · obtain ⟨ha3, hres3⟩ := ih _ _ _ _ _ h
                exact ⟨tags_alike_trans ha2 ha3, hres3⟩

/-- The loop that moves the displaced pairs changes no tag. -/
theorem cuckoo_shift_alike (E : Nat) (kick_list : List Nat) :
    ∀ i (t t2 : List bucket), cuckoo_shift kick_list i t = some t2 → TagsAlike E t t2 := by
  intro i
  induction i with
  | zero => intro t t2 h; simp [cuckoo_shift] at h; rw [h]; exact tags_alike_refl _ _
  | succ i ih =>
    intro t t2 h
    unfold cuckoo_shift at h
    split at h
    · rename_i dst src _ _
      split at h
      · rename_i d s hd _
        exact tags_alike_trans (tags_alike_set (E := E) { d with kv := s.kv } hd (Or.inl rfl))
          (ih _ _ h)
      · cases h
    · cases h

end kirby

namespace kirby

/-! ## Cuckoo: `find_while_trying` keeps the counters invariant -/

theorem fresh_cc_inv {m : base_hashmap} (hg : Geometry .cc m) (hf : Fresh m)
    (hthr : m._max_true_size < m._max_size) : CcInv m := by
  have hslot : ∀ s b, s < m._end → m._table[s]? = some b → b = empty_bucket := by
    intro s b hs hb
    rw [hf.slots s hs] at hb
    exact (Option.some.inj hb).symm
  have hnl : ¬ empty_bucket.live := empty_bucket_not_live
  have hall : ∀ b ∈ m._table.take m._end, b = empty_bucket := by
    intro b hb
    obtain ⟨s, hs⟩ := List.mem_iff_getElem?.mp hb
    have hslt : s < m._end := by
      have := (List.getElem?_eq_some.mp hs).1
      rw [List.length_take] at this
      omega
    rw [List.getElem?_take, if_pos hslt] at hs
    exact hslot s b hslt hs
  exact
    { geo := hg
      last := ⟨_, hf.last, rfl⟩
      tags := fun s b hs hb => Or.inl (by rw [hslot s b hs hb]; rfl)
      size := by
        rw [hf.size]
        symm
        rw [List.countP_eq_zero]
        intro b hb
        rw [hall b hb]
        simpa using hnl
      true_size := by rw [hf.true_size, hf.size]
      threshold := ⟨by rw [hf.true_size]; omega, hthr⟩ }

/-- A table that is like the table of the map keeps the invariant. -/
theorem CcInv.of_alike {m : base_hashmap} (hinv : CcInv m) (t : List bucket)
    (h : TagsAlike m._end m._table t) : CcInv { m with _table := t } :=
  { geo := geometry_update hinv.geo t h.1 _ _
    last := tags_alike_last h hinv.last
    tags := cc_tags_alike hinv.tags h
    size := by
      show m._size = (t.take m._end).countP _
      rw [tags_alike_count hinv.tags h]
      exact hinv.size
    true_size := hinv.true_size
    threshold := hinv.threshold }

theorem CcInv.cc_set_value {m : base_hashmap} (hinv : CcInv m) {s : Nat} {a : bucket}
    (ha : m._table[s]? = some a) (v : T) :
    CcInv { m with _table := m._table.set s { a with kv := (a.kv.1, v) } } :=
  hinv.of_alike _ (tags_alike_set _ ha (Or.inl rfl))

theorem cc_rehash_loop_keeps {fwt : base_hashmap → Key → Nat → Option Located}
    (hf : FwtKeepsCc fwt) :
    ∀ (l : List bucket) (m m' : base_hashmap), CcInv m →
      _rehash_loop fwt l m = some m' → CcInv m' := by
  intro l
  induction l with
  | nil => intro m m' hg h; simp [_rehash_loop] at h; exact h ▸ hg
  | cons old rest ih =>
    intro m m' hg h
    unfold _rehash_loop at h
    by_cases hc : old.h < _code
    · rw [if_pos hc] at h
      cases hr : fwt m old.kv.1 old.h with
      | none => rw [hr] at h; simp at h
      | some r =>
        obtain ⟨m1, ptr, fl⟩ := r
        rw [hr] at h
        simp only at h
        have hg1 : CcInv m1 := hf _ _ _ _ hg hr
        cases hb : m1._table[ptr]? with
        | none => rw [hb] at h; simp at h
        | some b =>
          rw [hb] at h
          simp only at h
          exact ih _ _ (hg1.cc_set_value hb old.kv.2) h
    · rw [if_neg hc] at h
      exact ih _ _ hg h

/-- The function `_rehash` of a cuckoo map gives a table that satisfies the
counters invariant, whatever it returns. -/
theorem cc_rehash_keeps {fwt : base_hashmap → Key → Nat → Option Located}
    (hf : FwtKeepsCc fwt) (m m' : base_hashmap) (hg : Geometry .cc m)
    (hthr : m._max_true_size < m._max_size)
    (h : _rehash fwt m = some m') : CcInv m' := by
  obtain ⟨j, h3, h31, hj⟩ := hg.pow2
  have hp := pow_le_pow31 h31
  have hp8 := pow_ge_8 h3
  have hnsu : ∃ j', 3 ≤ j' ∧ j' ≤ 31 ∧ _next_size_up (u32 (m._max_size + 1)) = some (2 ^ j') ∧
      m._max_size ≤ 2 ^ j' := by
    rw [u32_of_lt (by omega)]
    by_cases hlt : m._max_size < 2147483648
    · obtain ⟨j', h1, h2, h4, h5⟩ := next_size_up_spec (m._max_size + 1)
      exact ⟨j', h1, h2, h4, by have := h5 (by omega); omega⟩
    · have hm : m._max_size = 2147483648 := by omega
      refine ⟨31, by norm_num, le_refl _, ?_, by rw [hm]; norm_num⟩
      rw [hm]
      decide
  obtain ⟨j', h3', h31', hn, hle⟩ := hnsu
  have hp' := pow_le_pow31 h31'
  have hp8' := pow_ge_8 h3'
  unfold _rehash at h
  rw [hn] at h
  simp only at h
  obtain ⟨m1, hinit, hg1, hf1, hms1, hmts1⟩ := init_replicate_spec .cc m j' h3' h31'
    hg.overflow hg.neighborhood
  rw [hinit] at h
  simp only at h
  have hlt := init_threshold_lt (2 ^ j') m._max_true_size m._true_size hp8' hp' (by omega)
  rw [← hmts1, ← hms1] at hlt
  exact cc_rehash_loop_keeps hf _ _ _ (fresh_cc_inv hg1 hf1 hlt) h

theorem cc_insert_while_full_keeps {fwt : base_hashmap → Key → Nat → Option Located}
    (hf : FwtKeepsCc fwt) (m : base_hashmap) (ptr : Nat) (k : Key) (h : Nat) (r : Located)
    (hg : Geometry .cc m) (hthr : m._max_true_size < m._max_size)
    (hr : _insert_while_full fwt m ptr k h = some r) : CcInv r.1 := by
  unfold _insert_while_full at hr
  cases hw : write m._table ptr empty_bucket with
  | none => rw [hw] at hr; simp at hr
  | some t =>
    rw [hw] at hr
    simp only at hr
    obtain ⟨_, ht⟩ := write_some hw
    cases hre : _rehash fwt { m with _table := t } with
    | none => rw [hre] at hr; simp at hr
    | some m1 =>
      rw [hre] at hr
      simp only at hr
      have hg1 : CcInv m1 := cc_rehash_keeps hf { m with _table := t } m1
        (geometry_update hg t (by rw [ht, List.length_set]) _ _) hthr hre
      cases hfw : fwt m1 k h with
      | none => rw [hfw] at hr; simp at hr
      | some r1 =>
        obtain ⟨m2, ptr2, fl⟩ := r1
        rw [hfw] at hr
        simp only [Option.some.injEq] at hr
        rw [← hr]
        exact hf m1 k h (m2, ptr2, fl) hg1 hfw

/-- The function `_insert` of a cuckoo map, called on a slot before `_end` with
a hash value as the tag, when the table has `_size + 1` live slots once that
slot is counted as live. -/
theorem cc_insert_keeps {fwt : base_hashmap → Key → Nat → Option Located}
    (hf : FwtKeepsCc fwt) (m : base_hashmap) (ptr : Nat) (k : Key) (h : Nat) (r : Located)
    (hg : Geometry .cc m) (hlast : ∃ b, m._table[m._end]? = some b ∧ b.h = _last)
    (htags : CcTags m._end m._table)
    (hthr : m._max_true_size < m._max_size) (hts : m._true_size ≤ m._max_true_size)
    (heq : m._true_size = m._size) (hptr : ptr < m._end) (hh : h < 2147483648)
    (hcount : ∀ b, m._table[ptr]? = some b →
      (m._table.take m._end).countP (fun b => decide b.live) + (if b.live then 0 else 1)
        = m._size + 1)
    (hr : _insert fwt m ptr k h = some r) : CcInv r.1 := by
  obtain ⟨j, h3, h31, hj⟩ := hg.pow2
  have hp := pow_le_pow31 h31
  have hlen := cc_length hg
  unfold _insert at hr
  simp only at hr
  rw [u32_of_lt (show m._true_size + 1 < 4294967296 by omega)] at hr
  by_cases hle : m._true_size + 1 ≤ m._max_true_size
  · rw [if_pos hle] at hr
    cases hb : m._table[ptr]? with
    | none => rw [hb] at hr; simp at hr
    | some b =>
      rw [hb] at hr
      simp only at hr
      rw [u32_of_lt (show m._size + 1 < 4294967296 by omega)] at hr
      simp only [Option.some.injEq] at hr
      rw [← hr]
      have hnew : bucket.live { h := h, kv := (k, b.kv.2) } := live_of_tag_lt hh
      have e1 := countP_set_take (fun b => decide b.live) m._table m._end ptr b
        { h := h, kv := (k, b.kv.2) } hptr (by omega) hb
      have e2 := hcount b hb
      refine
        { geo := geometry_update hg _ (List.length_set _ _ _) _ _
          last := ?_
          tags := cc_tags_set htags ptr _ (Or.inr hh)
          size := ?_
          true_size := ?_
          threshold := ⟨hle, hthr⟩ }
      · obtain ⟨bl, hbl, hl⟩ := hlast
        exact ⟨bl, by
          show (m._table.set ptr _)[m._end]? = some bl
          rw [List.getElem?_set_ne (by omega)]; exact hbl, hl⟩
      · show m._size + 1 = ((m._table.set ptr _).take m._end).countP _
        simp only [decide_eq_true_eq, hnew, if_true] at e1
        by_cases hbl : b.live
        · simp only [hbl, if_true] at e1 e2
          omega
        · simp only [hbl, if_false] at e1 e2
          omega
      · show m._true_size + 1 = m._size + 1
        rw [heq]
  · rw [if_neg hle] at hr
    exact cc_insert_while_full_keeps hf { m with _true_size := m._true_size + 1 } ptr k h r
      (geometry_update hg m._table rfl _ _) hthr hr

/-- The function `cuckoo_insert` keeps the counters invariant when the first
slot of the walk is not EMPTY. -/
theorem cuckoo_insert_keeps {fwt : base_hashmap → Key → Nat → Option Located}
    (hf : FwtKeepsCc fwt) (H : Hashers) (m : base_hashmap) (ptr : Nat) (k : Key)
    (h : Nat) (r : Located) (hinv : CcInv m) (hptr : ptr < m._end) (hh : h < 2147483648)
    (b0 : bucket) (hb0 : m._table[ptr]? = some b0) (hne0 : b0.h ≠ _empty)
    (hr : cuckoo_insert fwt H m ptr k h = some r) : CcInv r.1 := by
  have hg := hinv.geo
  have hlen0 := cc_length hg
  unfold cuckoo_insert at hr
  cases hw : cuckoo_walk H m max_search m._table ptr [ptr] with
  | none => rw [hw] at hr; simp at hr
  | some res =>
    obtain ⟨t, o⟩ := res
    rw [hw] at hr
    obtain ⟨halike, hstop⟩ := cuckoo_walk_alike H m hg _ _ _ _ _ _ hw
    have hlen := halike.1
    cases o with
    | none =>
      simp only at hr
      exact cc_insert_while_full_keeps hf _ _ _ _ _ (geometry_update hg t hlen _ _)
        hinv.threshold.2 hr
    | some tr =>
      obtain ⟨p1, h1, kl⟩ := tr
      simp only at hr
      obtain ⟨hp1, hh1, be, hbe, hee⟩ := hstop p1 h1 kl rfl
      rw [hbe] at hr
      simp only at hr
      cases hs : cuckoo_shift kl (kl.length - 1) (t.set p1 { be with h := h1 }) with
      | none => rw [hs] at hr; simp at hr
      | some t2 =>
        rw [hs] at hr
        simp only at hr
        have hsa := cuckoo_shift_alike m._end _ _ _ _ hs
        have htags_t : CcTags m._end t := cc_tags_alike hinv.tags halike
        have htags_1 : CcTags m._end (t.set p1 { be with h := h1 }) :=
          cc_tags_set htags_t p1 _ (Or.inr hh1)
        have hlen2 : t2.length = m._table.length := by
          rw [hsa.1, List.length_set, hlen]
        have hlast_t := tags_alike_last halike hinv.last
        have hlast_1 : ∃ b, (t.set p1 { be with h := h1 })[m._end]? = some b ∧ b.h = _last := by
          obtain ⟨bl, hbl, hl⟩ := hlast_t
          exact ⟨bl, by rw [List.getElem?_set_ne (by omega)]; exact hbl, hl⟩
        -- the number of live slots
        have hc1 : ((t.set p1 { be with h := h1 }).take m._end).countP (fun b => decide b.live)
            = m._size + 1 := by
          have e1 := countP_set_take (fun b => decide b.live) t m._end p1 be
            { be with h := h1 } hp1 (by omega) hbe
          have hnl : ¬ be.live := fun hl => live_not_empty hl hee
          have hnew : bucket.live { be with h := h1 } := live_of_tag_lt hh1
          simp only [decide_eq_true_eq, hnl, hnew, if_true, if_false] at e1
          rw [tags_alike_count hinv.tags halike, ← hinv.size] at e1
          omega
        have hc2 : (t2.take m._end).countP (fun b => decide b.live) = m._size + 1 := by
          rw [tags_alike_count htags_1 hsa, hc1]
        refine cc_insert_keeps hf { m with _table := t2 } ptr k h r
          (geometry_update hg t2 hlen2 _ _) (tags_alike_last hsa hlast_1)
          (cc_tags_alike htags_1 hsa) hinv.threshold.2 hinv.threshold.1 hinv.true_size hptr hh
          ?_ hr
        intro b3 hb3
        have hb3' : t2[ptr]? = some b3 := hb3
        -- the first slot of the walk is still not EMPTY
        obtain ⟨bt, hbt, _⟩ := halike.2 ptr b0 hb0
        have hnet : bt.h ≠ _empty := tags_alike_nonempty halike hb0 hbt hne0
        have hpne : ptr ≠ p1 := by
          rintro rfl
          rw [hbe] at hbt
          cases hbt
          exact hnet hee
        have hb1 : (t.set p1 { be with h := h1 })[ptr]? = some bt := by
          rw [List.getElem?_set_ne (fun h => hpne h.symm)]; exact hbt
        have hne3 := tags_alike_nonempty hsa hb1 hb3' hnet
        have hl3 : b3.live := (cc_tags_live (cc_tags_alike htags_1 hsa) hptr hb3').mpr hne3
        show (t2.take m._end).countP _ + _ = m._size + 1
        rw [if_pos hl3, hc2]

/-- The function `cc_hashmap::d_find_while_trying` keeps the counters invariant
when the calls it makes through `_rehash` and `_insert_while_full` do. -/
theorem cc_find_while_trying_keeps {fwt : base_hashmap → Key → Nat → Option Located}
    (hf : FwtKeepsCc fwt) (H : Hashers) : FwtKeepsCc (cc_find_while_trying fwt H) := by
  intro m k h r hinv hr
  have hg := hinv.geo
  unfold cc_find_while_trying at hr
  simp only at hr
  have hp1 := cc_primary_lt hg (_calc_hash H k)
  have hp2 := cc_alternate_lt hg (calc_alt_hash H k)
  cases hb : m._table[_calc_hash H k &&& m._half_mask]? with
  | none => rw [hb] at hr; simp at hr
  | some b =>
    rw [hb] at hr
    simp only at hr
    by_cases he : b.h = _empty
    · rw [if_pos he] at hr
      refine cc_insert_keeps hf m _ k _ r hg hinv.last hinv.tags hinv.threshold.2
        hinv.threshold.1 hinv.true_size hp1 (calc_hash_lt H k) ?_ hr
      intro b' hb'
      rw [hb] at hb'
      cases hb'
      rw [if_neg (fun hl => live_not_empty hl he), ← hinv.size]
    · rw [if_neg he] at hr
      by_cases hm : b.h = _calc_hash H k ∧ b.kv.1 = k
      · rw [if_pos hm] at hr
        simp only [Option.some.injEq] at hr
        rw [← hr]; exact hinv
      · rw [if_neg hm] at hr
        cases hab : m._table[m._half_start + (calc_alt_hash H k &&& m._half_mask)]? with
        | none => rw [hab] at hr; simp at hr
        | some ab =>
          rw [hab] at hr
          simp only at hr
          by_cases hae : ab.h = _empty
          · rw [if_pos hae] at hr
            refine cc_insert_keeps hf m _ k _ r hg hinv.last hinv.tags hinv.threshold.2
              hinv.threshold.1 hinv.true_size hp2 (calc_alt_hash_lt H k) ?_ hr
            intro b' hb'
            rw [hab] at hb'
            cases hb'
            rw [if_neg (fun hl => live_not_empty hl hae), ← hinv.size]
          · rw [if_neg hae] at hr
            by_cases hma : ab.h = calc_alt_hash H k ∧ ab.kv.1 = k
            · rw [if_pos hma] at hr
              simp only [Option.some.injEq] at hr
              rw [← hr]; exact hinv
            · rw [if_neg hma] at hr
              exact cuckoo_insert_keeps hf H m _ k _ r hinv hp1 (calc_hash_lt H k) b hb he hr

theorem cc_fwt_keeps (H : Hashers) : ∀ fuel, FwtKeepsCc (find_while_trying .cc H fuel) := by
  intro fuel
  induction fuel with
  | zero => intro m k h r _ hr; simp [find_while_trying] at hr
  | succ fuel ih => exact cc_find_while_trying_keeps ih H

/-- The function `cc_hashmap::d_remove` on a live bucket returns and keeps the
counters invariant. -/
theorem cc_remove_spec {m : base_hashmap} (hinv : CcInv m) {s : Nat} {b : bucket}
    (hs : s < m._end) (hb : m._table[s]? = some b) (hl : b.live) :
    ∃ m', remove .cc m s = some m' ∧ CcInv m' := by
  have hg := hinv.geo
  have hlen := cc_length hg
  obtain ⟨j, h3, h31, hj⟩ := hg.pow2
  have hp := pow_le_pow31 h31
  have hthr := hinv.threshold
  have hpos := countP_take_pos (fun b => decide b.live) m._table m._end s b hs (by omega) hb
    (by simpa using hl)
  have hsz1 : 1 ≤ m._size := by rw [hinv.size]; exact hpos
  have hts := hinv.true_size
  have hszlt : m._size < 4294967296 := by omega
  simp only [remove, cc_d_remove, _remove_for_empty]
  rw [write_of_lt _ (show s < m._table.length by omega)]
  simp only
  rw [usub_of_le hsz1 hszlt, usub_of_le (by rw [hts]; exact hsz1) (by rw [hts]; exact hszlt)]
  refine ⟨_, rfl, ?_⟩
  have e1 := countP_set_take (fun b => decide b.live) m._table m._end s b
    { h := _empty, kv := (0, 0) } hs (by omega) hb
  have hne : ¬ bucket.live { h := _empty, kv := (0, 0) } := empty_bucket_not_live
  simp only [decide_eq_true_eq, hl, hne, if_true, if_false] at e1
  refine
    { geo := geometry_update hg _ (List.length_set _ _ _) _ _
      last := ?_
      tags := cc_tags_set hinv.tags s _ (Or.inl rfl)
      size := ?_
      true_size := ?_
      threshold := ⟨?_, hthr.2⟩ }
  · obtain ⟨bl, hbl, hll⟩ := hinv.last
    exact ⟨bl, by
      show (m._table.set s _)[m._end]? = some bl
      rw [List.getElem?_set_ne (by omega)]; exact hbl, hll⟩
  · show m._size - 1 = ((m._table.set s _).take m._end).countP _
    have := hinv.size
    omega
  · show m._true_size - 1 = m._size - 1
    rw [hts]
  · show m._true_size - 1 ≤ m._max_true_size
    omega

/-- A mutating call that returns keeps the counters invariant of the cuckoo
map. -/
theorem cc_step_sound (H : Hashers) (fuel : Nat) {m m' : base_hashmap} (hinv : CcInv m)
    (op : Op) (hstep : step .cc H fuel m op = some m') : CcInv m' := by
  cases op with
  | insert k v =>
    simp only [step, base_hashmap.insert, find_while_trying_key] at hstep
    cases hf : find_while_trying .cc H fuel m k (_calc_hash H k) with
    | none => rw [hf] at hstep; simp at hstep
    | some r =>
      have hinv1 := cc_fwt_keeps H fuel m k _ r hinv hf
      obtain ⟨m1, ptr, fl⟩ := r
      rw [hf] at hstep
      simp only at hstep
      cases fl with
      | true =>
        simp at hstep
        rw [← hstep]; exact hinv1
      | false =>
        cases hb : m1._table[ptr]? with
        | none => simp [hb] at hstep
        | some b =>
          simp [hb] at hstep
          rw [← hstep]
          exact hinv1.cc_set_value hb v
  | assign k v =>
    simp only [step, base_hashmap.assign, base_hashmap.subscript, find_while_trying_key] at hstep
    cases hf : find_while_trying .cc H fuel m k (_calc_hash H k) with
    | none => rw [hf] at hstep; simp at hstep
    | some r =>
      have hinv1 := cc_fwt_keeps H fuel m k _ r hinv hf
      obtain ⟨m1, ptr, fl⟩ := r
      rw [hf] at hstep
      simp only at hstep
      cases hb : m1._table[ptr]? with
      | none => simp [hb] at hstep
      | some b =>
        simp [hb] at hstep
        rw [← hstep]
        exact hinv1.cc_set_value hb v
  | erase k =>
    simp only [step, base_hashmap.erase] at hstep
    cases hf : find_without_inserting .cc H m k with
    | none => rw [hf] at hstep; simp at hstep
    | some ptr =>
      rw [hf] at hstep
      simp only at hstep
      by_cases hpe : ptr = m._end
      · rw [if_neg (by simpa using hpe)] at hstep
        simp at hstep
        rw [← hstep]; exact hinv
      · rw [if_pos hpe] at hstep
        rcases find_sound .cc H m k ptr hf with h | ⟨b, hb, hlt, _⟩
        · exact absurd h hpe
        · have hlen := cc_length hinv.geo
          have hpl := (List.getElem?_eq_some.mp hb).1
          obtain ⟨m1, hrem, hinv1⟩ := cc_remove_spec hinv (show ptr < m._end by omega) hb
            (live_of_tag_lt hlt)
          rw [hrem] at hstep
          simp at hstep
          rw [← hstep]; exact hinv1
  | clear =>
    simp only [step] at hstep
    obtain ⟨m1, hc, hg1, hf1, hms, hthr⟩ := clear_spec .cc m hinv.geo
    rw [hc] at hstep
    cases hstep
    obtain ⟨j, h3, h31, hj⟩ := hinv.geo.pow2
    have hp := pow_le_pow31 h31
    have hp8 := pow_ge_8 h3
    refine fresh_cc_inv hg1 hf1 ?_
    rw [hthr, hms]
    exact init_threshold_lt m._max_size m._max_true_size m._true_size (by omega) (by omega)
      hinv.threshold.2

/-- Every reachable state of a cuckoo map satisfies the counters invariant. -/
theorem reachable_cc_inv (H : Hashers) {m : base_hashmap} (hr : Reachable .cc H m) :
    CcInv m := by
  induction hr with
  | init n m hc =>
    obtain ⟨m0, j, hm0, hg, hf, h3, h31, _, hms, hthr⟩ := construct_spec .cc n
    rw [hm0] at hc
    cases hc
    have hp := pow_le_pow31 h31
    have hp8 := pow_ge_8 h3
    refine fresh_cc_inv hg hf ?_
    rw [hthr, hms]
    omega
  | step fuel op m m' _ hstep ih => exact cc_step_sound H fuel ih op hstep

end kirby

namespace kirby

/-! ## Every policy: the counters and the tags in a reachable state -/

theorem countP_nonempty_eq_live {E : Nat} {t : List bucket} (ht : CcTags E t) :
    (t.take E).countP (fun b => decide (b.h ≠ _empty))
      = (t.take E).countP (fun b => decide b.live) := by
  apply List.countP_congr
  intro b hb
  obtain ⟨s, hs⟩ := List.mem_iff_getElem?.mp hb
  have hslt : s < E := by
    have := (List.getElem?_eq_some.mp hs).1
    rw [List.length_take] at this
    omega
  rw [List.getElem?_take, if_pos hslt] at hs
  have := cc_tags_live ht hslt hs
  simp only [decide_eq_true_eq]
  exact this.symm

theorem RhInv.cc_tags {H : Hashers} {m : base_hashmap} (hinv : RhInv H m) :
    CcTags m._end m._table := by
  intro s b hs hb
  rcases hinv.tags s b hs hb with h | h
  · exact Or.inl h
  · exact Or.inr (h ▸ calc_hash_lt H b.kv.1)

theorem probing_end {p : Policy} (hp : p.probing) {m : base_hashmap} (hg : Geometry p m) :
    m._end = m._max_size := by
  rw [hg.end_eq, probing_ovf hp]; rfl

theorem probing_counters {p : Policy} (hp : p.probing) {H : Hashers} {m : base_hashmap}
    (hinv : ProbingInv p H m) : CountersMatch m := by
  have hend := probing_end hp hinv.geo
  have hlen : m._table.length = m._max_size + 1 := by
    rw [hinv.geo.length, probing_ovf hp]
  refine ⟨?_, ?_, hinv.size_le, hinv.threshold.1, hinv.threshold.2.1⟩
  · rw [countP_live_whole _ m._max_size hlen hinv.last]
    exact hinv.size
  · rw [hend]
    exact hinv.true_size

theorem rh_counters {H : Hashers} {m : base_hashmap} (hinv : RhInv H m) : CountersMatch m := by
  have hts := hinv.true_size
  refine ⟨?_, ?_, by omega, hinv.threshold.1, hinv.threshold.2⟩
  · rw [countP_live_whole _ m._end hinv.length hinv.last]
    exact hinv.size
  · rw [countP_nonempty_eq_live hinv.cc_tags, hts]
    exact hinv.size

theorem cc_counters {m : base_hashmap} (hinv : CcInv m) : CountersMatch m := by
  have hts := hinv.true_size
  refine ⟨?_, ?_, by omega, hinv.threshold.1, hinv.threshold.2⟩
  · rw [countP_live_whole _ m._end (cc_length hinv.geo) hinv.last]
    exact hinv.size
  · rw [countP_nonempty_eq_live hinv.tags, hts]
    exact hinv.size

/-- The counters agree with the table in every reachable state of every
policy. -/
theorem reachable_counters (p : Policy) (H : Hashers) {m : base_hashmap}
    (hr : Reachable p H m) : CountersMatch m := by
  cases p with
  | lin => exact probing_counters (Or.inl rfl) (reachable_probing_inv (Or.inl rfl) H hr)
  | quad => exact probing_counters (Or.inr rfl) (reachable_probing_inv (Or.inr rfl) H hr)
  | rh => exact rh_counters (reachable_rh_inv H hr)
  | cc => exact cc_counters (reachable_cc_inv H hr)

/-- The tags of a table whose slots before `_end` hold hash values, EMPTY or,
in the quadratic map, TOMBSTONE, and whose slot `_end` holds LAST. -/
theorem tags_well_formed_of {p : Policy} {m : base_hashmap}
    (hlen : m._table.length = m._end + 1)
    (hlast : ∃ b, m._table[m._end]? = some b ∧ b.h = _last)
    (htags : ∀ (s : Nat) (b : bucket), s < m._end → m._table[s]? = some b →
      b.h = _empty ∨ (p = .quad ∧ b.h = _tombstone) ∨ b.h < 2147483648) :
    TagsWellFormed p m := by
  refine ⟨hlen, ?_⟩
  intro s b hb
  have hs : s < m._table.length := (List.getElem?_eq_some.mp hb).1
  by_cases hlt : s < m._end
  · have hne : s ≠ m._end := by omega
    rcases htags s b hlt hb with h | ⟨hq, h⟩ | h
    · refine ⟨Or.inr (Or.inl h), ⟨fun hl => ?_, fun he => absurd he hne⟩, fun ht => ?_⟩
      · rw [h, empty_val, last_val] at hl; omega
      · rw [h, empty_val, tombstone_val] at ht; omega
    · refine ⟨Or.inr (Or.inr (Or.inl h)), ⟨fun hl => ?_, fun he => absurd he hne⟩, fun _ => hq⟩
      rw [h, tombstone_val, last_val] at hl; omega
    · refine ⟨Or.inl h, ⟨fun hl => ?_, fun he => absurd he hne⟩, fun ht => ?_⟩
      · rw [last_val] at hl; omega
      · rw [tombstone_val] at ht; omega
  · have hse : s = m._end := by omega
    obtain ⟨bl, hbl, hl⟩ := hlast
    rw [hse, hbl] at hb
    cases hb
    refine ⟨Or.inr (Or.inr (Or.inr hl)), ⟨fun _ => hse, fun _ => hl⟩, fun ht => ?_⟩
    rw [hl, last_val, tombstone_val] at ht; omega

/-- The tags are well formed in every reachable state of every policy. -/
theorem reachable_tags (p : Policy) (H : Hashers) {m : base_hashmap}
    (hr : Reachable p H m) : TagsWellFormed p m := by
  have hprobing : ∀ q : Policy, q.probing → ∀ m, ProbingInv q H m → TagsWellFormed q m := by
    intro q hq m hinv
    have hend := probing_end hq hinv.geo
    refine tags_well_formed_of (by rw [hinv.geo.length, hinv.geo.end_eq])
      (by rw [hend]; exact hinv.last) ?_
    intro s b hs hb
    rw [hend] at hs
    rcases hinv.tags s b hs hb with h | h | h
    · exact Or.inl h
    · exact Or.inr (Or.inl h)
    · exact Or.inr (Or.inr (h ▸ calc_hash_lt H b.kv.1))
  cases p with
  | lin =>
    have hinv := reachable_probing_inv (Or.inl rfl) H hr
    exact hprobing .lin (Or.inl rfl) m hinv
  | quad =>
    have hinv := reachable_probing_inv (Or.inr rfl) H hr
    exact hprobing .quad (Or.inr rfl) m hinv
  | rh =>
    have hinv := reachable_rh_inv H hr
    refine tags_well_formed_of hinv.length hinv.last ?_
    intro s b hs hb
    rcases hinv.cc_tags s b hs hb with h | h
    · exact Or.inl h
    · exact Or.inr (Or.inr h)
  | cc =>
    have hinv := reachable_cc_inv H hr
    refine tags_well_formed_of (cc_length hinv.geo) hinv.last ?_
    intro s b hs hb
    rcases hinv.tags s b hs hb with h | h
    · exact Or.inl h
    · exact Or.inr (Or.inr h)

end kirby

namespace kirby

/-! ## Rehash: which tags a call can leave with which keys -/

end kirby

namespace kirby

/-! ## Robin Hood: the scans stay inside the table -/

end kirby

namespace kirby

/-! ## Cuckoo: the path of the eviction walk -/

theorem walk_path_ne_nil {f : Nat → Nat} {occ : Nat → Prop} {a p : Nat} {l : List Nat}
    (h : WalkPath f occ a l p) : l ≠ [] := by
  cases h <;> simp

theorem walk_path_last_mem {f : Nat → Nat} {occ : Nat → Prop} {a p : Nat} {l : List Nat}
    (h : WalkPath f occ a l p) : p ∈ l := by
  induction h with
  | last a p _ _ => simp
  | cons a c rest p _ _ _ ih => exact List.mem_cons_of_mem _ ih

theorem walk_path_stop {f : Nat → Nat} {occ : Nat → Prop} {a p : Nat} {l : List Nat}
    (h : WalkPath f occ a l p) : ¬ occ p := by
  induction h with
  | last a p _ hn => exact hn
  | cons a c rest p _ _ _ ih => exact ih

/-- Two walks from the same slot visit the same slots. -/
theorem walk_path_unique {f : Nat → Nat} {occ : Nat → Prop} {a p : Nat} {l : List Nat}
    (h : WalkPath f occ a l p) :
    ∀ {p2 : Nat} {l2 : List Nat}, WalkPath f occ a l2 p2 → l = l2 := by
  induction h with
  | last a p hp hn =>
    intro p2 l2 h2
    cases h2 with
    | last _ _ hp2 _ => rw [hp, hp2]
    | cons _ c rest _ hc ho _ =>
      rw [← hp.trans hc.symm] at ho
      exact absurd ho hn
  | cons a c rest p hc ho _ ih =>
    intro p2 l2 h2
    cases h2 with
    | last _ _ hp2 hn2 =>
      rw [← hc.trans hp2.symm] at hn2
      exact absurd ho hn2
    | cons _ c2 rest2 _ hc2 _ hw2 =>
      have : c = c2 := hc.trans hc2.symm
      subst this
      rw [ih hw2]

/-- The walk from a slot it visits before its last one is shorter. -/
theorem walk_path_suffix {f : Nat → Nat} {occ : Nat → Prop} {a p : Nat} {l : List Nat}
    (h : WalkPath f occ a l p) :
    ∀ x ∈ l, x ≠ p → ∃ l2, WalkPath f occ x l2 p ∧ l2.length < l.length := by
  induction h with
  | last a p _ _ =>
    intro x hx hne
    simp only [List.mem_singleton] at hx
    exact absurd hx hne
  | cons a c rest p _ _ hw ih =>
    intro x hx hne
    rcases List.mem_cons.mp hx with h | h
    · subst h
      exact ⟨rest, hw, by simp⟩
    · obtain ⟨l2, h2, hl⟩ := ih x h hne
      exact ⟨l2, h2, by simp only [List.length_cons]; omega⟩

theorem walk_path_occ {f : Nat → Nat} {occ : Nat → Prop} {a p : Nat} {l : List Nat}
    (h : WalkPath f occ a l p) : ∀ x ∈ l, x ≠ p → occ x := by
  induction h with
  | last a p _ _ =>
    intro x hx hne
    simp only [List.mem_singleton] at hx
    exact absurd hx hne
  | cons a c rest p _ ho _ ih =>
    intro x hx hne
    rcases List.mem_cons.mp hx with h | h
    · subst h; exact ho
    · exact ih x h hne

/-- A walk that starts in a slot that satisfies `occ` and stops visits no slot
twice. -/
theorem walk_path_nodup {f : Nat → Nat} {occ : Nat → Prop} {a p : Nat} {l : List Nat}
    (h : WalkPath f occ a l p) (ha : occ a) : (a :: l).Nodup := by
  induction h with
  | last a p _ hn =>
    simp only [List.nodup_cons, List.mem_singleton, List.not_mem_nil, not_false_eq_true,
      List.nodup_nil, and_self, and_true]
    rintro rfl
    exact hn ha
  | cons a c rest p hc ho hw ih =>
    have hfull : WalkPath f occ a (c :: rest) p := WalkPath.cons a c rest p hc ho hw
    refine List.nodup_cons.mpr ⟨?_, ih ho⟩
    intro hmem
    have hne : a ≠ p := by
      rintro rfl
      exact walk_path_stop hw ha
    obtain ⟨l2, h2, hl⟩ := walk_path_suffix hfull a hmem hne
    have := walk_path_unique hfull h2
    rw [this] at hl
    exact absurd hl (lt_irrefl _)

theorem walk_path_congr {f g : Nat → Nat} {occ occ2 : Nat → Prop} (hf : ∀ x, f x = g x)
    (ho : ∀ x, occ x ↔ occ2 x) {a p : Nat} {l : List Nat} (h : WalkPath f occ a l p) :
    WalkPath g occ2 a l p := by
  induction h with
  | last a p hp hn => exact WalkPath.last a p (by rw [← hf]; exact hp) (fun h => hn ((ho p).mpr h))
  | cons a c rest p hc hoc _ ih =>
    exact WalkPath.cons a c rest p (by rw [← hf]; exact hc) ((ho c).mp hoc) ih

/-- The elements of a chain that follow each other are related. -/
theorem chain_index {R : Nat → Nat → Prop} :
    ∀ (l : List Nat) (a : Nat), List.Chain R a l →
      ∀ j src dst, (a :: l)[j]? = some src → (a :: l)[j + 1]? = some dst → R src dst := by
  intro l
  induction l with
  | nil =>
    intro a _ j src dst _ h2
    simp at h2
  | cons c rest ih =>
    intro a hc j src dst h1 h2
    rw [List.chain_cons] at hc
    cases j with
    | zero =>
      simp only [List.getElem?_cons_zero, Option.some.injEq, List.getElem?_cons_succ] at h1 h2
      rw [← h1, ← h2]; exact hc.1
    | succ j =>
      rw [List.getElem?_cons_succ] at h1 h2
      exact ih c hc.2 j src dst h1 h2

theorem nodup_index_inj {l : List Nat} (hn : l.Nodup) {i j : Nat} {x : Nat}
    (hi : l[i]? = some x) (hj : l[j]? = some x) : i = j := by
  have hil := (List.getElem?_eq_some.mp hi).1
  have hjl := (List.getElem?_eq_some.mp hj).1
  have h1 := (List.getElem?_eq_some.mp hi).2
  have h2 := (List.getElem?_eq_some.mp hj).2
  exact (List.Nodup.getElem_inj_iff hn).mp (h1.trans h2.symm)

end kirby

namespace kirby

/-! ## Cuckoo: the eviction walk -/

theorem cc_first_half_lt {m : base_hashmap} (hg : Geometry .cc m) (x : Nat) :
    (x &&& m._half_mask) < m._half_start := by
  obtain ⟨j, h3, _, hj⟩ := hg.pow2
  have hp8 := pow_ge_8 h3
  rw [hg.half_mask, hg.half_start]
  exact half_index_lt x (show 2 ≤ m._max_size by omega)

theorem kv_set {t : List bucket} {s : Nat} {a : bucket} (c : bucket) (ha : t[s]? = some a)
    (hc : c.kv = a.kv) (x : Nat) :
    ((t.set s c)[x]?).map (fun b : bucket => b.kv) = (t[x]?).map (fun b : bucket => b.kv) := by
  have hlt : s < t.length := (List.getElem?_eq_some.mp ha).1
  by_cases hx : x = s
  · subst hx
    rw [List.getElem?_set_self hlt, ha]
    simp only [Option.map_some', hc]
  · rw [List.getElem?_set_ne (fun h => hx h.symm)]

theorem occ_set {t : List bucket} {s : Nat} {a : bucket} (c : bucket) (ha : t[s]? = some a)
    (hne : a.h ≠ _empty) (hc : c.h ≠ _empty) (x : Nat) :
    (∃ b, (t.set s c)[x]? = some b ∧ b.h ≠ _empty) ↔ (∃ b, t[x]? = some b ∧ b.h ≠ _empty) := by
  have hlt : s < t.length := (List.getElem?_eq_some.mp ha).1
  by_cases hx : x = s
  · subst hx
    rw [List.getElem?_set_self hlt, ha]
    exact ⟨fun _ => ⟨a, rfl, hne⟩, fun _ => ⟨c, rfl, hc⟩⟩
  · rw [List.getElem?_set_ne (fun h => hx h.symm)]

theorem cc_next_congr (H : Hashers) (m : base_hashmap) {t t2 : List bucket}
    (h : ∀ x : Nat, (t2[x]?).map (fun b : bucket => b.kv) = (t[x]?).map (fun b : bucket => b.kv)) (s : Nat) :
    cc_next H m t2 s = cc_next H m t s := by
  have hs := h s
  unfold cc_next
  cases h2 : t2[s]? with
  | none =>
    rw [h2] at hs
    cases h1 : t[s]? with
    | none => rfl
    | some b => rw [h1] at hs; simp at hs
  | some b2 =>
    rw [h2] at hs
    cases h1 : t[s]? with
    | none => rw [h1] at hs; simp at hs
    | some b =>
      rw [h1] at hs
      simp only [Option.map_some', Option.some.injEq] at hs
      simp only [hs]

theorem hash_ne_empty {h : Nat} (hlt : h < 2147483648) : h ≠ _empty := by
  rw [empty_val]; omega

/-- A walk of `cuckoo_insert` that leaves through the `break`: the slots it
has recorded are the path from `ptr` along the other slots of the stored keys,
through occupied slots to the first EMPTY one; it has changed no key or value
and no tag of a slot it has not recorded; and, when it has recorded no slot
twice, every recorded slot carries a tag under which the key of the slot
recorded before it may lie there, once the EMPTY slot has received the tag the
walk returns. -/
theorem cuckoo_walk_path (H : Hashers) (m : base_hashmap) (hg : Geometry .cc m) :
    ∀ fuel (t : List bucket) ptr kl t2 p h kl2, ptr < m._half_start →
      cuckoo_walk H m fuel t ptr kl = some (t2, some (p, h, kl2)) →
      ∃ ext bp, kl2 = kl ++ ext
        ∧ WalkPath (cc_next H m t) (fun x => ∃ b, t[x]? = some b ∧ b.h ≠ _empty) ptr ext p
        ∧ t2[p]? = some bp ∧ bp.h = _empty
        ∧ t2.length = t.length
        ∧ (∀ x : Nat, (t2[x]?).map (fun b : bucket => b.kv) = (t[x]?).map (fun b : bucket => b.kv))
        ∧ (∀ x : Nat, x ∉ ext → t2[x]? = t[x]?)
        ∧ ((ptr :: ext).Nodup → List.Chain (Pend H m (t2.set p { bp with h := h })) ptr ext) := by
  intro fuel
  induction fuel with
  | zero => intro _ _ _ _ _ _ _ _ h; simp [cuckoo_walk] at h
  | succ fuel ih =>
    intro t ptr kl t2 p h kl2 hptr hw
    unfold cuckoo_walk at hw
    cases hb : t[ptr]? with
    | none => rw [hb] at hw; simp at hw
    | some b =>
      rw [hb] at hw
      simp only at hw
      have hp1ge : m._half_start ≤ m._half_start + (calc_alt_hash H b.kv.1 &&& m._half_mask) :=
        Nat.le_add_right _ _
      have hn1 : cc_next H m t ptr
          = m._half_start + (calc_alt_hash H b.kv.1 &&& m._half_mask) := by
        unfold cc_next
        rw [hb]
        simp only
        rw [if_pos hptr]
      cases hb2 : t[m._half_start + (calc_alt_hash H b.kv.1 &&& m._half_mask)]? with
      | none => rw [hb2] at hw; simp at hw
      | some b2 =>
        rw [hb2] at hw
        simp only at hw
        have hp1len := (List.getElem?_eq_some.mp hb2).1
        have hah := calc_alt_hash_lt H b.kv.1
        by_cases he : b2.h = _empty
        · rw [if_pos he] at hw
          simp only [Option.some.injEq, Prod.mk.injEq] at hw
          obtain ⟨rfl, rfl, rfl, rfl⟩ := hw
          refine ⟨[_], b2, rfl, WalkPath.last _ _ hn1.symm ?_, hb2, he, rfl, fun _ => rfl,
            fun _ _ => rfl, ?_⟩
          · rintro ⟨b', hb', hne'⟩
            rw [hb2] at hb'
            cases hb'
            exact hne' he
          · intro _
            refine List.Chain.cons ?_ List.Chain.nil
            refine ⟨_, b, List.getElem?_set_self hp1len, ?_, Or.inr ⟨rfl, rfl⟩⟩
            rw [List.getElem?_set_ne (by omega)]
            exact hb
        · rw [if_neg he] at hw
          have hp2lt := cc_first_half_lt hg (_calc_hash H b2.kv.1)
          have hh2 := calc_hash_lt H b2.kv.1
          have hn2 : cc_next H m t (m._half_start + (calc_alt_hash H b.kv.1 &&& m._half_mask))
              = (_calc_hash H b2.kv.1 &&& m._half_mask) := by
            unfold cc_next
            rw [hb2]
            simp only
            rw [if_neg (by omega)]
          have hocc1 : ∃ b', t[m._half_start + (calc_alt_hash H b.kv.1 &&& m._half_mask)]?
              = some b' ∧ b'.h ≠ _empty := ⟨b2, hb2, he⟩
          cases hb3 : (t.set (m._half_start + (calc_alt_hash H b.kv.1 &&& m._half_mask))
              { b2 with h := calc_alt_hash H b.kv.1 })[_calc_hash H b2.kv.1 &&& m._half_mask]? with
          | none => rw [hb3] at hw; simp at hw
          | some b3 =>
            rw [hb3] at hw
            simp only at hw
            have hp2len := (List.getElem?_eq_some.mp hb3).1
            have hb3' : t[_calc_hash H b2.kv.1 &&& m._half_mask]? = some b3 := by
              rw [List.getElem?_set_ne (by omega)] at hb3
              exact hb3
            have hkv1 := kv_set (t := t) { b2 with h := calc_alt_hash H b.kv.1 } hb2 rfl
            by_cases he3 : b3.h = _empty
            · rw [if_pos he3] at hw
              simp only [Option.some.injEq, Prod.mk.injEq] at hw
              obtain ⟨rfl, rfl, rfl, rfl⟩ := hw
              refine ⟨[m._half_start + (calc_alt_hash H b.kv.1 &&& m._half_mask), _calc_hash H b2.kv.1 &&& m._half_mask], b3,
                by simp, ?_, hb3, he3, List.length_set _ _ _, hkv1, ?_, ?_⟩
              · refine WalkPath.cons _ _ _ _ hn1.symm hocc1 (WalkPath.last _ _ hn2.symm ?_)
                rintro ⟨b', hb', hne'⟩
                rw [hb3'] at hb'
                cases hb'
                exact hne' he3
              · intro x hx
                simp only [List.mem_cons, List.mem_singleton, List.not_mem_nil, or_false,
                  not_or] at hx
                rw [List.getElem?_set_ne (fun h => hx.1 h.symm)]
              · intro hnd
                simp only [List.nodup_cons, List.mem_cons, List.mem_singleton,
                  List.not_mem_nil, or_false, not_or] at hnd
                refine List.Chain.cons ?_ (List.Chain.cons ?_ List.Chain.nil)
                · refine ⟨{ b2 with h := calc_alt_hash H b.kv.1 }, b, ?_, ?_, Or.inr ⟨rfl, rfl⟩⟩
                  · rw [List.getElem?_set_ne (by omega), List.getElem?_set_self hp1len]
                  · rw [List.getElem?_set_ne (fun h => hnd.1.2 h.symm),
                      List.getElem?_set_ne (by omega)]
                    exact hb
                · refine ⟨_, { b2 with h := calc_alt_hash H b.kv.1 },
                    List.getElem?_set_self hp2len, ?_, Or.inl ⟨rfl, rfl⟩⟩
                  rw [List.getElem?_set_ne (by omega), List.getElem?_set_self hp1len]
            · rw [if_neg he3] at hw
              split at hw
              · simp at hw
              · obtain ⟨ext, bp, hkl, hpath, hbp, hbpe, hlen, hkv, hframe, hpend⟩ :=
                  ih _ _ _ _ _ _ _ hp2lt hw
                have hkv2 := kv_set (t := t.set
                  (m._half_start + (calc_alt_hash H b.kv.1 &&& m._half_mask))
                  { b2 with h := calc_alt_hash H b.kv.1 })
                  { b3 with h := _calc_hash H b2.kv.1 } hb3 rfl
                have hkvall : ∀ x : Nat, (t2[x]?).map (fun b : bucket => b.kv) = (t[x]?).map (fun b : bucket => b.kv) :=
                  fun x => by rw [hkv x, hkv2 x, hkv1 x]
                have hocc2 : ∃ b', t[_calc_hash H b2.kv.1 &&& m._half_mask]? = some b'
                    ∧ b'.h ≠ _empty := ⟨b3, hb3', he3⟩
                have hpath' : WalkPath (cc_next H m t)
                    (fun x => ∃ b, t[x]? = some b ∧ b.h ≠ _empty)
                    (_calc_hash H b2.kv.1 &&& m._half_mask) ext p := by
                  refine walk_path_congr ?_ ?_ hpath
                  · intro x
                    exact cc_next_congr H m (fun y => by rw [hkv2 y, hkv1 y]) x
                  · intro x
                    rw [occ_set _ hb3 he3 (hash_ne_empty hh2),
                      occ_set _ hb2 he (hash_ne_empty hah)]
                have hpmem := walk_path_last_mem hpath
                refine ⟨(m._half_start + (calc_alt_hash H b.kv.1 &&& m._half_mask)) :: (_calc_hash H b2.kv.1 &&& m._half_mask) :: ext, bp,
                  by rw [hkl]; simp, ?_, hbp, hbpe, ?_, hkvall, ?_, ?_⟩
                · exact WalkPath.cons _ _ _ _ hn1.symm hocc1
                    (WalkPath.cons _ _ _ _ hn2.symm hocc2 hpath')
                · rw [hlen, List.length_set, List.length_set]
                · intro x hx
                  simp only [List.mem_cons, not_or] at hx
                  rw [hframe x hx.2.2, List.getElem?_set_ne (fun h => hx.2.1 h.symm),
                    List.getElem?_set_ne (fun h => hx.1 h.symm)]
                · intro hnd
                  simp only [List.nodup_cons, List.mem_cons, not_or] at hnd
                  obtain ⟨⟨hn01, hn02, hn0e⟩, ⟨hn12, hn1e⟩, hn2e, hnde⟩ := hnd
                  have hT : ∀ x, x ∉ ext →
                      (t2.set p { bp with h := h })[x]?
                        = ((t.set (m._half_start + (calc_alt_hash H b.kv.1 &&& m._half_mask))
                            { b2 with h := calc_alt_hash H b.kv.1 }).set
                            (_calc_hash H b2.kv.1 &&& m._half_mask)
                            { b3 with h := _calc_hash H b2.kv.1 })[x]? := by
                    intro x hx
                    rw [List.getElem?_set_ne (fun hpx => hx (by rw [← hpx]; exact hpmem)), hframe x hx]
                  have hT1 : (t2.set p { bp with h := h })[m._half_start
                      + (calc_alt_hash H b.kv.1 &&& m._half_mask)]?
                      = some { b2 with h := calc_alt_hash H b.kv.1 } := by
                    rw [hT _ hn1e, List.getElem?_set_ne (by omega),
                      List.getElem?_set_self hp1len]
                  refine List.Chain.cons ?_ (List.Chain.cons ?_
                    (hpend (List.nodup_cons.mpr ⟨hn2e, hnde⟩)))
                  · refine ⟨_, b, hT1, ?_, Or.inr ⟨rfl, rfl⟩⟩
                    rw [hT _ hn0e, List.getElem?_set_ne (fun h => hn02 h.symm),
                      List.getElem?_set_ne (by omega)]
                    exact hb
                  · refine ⟨{ b3 with h := _calc_hash H b2.kv.1 }, _, ?_, hT1,
                      Or.inl ⟨rfl, rfl⟩⟩
                    rw [hT _ hn2e, List.getElem?_set_self hp2len]

end kirby

namespace kirby

/-! ## Cuckoo: the placement of the live buckets -/

/-- The loop that moves the displaced pairs, run on a kick list without
repetition whose slots carry the tags for the keys of the slots before them:
afterwards every slot of the list but the first holds a key it is designated
for, and the other slots are unchanged. -/
theorem cuckoo_shift_places (H : Hashers) (m : base_hashmap) (kl : List Nat)
    (hnd : kl.Nodup) :
    ∀ i (T T2 : List bucket),
      (∀ j src dst, j < i → kl[j]? = some src → kl[j + 1]? = some dst → Pend H m T src dst) →
      cuckoo_shift kl i T = some T2 →
      (∀ x : Nat, (∀ j, 1 ≤ j → j ≤ i → kl[j]? ≠ some x) → T2[x]? = T[x]?) ∧
      (∀ j dst, 1 ≤ j → j ≤ i → kl[j]? = some dst →
        ∃ d, T2[dst]? = some d ∧ Designates H m dst d.h d.kv.1) := by
  intro i
  induction i with
  | zero =>
    intro T T2 _ h
    simp only [cuckoo_shift, Option.some.injEq] at h
    subst h
    exact ⟨fun _ _ => rfl, fun j dst h1 h2 => by omega⟩
  | succ i ih =>
    intro T T2 hpend h
    unfold cuckoo_shift at h
    cases hk1 : kl[i + 1]? with
    | none => simp [hk1] at h
    | some dst =>
      cases hk0 : kl[i]? with
      | none => simp [hk1, hk0] at h
      | some src =>
        obtain ⟨d, s, hd, hs, hdes⟩ := hpend i src dst (by omega) hk0 hk1
        simp only [hk1, hk0, hd, hs] at h
        have hdlen := (List.getElem?_eq_some.mp hd).1
        have hpend1 : ∀ j src2 dst2, j < i → kl[j]? = some src2 → kl[j + 1]? = some dst2 →
            Pend H m (T.set dst { d with kv := s.kv }) src2 dst2 := by
          intro j src2 dst2 hj h0 h1
          obtain ⟨d2, s2, hd2, hs2, hdes2⟩ := hpend j src2 dst2 (by omega) h0 h1
          have hne1 : dst ≠ dst2 := by
            rintro rfl
            have := nodup_index_inj hnd hk1 h1
            omega
          have hne0 : dst ≠ src2 := by
            rintro rfl
            have := nodup_index_inj hnd hk1 h0
            omega
          exact ⟨d2, s2, by rw [List.getElem?_set_ne hne1]; exact hd2,
            by rw [List.getElem?_set_ne hne0]; exact hs2, hdes2⟩
        obtain ⟨hframe, hplaced⟩ := ih _ _ hpend1 h
        have hfd : T2[dst]? = some { d with kv := s.kv } := by
          rw [hframe dst, List.getElem?_set_self hdlen]
          intro j h1 h2 hj
          have := nodup_index_inj hnd hk1 hj
          omega
        constructor
        · intro x hx
          rw [hframe x (fun j h1 h2 => hx j h1 (by omega)),
            List.getElem?_set_ne]
          rintro rfl
          exact hx (i + 1) (by omega) (le_refl _) hk1
        · intro j dst2 h1 h2 hj
          by_cases hji : j ≤ i
          · exact hplaced j dst2 h1 hji hj
          · have hje : j = i + 1 := by omega
            rw [hje, hk1] at hj
            cases hj
            exact ⟨_, hfd, hdes⟩

theorem placed_but_weaken {H : Hashers} {m : base_hashmap} {t : List bucket}
    (h : PlacedBut H m t none) (skip : Option Nat) : PlacedBut H m t skip :=
  fun s b hs _ hb hl => h s b hs (by simp) hb hl

theorem fresh_cc_placed (H : Hashers) {m : base_hashmap} (hf : Fresh m) : CcPlaced H m := by
  intro s b hs _ hb hl
  rw [hf.slots s hs] at hb
  cases hb
  exact absurd hl empty_bucket_not_live

theorem CcPlaced.cc_placed_set_value {H : Hashers} {m : base_hashmap} (hpl : CcPlaced H m)
    {s : Nat} {a : bucket} (ha : m._table[s]? = some a) (v : T) :
    CcPlaced H { m with _table := m._table.set s { a with kv := (a.kv.1, v) } } := by
  intro x b hx hsk hb hl
  have hb' : (m._table.set s { a with kv := (a.kv.1, v) })[x]? = some b := hb
  rcases get_set_cases hb' with ⟨rfl, rfl⟩ | ⟨_, h⟩
  · exact hpl x a hx hsk ha hl
  · exact hpl x b hx hsk h hl

theorem cc_rehash_loop_placed {H : Hashers} {fwt : base_hashmap → Key → Nat → Option Located}
    (hf : FwtKeepsCc fwt) (hp : FwtKeepsPlaced H fwt) :
    ∀ (l : List bucket) (m m' : base_hashmap), CcInv m → CcPlaced H m →
      _rehash_loop fwt l m = some m' → CcPlaced H m' := by
  intro l
  induction l with
  | nil => intro m m' _ hg h; simp [_rehash_loop] at h; exact h ▸ hg
  | cons old rest ih =>
    intro m m' hinv hg h
    unfold _rehash_loop at h
    by_cases hc : old.h < _code
    · rw [if_pos hc] at h
      cases hr : fwt m old.kv.1 old.h with
      | none => rw [hr] at h; simp at h
      | some r =>
        obtain ⟨m1, ptr, fl⟩ := r
        rw [hr] at h
        simp only at h
        have hinv1 : CcInv m1 := hf _ _ _ _ hinv hr
        have hg1 : CcPlaced H m1 := hp _ _ _ _ hinv hg hr
        cases hb : m1._table[ptr]? with
        | none => rw [hb] at h; simp at h
        | some b =>
          rw [hb] at h
          simp only at h
          exact ih _ _ (hinv1.cc_set_value hb old.kv.2) (hg1.cc_placed_set_value hb old.kv.2) h
    · rw [if_neg hc] at h
      exact ih _ _ hinv hg h

theorem cc_rehash_placed {H : Hashers} {fwt : base_hashmap → Key → Nat → Option Located}
    (hf : FwtKeepsCc fwt) (hp : FwtKeepsPlaced H fwt) (m m' : base_hashmap)
    (hg : Geometry .cc m) (hthr : m._max_true_size < m._max_size)
    (h : _rehash fwt m = some m') : CcPlaced H m' := by
  obtain ⟨j, h3, h31, hj⟩ := hg.pow2
  have hp31 := pow_le_pow31 h31
  have hp8 := pow_ge_8 h3
  have hnsu : ∃ j', 3 ≤ j' ∧ j' ≤ 31 ∧ _next_size_up (u32 (m._max_size + 1)) = some (2 ^ j') ∧
      m._max_size ≤ 2 ^ j' := by
    rw [u32_of_lt (by omega)]
    by_cases hlt : m._max_size < 2147483648
    · obtain ⟨j', h1, h2, h4, h5⟩ := next_size_up_spec (m._max_size + 1)
      exact ⟨j', h1, h2, h4, by have := h5 (by omega); omega⟩
    · have hm : m._max_size = 2147483648 := by omega
      refine ⟨31, by norm_num, le_refl _, ?_, by rw [hm]; norm_num⟩
      rw [hm]
      decide
  obtain ⟨j', h3', h31', hn, hle⟩ := hnsu
  have hp' := pow_le_pow31 h31'
  have hp8' := pow_ge_8 h3'
  unfold _rehash at h
  rw [hn] at h
  simp only at h
  obtain ⟨m1, hinit, hg1, hf1, hms1, hmts1⟩ := init_replicate_spec .cc m j' h3' h31'
    hg.overflow hg.neighborhood
  rw [hinit] at h
  simp only at h
  have hlt := init_threshold_lt (2 ^ j') m._max_true_size m._true_size hp8' hp' (by omega)
  rw [← hmts1, ← hms1] at hlt
  exact cc_rehash_loop_placed hf hp _ _ _ (fresh_cc_inv hg1 hf1 hlt) (fresh_cc_placed H hf1) h

theorem cc_insert_while_full_placed {H : Hashers}
    {fwt : base_hashmap → Key → Nat → Option Located}
    (hf : FwtKeepsCc fwt) (hp : FwtKeepsPlaced H fwt) (m : base_hashmap) (ptr : Nat) (k : Key)
    (h : Nat) (r : Located) (hg : Geometry .cc m) (hthr : m._max_true_size < m._max_size)
    (hr : _insert_while_full fwt m ptr k h = some r) : CcPlaced H r.1 := by
  unfold _insert_while_full at hr
  cases hw : write m._table ptr empty_bucket with
  | none => rw [hw] at hr; simp at hr
  | some t =>
    rw [hw] at hr
    simp only at hr
    obtain ⟨_, ht⟩ := write_some hw
    cases hre : _rehash fwt { m with _table := t } with
    | none => rw [hre] at hr; simp at hr
    | some m1 =>
      rw [hre] at hr
      simp only at hr
      have hgt := geometry_update hg t (by rw [ht, List.length_set]) m._size m._true_size
      have hinv1 : CcInv m1 := cc_rehash_keeps hf { m with _table := t } m1 hgt hthr hre
      have hpl1 : CcPlaced H m1 := cc_rehash_placed hf hp { m with _table := t } m1 hgt hthr hre
      cases hfw : fwt m1 k h with
      | none => rw [hfw] at hr; simp at hr
      | some r1 =>
        obtain ⟨m2, ptr2, fl⟩ := r1
        rw [hfw] at hr
        simp only [Option.some.injEq] at hr
        rw [← hr]
        exact hp m1 k h (m2, ptr2, fl) hinv1 hpl1 hfw

/-- The function `_insert` of a cuckoo map, called with a slot and a tag the
key designates, on a table whose other live buckets are placed. -/
theorem cc_insert_placed {H : Hashers} {fwt : base_hashmap → Key → Nat → Option Located}
    (hf : FwtKeepsCc fwt) (hp : FwtKeepsPlaced H fwt) (m : base_hashmap) (ptr : Nat) (k : Key)
    (h : Nat) (r : Located) (hg : Geometry .cc m) (hthr : m._max_true_size < m._max_size)
    (hpl : PlacedBut H m m._table (some ptr)) (hd : Designates H m ptr h k)
    (hr : _insert fwt m ptr k h = some r) : CcPlaced H r.1 := by
  unfold _insert at hr
  simp only at hr
  by_cases hle : u32 (m._true_size + 1) ≤ m._max_true_size
  · rw [if_pos hle] at hr
    cases hb : m._table[ptr]? with
    | none => rw [hb] at hr; simp at hr
    | some b =>
      rw [hb] at hr
      simp only [Option.some.injEq] at hr
      rw [← hr]
      intro x b' hx _ hb' hl
      have hb'' : (m._table.set ptr { h := h, kv := (k, b.kv.2) })[x]? = some b' := hb'
      rcases get_set_cases hb'' with ⟨rfl, rfl⟩ | ⟨hne, h'⟩
      · exact hd
      · exact hpl x b' hx (by simpa using fun h => hne h.symm) h' hl
  · rw [if_neg hle] at hr
    exact cc_insert_while_full_placed hf hp { m with _true_size := u32 (m._true_size + 1) }
      ptr k h r (geometry_update hg m._table rfl _ _) hthr hr

/-- The function `cuckoo_insert` keeps the placement when the first slot of the
walk is an occupied slot of the first half that the key designates. -/
theorem cuckoo_insert_placed {H : Hashers} {fwt : base_hashmap → Key → Nat → Option Located}
    (hf : FwtKeepsCc fwt) (hp : FwtKeepsPlaced H fwt) (m : base_hashmap) (ptr : Nat) (k : Key)
    (h : Nat) (r : Located) (hinv : CcInv m) (hpl : CcPlaced H m)
    (hptr : ptr < m._half_start) (hd : Designates H m ptr h k)
    (b0 : bucket) (hb0 : m._table[ptr]? = some b0) (hne0 : b0.h ≠ _empty)
    (hr : cuckoo_insert fwt H m ptr k h = some r) : CcPlaced H r.1 := by
  have hg := hinv.geo
  unfold cuckoo_insert at hr
  cases hw : cuckoo_walk H m max_search m._table ptr [ptr] with
  | none => rw [hw] at hr; simp at hr
  | some res =>
    obtain ⟨t, o⟩ := res
    rw [hw] at hr
    have hlen := cuckoo_walk_length _ _ _ _ _ _ _ _ hw
    cases o with
    | none =>
      simp only at hr
      exact cc_insert_while_full_placed hf hp _ _ _ _ _ (geometry_update hg t hlen _ _)
        hinv.threshold.2 hr
    | some tr =>
      obtain ⟨p1, h1, kl⟩ := tr
      simp only at hr
      obtain ⟨ext, bp, hkl, hpath, hbp, _, _, _, hframe, hpend⟩ :=
        cuckoo_walk_path H m hg _ _ _ _ _ _ _ _ hptr hw
      have hkl' : kl = ptr :: ext := by rw [hkl]; rfl
      have hnd : (ptr :: ext).Nodup := walk_path_nodup hpath ⟨b0, hb0, hne0⟩
      have hpmem := walk_path_last_mem hpath
      rw [hbp] at hr
      simp only at hr
      cases hs : cuckoo_shift kl (kl.length - 1) (t.set p1 { bp with h := h1 }) with
      | none => rw [hs] at hr; simp at hr
      | some t2 =>
        rw [hs] at hr
        simp only at hr
        rw [hkl'] at hs
        have hchain := chain_index ext ptr (hpend hnd)
        obtain ⟨hfr2, hplaced⟩ := cuckoo_shift_places H m (ptr :: ext) hnd _ _ _
          (fun j src dst _ h0 h1 => hchain j src dst h0 h1) hs
        have hlen2 : t2.length = m._table.length := by
          rw [cuckoo_shift_length _ _ _ _ hs, List.length_set, hlen]
        refine cc_insert_placed hf hp { m with _table := t2 } ptr k h r
          (geometry_update hg t2 hlen2 _ _) hinv.threshold.2 ?_ hd hr
        intro s b hs' hsk hb hl
        have hne : s ≠ ptr := fun h => hsk (by rw [h])
        have hb' : t2[s]? = some b := hb
        by_cases hmem : s ∈ ext
        · obtain ⟨j, hj⟩ := List.mem_iff_getElem?.mp hmem
          have hjl := (List.getElem?_eq_some.mp hj).1
          obtain ⟨d, hd2, hdes⟩ := hplaced (j + 1) s (by omega)
            (by simp only [List.length_cons, Nat.add_sub_cancel]; omega)
            (by rw [List.getElem?_cons_succ]; exact hj)
          rw [hb'] at hd2
          cases hd2
          exact hdes
        · have h1 : t2[s]? = (t.set p1 { bp with h := h1 })[s]? := by
            apply hfr2
            intro j hj1 _ hj
            obtain ⟨j', rfl⟩ : ∃ j', j = j' + 1 := ⟨j - 1, by omega⟩
            rw [List.getElem?_cons_succ] at hj
            exact hmem (List.getElem?_mem hj)
          rw [h1, List.getElem?_set_ne (fun h => hmem (by rw [← h]; exact hpmem)),
            hframe s hmem] at hb'
          exact hpl s b hs' (by simp) hb' hl

/-- The function `cc_hashmap::d_find_while_trying` keeps the placement when the
calls it makes through `_rehash` and `_insert_while_full` do. -/
theorem cc_find_while_trying_placed {H : Hashers}
    {fwt : base_hashmap → Key → Nat → Option Located}
    (hf : FwtKeepsCc fwt) (hp : FwtKeepsPlaced H fwt) :
    FwtKeepsPlaced H (cc_find_while_trying fwt H) := by
  intro m k h r hinv hpl hr
  have hg := hinv.geo
  unfold cc_find_while_trying at hr
  simp only at hr
  cases hb : m._table[_calc_hash H k &&& m._half_mask]? with
  | none => rw [hb] at hr; simp at hr
  | some b =>
    rw [hb] at hr
    simp only at hr
    by_cases he : b.h = _empty
    · rw [if_pos he] at hr
      exact cc_insert_placed hf hp m _ k _ r hg hinv.threshold.2 (placed_but_weaken hpl _)
        (Or.inl ⟨rfl, rfl⟩) hr
    · rw [if_neg he] at hr
      by_cases hm : b.h = _calc_hash H k ∧ b.kv.1 = k
      · rw [if_pos hm] at hr
        simp only [Option.some.injEq] at hr
        rw [← hr]; exact hpl
      · rw [if_neg hm] at hr
        cases hab : m._table[m._half_start + (calc_alt_hash H k &&& m._half_mask)]? with
        | none => rw [hab] at hr; simp at hr
        | some ab =>
          rw [hab] at hr
          simp only at hr
          by_cases hae : ab.h = _empty
          · rw [if_pos hae] at hr
            exact cc_insert_placed hf hp m _ k _ r hg hinv.threshold.2
              (placed_but_weaken hpl _) (Or.inr ⟨rfl, rfl⟩) hr
          · rw [if_neg hae] at hr
            by_cases hma : ab.h = calc_alt_hash H k ∧ ab.kv.1 = k
            · rw [if_pos hma] at hr
              simp only [Option.some.injEq] at hr
              rw [← hr]; exact hpl
            · rw [if_neg hma] at hr
              exact cuckoo_insert_placed hf hp m _ k _ r hinv hpl
                (cc_first_half_lt hg _) (Or.inl ⟨rfl, rfl⟩) b hb he hr

theorem cc_fwt_placed (H : Hashers) :
    ∀ fuel, FwtKeepsPlaced H (find_while_trying .cc H fuel) := by
  intro fuel
  induction fuel with
  | zero => intro m k h r _ _ hr; simp [find_while_trying] at hr
  | succ fuel ih => exact cc_find_while_trying_placed (cc_fwt_keeps H fuel) ih

/-- A mutating call that returns keeps the placement of the live buckets of the
cuckoo map. -/
theorem cc_step_placed (H : Hashers) (fuel : Nat) {m m' : base_hashmap} (hinv : CcInv m)
    (hpl : CcPlaced H m) (op : Op) (hstep : step .cc H fuel m op = some m') :
    CcPlaced H m' := by
  cases op with
  | insert k v =>
    simp only [step, base_hashmap.insert, find_while_trying_key] at hstep
    cases hf : find_while_trying .cc H fuel m k (_calc_hash H k) with
    | none => rw [hf] at hstep; simp at hstep
    | some r =>
      have hpl1 := cc_fwt_placed H fuel m k _ r hinv hpl hf
      obtain ⟨m1, ptr, fl⟩ := r
      rw [hf] at hstep
      simp only at hstep
      cases fl with
      | true =>
        simp at hstep
        rw [← hstep]; exact hpl1
      | false =>
        cases hb : m1._table[ptr]? with
        | none => simp [hb] at hstep
        | some b =>
          simp [hb] at hstep
          rw [← hstep]
          exact hpl1.cc_placed_set_value hb v
  | assign k v =>
    simp only [step, base_hashmap.assign, base_hashmap.subscript, find_while_trying_key] at hstep
    cases hf : find_while_trying .cc H fuel m k (_calc_hash H k) with
    | none => rw [hf] at hstep; simp at hstep
    | some r =>
      have hpl1 := cc_fwt_placed H fuel m k _ r hinv hpl hf
      obtain ⟨m1, ptr, fl⟩ := r
      rw [hf] at hstep
      simp only at hstep
      cases hb : m1._table[ptr]? with
      | none => simp [hb] at hstep
      | some b =>
        simp [hb] at hstep
        rw [← hstep]
        exact hpl1.cc_placed_set_value hb v
  | erase k =>
    simp only [step, base_hashmap.erase] at hstep
    cases hf : find_without_inserting .cc H m k with
    | none => rw [hf] at hstep; simp at hstep
    | some ptr =>
      rw [hf] at hstep
      simp only at hstep
      by_cases hpe : ptr = m._end
      · rw [if_neg (by simpa using hpe)] at hstep
        simp at hstep
        rw [← hstep]; exact hpl
      · rw [if_pos hpe] at hstep
        cases hrem : remove .cc m ptr with
        | none => rw [hrem] at hstep; simp at hstep
        | some m1 =>
          rw [hrem] at hstep
          simp at hstep
          rw [← hstep]
          simp only [remove, cc_d_remove, _remove_for_empty] at hrem
          cases hw : write m._table ptr { h := _empty, kv := (0, 0) } with
          | none => rw [hw] at hrem; simp at hrem
          | some t =>
            rw [hw] at hrem
            simp only [Option.some.injEq] at hrem
            rw [← hrem]
            obtain ⟨_, ht⟩ := write_some hw
            intro x b hx hsk hb hl
            have hb' : t[x]? = some b := hb
            rw [ht] at hb'
            rcases get_set_cases hb' with ⟨_, rfl⟩ | ⟨_, h'⟩
            · exact absurd hl empty_bucket_not_live
            · exact hpl x b hx hsk h' hl
  | clear =>
    simp only [step] at hstep
    obtain ⟨m1, hc, hg1, hf1, _⟩ := clear_spec .cc m hinv.geo
    rw [hc] at hstep
    cases hstep
    exact fresh_cc_placed H hf1

/-- In every reachable state of a cuckoo map every live bucket lies in a slot
its key designates, under the matching tag. -/
theorem reachable_cc_placed (H : Hashers) {m : base_hashmap} (hr : Reachable .cc H m) :
    CcPlaced H m := by
  induction hr with
  | init n m hc =>
    obtain ⟨m0, j, hm0, hg, hf, _⟩ := construct_spec .cc n
    rw [hm0] at hc
    cases hc
    exact fresh_cc_placed H hf
  | step fuel op m m' hr' hstep ih =>
    exact cc_step_placed H fuel (reachable_cc_inv H hr') ih op hstep

/-- The two-slot lookup finds the key of every live bucket of a cuckoo map whose
live buckets are placed. -/
theorem cc_find_stored {H : Hashers} {m : base_hashmap} (hinv : CcInv m) (hpl : CcPlaced H m)
    {s : Nat} {b : bucket} (hs : s < m._end) (hb : m._table[s]? = some b) (hl : b.live) :
    ∃ ptr b', find_without_inserting .cc H m b.kv.1 = some ptr ∧ ptr ≠ m._end ∧
      m._table[ptr]? = some b' ∧ b'.kv.1 = b.kv.1 := by
  have hg := hinv.geo
  have hlen := cc_length hg
  have hp1 := cc_primary_lt hg (_calc_hash H b.kv.1)
  have hp2 := cc_alternate_lt hg (calc_alt_hash H b.kv.1)
  simp only [find_without_inserting, cc_find_without_inserting]
  have hl1 : (_calc_hash H b.kv.1 &&& m._half_mask) < m._table.length := by omega
  rw [List.getElem?_eq_getElem hl1]
  simp only
  by_cases hm : m._table[_calc_hash H b.kv.1 &&& m._half_mask].h = _calc_hash H b.kv.1
      ∧ m._table[_calc_hash H b.kv.1 &&& m._half_mask].kv.1 = b.kv.1
  · rw [if_pos hm]
    exact ⟨_, _, rfl, by omega, List.getElem?_eq_getElem hl1, hm.2⟩
  · rw [if_neg hm]
    have hl2 : m._half_start + (calc_alt_hash H b.kv.1 &&& m._half_mask) < m._table.length := by
      omega
    rcases hpl s b hs (by simp) hb hl with ⟨h1, h2⟩ | ⟨h1, h2⟩
    · exfalso
      apply hm
      have : m._table[_calc_hash H b.kv.1 &&& m._half_mask]? = some b := by
        rw [← h1]; exact hb
      rw [List.getElem?_eq_getElem hl1] at this
      rw [Option.some.inj this]
      exact ⟨h2, rfl⟩
    · have hthis : m._table[m._half_start + (calc_alt_hash H b.kv.1 &&& m._half_mask)]?
          = some b := by
        rw [← h1]; exact hb
      rw [hthis]
      simp only
      rw [if_pos ⟨h2, trivial⟩]
      exact ⟨_, b, rfl, by omega, hthis, rfl⟩

end kirby

namespace kirby

/-! ## Claims -/

/-- C1: for the linear and the quadratic map, any sequence of `insert`,
`m[k] = v`, `erase` (and `clear`) calls on a freshly constructed map returns,
and afterwards `find(k)` designates, for every key `k`, exactly the value last
written for `k` (`spec_run`: an `insert` on a present key writes nothing), and
`end()` when `k` was never written or erased since.  The sequence may cross the
resize threshold any number of times; it is shorter than `2^27` calls and the
capacity hint is at most `2^30`, so that the capacity stays below `2^31`. -/
theorem C1_probing_find_returns_last_written (p : Policy) (hp : p.probing) (H : Hashers)
    (n : Nat) (hn : n ≤ 1073741824) (ops : List Op) (hlen : ops.length < 134217728)
    (fuel : Nat) (hfuel : 2 ≤ fuel) :
    ∃ m0 m, construct p n = some m0 ∧ run p H fuel ops m0 = some m ∧
      ∀ k, lookup p H m k = some (spec_run ops (fun _ => none) k) := by
  obtain ⟨m0, hc, hinv0, hrep0, hts0, hnsu⟩ := probing_construct_spec hp H n
  obtain ⟨j, _, h30, hj⟩ := next_size_up_le30 n hn
  rw [hj] at hnsu
  have hms : m0._max_size = 2 ^ j := (Option.some.inj hnsu).symm
  have hp30 : 2 ^ j ≤ 2 ^ 30 := Nat.pow_le_pow_right (by norm_num) h30
  norm_num at hp30
  obtain ⟨fuel', rfl⟩ : ∃ fuel', fuel = fuel' + 2 := ⟨fuel - 2, by omega⟩
  obtain ⟨m, hrun, hinv, hrep⟩ := probing_run_spec hp H fuel' m0._max_size (by omega) ops m0
    (fun _ => none) 0 hinv0 hrep0 (by omega) (Or.inl (le_refl _)) (by omega)
  exact ⟨m0, m, hc, hrun, fun k => probing_lookup_represents hp hinv hrep k⟩

/-- C1 applied to the default-constructed `lin_hashmap` and the calls
`insert(1,2)`, `m[1] = 3`, `insert(1,4)`, `erase(2)`. -/
theorem C1_probing_find_returns_last_written_witness :
    ∃ m0 m, construct .lin 8 = some m0 ∧
      run .lin default_hashers 2 [.insert 1 2, .assign 1 3, .insert 1 4, .erase 2] m0 = some m ∧
      ∀ k, lookup .lin default_hashers m k
        = some (spec_run [.insert 1 2, .assign 1 3, .insert 1 4, .erase 2] (fun _ => none) k) :=
  C1_probing_find_returns_last_written .lin (Or.inl rfl) default_hashers 8 (by norm_num)
    [.insert 1 2, .assign 1 3, .insert 1 4, .erase 2] (by simp) 2 (le_refl 2)

/-- C2 (insert on a present key), evaluated on the default `cc_hashmap` after
`insert(0,10)`, `insert(6,20)`, `erase(0)`: key 6 is present with value 20 and
`size()` is 1, yet `insert(6,30)` reports `was_inserted = true`, `size()`
becomes 2 and `find(6)` now yields 30. -/
theorem C2_cuckoo_insert_present_key_inserts_again :
    cc_shadowed.bind (fun m => base_hashmap.count .cc default_hashers m 6) = some 1
    ∧ cc_shadowed.bind (fun m => lookup .cc default_hashers m 6) = some (some 20)
    ∧ cc_shadowed.map base_hashmap.size = some 1
    ∧ (cc_shadowed.bind fun m =>
        (base_hashmap.insert .cc default_hashers 2 m (6, 30)).map fun r => r.2.2) = some true
    ∧ (cc_shadowed.bind fun m =>
        (base_hashmap.insert .cc default_hashers 2 m (6, 30)).map fun r => r.1.size) = some 2
    ∧ (cc_shadowed.bind fun m =>
        (base_hashmap.insert .cc default_hashers 2 m (6, 30)).bind fun r =>
          lookup .cc default_hashers r.1 6) = some (some 30) := by
  decide!

/-- C3 (indexed access on an absent key yields the default value), evaluated
on the default `rh_hashmap` after `insert(8,5)`, `insert(7,7)`, where key 9 is
absent and `m[9]` reads 7 (the value of the bucket the forward shift moved
on), and on the default `cc_hashmap` after `insert(0,11)`, `insert(6,22)`,
where key 16 is absent and `m[16]` reads 11 (the value of the evicted key). -/
theorem C3_subscript_reads_displaced_value :
    (rh_pair.bind fun m =>
      (base_hashmap.subscript_read .rh default_hashers 2 m 9).map fun r =>
        (base_hashmap.count .rh default_hashers m 9, r.2)) = some (some 0, 7)
    ∧ (cc_pair.bind fun m =>
      (base_hashmap.subscript_read .cc default_hashers 2 m 16).map fun r =>
        (base_hashmap.count .cc default_hashers m 16, r.2)) = some (some 0, 11) := by
  decide!

/-- C4 (after `insert` of an absent key into the Robin Hood map every key that
was findable is still findable), on `rh_hashmap<int,int> m(512)` after
`insert(293,1)` and `insert(k,1)` for the 129 keys `k` of `rh_tail_keys`: the
state is reachable, key 792 is found with value 1 and key 981 is absent; the
scan for 981 meets key 792 in slot 511, the forward shift finds no EMPTY slot
before the table's end, and `_insert_while_full` overwrites the bucket of key
792 before the rehash.  So whatever `insert(981,2)` returns, `find(792)`
designates no bucket in the resulting map. -/
theorem C4_rh_insert_wipes_occupant :
    Reachable .rh default_hashers (rh_packed 129)
    ∧ lookup .rh default_hashers (rh_packed 129) 792 = some (some 1)
    ∧ base_hashmap.count .rh default_hashers (rh_packed 129) 981 = some 0
    ∧ ∀ fuel r,
        base_hashmap.insert .rh default_hashers fuel (rh_packed 129) (981, 2) = some r →
        ∀ v, lookup .rh default_hashers r.1 792 ≠ some (some v) :=
  ⟨rh_packed_reachable 129 (le_refl _), rh_crowded_lookup, rh_crowded_absent,
    fun fuel r hr v => lookup_not_within .rh default_hashers r.1 792
      (rh_insert_loses_key fuel r hr) v⟩

/-- C5: in every reachable state of the linear-probing map `count(k)` is 0 or
1.  When it is 0, `erase(k)` returns 0 and the map is unchanged.  When it is 1,
`erase(k)` returns 1; afterwards `count(k)` is 0, a second `erase(k)` returns 0
and changes nothing, `find` gives for every other key what it gave before, no
bucket of the table is a TOMBSTONE, `_size` and `_true_size` are one smaller,
and `_true_size` is still the number of slots that are not EMPTY, so the hole
the backward shift leaves is a true EMPTY. -/
theorem C5_linear_erase_backward_shift (H : Hashers) (m : base_hashmap)
    (hr : Reachable .lin H m) (k : Key) :
    (base_hashmap.count .lin H m k = some 0 ∨ base_hashmap.count .lin H m k = some 1)
    ∧ (base_hashmap.count .lin H m k = some 0 → base_hashmap.erase .lin H m k = some (m, 0))
    ∧ (base_hashmap.count .lin H m k = some 1 →
        ∃ m', base_hashmap.erase .lin H m k = some (m', 1)
          ∧ base_hashmap.count .lin H m' k = some 0
          ∧ base_hashmap.erase .lin H m' k = some (m', 0)
          ∧ (∀ k', k' ≠ k → lookup .lin H m' k' = lookup .lin H m k')
          ∧ (∀ b ∈ m'._table, b.h ≠ _tombstone)
          ∧ m'._size + 1 = m._size ∧ m'._true_size + 1 = m._true_size
          ∧ m'._true_size
              = (m'._table.take m'._max_size).countP (fun b => decide (b.h ≠ _empty))
          ∧ m._true_size
              = (m._table.take m._max_size).countP (fun b => decide (b.h ≠ _empty))) := by
  have hp : Policy.probing .lin := Or.inl rfl
  have hinv := reachable_probing_inv hp H hr
  obtain ⟨hc0, hc1, hc01⟩ := probing_count hp hinv k
  obtain ⟨hea, hep⟩ := probing_erase_spec hp hinv k
  refine ⟨hc01, fun h0 => hea (hc0.mp h0), fun h1 => ?_⟩
  obtain ⟨v, hv⟩ := hc1.mp h1
  obtain ⟨m', he, hinv', hh, hsz, _, hts, _, _⟩ := hep v hv
  have habs' : Absent m' k := by
    rw [absent_iff_not_holds]
    intro v' hv'
    exact ((hh k v').mp hv').2 rfl
  refine ⟨m', he, (probing_count hp hinv' k).1.mpr habs',
    (probing_erase_spec hp hinv' k).1 habs', ?_, lin_no_tombstone hinv', hsz, hts rfl,
    hinv'.true_size, hinv.true_size⟩
  intro k' hk'
  refine probing_lookup_congr hp hinv hinv' k' (fun v' => ?_)
  rw [hh]
  exact ⟨fun h => h.1, fun h => ⟨h, hk'⟩⟩

/-- C5 applied to the default `lin_hashmap` after `insert(0,10)`,
`insert(6,20)`, `insert(10,30)` and the key 0, whose erasure shifts the keys 6
and 10 back by one slot. -/
theorem C5_linear_erase_backward_shift_witness :
    Reachable .lin default_hashers lin_chain
    ∧ base_hashmap.count .lin default_hashers lin_chain 0 = some 1
    ∧ ∃ m', base_hashmap.erase .lin default_hashers lin_chain 0 = some (m', 1)
          ∧ base_hashmap.count .lin default_hashers m' 0 = some 0
          ∧ base_hashmap.erase .lin default_hashers m' 0 = some (m', 0)
          ∧ (∀ k', k' ≠ 0 →
              lookup .lin default_hashers m' k' = lookup .lin default_hashers lin_chain k')
          ∧ (∀ b ∈ m'._table, b.h ≠ _tombstone)
          ∧ m'._size + 1 = lin_chain._size ∧ m'._true_size + 1 = lin_chain._true_size
          ∧ m'._true_size
              = (m'._table.take m'._max_size).countP (fun b => decide (b.h ≠ _empty))
          ∧ lin_chain._true_size
              = (lin_chain._table.take lin_chain._max_size).countP
                  (fun b => decide (b.h ≠ _empty)) :=
  ⟨reachable_run .lin default_hashers 2 [.insert 0 10, .insert 6 20, .insert 10 30]
      probing_fresh lin_chain (Reachable.init 8 probing_fresh (by decide)) (by decide!),
    by decide!,
    (C5_linear_erase_backward_shift default_hashers lin_chain
      (reachable_run .lin default_hashers 2 [.insert 0 10, .insert 6 20, .insert 10 30]
        probing_fresh lin_chain (Reachable.init 8 probing_fresh (by decide)) (by decide!))
      0).2.2 (by decide!)⟩

/-- C6 (`size()` is the number of distinct findable keys), evaluated on the
default `cc_hashmap` after `insert(0,10)`, `insert(6,20)`, `erase(0)`,
`insert(6,30)`: `size()` is 2 although 6 is the only key with `count(k) = 1`. -/
theorem C6_cuckoo_size_counts_key_twice :
    ∃ m, cc_doubled = some m ∧ m.size = 2 ∧
      base_hashmap.count .cc default_hashers m 6 = some 1 ∧
      ∀ k, base_hashmap.count .cc default_hashers m k = some 1 → k = 6 := by
  have hsome : cc_doubled.isSome = true := by decide!
  obtain ⟨m, hm⟩ := Option.isSome_iff_exists.mp hsome
  have hsize : cc_doubled.map base_hashmap.size = some 2 := by decide!
  have hcount : cc_doubled.bind (fun m => base_hashmap.count .cc default_hashers m 6)
      = some 1 := by decide!
  have hall : cc_doubled.map (fun m => m._table.all fun b =>
      !(decide (b.h < 2147483648)) || decide (b.kv.1 = 6)) = some true := by decide!
  rw [hm] at hsize hcount hall
  simp only [Option.map_some', Option.some.injEq, Option.some_bind] at hsize hcount hall
  refine ⟨m, hm, hsize, hcount, ?_⟩
  intro k hk
  unfold base_hashmap.count at hk
  cases hf : find_without_inserting .cc default_hashers m k with
  | none => rw [hf] at hk; simp at hk
  | some ptr =>
    rw [hf] at hk
    simp only [Option.some.injEq] at hk
    have hne : ptr ≠ m._end := by
      intro h; rw [if_neg (by simpa using h)] at hk; exact absurd hk (by norm_num)
    rcases find_sound _ _ _ _ _ hf with h | ⟨b, hb, hlt, hkey⟩
    · exact absurd h hne
    · have hmem : b ∈ m._table := List.getElem?_mem hb
      have := List.all_eq_true.mp hall b hmem
      simp only [Bool.or_eq_true, Bool.not_eq_true', decide_eq_false_iff_not,
        decide_eq_true_eq] at this
      rcases this with h | h
      · exact absurd hlt h
      · rw [← hkey]; exact h

/-- C7: `at(k)` throws `out_of_range` exactly when `count(k)` is 0; it returns
a value exactly when `find(k)` designates a bucket other than `end()`, and the
value is the one stored in that bucket; this is the case exactly when
`count(k)` is 1; the call leaves the map as it is; and no other public call
throws. -/
theorem C7_at_throws_iff_absent (p : Policy) (H : Hashers) (m : base_hashmap) (k : Key)
    (fuel : Nat) (c : Call) :
    (base_hashmap.at_ p H m k = some (.error .out_of_range)
        ↔ base_hashmap.count p H m k = some 0)
    ∧ (∀ v, base_hashmap.at_ p H m k = some (.ok v) ↔
        ∃ ptr b, base_hashmap.find p H m k = some ptr ∧ ptr ≠ m.end_ ∧
          m._table[ptr]? = some b ∧ b.kv.2 = v)
    ∧ (base_hashmap.count p H m k = some 1 ↔ ∃ v, base_hashmap.at_ p H m k = some (.ok v))
    ∧ (∀ m', call p H fuel m (.at_ k) = some (.ok m') → m' = m)
    ∧ (∀ e, call p H fuel m c = some (.error e) →
        ∃ k', c = .at_ k' ∧ base_hashmap.count p H m k' = some 0) := by
  have key : ∀ k' : Key,
      (base_hashmap.at_ p H m k' = some (.error .out_of_range)
        ↔ base_hashmap.count p H m k' = some 0)
      ∧ (∀ v, base_hashmap.at_ p H m k' = some (.ok v) ↔
        ∃ ptr b, base_hashmap.find p H m k' = some ptr ∧ ptr ≠ m.end_ ∧
          m._table[ptr]? = some b ∧ b.kv.2 = v)
      ∧ (base_hashmap.count p H m k' = some 1
        ↔ ∃ v, base_hashmap.at_ p H m k' = some (.ok v)) := by
    intro k'
    unfold base_hashmap.at_ base_hashmap.count base_hashmap.find base_hashmap.end_
    cases hf : find_without_inserting p H m k' with
    | none => simp
    | some ptr =>
      by_cases hne : ptr ≠ m._end
      · rcases find_sound _ _ _ _ _ hf with h | ⟨b, hb, _, _⟩
        · exact absurd h hne
        · simp [hne, hb]
      · simp [hne]
  refine ⟨(key k).1, (key k).2.1, (key k).2.2, ?_, ?_⟩
  · intro m' hcall
    simp only [call] at hcall
    cases hat : base_hashmap.at_ p H m k with
    | none => rw [hat] at hcall; simp at hcall
    | some r =>
      rw [hat] at hcall
      cases r with
      | error e => simp [Except.map] at hcall
      | ok v => simp [Except.map] at hcall; exact hcall.symm
  · intro e hcall
    cases c with
    | at_ k' =>
      refine ⟨k', rfl, ?_⟩
      simp only [call] at hcall
      cases hat : base_hashmap.at_ p H m k' with
      | none => rw [hat] at hcall; simp at hcall
      | some r =>
        rw [hat] at hcall
        cases r with
        | ok v => simp [Except.map] at hcall
        | error e' =>
          cases e'
          exact (key k').1.mp hat
    | find k' => simp [call] at hcall
    | count k' => simp [call] at hcall
    | insert k' v => simp [call] at hcall
    | subscript k' => simp [call] at hcall
    | erase k' => simp [call] at hcall
    | clear => simp [call] at hcall

/-- C8: in every reachable state of the linear or the quadratic map whose
capacity is below `2^31`, `insert` of an absent key returns with the flag
`true`; afterwards the new key is found with its value, `find` gives for every
other key what it gave before, and `_size` is one larger.  `_true_size` never
exceeds the threshold `_max_true_size`.  When `_true_size` equals the threshold,
whatever `_size` is, the capacity becomes `_next_size_up(capacity + 1)`, which
is larger, and `_true_size` equals `_size` afterwards.  When `_true_size` is
below the threshold the capacity is unchanged. -/
theorem C8_probing_insert_resizes_at_threshold (p : Policy) (hp : p.probing) (H : Hashers)
    (m : base_hashmap) (hr : Reachable p H m) (hcap : m._max_size < 2147483648)
    (k : Key) (v : T) (hk : base_hashmap.count p H m k = some 0)
    (fuel : Nat) (hfuel : 2 ≤ fuel) :
    ∃ m' it, base_hashmap.insert p H fuel m (k, v) = some (m', it, true)
      ∧ lookup p H m' k = some (some v)
      ∧ (∀ k', k' ≠ k → lookup p H m' k' = lookup p H m k')
      ∧ m'._size = m._size + 1
      ∧ m._true_size ≤ m._max_true_size
      ∧ (m._true_size = m._max_true_size →
          _next_size_up (m._max_size + 1) = some m'._max_size
          ∧ m._max_size < m'._max_size ∧ m'._true_size = m'._size)
      ∧ (m._true_size < m._max_true_size →
          m'._max_size = m._max_size ∧ m'._true_size = m._true_size + 1) := by
  have hinv := reachable_probing_inv hp H hr
  have habs := (probing_count hp hinv k).1.mp hk
  obtain ⟨fuel', rfl⟩ : ∃ fuel', fuel = fuel' + 2 := ⟨fuel - 2, by omega⟩
  obtain ⟨m1, ptr, b, hres, hget, hinv', hh, _, _, _, hsz, hcase⟩ :=
    probing_store_absent hp fuel' hinv k habs hcap v
  have hu : u32 (m._max_size + 1) = m._max_size + 1 := u32_of_lt (by omega)
  rw [hu] at hcase
  refine ⟨{ m1 with _table := m1._table.set ptr { b with kv := (b.kv.1, v) } }, ptr, by
    simp only [base_hashmap.insert]
    rw [hres]
    simp only [Bool.not_false, if_true]
    rw [hget], ?_, ?_, hsz, hinv.threshold.1, ?_, ?_⟩
  · exact (probing_lookup hp hinv' k).1 v ((hh k v).mpr (Or.inr ⟨rfl, rfl⟩))
  · intro k' hk'
    refine probing_lookup_congr hp hinv hinv' k' (fun v' => ?_)
    rw [hh]
    exact ⟨fun h => h.resolve_right (fun h2 => hk' h2.1), Or.inl⟩
  · intro hfull
    rcases hcase with ⟨h1, _⟩ | ⟨_, h2, h3, h4, _⟩
    · omega
    · exact ⟨h3, h4, h2⟩
  · intro hroom
    rcases hcase with ⟨_, h2, h3, _⟩ | ⟨h1, _⟩
    · exact ⟨h2, h3⟩
    · omega

/-- C8 applied to the default `quad_hashmap` after `insert(0,10)`,
`insert(1,20)`, `insert(2,30)`, `insert(3,40)`, `erase(1)`, where `_size` is 3,
below the threshold 4, and `_true_size` is 4 because of the TOMBSTONE: the call
`insert(5,50)` grows the capacity from 8 to 64. -/
theorem C8_probing_insert_resizes_at_threshold_witness :
    Reachable .quad default_hashers quad_tombstoned
    ∧ quad_tombstoned._size < quad_tombstoned._max_true_size
    ∧ quad_tombstoned._true_size = quad_tombstoned._max_true_size
    ∧ _next_size_up (quad_tombstoned._max_size + 1) = some 64
    ∧ ∃ m' it, base_hashmap.insert .quad default_hashers 2 quad_tombstoned (5, 50)
          = some (m', it, true)
      ∧ lookup .quad default_hashers m' 5 = some (some 50)
      ∧ (∀ k', k' ≠ 5 →
          lookup .quad default_hashers m' k' = lookup .quad default_hashers quad_tombstoned k')
      ∧ m'._size = quad_tombstoned._size + 1
      ∧ quad_tombstoned._true_size ≤ quad_tombstoned._max_true_size
      ∧ (quad_tombstoned._true_size = quad_tombstoned._max_true_size →
          _next_size_up (quad_tombstoned._max_size + 1) = some m'._max_size
          ∧ quad_tombstoned._max_size < m'._max_size ∧ m'._true_size = m'._size)
      ∧ (quad_tombstoned._true_size < quad_tombstoned._max_true_size →
          m'._max_size = quad_tombstoned._max_size
          ∧ m'._true_size = quad_tombstoned._true_size + 1) :=
  ⟨reachable_run .quad default_hashers 2
      [.insert 0 10, .insert 1 20, .insert 2 30, .insert 3 40, .erase 1]
      probing_fresh quad_tombstoned (Reachable.init 8 probing_fresh (by decide)) (by decide!),
    by decide, by decide, by decide,
    C8_probing_insert_resizes_at_threshold .quad (Or.inr rfl) default_hashers quad_tombstoned
      (reachable_run .quad default_hashers 2
        [.insert 0 10, .insert 1 20, .insert 2 30, .insert 3 40, .erase 1]
        probing_fresh quad_tombstoned (Reachable.init 8 probing_fresh (by decide)) (by decide!))
      (by decide) 5 50 (by decide!) 2 (le_refl 2)⟩

/-- C10 (every pair the iteration yields is found by `find` with the yielded
value), evaluated on the default `cc_hashmap` after `insert(0,10)`,
`insert(6,20)`, `erase(0)`, `insert(6,30)`: the iteration yields `(6,30)` and
`(6,20)`, and `find(6)` designates the value 30. -/
theorem C10_cuckoo_iteration_yields_shadowed_pair :
    cc_doubled.bind base_hashmap.iterate = some [(6, 30), (6, 20)]
    ∧ cc_doubled.bind (fun m => lookup .cc default_hashers m 6) = some (some 30)
    ∧ cc_doubled.map base_hashmap.size = some 2 := by
  decide!

/-- C11 (an insert whose eviction walk reaches an EMPTY slot leaves every key
off the chain unaffected and makes `size()` grow by one), evaluated on the
default `cc_hashmap` after `insert(0,10)`, `insert(6,20)`, `erase(0)`,
`insert(6,30)`, `insert(1,11)`, `insert(3,33)`: `size()` is 4 and `find(6)`
yields 30; key 8 is absent, its primary slot 3 holds key 1 and its alternate
slot 7 holds key 3; the walk from slot 3 reaches the EMPTY slot 4 after one
eviction (`kick_list` is 3, 4).  `insert(8,88)` returns with key 8 found with
value 88 and keys 1 and 3 found with their values, but `size()` is still 4 and
`find(6)`, a key off the chain, now yields 20: `_insert` found `_true_size` at
the threshold and rebuilt the table, which merged the two buckets of key 6. -/
theorem C11_cuckoo_eviction_at_threshold_merges_duplicate :
    cc_crowded.map base_hashmap.size = some 4
    ∧ cc_crowded.bind (fun m => lookup .cc default_hashers m 6) = some (some 30)
    ∧ cc_crowded.bind (fun m => base_hashmap.count .cc default_hashers m 8) = some 0
    ∧ cc_crowded.map (fun m =>
        (m._table[_calc_hash default_hashers 8 &&& m._half_mask]?.map fun b => b.kv.1,
          m._table[m._half_start + (calc_alt_hash default_hashers 8 &&& m._half_mask)]?.map
            fun b => b.kv.1)) = some (some 1, some 3)
    ∧ (cc_crowded.bind fun m =>
        (cuckoo_walk default_hashers m max_search m._table 3 [3]).map fun r =>
          r.2.map fun w => (w.1, w.2.2)) = some (some (4, [3, 4]))
    ∧ (cc_crowded.bind fun m =>
        (base_hashmap.insert .cc default_hashers 2 m (8, 88)).map fun r =>
          (r.2.2, r.1.size)) = some (true, 4)
    ∧ (cc_crowded.bind fun m =>
        (base_hashmap.insert .cc default_hashers 2 m (8, 88)).map fun r =>
          (lookup .cc default_hashers r.1 8, lookup .cc default_hashers r.1 1,
            lookup .cc default_hashers r.1 3))
        = some (some (some 88), some (some 11), some (some 33))
    ∧ (cc_crowded.bind fun m =>
        (base_hashmap.insert .cc default_hashers 2 m (8, 88)).bind fun r =>
          lookup .cc default_hashers r.1 6) = some (some 20) := by
  decide!

/-- C12 (after an insert whose eviction walk exhausts its bound, every key that
was findable is findable with the same value and `size()` has grown by one),
evaluated on the default `cc_hashmap` after `insert(0,10)`, `insert(6,20)`,
`erase(0)`, `insert(6,30)`, where key 6 is stored in both of its slots:
`find(6)` yields 30, `size()` is 2 and key 16 is absent; both slots of key 16
are occupied and the walk from its primary slot exhausts its bound.
`insert(16,7)` returns with the capacity grown from 8 to 64 and key 16 found
with value 7, but `find(6)` now yields 20 and `size()` is still 2. -/
theorem C12_cuckoo_rehash_merges_duplicate :
    cc_doubled.bind (fun m => lookup .cc default_hashers m 6) = some (some 30)
    ∧ cc_doubled.map base_hashmap.size = some 2
    ∧ cc_doubled.map (fun m => m._max_size) = some 8
    ∧ cc_doubled.bind (fun m => base_hashmap.count .cc default_hashers m 16) = some 0
    ∧ (cc_doubled.bind fun m =>
        (cuckoo_walk default_hashers m max_search m._table 0 [0]).map fun r => r.2.isNone)
        = some true
    ∧ (cc_doubled.bind fun m =>
        (base_hashmap.insert .cc default_hashers 2 m (16, 7)).map fun r =>
          (r.2.2, r.1._max_size, r.1.size)) = some (true, 64, 2)
    ∧ (cc_doubled.bind fun m =>
        (base_hashmap.insert .cc default_hashers 2 m (16, 7)).bind fun r =>
          lookup .cc default_hashers r.1 16) = some (some 7)
    ∧ (cc_doubled.bind fun m =>
        (base_hashmap.insert .cc default_hashers 2 m (16, 7)).bind fun r =>
          lookup .cc default_hashers r.1 6) = some (some 20) := by
  decide!

/-- C13: in every reachable state of the Robin Hood map the ordering invariant
holds (the home indices `h & _mask` do not decrease along consecutive live
slots, every live bucket sits at or after its home slot, and every slot from
its home up to its slot is live), and `erase(k)` of a key that `find`
designates returns 1 and keeps the invariant: afterwards no bucket of the table
is a TOMBSTONE, the table has exactly one more EMPTY slot, `count(k)` is 0, and
`find` gives for every other key what it gave before. -/
theorem C13_rh_erase_keeps_ordering (H : Hashers) (m : base_hashmap)
    (hr : Reachable .rh H m) (k : Key) (v : T) (hk : lookup .rh H m k = some (some v)) :
    RhOrdered m
    ∧ ∃ m', base_hashmap.erase .rh H m k = some (m', 1)
        ∧ RhOrdered m'
        ∧ (∀ b ∈ m'._table, b.h ≠ _tombstone)
        ∧ m'._table.countP (fun b => decide (b.h = _empty))
            = m._table.countP (fun b => decide (b.h = _empty)) + 1
        ∧ base_hashmap.count .rh H m' k = some 0
        ∧ (∀ k', k' ≠ k → lookup .rh H m' k' = lookup .rh H m k') := by
  have hinv := reachable_rh_inv H hr
  have hv : RhHolds m k v := by
    rcases rh_holds_or_absent m k with ⟨v', hv'⟩ | ha
    · have := (rh_lookup hinv k).1 v' hv'
      rw [hk] at this
      simp only [Option.some.injEq] at this
      rw [this]; exact hv'
    · have := (rh_lookup hinv k).2 ha
      rw [hk] at this
      simp at this
  obtain ⟨m', he, hinv', hh, hsz, _, _, _, hend⟩ := (rh_erase_spec hinv k).2 v hv
  have habs : RhAbsent m' k := by
    rw [rh_absent_iff_not_holds]
    intro v' hv'
    exact ((hh k v').mp hv').2 rfl
  have hc := rh_empty_count hinv
  have hc' := rh_empty_count hinv'
  refine ⟨hinv.ordered, m', he, hinv'.ordered, rh_no_tombstone hinv', by omega,
    (rh_count hinv' k).2 habs, ?_⟩
  intro k' hk'
  refine rh_lookup_congr hinv hinv' k' (fun v' => ?_)
  rw [hh]
  exact ⟨fun h => h.1, fun h => ⟨h, hk'⟩⟩

/-- C13 applied to the default `rh_hashmap` after `insert(8,5)`, `insert(9,6)`,
`insert(7,7)` and the key 8, whose erasure shifts the keys 9 and 7 back by one
slot. -/
theorem C13_rh_erase_keeps_ordering_witness :
    Reachable .rh default_hashers rh_chain
    ∧ lookup .rh default_hashers rh_chain 8 = some (some 5)
    ∧ RhOrdered rh_chain
    ∧ ∃ m', base_hashmap.erase .rh default_hashers rh_chain 8 = some (m', 1)
        ∧ RhOrdered m'
        ∧ (∀ b ∈ m'._table, b.h ≠ _tombstone)
        ∧ m'._table.countP (fun b => decide (b.h = _empty))
            = rh_chain._table.countP (fun b => decide (b.h = _empty)) + 1
        ∧ base_hashmap.count .rh default_hashers m' 8 = some 0
        ∧ (∀ k', k' ≠ 8 →
            lookup .rh default_hashers m' k' = lookup .rh default_hashers rh_chain k') :=
  ⟨reachable_run .rh default_hashers 2 [.insert 8 5, .insert 9 6, .insert 7 7]
      rh_fresh rh_chain (Reachable.init 8 rh_fresh (by decide!)) (by decide!),
    by decide!,
    C13_rh_erase_keeps_ordering default_hashers rh_chain
      (reachable_run .rh default_hashers 2 [.insert 8 5, .insert 9 6, .insert 7 7]
        rh_fresh rh_chain (Reachable.init 8 rh_fresh (by decide!)) (by decide!))
      8 5 (by decide!)⟩

/-- C15 (`_max_true_size` is `size_type(float(capacity) * 0.51f)` in every
reachable state), evaluated on `lin_hashmap<int,int> m(64)` after `insert(i,1)`
for `i` from 0 to 31: the state is reachable, the capacity is 64, `_true_size`
and `_max_true_size` are 32, which is the load limit of 64; after `clear()` the
capacity is still 64 and `_max_true_size` is 48. -/
theorem C15_clear_at_threshold_raises_threshold :
    ∃ m m', lin_filled = some m ∧ Reachable .lin default_hashers m
      ∧ m._max_size = 64 ∧ m._true_size = 32 ∧ m._max_true_size = 32
      ∧ load_limit 64 = 32
      ∧ m.clear = some m' ∧ Reachable .lin default_hashers m'
      ∧ m'._max_size = 64 ∧ m'._max_true_size = 48 ∧ load_limit m'._max_size = 32 := by
  have hsome : (lin_filled.bind fun m => m.clear).isSome = true := by decide!
  obtain ⟨m', hm'⟩ := Option.isSome_iff_exists.mp hsome
  cases hm : lin_filled with
  | none => rw [hm] at hm'; simp at hm'
  | some m =>
    rw [hm] at hm'
    simp only [Option.some_bind] at hm'
    have h1 : lin_filled.map (fun m => (m._max_size, m._true_size, m._max_true_size))
        = some (64, 32, 32) := by decide!
    have h2 : (lin_filled.bind fun m => m.clear).map (fun m => (m._max_size, m._max_true_size))
        = some (64, 48) := by decide!
    rw [hm] at h1 h2
    simp only [Option.map_some', Option.some.injEq, Prod.mk.injEq, Option.some_bind] at h1 h2
    rw [hm'] at h2
    simp only [Option.map_some', Option.some.injEq, Prod.mk.injEq] at h2
    have hr : Reachable .lin default_hashers m := by
      unfold lin_filled at hm
      cases hc : construct .lin 64 with
      | none => rw [hc] at hm; simp at hm
      | some m0 =>
        rw [hc] at hm
        simp only [Option.some_bind] at hm
        exact reachable_run .lin default_hashers 1 fill_ops m0 m (Reachable.init 64 m0 hc) hm
    refine ⟨m, m', rfl, hr, h1.1, h1.2.1, h1.2.2, by decide, hm',
      Reachable.step 0 .clear m m' hr hm', h2.1, h2.2, ?_⟩
    rw [h2.1]
    decide

/-- C16: for every request `n`, `_next_size_up(n)` returns a power of two
`2^j` with `3 ≤ j ≤ 31`.  For `n < 262144` it is the least of 8, 64, 512, 4096,
32768, 262144 that is not below `n` (`j` is a multiple of 3, at most 18, and
the capacity one step below, if any, is below `n`); for `262144 ≤ n ≤ 2^31` it
is the least power of two not below `n`; for `n > 2^31` it is `2^31`.  For
`n ≤ 2^31` the loop returns the value the same loop computes in unbounded
integers, so no shift overflows `size_type`.  A rehash from a returned
capacity below `2^31` asks for 8 times that capacity below 262144 and for twice
that capacity from 262144 on. -/
theorem C16_next_size_up_growth_law (n : Nat) :
    ∃ j, 3 ≤ j ∧ j ≤ 31 ∧ _next_size_up n = some (2 ^ j)
      ∧ (n < 262144 → j ≤ 18 ∧ j % 3 = 0 ∧ n ≤ 2 ^ j ∧ (j = 3 ∨ 2 ^ (j - 3) < n))
      ∧ (262144 ≤ n → n ≤ 2147483648 → n ≤ 2 ^ j ∧ 2 ^ (j - 1) < n)
      ∧ (2147483648 < n → j = 31)
      ∧ (n ≤ 2147483648 →
          _next_size_up_loop (growth_factor_of n) n 64 _initial_default_size
            = next_size_up_loop_unbounded (growth_factor_of n) n 64 _initial_default_size)
      ∧ (j < 31 →
          _next_size_up (2 ^ j + 1) = some (if 2 ^ j < 262144 then 8 * 2 ^ j else 2 * 2 ^ j)) := by
  by_cases hf : n < 262144
  · obtain ⟨j, h3, h18, hm, hres, hub, hle, hmin⟩ := next_size_up_fast n hf
    refine ⟨j, h3, by omega, hres, fun _ => ⟨h18, hm, hle, hmin⟩, fun h => by omega,
      fun h => by omega, fun _ => hub, fun _ => ?_⟩
    by_cases h18' : j = 18
    · rw [h18', if_neg (by norm_num)]
      exact next_size_up_times2 18 (le_refl _) (by norm_num)
    · have hp : 2 ^ j ≤ 2 ^ 15 := Nat.pow_le_pow_right (by norm_num) (by omega)
      norm_num at hp
      rw [if_pos (by omega)]
      exact next_size_up_times8 j h3 (by omega) hm
  · by_cases h31 : n ≤ 2147483648
    · obtain ⟨j, h18, hj31, hres, hub, hle, hmin⟩ := next_size_up_slow n (by omega) h31
      refine ⟨j, by omega, hj31, hres, fun h => absurd h hf, fun _ _ => ⟨hle, hmin⟩,
        fun h => by omega, fun _ => hub, fun hlt => ?_⟩
      have hp : 2 ^ 18 ≤ 2 ^ j := Nat.pow_le_pow_right (by norm_num) h18
      norm_num at hp
      rw [if_neg (by omega)]
      exact next_size_up_times2 j h18 (by omega)
    · refine ⟨31, by norm_num, le_refl _, ?_, fun h => absurd h hf, fun _ h => absurd h h31,
        fun _ => rfl, fun h => absurd h h31, fun h => by omega⟩
      unfold _next_size_up
      simp only [shift31_val, abs_max_val]
      rw [if_neg h31]
      norm_num

/-- C17, amended: quadratic probing with the retry count as stride visits every
slot of a table of `2^k` slots within `2^k` probes, whatever the starting hash
`h`: every slot `s` is `quad_seq (2^k) h i` for some `i < 2^k`. -/
theorem C17_quadratic_probing_visits_every_slot (k h s : Nat) (hs : s < 2 ^ k) :
    ∃ i, i < 2 ^ k ∧ quad_seq (2 ^ k) h i = s := by
  obtain ⟨n, hn, hslot⟩ := probe_slot_surjective .quad k h s hs
  exact ⟨n, hn, by rw [quad_seq_eq]; exact hslot⟩

/-- C17 applied to the table of 8 slots, the hash 5 and the slot 2. -/
theorem C17_quadratic_probing_visits_every_slot_witness :
    ∃ i, i < 2 ^ 3 ∧ quad_seq (2 ^ 3) 5 i = 2 :=
  C17_quadratic_probing_visits_every_slot 3 5 2 (by norm_num)

/-- C17 as stated fails for the table of 8 slots: there is no starting hash
and slot such that the probe sequence never reaches the slot. -/
theorem C17_no_unvisited_slot_in_table_of_8 :
    ¬ ∃ h s, s < 2 ^ 3 ∧ ∀ i, quad_seq (2 ^ 3) h i ≠ s := by
  rintro ⟨h, s, hs, hall⟩
  obtain ⟨n, _, hslot⟩ := probe_slot_surjective .quad 3 h s hs
  exact hall n (by rw [quad_seq_eq]; exact hslot)

/-- C18: in every reachable state of the quadratic map, `erase(k)` of a present
key returns 1 and changes nothing but `_size`, which is one smaller, and the
bucket `find(k)` designated, which becomes a TOMBSTONE with default key and
value: `_true_size`, the threshold, the capacity and every other bucket are the
same.  Afterwards `count(k)` is 0 and `find` gives for every other key what it
gave before.  A following `insert(k, v)` below the threshold stores the key in
a slot that held an EMPTY bucket, not in the TOMBSTONE's slot; at the threshold
(capacity below `2^31`) it rebuilds the table with a larger capacity, in which
`_true_size` equals `_size`. -/
theorem C18_quadratic_erase_leaves_tombstone (H : Hashers) (m : base_hashmap)
    (hr : Reachable .quad H m) (k : Key)
    (hk : base_hashmap.count .quad H m k = some 1) :
    ∃ s b, base_hashmap.find .quad H m k = some s ∧ s < m._max_size
      ∧ m._table[s]? = some b ∧ b.kv.1 = k
      ∧ base_hashmap.erase .quad H m k = some ({ m with _size := m._size - 1, _table := m._table.set s { h := _tombstone, kv := (0, 0) } }, 1)
      ∧ 1 ≤ m._size
      ∧ ∀ m', base_hashmap.erase .quad H m k = some (m', 1) →
          base_hashmap.count .quad H m' k = some 0
          ∧ (∀ k', k' ≠ k → lookup .quad H m' k' = lookup .quad H m k')
          ∧ (∀ v fuel, m._true_size < m._max_true_size →
              ∃ s' a, s' ≠ s ∧ s' < m._max_size ∧ m'._table[s']? = some a ∧ a.h = _empty
                ∧ base_hashmap.insert .quad H (fuel + 1) m' (k, v) = some ({ m' with _true_size := m'._true_size + 1, _size := m'._size + 1, _table := m'._table.set s' { h := _calc_hash H k, kv := (k, v) } }, s', true))
          ∧ (∀ v fuel, m._true_size = m._max_true_size → m._max_size < 2147483648 →
              ∃ m'' it, base_hashmap.insert .quad H (fuel + 2) m' (k, v) = some (m'', it, true)
                ∧ m._max_size < m''._max_size ∧ m''._true_size = m''._size
                ∧ lookup .quad H m'' k = some (some v)) := by
  have hp : Policy.probing .quad := Or.inr rfl
  have hinv := reachable_probing_inv hp H hr
  obtain ⟨v0, s, b, hs, hb, hl, hkv⟩ := (probing_count hp hinv k).2.1.mp hk
  have hkey : b.kv.1 = k := by rw [hkv]
  have hfind := probing_find_present hp hinv hs hb hl
  rw [hkey] at hfind
  obtain ⟨hrem, hsz⟩ := quad_remove_exact hinv hs hb hl
  have hend : m._end = m._max_size := by rw [hinv.geo.end_eq, probing_ovf hp]; rfl
  have herase : base_hashmap.erase .quad H m k = some ({ m with _size := m._size - 1, _table := m._table.set s { h := _tombstone, kv := (0, 0) } }, 1) := by
    unfold base_hashmap.erase
    rw [hfind]
    simp only
    rw [if_pos (by rw [hend]; omega), hrem]
  refine ⟨s, b, hfind, hs, hb, hkey, herase, hsz, ?_⟩
  intro m' hm'
  obtain ⟨m1, he1, hinv', hh, _, hts, _, hms, hmts⟩ :=
    (probing_erase_spec hp hinv k).2 v0 ⟨s, b, hs, hb, hl, hkv⟩
  rw [hm'] at he1 herase
  simp only [Option.some.injEq, Prod.mk.injEq, and_true] at he1 herase
  subst he1
  have habs' : Absent m' k := by
    rw [absent_iff_not_holds]
    intro v' hv'
    exact ((hh k v').mp hv').2 rfl
  have htab : m'._table = m._table.set s { h := _tombstone, kv := (0, 0) } := by
    rw [herase]
  have hts' : m'._true_size = m._true_size := by rw [herase]
  have hlen : s < m._table.length := (List.getElem?_eq_some.mp hb).1
  refine ⟨(probing_count hp hinv' k).1.mpr habs', ?_, ?_, ?_⟩
  · intro k' hk'
    refine probing_lookup_congr hp hinv hinv' k' (fun v' => ?_)
    rw [hh]
    exact ⟨fun h => h.1, fun h => ⟨h, hk'⟩⟩
  · intro v fuel hroom
    obtain ⟨s', a, hs', ha, hae, hins⟩ := probing_insert_room hp fuel hinv' k habs'
      (by rw [hts', hmts]; exact hroom) v
    refine ⟨s', a, ?_, by rw [← hms]; exact hs', ha, hae, hins⟩
    rintro rfl
    rw [htab, List.getElem?_set_self hlen] at ha
    cases ha
    exact absurd hae (by decide)
  · intro v fuel hfull hcap
    obtain ⟨m1, ptr, b1, hres, hget, hinv1, hh1, _, _, _, _, hcase⟩ :=
      probing_store_absent hp fuel hinv' k habs' (by rw [hms]; exact hcap) v
    refine ⟨{ m1 with _table := m1._table.set ptr { b1 with kv := (b1.kv.1, v) } }, ptr, by
      simp only [base_hashmap.insert]
      rw [hres]
      simp only [Bool.not_false, if_true]
      rw [hget], ?_, ?_, ?_⟩
    · rcases hcase with ⟨h1, _⟩ | ⟨_, _, _, h4, _⟩
      · omega
      · rw [← hms]; exact h4
    · rcases hcase with ⟨h1, _⟩ | ⟨_, h2, _⟩
      · omega
      · exact h2
    · exact (probing_lookup hp hinv1 k).1 v ((hh1 k v).mpr (Or.inr ⟨rfl, rfl⟩))

/-- C18 applied to the default `quad_hashmap` after `insert(0,10)`,
`insert(6,20)` and the key 6. -/
theorem C18_quadratic_erase_leaves_tombstone_witness :
    Reachable .quad default_hashers quad_pair
    ∧ base_hashmap.count .quad default_hashers quad_pair 6 = some 1
    ∧ ∃ s b, base_hashmap.find .quad default_hashers quad_pair 6 = some s
      ∧ s < quad_pair._max_size ∧ quad_pair._table[s]? = some b ∧ b.kv.1 = 6
      ∧ base_hashmap.erase .quad default_hashers quad_pair 6 = some ({ quad_pair with _size := quad_pair._size - 1, _table := quad_pair._table.set s { h := _tombstone, kv := (0, 0) } }, 1)
      ∧ 1 ≤ quad_pair._size :=
  ⟨reachable_run .quad default_hashers 2 [.insert 0 10, .insert 6 20]
      probing_fresh quad_pair (Reachable.init 8 probing_fresh (by decide)) (by decide!),
    by decide!,
    (C18_quadratic_erase_leaves_tombstone default_hashers quad_pair
      (reachable_run .quad default_hashers 2 [.insert 0 10, .insert 6 20]
        probing_fresh quad_pair (Reachable.init 8 probing_fresh (by decide)) (by decide!))
      6 (by decide!)).imp fun _ h => h.imp fun _ h =>
        ⟨h.1, h.2.1, h.2.2.1, h.2.2.2.1, h.2.2.2.2.1, h.2.2.2.2.2.1⟩⟩

/-- C19: in every reachable state of every policy, so after every public call
and at every capacity, `_size` is the number of slots whose tag is a hash (a
tag below CODE), `_true_size` is the number of slots other than the terminator
slot `_end` whose tag is not EMPTY, and
`_size ≤ _true_size ≤ _max_true_size < _max_size`. -/
theorem C19_counters_agree_with_table (p : Policy) (H : Hashers) (m : base_hashmap)
    (hr : Reachable p H m) :
    m._size = m._table.countP (fun b => decide (b.h < _code))
    ∧ m._true_size = (m._table.take m._end).countP (fun b => decide (b.h ≠ _empty))
    ∧ m._table.length = m._end + 1
    ∧ m._size ≤ m._true_size ∧ m._true_size ≤ m._max_true_size
    ∧ m._max_true_size < m._max_size := by
  obtain ⟨h1, h2, h3, h4, h5⟩ := reachable_counters p H hr
  refine ⟨?_, h2, (reachable_tags p H hr).1, h3, h4, h5⟩
  rw [h1]
  apply List.countP_congr
  intro b _
  simp only [bucket.live]

/-- C19 applied to the default `quad_hashmap` after `insert(0,10)`,
`insert(1,20)`, `insert(2,30)`, `insert(3,40)`, `erase(1)`, where three slots
are live and four are not EMPTY. -/
theorem C19_counters_agree_with_table_witness :
    Reachable .quad default_hashers quad_tombstoned
    ∧ quad_tombstoned._size
        = quad_tombstoned._table.countP (fun b => decide (b.h < _code))
    ∧ quad_tombstoned._true_size
        = (quad_tombstoned._table.take quad_tombstoned._end).countP
            (fun b => decide (b.h ≠ _empty))
    ∧ quad_tombstoned._table.length = quad_tombstoned._end + 1
    ∧ quad_tombstoned._size ≤ quad_tombstoned._true_size
    ∧ quad_tombstoned._true_size ≤ quad_tombstoned._max_true_size
    ∧ quad_tombstoned._max_true_size < quad_tombstoned._max_size :=
  ⟨reachable_run .quad default_hashers 2
      [.insert 0 10, .insert 1 20, .insert 2 30, .insert 3 40, .erase 1]
      probing_fresh quad_tombstoned (Reachable.init 8 probing_fresh (by decide)) (by decide!),
    C19_counters_agree_with_table .quad default_hashers quad_tombstoned
      (reachable_run .quad default_hashers 2
        [.insert 0 10, .insert 1 20, .insert 2 30, .insert 3 40, .erase 1]
        probing_fresh quad_tombstoned (Reachable.init 8 probing_fresh (by decide))
        (by decide!))⟩

/-- C20: in every reachable state of the linear-probing map some slot below the
capacity is EMPTY.  For every key there is a number `n` below the capacity such
that, with any bound above `n` on the number of iterations, the loop of `find`
returns (a bucket holding the key, or `end()`), and the loop of
`find_while_trying` leaves (with the bucket holding the key, or towards
`_insert` at an EMPTY slot).  The loop of `dd_remove` started at a live bucket
returns whenever the bound is at least the capacity. -/
theorem C20_linear_loops_terminate (H : Hashers) (m : base_hashmap)
    (hr : Reachable .lin H m) (k : Key) :
    (∃ s b, s < m._max_size ∧ m._table[s]? = some b ∧ b.h = _empty)
    ∧ (∃ n s b, n < m._max_size ∧ s < m._max_size ∧ m._table[s]? = some b ∧
        (b.h = _empty ∨ (b.h = _calc_hash H k ∧ b.kv.1 = k)) ∧
        (∀ fuel, n < fuel →
          probing_find_loop .lin m k (_calc_hash H k) fuel 0 (_calc_hash H k)
            = some (if b.h = _calc_hash H k ∧ b.kv.1 = k then s else m._end)) ∧
        (∀ fwt fuel, n < fuel →
          probing_try_loop .lin fwt m k (_calc_hash H k) fuel 0 (_calc_hash H k)
            = (if b.h = _empty then _insert fwt m s k (_calc_hash H k)
               else some (m, s, true))))
    ∧ (∀ s b, s < m._max_size → m._table[s]? = some b → b.live → ∀ fuel, m._max_size ≤ fuel →
        ∃ t' ptr, lin_remove_loop m._mask fuel m._table s s s = some (t', ptr)) := by
  have hinv := reachable_probing_inv (Or.inl rfl) H hr
  exact ⟨exists_empty_slot hinv, probing_loops_bounded hinv k,
    fun s b hs hb hl fuel hf => lin_remove_loop_bounded hinv hs hb hl fuel hf⟩

/-- C20 applied to the default `lin_hashmap` after `insert(0,10)`,
`insert(6,20)`, `insert(10,30)` and the key 17, whose probe sequence passes
the three keys. -/
theorem C20_linear_loops_terminate_witness :
    Reachable .lin default_hashers lin_chain
    ∧ ∃ s b, s < lin_chain._max_size ∧ lin_chain._table[s]? = some b ∧ b.h = _empty :=
  ⟨reachable_run .lin default_hashers 2 [.insert 0 10, .insert 6 20, .insert 10 30]
      probing_fresh lin_chain (Reachable.init 8 probing_fresh (by decide)) (by decide!),
    (C20_linear_loops_terminate default_hashers lin_chain
      (reachable_run .lin default_hashers 2 [.insert 0 10, .insert 6 20, .insert 10 30]
        probing_fresh lin_chain (Reachable.init 8 probing_fresh (by decide)) (by decide!))
      17).1⟩

/-- C23: for every policy and any hash functions, the primary and the
alternate hash are below `2^31`, which is below CODE, and in every reachable
state, so after every public call, the table ends with the slot `_end` and
every tag is a hash value below `2^31`, EMPTY, TOMBSTONE or LAST; a live tag
(below CODE) is a hash value below `2^31`; LAST is the tag of the final slot
`_end` and of no other slot; and a TOMBSTONE occurs only in the quadratic
map. -/
theorem C23_tags_are_hashes_or_sentinels (p : Policy) (H : Hashers) (m : base_hashmap)
    (hr : Reachable p H m) :
    (∀ k, _calc_hash H k < 2147483648 ∧ calc_alt_hash H k < 2147483648)
    ∧ 2147483648 ≤ _code ∧ _code ≤ _last ∧ _code ≤ _tombstone ∧ _code ≤ _empty
    ∧ m._table.length = m._end + 1
    ∧ ∀ (s : Nat) (b : bucket), m._table[s]? = some b →
        (b.h < 2147483648 ∨ b.h = _empty ∨ b.h = _tombstone ∨ b.h = _last)
        ∧ (b.h < _code → b.h < 2147483648)
        ∧ (b.h = _last ↔ s = m._end)
        ∧ (b.h = _tombstone → p = .quad) := by
  obtain ⟨hlen, htags⟩ := reachable_tags p H hr
  refine ⟨fun k => ⟨calc_hash_lt H k, calc_alt_hash_lt H k⟩, by decide, by decide, by decide,
    by decide, hlen, ?_⟩
  intro s b hb
  obtain ⟨h1, h2, h3⟩ := htags s b hb
  refine ⟨h1, ?_, h2, h3⟩
  intro hl
  rw [code_val] at hl
  rcases h1 with h | h | h | h
  · exact h
  · rw [h, empty_val] at hl; omega
  · rw [h, tombstone_val] at hl; omega
  · rw [h, last_val] at hl; omega

/-- C23 applied to the default `cc_hashmap` after `insert(0,11)`,
`insert(6,22)`, where the key 6 carries its alternate hash as the tag. -/
theorem C23_tags_are_hashes_or_sentinels_witness :
    Reachable .cc default_hashers cc_two
    ∧ cc_two._table.length = cc_two._end + 1
    ∧ ∀ (s : Nat) (b : bucket), cc_two._table[s]? = some b →
        (b.h < 2147483648 ∨ b.h = _empty ∨ b.h = _tombstone ∨ b.h = _last)
        ∧ (b.h < _code → b.h < 2147483648)
        ∧ (b.h = _last ↔ s = cc_two._end)
        ∧ (b.h = _tombstone → Policy.cc = .quad) :=
  ⟨reachable_run .cc default_hashers 2 [.insert 0 11, .insert 6 22]
      cc_fresh cc_two (Reachable.init 8 cc_fresh (by decide)) (by decide!),
    (C23_tags_are_hashes_or_sentinels .cc default_hashers cc_two
      (reachable_run .cc default_hashers 2 [.insert 0 11, .insert 6 22]
        cc_fresh cc_two (Reachable.init 8 cc_fresh (by decide)) (by decide!))).2.2.2.2.2⟩

/-- C24: in every reachable state of the cuckoo map, so after every public
call, the first half of the table has `_max_size / 2` slots and every live
bucket lies in one of the two slots its key designates, under the matching tag:
in the first half at `hash(key) & _half_mask` with the primary hash as its tag,
or in the second half at `_max_size / 2 + (alt_hash(key) & _half_mask)` with
the alternate hash as its tag. Consequently `find` designates a bucket that
holds the key of any live bucket of the table, and an eviction walk that starts
in an occupied slot of the first half, as the walks of `cuckoo_insert` do, and
leaves through the `break` has recorded no slot twice in its kick list. -/
theorem C24_cuckoo_buckets_in_designated_slots (H : Hashers) (m : base_hashmap)
    (hr : Reachable .cc H m) :
    m._half_mask = m._max_size / 2 - 1 ∧ m._half_start = m._max_size / 2
    ∧ m._end = m._max_size
    ∧ (∀ (s : Nat) (b : bucket), s < m._end → m._table[s]? = some b → b.h < _code →
        (s < m._max_size / 2 ∧ s = (_calc_hash H b.kv.1 &&& m._half_mask)
          ∧ b.h = _calc_hash H b.kv.1)
        ∨ (m._max_size / 2 ≤ s
          ∧ s = m._max_size / 2 + (calc_alt_hash H b.kv.1 &&& m._half_mask)
          ∧ b.h = calc_alt_hash H b.kv.1))
    ∧ (∀ (s : Nat) (b : bucket), s < m._end → m._table[s]? = some b → b.h < _code →
        ∃ ptr b', base_hashmap.find .cc H m b.kv.1 = some ptr ∧ ptr ≠ m.end_
          ∧ m._table[ptr]? = some b' ∧ b'.kv.1 = b.kv.1)
    ∧ (∀ (ptr : Nat) (b : bucket) (t : List bucket) (p h : Nat) (kl : List Nat),
        ptr < m._half_start → m._table[ptr]? = some b → b.h ≠ _empty →
        cuckoo_walk H m max_search m._table ptr [ptr] = some (t, some (p, h, kl)) →
        kl.Nodup) := by
  have hinv := reachable_cc_inv H hr
  have hpl := reachable_cc_placed H hr
  have hg := hinv.geo
  refine ⟨hg.half_mask, hg.half_start, cc_end hg, ?_, ?_, ?_⟩
  · intro s b hs hb hl
    have h1 := cc_first_half_lt hg (_calc_hash H b.kv.1)
    rw [hg.half_start] at h1
    rcases hpl s b hs (by simp) hb hl with ⟨e1, e2⟩ | ⟨e1, e2⟩
    · exact Or.inl ⟨by rw [e1]; exact h1, e1, e2⟩
    · rw [hg.half_start] at e1
      exact Or.inr ⟨by omega, e1, e2⟩
  · intro s b hs hb hl
    exact cc_find_stored hinv hpl hs hb hl
  · intro ptr b t p h kl hptr hb hne hw
    obtain ⟨ext, _, hkl, hpath, _⟩ := cuckoo_walk_path H m hg _ _ _ _ _ _ _ _ hptr hw
    rw [hkl]
    exact walk_path_nodup hpath ⟨b, hb, hne⟩

/-- C24 applied to the default `cc_hashmap` after `insert(0,11)`,
`insert(6,22)`, where the key 6 lies in its alternate slot, and to the walk
from the slot 0, the primary slot of the keys 0, 6 and 16. -/
theorem C24_cuckoo_buckets_in_designated_slots_witness :
    Reachable .cc default_hashers cc_two
    ∧ (∀ (s : Nat) (b : bucket), s < cc_two._end → cc_two._table[s]? = some b → b.h < _code →
        (s < cc_two._max_size / 2 ∧ s = (_calc_hash default_hashers b.kv.1 &&& cc_two._half_mask)
          ∧ b.h = _calc_hash default_hashers b.kv.1)
        ∨ (cc_two._max_size / 2 ≤ s
          ∧ s = cc_two._max_size / 2
              + (calc_alt_hash default_hashers b.kv.1 &&& cc_two._half_mask)
          ∧ b.h = calc_alt_hash default_hashers b.kv.1))
    ∧ (0 < cc_two._half_start ∧ cc_two._table[0]? = some ⟨0, (0, 11)⟩
        ∧ (bucket.mk 0 (0, 11)).h ≠ _empty)
    ∧ (∀ (t : List bucket) (p h : Nat) (kl : List Nat),
        cuckoo_walk default_hashers cc_two max_search cc_two._table 0 [0]
          = some (t, some (p, h, kl)) → kl.Nodup) :=
  ⟨reachable_run .cc default_hashers 2 [.insert 0 11, .insert 6 22]
      cc_fresh cc_two (Reachable.init 8 cc_fresh (by decide)) (by decide!),
    (C24_cuckoo_buckets_in_designated_slots default_hashers cc_two
      (reachable_run .cc default_hashers 2 [.insert 0 11, .insert 6 22]
        cc_fresh cc_two (Reachable.init 8 cc_fresh (by decide)) (by decide!))).2.2.2.1,
    ⟨by decide, by decide, by decide⟩,
    fun t p h kl =>
      (C24_cuckoo_buckets_in_designated_slots default_hashers cc_two
        (reachable_run .cc default_hashers 2 [.insert 0 11, .insert 6 22]
          cc_fresh cc_two (Reachable.init 8 cc_fresh (by decide)) (by decide!))).2.2.2.2.2
        0 ⟨0, (0, 11)⟩ t p h kl (by decide) (by decide) (by decide)⟩

end kirby
